import Mathlib

/-!
# FLEP - Fast Lite Expression Parser: a shallow embedding of `flep.c`

The development follows the C source function by function.

* `double` values are kept abstract: every theorem is stated for an arbitrary
  carrier `D` together with an arbitrary interpretation `Arith D` of the
  primitives the C code calls (`+ - * /`, unary minus, `pow`, `sin`, ...,
  `strtod`, `M_PI`).  Nothing is assumed about them unless a theorem says so.
* `int` values that index or tag (`nt`, `nd`, opcodes) are natural numbers; the
  loop index of `flep_optimize`, which runs down to `-1`, is an integer.
* C strings are `List Char`, one list element per byte; a read at or beyond
  the end of the list yields the terminating NUL.  Pointers into the source
  (`p`, `q`) are offsets from `src`.
* The two heap buffers of `struct FLEP` are lists holding everything written
  so far (so stale opcodes above `nt` are still there, as in C); the capacity
  bookkeeping (`st`, `sd`, `realloc`) is not part of the embedding.
* Recursion and loops whose termination is not structural carry a fuel
  argument; exhausting it is reported as `Fault.fuel`, and a read or write
  outside a buffer as `Fault.bounds`.
-/

namespace Flep

/-! ## Token and opcode tags (flep.c 34-52, flep.h 47-51) -/

abbrev FLEP_OK : Nat := 0
abbrev FLEP_UNARY_MINUS : Nat := 1
abbrev FLEP_OPEN : Nat := 2
abbrev FLEP_CLOSE : Nat := 3
abbrev FLEP_PLUS : Nat := 4
abbrev FLEP_MINUS : Nat := 5
abbrev FLEP_MULT : Nat := 6
abbrev FLEP_DIV : Nat := 7
abbrev FLEP_POWER : Nat := 8
abbrev FLEP_VAR : Nat := 9
abbrev FLEP_CONST : Nat := 10
abbrev FLEP_SIN : Nat := 11
abbrev FLEP_COS : Nat := 12
abbrev FLEP_TAN : Nat := 13
abbrev FLEP_EXP : Nat := 14
abbrev FLEP_LOG : Nat := 15
abbrev FLEP_ABS : Nat := 16
abbrev FLEP_SQRT : Nat := 17
abbrev FLEP_START : Nat := 18
abbrev FLEP_END : Nat := 19
abbrev FLEP_BADSYNTAX : Nat := 20
abbrev FLEP_BADTOKEN : Nat := 21
abbrev FLEP_EXPECTED_OPEN : Nat := 22
abbrev FLEP_UNBALANCED : Nat := 23

/-- The macro `FLEP_BITFUSE(a,b)`, `(a | ((b)<<8))`. -/
def FLEP_BITFUSE (a b : Nat) : Nat := a ||| (b <<< 8)

/-- The macro `FLEP_OPCODE(a)`, `(a & 0xff)`. -/
def FLEP_OPCODE (a : Nat) : Nat := a &&& 0xff

/-- The macro `FLEP_OPPARM(a)`, `((a)>>8)`. -/
def FLEP_OPPARM (a : Nat) : Nat := a >>> 8

/-- The table `dbg_strings` of flep.c. -/
def dbg_strings : List String :=
  ["FLEP_OK", "FLEP_UNARY_MINUS", "FLEP_OPEN", "FLEP_CLOSE", "FLEP_PLUS",
   "FLEP_MINUS", "FLEP_MULT", "FLEP_DIV", "FLEP_POWER", "FLEP_VAR",
   "FLEP_CONST", "FLEP_SIN", "FLEP_COS", "FLEP_TAN", "FLEP_EXP", "FLEP_LOG",
   "FLEP_ABS", "FLEP_SQRT", "FLEP_START", "FLEP_END", "FLEP_BADSYNTAX",
   "FLEP_BADTOKEN", "FLEP_EXPECTED_OPEN", "FLEP_UNBALANCED"]

/-- The function `flep_translate`: `dbg_strings[c]`, with no result when the
index is outside the table. -/
def flep_translate (c : Int) : Option String :=
  if 0 ≤ c then dbg_strings.get? c.toNat else none

/-! ## Faults of the embedding -/

/-- What can stop a modelled run short of a C result. -/
inductive Fault where
  /-- The fuel of a modelled loop ran out. -/
  | fuel
  /-- An array was read or written outside what the program had set up. -/
  | bounds
  deriving DecidableEq, Repr

/-! ## Arithmetic primitives -/

/-- The `double` primitives used by flep.c, over an abstract carrier. -/
structure Arith (D : Type) where
  /-- Unary minus, `-x`. -/
  neg : D → D
  /-- Addition, `x + y`. -/
  add : D → D → D
  /-- Subtraction, `x - y`. -/
  sub : D → D → D
  /-- Multiplication, `x * y`. -/
  mul : D → D → D
  /-- Division, `x / y`. -/
  div : D → D → D
  /-- The libm function `pow(x, y)`. -/
  pow : D → D → D
  /-- The libm function `sin`. -/
  sin : D → D
  /-- The libm function `cos`. -/
  cos : D → D
  /-- The libm function `tan`. -/
  tan : D → D
  /-- The libm function `exp`. -/
  exp : D → D
  /-- The libm function `log`. -/
  log : D → D
  /-- The libm function `fabs`. -/
  fabs : D → D
  /-- The libm function `sqrt`. -/
  sqrt : D → D
  /-- The constant `1` converted to `double` (the argument of `exp(1)`). -/
  one : D
  /-- The constant `M_PI`. -/
  pi : D
  /-- The value `strtod` returns for the text it consumed. -/
  strtod : List Char → D
  /-- The content of a `double` that was never assigned. -/
  indet : D

/-! ## Characters and the scan of `strtod` -/

/-- The byte at offset `i` of a C string; NUL at and beyond its end. -/
def peek (s : List Char) (i : Nat) : Char := s.getD i (Char.ofNat 0)

/-- The predicate `isspace` of the C locale. -/
def isspace (c : Char) : Bool :=
  c.toNat = 32 || (9 ≤ c.toNat && c.toNat ≤ 13)

/-- The predicate `isalpha` of the C locale. -/
def isalpha (c : Char) : Bool :=
  (65 ≤ c.toNat && c.toNat ≤ 90) || (97 ≤ c.toNat && c.toNat ≤ 122)

/-- The predicate `isdigit`. -/
def isdigit (c : Char) : Bool := 48 ≤ c.toNat && c.toNat ≤ 57

/-- The predicate `isxdigit`. -/
def isxdigit (c : Char) : Bool :=
  isdigit c || (65 ≤ c.toNat && c.toNat ≤ 70) || (97 ≤ c.toNat && c.toNat ≤ 102)

/-- Length of the optional exponent part of a floating literal: the marker
(`e`/`E` for decimal, `p`/`P` for hexadecimal), an optional sign and at least
one decimal digit; `0` when there is no complete exponent. -/
def expLen (lower upper : Char) (s : List Char) : Nat :=
  match s with
  | [] => 0
  | c :: t =>
    if c = lower ∨ c = upper then
      let sign := if t.head? = some '+' ∨ t.head? = some '-' then 1 else 0
      let d := ((t.drop sign).takeWhile isdigit).length
      if d = 0 then 0 else 1 + sign + d
    else 0

/-- Length of the longest prefix that is a mantissa (digits with at most one
radix point, classified by `dig`) followed by an optional exponent; `0` when
the mantissa has no digit. -/
def floatLen (dig : Char → Bool) (lower upper : Char) (s : List Char) : Nat :=
  let a := (s.takeWhile dig).length
  let s1 := s.drop a
  let b := if s1.head? = some '.' then ((s1.drop 1).takeWhile dig).length else 0
  let m := if s1.head? = some '.' then a + 1 + b else a
  if a + b = 0 then 0 else m + expLen lower upper (s.drop m)

/-- Number of bytes `strtod` consumes from a text that starts with a digit
(ISO C 7.20.1.3): a hexadecimal floating literal when `0x`/`0X` is followed by
a hexadecimal mantissa, a decimal floating literal otherwise.  The library
routine is not part of the repository; only this scan is fixed here, the
value it returns is `Arith.strtod`. -/
def strtodLen (s : List Char) : Nat :=
  match s with
  | '0' :: x :: t =>
    if (x = 'x' ∨ x = 'X') ∧ floatLen isxdigit 'p' 'P' t ≠ 0 then
      2 + floatLen isxdigit 'p' 'P' t
    else floatLen isdigit 'e' 'E' s
  | _ => floatLen isdigit 'e' 'E' s

/-! ## Data structures (flep.c 100-114) -/

/-- The record `struct FLEP`: the constant pool `data` with `nd` used
entries and the opcode buffer `text` with `nt` used entries. -/
structure FLEP (D : Type) where
  /-- Numerical constants. -/
  data : List D
  /-- Opcodes. -/
  text : List Nat
  /-- Number of used elements of `data`. -/
  nd : Nat
  /-- Number of used elements of `text`. -/
  nt : Nat

/-- The record `struct FLEPTokens`, the token stream. -/
structure FLEPTokens (D : Type) where
  /-- The source string. -/
  src : List Char
  /-- Offset of the start of the current token. -/
  p : Nat
  /-- Offset just after the current token. -/
  q : Nat
  /-- Variable index of a `FLEP_VAR` token. -/
  ival : Nat
  /-- Value of a `FLEP_CONST` token. -/
  fval : D
  /-- Kind of the current token. -/
  curr : Nat
  /-- Kind of the previous token. -/
  last : Nat

/-! ## The lexer (flep.c 116-185) -/

/-- Index of the first element of a list equal to `a`, if there is one: the
offset `strchr` finds in a string, and the index at which the search loop
over `built_in` stops. -/
def firstIndex {α : Type} [DecidableEq α] : List α → α → Option Nat
  | [], _ => none
  | b :: t, a => if b = a then some 0 else (firstIndex t a).map (· + 1)

/-- The string `vars` of `flep_next`. -/
def vars : List Char := ['a', 'b', 'c', 'x', 'y', 'z', 'w']

/-- The table `built_in` of `flep_next`. -/
def built_in : List (List Char) :=
  [['s', 'i', 'n'], ['c', 'o', 's'], ['t', 'a', 'n'], ['e', 'x', 'p'],
   ['l', 'o', 'g'], ['a', 'b', 's']]

/-- The string `sym` of `flep_next`. -/
def sym : List Char := ['(', ')', '+', '-', '*', '/', '^']

/-- The function `flep_next`: advance the token stream.  For a byte that
`strchr` finds, `firstIndex` is the difference `strchr(vars, c) - vars` (or
the one with `sym`) that the C code computes.  For a byte it does not find,
the C code subtracts from a null pointer, which the C standard leaves
undefined; here the test `i >= 0` fails then and the token stays
`FLEP_BADTOKEN`, as on a build where the difference comes out negative.  The
definition `flep_next_at` has the value of the difference as a parameter. -/
def flep_next {D : Type} (A : Arith D) (tok : FLEPTokens D) : FLEPTokens D :=
  let tok := { tok with last := tok.curr }
  let tok := { tok with p := tok.q }
  let tok := { tok with p := tok.p + ((tok.src.drop tok.p).takeWhile isspace).length }
  let tok := { tok with curr := FLEP_BADTOKEN }
  let c := peek tok.src tok.p
  if c = Char.ofNat 0 then
    { tok with curr := FLEP_END }
  else if isalpha c then
    let tok := { tok with
      q := tok.p + 1 + ((tok.src.drop (tok.p + 1)).takeWhile isalpha).length }
    if tok.q - tok.p = 1 then
      if c = 'e' then
        { tok with curr := FLEP_CONST, fval := A.exp A.one }
      else
        match firstIndex vars c with
        | some i => { tok with curr := FLEP_VAR, ival := i }
        | none => tok
    else if tok.q - tok.p = 2 then
      if (tok.src.drop tok.p).take 2 = ['p', 'i'] then
        { tok with curr := FLEP_CONST, fval := A.pi }
      else tok
    else if tok.q - tok.p = 3 then
      match firstIndex built_in ((tok.src.drop tok.p).take 3) with
      | some i => { tok with curr := FLEP_SIN + i }
      | none => tok
    else if tok.q - tok.p = 4 then
      if (tok.src.drop tok.p).take 4 = ['s', 'q', 'r', 't'] then
        { tok with curr := FLEP_SQRT }
      else tok
    else tok
  else if isdigit c then
    let n := strtodLen (tok.src.drop tok.p)
    { tok with fval := A.strtod ((tok.src.drop tok.p).take n),
               curr := FLEP_CONST, q := tok.p + n }
  else
    match firstIndex sym c with
    | some i => { tok with curr := FLEP_OPEN + i, q := tok.p + 1 }
    | none => tok

/-- The function `flep_tokenize`: initialise the token stream on `s` and read
the first token.  The fields C leaves unassigned start indeterminate. -/
def flep_tokenize {D : Type} (A : Arith D) (s : List Char) : FLEPTokens D :=
  flep_next A
    { src := s, p := 0, q := 0, ival := 0, fval := A.indet,
      curr := FLEP_START, last := 0 }

/-! ## The code buffer (flep.c 195-213) -/

/-- The assignment `buf[i] = v` on a buffer holding `buf.length` written
cells, `i` being at most that. -/
def store {α : Type} (buf : List α) (i : Nat) (v : α) : List α :=
  buf.take i ++ v :: buf.drop (i + 1)

/-- The function `flep_add_opcode`: `out->text[out->nt++] = op`. -/
def flep_add_opcode {D : Type} (out : FLEP D) (op : Nat) : FLEP D :=
  { out with text := store out.text out.nt op, nt := out.nt + 1 }

/-- The function `flep_add_data`: `out->data[out->nd++] = val`. -/
def flep_add_data {D : Type} (out : FLEP D) (val : D) : FLEP D :=
  { out with data := store out.data out.nd val, nd := out.nd + 1 }

/-! ## The recursive-descent parser (flep.c 215-297) -/

/-- What a parsing function leaves behind: its return value, the token
stream and the program under construction. -/
abbrev PState (D : Type) := Nat × FLEPTokens D × FLEP D

mutual

/-- The function `flep_get_operand`.  The opcode words are packed on the
natural numbers; they are the `int` values of the C code as long as the
index packed is below `2 ^ 23`. -/
def flep_get_operand {D : Type} (A : Arith D) :
    Nat → FLEPTokens D → FLEP D → Option (PState D)
  | 0, _, _ => none
  | fuel + 1, tok, out =>
    if tok.curr = FLEP_OPEN then
      let tok := flep_next A tok
      match flep_get_sum A fuel tok out with
      | none => none
      | some (ret, tok, out) =>
        if ret ≠ FLEP_CLOSE then some (FLEP_UNBALANCED, tok, out)
        else
          let tok := flep_next A tok
          some (tok.curr, tok, out)
    else if tok.curr = FLEP_PLUS then
      if tok.last = FLEP_START ∨ tok.last = FLEP_OPEN ∨
          tok.last = FLEP_PLUS ∨ tok.last = FLEP_MULT ∨
          tok.last = FLEP_DIV ∨ tok.last = FLEP_POWER then
        let tok := flep_next A tok
        flep_get_operand A fuel tok out
      else some (FLEP_BADSYNTAX, tok, out)
    else if tok.curr = FLEP_MINUS then
      if tok.last = FLEP_START ∨ tok.last = FLEP_OPEN ∨
          tok.last = FLEP_MULT ∨ tok.last = FLEP_DIV then
        let tok := flep_next A tok
        match flep_get_prod A fuel tok out with
        | none => none
        | some (ret, tok, out) =>
          some (ret, tok, flep_add_opcode out FLEP_UNARY_MINUS)
      else if tok.last = FLEP_POWER then
        let tok := flep_next A tok
        match flep_get_power A fuel tok out with
        | none => none
        | some (ret, tok, out) =>
          some (ret, tok, flep_add_opcode out FLEP_UNARY_MINUS)
      else
        let tok := flep_next A tok
        match flep_get_operand A fuel tok out with
        | none => none
        | some (ret, tok, out) =>
          some (ret, tok, flep_add_opcode out FLEP_MINUS)
    else if FLEP_SIN ≤ tok.curr ∧ tok.curr ≤ FLEP_SQRT then
      let op := tok.curr
      let tok := flep_next A tok
      if tok.curr ≠ FLEP_OPEN then some (FLEP_EXPECTED_OPEN, tok, out)
      else
        match flep_get_operand A fuel tok out with
        | none => none
        | some (ret, tok, out) => some (ret, tok, flep_add_opcode out op)
    else if tok.curr = FLEP_CONST then
      let out := flep_add_data out tok.fval
      let out := flep_add_opcode out (FLEP_BITFUSE FLEP_CONST (out.nd - 1))
      let tok := flep_next A tok
      some (tok.curr, tok, out)
    else if tok.curr = FLEP_VAR then
      let out := flep_add_opcode out (FLEP_BITFUSE FLEP_VAR tok.ival)
      let tok := flep_next A tok
      some (tok.curr, tok, out)
    else some (FLEP_BADSYNTAX, tok, out)

/-- The function `flep_get_power`: an operand, then the `while` loop. -/
def flep_get_power {D : Type} (A : Arith D) :
    Nat → FLEPTokens D → FLEP D → Option (PState D)
  | 0, _, _ => none
  | fuel + 1, tok, out =>
    match flep_get_operand A fuel tok out with
    | none => none
    | some (ret, tok, out) => flep_get_power_loop A fuel ret tok out

/-- The `while (ret == FLEP_POWER)` loop of `flep_get_power`. -/
def flep_get_power_loop {D : Type} (A : Arith D) :
    Nat → Nat → FLEPTokens D → FLEP D → Option (PState D)
  | 0, _, _, _ => none
  | fuel + 1, ret, tok, out =>
    if ret = FLEP_POWER then
      let tok := flep_next A tok
      match flep_get_power A fuel tok out with
      | none => none
      | some (ret, tok, out) =>
        flep_get_power_loop A fuel ret tok (flep_add_opcode out FLEP_POWER)
    else some (ret, tok, out)

/-- The function `flep_get_prod`: a power, then the `while` loop. -/
def flep_get_prod {D : Type} (A : Arith D) :
    Nat → FLEPTokens D → FLEP D → Option (PState D)
  | 0, _, _ => none
  | fuel + 1, tok, out =>
    match flep_get_power A fuel tok out with
    | none => none
    | some (ret, tok, out) => flep_get_prod_loop A fuel ret tok out

/-- The `while (ret == FLEP_MULT || ret == FLEP_DIV)` loop of
`flep_get_prod`. -/
def flep_get_prod_loop {D : Type} (A : Arith D) :
    Nat → Nat → FLEPTokens D → FLEP D → Option (PState D)
  | 0, _, _, _ => none
  | fuel + 1, ret, tok, out =>
    if ret = FLEP_MULT ∨ ret = FLEP_DIV then
      let op := ret
      let tok := flep_next A tok
      match flep_get_power A fuel tok out with
      | none => none
      | some (ret, tok, out) =>
        flep_get_prod_loop A fuel ret tok (flep_add_opcode out op)
    else some (ret, tok, out)

/-- The function `flep_get_sum`: a product, then the outer `while` loop. -/
def flep_get_sum {D : Type} (A : Arith D) :
    Nat → FLEPTokens D → FLEP D → Option (PState D)
  | 0, _, _ => none
  | fuel + 1, tok, out =>
    match flep_get_prod A fuel tok out with
    | none => none
    | some (ret, tok, out) => flep_get_sum_loop A fuel ret tok out

/-- The outer `while (ret == FLEP_PLUS || ret == FLEP_MINUS)` loop of
`flep_get_sum`. -/
def flep_get_sum_loop {D : Type} (A : Arith D) :
    Nat → Nat → FLEPTokens D → FLEP D → Option (PState D)
  | 0, _, _, _ => none
  | fuel + 1, ret, tok, out =>
    if ret = FLEP_PLUS ∨ ret = FLEP_MINUS then
      let op := ret
      let tok := flep_next A tok
      match flep_get_sum_signs A fuel op tok.curr tok with
      | none => none
      | some (op, _, tok) =>
        match flep_get_prod A fuel tok out with
        | none => none
        | some (ret, tok, out) =>
          flep_get_sum_loop A fuel ret tok (flep_add_opcode out op)
    else some (ret, tok, out)

/-- The inner `while (ret == FLEP_PLUS || ret == FLEP_MINUS)` loop of
`flep_get_sum`, which collapses a run of signs into `op`. -/
def flep_get_sum_signs {D : Type} (A : Arith D) :
    Nat → Nat → Nat → FLEPTokens D → Option (Nat × Nat × FLEPTokens D)
  | 0, _, _, _ => none
  | fuel + 1, op, ret, tok =>
    if ret = FLEP_PLUS ∨ ret = FLEP_MINUS then
      let op := if op = ret then FLEP_PLUS else FLEP_MINUS
      let tok := flep_next A tok
      flep_get_sum_signs A fuel op tok.curr tok
    else some (op, ret, tok)

end

/-! ## The optimizer (flep.c 298-362) -/

/-- The read `buf[i]` with an `int` index. -/
def rd {α : Type} (buf : List α) (i : Int) : Except Fault α :=
  if 0 ≤ i then
    match buf.get? i.toNat with
    | some v => .ok v
    | none => .error .bounds
  else .error .bounds

/-- The loop of `flep_delete_text`: `cnt` rounds of
`text[j-n] = text[j]; j++`. -/
def flep_delete_text_loop (n : Nat) : Nat → Nat → List Nat → List Nat
  | 0, _, text => text
  | cnt + 1, j, text =>
    flep_delete_text_loop n cnt (j + 1) (text.set (j - n) (text.getD j 0))

/-- The function `flep_delete_text`: move `text[i+n .. nt-1]` down by `n`
and shorten the logical length by `n`. -/
def flep_delete_text {D : Type} (out : FLEP D) (i n : Nat) : FLEP D :=
  { out with
    text := flep_delete_text_loop n (out.nt - (i + n)) (i + n) out.text,
    nt := out.nt - n }

/-- The first `switch` of `flep_optimize` (and the single-operand cases of
the `switch` of `flep_eval`): the operation selected by `op`, if any. -/
def unary {D : Type} (A : Arith D) (op : Nat) : Option (D → D) :=
  if op = FLEP_UNARY_MINUS then some A.neg
  else if op = FLEP_SIN then some A.sin
  else if op = FLEP_COS then some A.cos
  else if op = FLEP_TAN then some A.tan
  else if op = FLEP_EXP then some A.exp
  else if op = FLEP_LOG then some A.log
  else if op = FLEP_ABS then some A.fabs
  else if op = FLEP_SQRT then some A.sqrt
  else none

/-- The second `switch` of `flep_optimize` (and the two-operand cases of the
`switch` of `flep_eval`): the operation selected by `op`, if any; its first
argument is the left operand. -/
def binary {D : Type} (A : Arith D) (op : Nat) : Option (D → D → D) :=
  if op = FLEP_PLUS then some A.add
  else if op = FLEP_MINUS then some A.sub
  else if op = FLEP_MULT then some A.mul
  else if op = FLEP_DIV then some A.div
  else if op = FLEP_POWER then some A.pow
  else none

/-- One round of the body of the `for` loop of `flep_optimize`, entered with
`0 <= i`; the result is the value of `i` on reaching the loop's `i--` and the
rewritten program. -/
def flep_optimize_body {D : Type} (A : Arith D) (i : Int) (out : FLEP D) :
    Except Fault (Int × FLEP D) :=
  match rd out.text i with
  | .error e => .error e
  | .ok ti =>
    match (if ti = FLEP_UNARY_MINUS then rd out.text (i - 1) else .ok 0) with
    | .error e => .error e
    | .ok tp =>
      if ti = FLEP_UNARY_MINUS ∧ tp = FLEP_UNARY_MINUS then
        .ok (i - 1, flep_delete_text out (i - 1).toNat 2)
      else if FLEP_OPCODE ti = FLEP_CONST ∧ i < (out.nt : Int) - 1 then
        let dpx := FLEP_OPPARM ti
        match rd out.data dpx, rd out.text (i + 1) with
        | .error e, _ => .error e
        | _, .error e => .error e
        | .ok x, .ok t1 =>
          match unary A t1 with
          | some f =>
            let out := { out with data := out.data.set dpx (f x) }
            .ok (i + 1, flep_delete_text out (i + 1).toNat 1)
          | none =>
            if i ≠ 0 then
              match rd out.text (i - 1) with
              | .error e => .error e
              | .ok tm =>
                if FLEP_OPCODE tm = FLEP_CONST then
                  let dpx := FLEP_OPPARM tm
                  let dpy := FLEP_OPPARM ti
                  match rd out.data dpx, rd out.data dpy with
                  | .error e, _ => .error e
                  | _, .error e => .error e
                  | .ok x, .ok y =>
                    match binary A t1 with
                    | some g =>
                      let out := { out with data := out.data.set dpx (g x y) }
                      let out := flep_delete_text out i.toNat 2
                      match rd out.text i with
                      | .error e => .error e
                      | .ok tn =>
                        if FLEP_OPCODE tn = FLEP_CONST then .ok (i + 1, out)
                        else .ok (i, out)
                    | none => .ok (i, out)
                else .ok (i, out)
            else .ok (i, out)
      else .ok (i, out)

/-- The `for (...; i >= 0; i--)` loop of `flep_optimize`. -/
def flep_optimize_loop {D : Type} (A : Arith D) :
    Nat → Int → FLEP D → Except Fault (FLEP D)
  | fuel, i, out =>
    if i < 0 then .ok out
    else
      match fuel with
      | 0 => .error .fuel
      | fuel + 1 =>
        match flep_optimize_body A i out with
        | .error e => .error e
        | .ok (i, out) => flep_optimize_loop A fuel (i - 1) out

/-- The function `flep_optimize`; every round lowers `i + 2 * nt`, so
`3 * nt` rounds are enough. -/
def flep_optimize {D : Type} (A : Arith D) (out : FLEP D) :
    Except Fault (FLEP D) :=
  flep_optimize_loop A (3 * out.nt) ((out.nt : Int) - 2) out

/-! ## The callable functions (flep.c 364-419) -/

/-- Recursion depth granted to the parser for a source of the given
length. -/
def parseFuel (s : List Char) : Nat := 6 * s.length + 12

/-- The parsing phase of `flep_parse`: tokenize, then `flep_get_sum` on an
empty program. -/
def flep_compile {D : Type} (A : Arith D) (s : List Char) : Option (PState D) :=
  flep_get_sum A (parseFuel s) (flep_tokenize A s)
    { data := [], text := [], nd := 0, nt := 0 }

/-- The function `flep_parse`.  `error` and `position` are the contents of
the caller's two `int` variables before the call; the result is the returned
pointer (`none` for NULL) with their contents after the call. -/
def flep_parse {D : Type} (A : Arith D) (s : List Char) (error position : Int) :
    Except Fault (Option (FLEP D) × Int × Int) :=
  match flep_compile A s with
  | none => .error .fuel
  | some (status, tok, out) =>
    if status = FLEP_END then
      match flep_optimize A out with
      | .error e => .error e
      | .ok out => .ok (some (flep_add_opcode out FLEP_END), error, position)
    else .ok (none, (status : Int), (tok.p : Int) - 0 + 1)

/-- What one round of the loop of `flep_eval` does. -/
inductive Round (D : Type) where
  /-- The `continue` of the round, with the stack it leaves. -/
  | next (stack : List D)
  /-- The `return stack[0]` of `FLEP_END`. -/
  | ret (x : D)
  /-- An access outside `stack[0..63]`, `f->data` or `val`. -/
  | fault

/-- The body of the loop of `flep_eval` for the opcode word `w`: the
`switch` on `FLEP_OPCODE(f->text[ip])`.  The stack is kept with its top
first, so `stack.length = sp + 1`, the value `x` read at the head of the
round is the head of the list, and `stack[0]` is its last element. -/
def flep_eval_round {D : Type} (A : Arith D) (data val : List D) (w : Nat)
    (stack : List D) : Round D :=
  let idx := FLEP_OPPARM w
  let op := FLEP_OPCODE w
  if op = FLEP_UNARY_MINUS then
    match stack with
    | x :: s => .next (A.neg x :: s)
    | [] => .fault
  else if op = FLEP_PLUS then
    match stack with
    | x :: y :: s => .next (A.add y x :: s)
    | _ => .fault
  else if op = FLEP_MINUS then
    match stack with
    | x :: y :: s => .next (A.sub y x :: s)
    | _ => .fault
  else if op = FLEP_MULT then
    match stack with
    | x :: y :: s => .next (A.mul y x :: s)
    | _ => .fault
  else if op = FLEP_DIV then
    match stack with
    | x :: y :: s => .next (A.div y x :: s)
    | _ => .fault
  else if op = FLEP_POWER then
    match stack with
    | x :: y :: s => .next (A.pow y x :: s)
    | _ => .fault
  else if op = FLEP_VAR then
    match val.get? idx with
    | some v => if stack.length < 64 then .next (v :: stack) else .fault
    | none => .fault
  else if op = FLEP_CONST then
    match data.get? idx with
    | some v => if stack.length < 64 then .next (v :: stack) else .fault
    | none => .fault
  else if op = FLEP_SIN then
    match stack with
    | x :: s => .next (A.sin x :: s)
    | [] => .fault
  else if op = FLEP_COS then
    match stack with
    | x :: s => .next (A.cos x :: s)
    | [] => .fault
  else if op = FLEP_TAN then
    match stack with
    | x :: s => .next (A.tan x :: s)
    | [] => .fault
  else if op = FLEP_EXP then
    match stack with
    | x :: s => .next (A.exp x :: s)
    | [] => .fault
  else if op = FLEP_LOG then
    match stack with
    | x :: s => .next (A.log x :: s)
    | [] => .fault
  else if op = FLEP_ABS then
    match stack with
    | x :: s => .next (A.fabs x :: s)
    | [] => .fault
  else if op = FLEP_SQRT then
    match stack with
    | x :: s => .next (A.sqrt x :: s)
    | [] => .fault
  else if op = FLEP_END then
    match stack.getLast? with
    | some r => .ret r
    | none => .fault
  else .next stack

/-- The loop `for (;;ip++)` of `flep_eval`; the list argument is `text`
from `ip` on. -/
def flep_eval_loop {D : Type} (A : Arith D) (data val : List D) :
    List Nat → List D → Except Fault D
  | [], _ => .error .bounds
  | w :: text, stack =>
    match flep_eval_round A data val w stack with
    | .next stack => flep_eval_loop A data val text stack
    | .ret x => .ok x
    | .fault => .error .bounds

/-- The function `flep_eval`: run `f->text` from `ip = 0` on the empty
stack (`sp = -1`) with the variable values `val`. -/
def flep_eval {D : Type} (A : Arith D) (f : FLEP D) (val : List D) :
    Except Fault D :=
  flep_eval_loop A f.data val f.text []

/-! ## Auxiliary notions used in the statements -/

/-- The text at an offset is empty or starts with an operator or a
parenthesis. -/
def Delim (t : List Char) : Prop := ∀ c, t.head? = some c → c ∈ sym

/-- A numeric literal: a text starting with a digit that `strtod` consumes
whole whenever it is followed by an operator, a parenthesis or the end of the
source. -/
def Literal (s : List Char) : Prop :=
  (∃ c t, s = c :: t ∧ isdigit c = true) ∧
    ∀ rest, Delim rest → strtodLen (s ++ rest) = s.length

/-- The names of the seven functions, in the order of their tags. -/
def fnames : List (List Char) := built_in ++ [['s', 'q', 'r', 't']]

/-- All eight parsing routines agree at fuel `n + 1` and `n` wherever they
return at fuel `n`. -/
def MonoAt {D : Type} (A : Arith D) (n : Nat) : Prop :=
  (∀ tok out, flep_get_operand A n tok out ≠ none →
      flep_get_operand A (n + 1) tok out = flep_get_operand A n tok out) ∧
  (∀ tok out, flep_get_power A n tok out ≠ none →
      flep_get_power A (n + 1) tok out = flep_get_power A n tok out) ∧
  (∀ ret tok out, flep_get_power_loop A n ret tok out ≠ none →
      flep_get_power_loop A (n + 1) ret tok out = flep_get_power_loop A n ret tok out) ∧
  (∀ tok out, flep_get_prod A n tok out ≠ none →
      flep_get_prod A (n + 1) tok out = flep_get_prod A n tok out) ∧
  (∀ ret tok out, flep_get_prod_loop A n ret tok out ≠ none →
      flep_get_prod_loop A (n + 1) ret tok out = flep_get_prod_loop A n ret tok out) ∧
  (∀ tok out, flep_get_sum A n tok out ≠ none →
      flep_get_sum A (n + 1) tok out = flep_get_sum A n tok out) ∧
  (∀ ret tok out, flep_get_sum_loop A n ret tok out ≠ none →
      flep_get_sum_loop A (n + 1) ret tok out = flep_get_sum_loop A n ret tok out) ∧
  (∀ op ret tok, flep_get_sum_signs A n op ret tok ≠ none →
      flep_get_sum_signs A (n + 1) op ret tok = flep_get_sum_signs A n op ret tok)

/-! ## Surface syntax -/

/-- Expressions as the parser reads them, without blanks and unary signs:
operands (variables, literals, `e`, `pi`, parenthesised expressions, function
calls) and the three levels of binary operators as they stand in the source,
a sum taking a whole run of signs. -/
inductive Expr where
  /-- The variable letter `vars[i]`. -/
  | var (i : Nat)
  /-- A numeric literal. -/
  | lit (s : List Char)
  /-- The constant `e`. -/
  | econst
  /-- The constant `pi`. -/
  | piconst
  /-- The text `(x)`. -/
  | paren (x : Expr)
  /-- The text `name(x)`, `name` being `fnames[f]`. -/
  | call (f : Nat) (x : Expr)
  /-- The text `l^r`. -/
  | pow (l r : Expr)
  /-- The text `l*r`, or `l/r` when `isDiv`. -/
  | prod (isDiv : Bool) (l r : Expr)
  /-- The text `l`, a run of signs (`true` for `-`, `false` for `+`), `r`. -/
  | sum (run : List Bool) (l r : Expr)

/-- The character of a sign. -/
def signChar (b : Bool) : Char := if b then '-' else '+'

/-- The token of a sign. -/
def signTag (b : Bool) : Nat := if b then FLEP_MINUS else FLEP_PLUS

/-- The source text of an expression. -/
def render : Expr → List Char
  | .var i => [vars.getD i 'a']
  | .lit s => s
  | .econst => ['e']
  | .piconst => ['p', 'i']
  | .paren x => '(' :: render x ++ [')']
  | .call f x => fnames.getD f [] ++ '(' :: render x ++ [')']
  | .pow l r => render l ++ '^' :: render r
  | .prod d l r => render l ++ (if d then '/' else '*') :: render r
  | .sum run l r => render l ++ run.map signChar ++ render r

/-- Binding level of the outermost construct: 3 for an operand, 2 for a
power, 1 for a product, 0 for a sum. -/
def level : Expr → Nat
  | .pow _ _ => 2
  | .prod _ _ _ => 1
  | .sum _ _ _ => 0
  | _ => 3

/-- The expression respects the grammar: indices in range, literals that are
literals, a power whose base is an operand and whose exponent is at least a
power, a product whose right factor is at least a power, a sum with a
non-empty run of signs whose right term is at least a product. -/
def WF : Expr → Prop
  | .var i => i < 7
  | .lit s => Literal s
  | .econst => True
  | .piconst => True
  | .paren x => WF x
  | .call f x => f < 7 ∧ WF x
  | .pow l r => level l = 3 ∧ 2 ≤ level r ∧ WF l ∧ WF r
  | .prod _ l r => 1 ≤ level l ∧ 2 ≤ level r ∧ WF l ∧ WF r
  | .sum run l r => run ≠ [] ∧ 1 ≤ level r ∧ WF l ∧ WF r

/-- Number of constant-pool entries an expression takes. -/
def nconst : Expr → Nat
  | .var _ => 0
  | .lit _ => 1
  | .econst => 1
  | .piconst => 1
  | .paren x => nconst x
  | .call _ x => nconst x
  | .pow l r => nconst l + nconst r
  | .prod _ l r => nconst l + nconst r
  | .sum _ l r => nconst l + nconst r

/-- The operator a run of signs stands for, computed as `flep_get_sum`
does: start from the first sign, then `op = (op == ret) ? PLUS : MINUS` for
each further sign. -/
def signOp : List Bool → Nat
  | [] => FLEP_PLUS
  | b :: t => t.foldl (fun op b => if op = signTag b then FLEP_PLUS else FLEP_MINUS) (signTag b)

/-- The postfix code of an expression whose first constant takes pool slot
`nd`. -/
def code (nd : Nat) : Expr → List Nat
  | .var i => [FLEP_BITFUSE FLEP_VAR i]
  | .lit _ => [FLEP_BITFUSE FLEP_CONST nd]
  | .econst => [FLEP_BITFUSE FLEP_CONST nd]
  | .piconst => [FLEP_BITFUSE FLEP_CONST nd]
  | .paren x => code nd x
  | .call f x => code nd x ++ [FLEP_SIN + f]
  | .pow l r => code nd l ++ code (nd + nconst l) r ++ [FLEP_POWER]
  | .prod d l r =>
    code nd l ++ code (nd + nconst l) r ++ [if d then FLEP_DIV else FLEP_MULT]
  | .sum run l r => code nd l ++ code (nd + nconst l) r ++ [signOp run]

/-- The constants of an expression, in source order. -/
def pool {D : Type} (A : Arith D) : Expr → List D
  | .var _ => []
  | .lit s => [A.strtod s]
  | .econst => [A.exp A.one]
  | .piconst => [A.pi]
  | .paren x => pool A x
  | .call _ x => pool A x
  | .pow l r => pool A l ++ pool A r
  | .prod _ l r => pool A l ++ pool A r
  | .sum _ l r => pool A l ++ pool A r

/-- The function with index `f` in `fnames`. -/
def fnOf {D : Type} (A : Arith D) (f : Nat) : D → D :=
  match f with
  | 0 => A.sin
  | 1 => A.cos
  | 2 => A.tan
  | 3 => A.exp
  | 4 => A.log
  | 5 => A.fabs
  | _ => A.sqrt

/-- Direct evaluation of an expression on the variable values `val`. -/
def evalExpr {D : Type} (A : Arith D) (val : List D) : Expr → D
  | .var i => val.getD i A.indet
  | .lit s => A.strtod s
  | .econst => A.exp A.one
  | .piconst => A.pi
  | .paren x => evalExpr A val x
  | .call f x => fnOf A f (evalExpr A val x)
  | .pow l r => A.pow (evalExpr A val l) (evalExpr A val r)
  | .prod d l r =>
    if d then A.div (evalExpr A val l) (evalExpr A val r)
    else A.mul (evalExpr A val l) (evalExpr A val r)
  | .sum run l r =>
    if signOp run = FLEP_MINUS then A.sub (evalExpr A val l) (evalExpr A val r)
    else A.add (evalExpr A val l) (evalExpr A val r)

/-- Number of stack slots the postfix code of an expression needs. -/
def need : Expr → Nat
  | .paren x => need x
  | .call _ x => need x
  | .pow l r => max (need l) (need r + 1)
  | .prod _ l r => max (need l) (need r + 1)
  | .sum _ l r => max (need l) (need r + 1)
  | _ => 1

/-- A recursion depth that suffices to parse an expression. -/
def fuelOf : Expr → Nat
  | .paren x => fuelOf x + 5
  | .call _ x => fuelOf x + 6
  | .pow l r => fuelOf l + fuelOf r + 4
  | .prod _ l r => fuelOf l + fuelOf r + 2
  | .sum run l r => fuelOf l + fuelOf r + run.length + 2
  | _ => 4

/-- The program `out` extended by the opcodes `ops` and the constants `ds`. -/
def FLEP.append {D : Type} (out : FLEP D) (ops : List Nat) (ds : List D) : FLEP D :=
  ⟨out.data ++ ds, out.text ++ ops, out.nd + ds.length, out.nt + ops.length⟩

/-- The buffers hold exactly the used entries (nothing stale above them). -/
def Tight {D : Type} (out : FLEP D) : Prop :=
  out.text.length = out.nt ∧ out.data.length = out.nd

/-- What a parsing routine returns when it has consumed exactly the text of
`x` from the stream `tok0` and added its code to `out`: the token after `x`
is the current one. -/
def AfterExpr {D : Type} (A : Arith D) (tok0 : FLEPTokens D) (x : Expr)
    (out : FLEP D) (r : PState D) : Prop :=
  ∃ tok1 : FLEPTokens D, tok1.src = tok0.src ∧
    tok1.q = tok0.q + (render x).length ∧
    r = ((flep_next A tok1).curr, flep_next A tok1,
          out.append (code out.nd x) (pool A x))

/-- What the four entry points of the parser do on the text of `x` followed
by `rest`: `flep_get_operand` and `flep_get_power` return right after `x`
(when `x` is of their level and no `^` follows); `flep_get_prod` and
`flep_get_sum` continue with their loop in the state reached after `x`. -/
def Parses {D : Type} (A : Arith D) (x : Expr) : Prop :=
  ∀ (tok0 : FLEPTokens D) (out : FLEP D) (rest : List Char), Tight out → Delim rest →
    tok0.src.drop tok0.q = render x ++ rest →
    ∃ r, AfterExpr A tok0 x out r ∧
      (level x = 3 → ∀ n, fuelOf x ≤ n + 3 →
        flep_get_operand A n (flep_next A tok0) out = some r) ∧
      (2 ≤ level x → rest.head? ≠ some '^' → ∀ n, fuelOf x ≤ n + 2 →
        flep_get_power A n (flep_next A tok0) out = some r) ∧
      (1 ≤ level x → rest.head? ≠ some '^' → ∀ m res,
        flep_get_prod_loop A m r.1 r.2.1 r.2.2 = some res → ∀ n, m + fuelOf x ≤ n + 1 →
        flep_get_prod A n (flep_next A tok0) out = some res) ∧
      (rest.head? ≠ some '^' → rest.head? ≠ some '*' → rest.head? ≠ some '/' →
        ∀ m res, flep_get_sum_loop A m r.1 r.2.1 r.2.2 = some res →
        ∀ n, m + fuelOf x ≤ n → flep_get_sum A n (flep_next A tok0) out = some res)

/-! ## Notions for the optimizer -/

/-- The used part of the opcode buffer. -/
def live {D : Type} (out : FLEP D) : List Nat := out.text.take out.nt

/-- The pool slots referenced by the constant-reference opcodes of a code
sequence, in order. -/
def refs (c : List Nat) : List Nat :=
  (c.filter (fun w => decide (FLEP_OPCODE w = FLEP_CONST))).map FLEP_OPPARM

/-- Whenever the code `c` with pool `d`, closed by the end-marker, evaluates
to a value from some stack, so does `c'` with pool `d'`, to the same value. -/
def Refines {D : Type} (A : Arith D) (d : List D) (c : List Nat) (d' : List D)
    (c' : List Nat) : Prop :=
  ∀ (val : List D) (junk junk' : List Nat) (s : List D) (r : D),
    flep_eval_loop A d val (c ++ FLEP_END :: junk) s = .ok r →
    flep_eval_loop A d' val (c' ++ FLEP_END :: junk') s = .ok r

/-- The pools `d` and `d'` agree on every slot the code `c` references. -/
def AgreeOn {D : Type} (d d' : List D) (c : List Nat) : Prop :=
  ∀ w ∈ c, FLEP_OPCODE w = FLEP_CONST → d'[FLEP_OPPARM w]? = d[FLEP_OPPARM w]?

/-- The code starts with a variable or constant reference. -/
def PushFirst (c : List Nat) : Prop :=
  ∃ w rest, c = w :: rest ∧ (FLEP_OPCODE w = FLEP_VAR ∨ FLEP_OPCODE w = FLEP_CONST)

/-- The state of a program the optimizer can work on: the used opcodes lie
within the buffer, start with a reference, and their constant references
are pairwise distinct valid pool slots. -/
def PoolOK {D : Type} (out : FLEP D) : Prop :=
  out.nt ≤ out.text.length ∧ (refs (live out)).Nodup ∧
    (∀ k ∈ refs (live out), k < out.data.length) ∧ PushFirst (live out)

/-- Dropping two adjacent unary minus opcodes is harmless for the program:
unary minus undoes itself, or the used opcodes contain no unary minus. -/
def NegOK {D : Type} (A : Arith D) (out : FLEP D) : Prop :=
  (∀ x, A.neg (A.neg x) = x) ∨ FLEP_UNARY_MINUS ∉ live out

/-- The scan index of the optimizer is in a position the loop can reach: it
is inside the buffer and not above `nt`, and when it equals `nt` the stale
opcode it points at is a constant reference. -/
def ScanOK {D : Type} (i : Int) (out : FLEP D) : Prop :=
  i < out.text.length ∧ i ≤ out.nt ∧
    (i = out.nt → ∃ w, out.text.get? out.nt = some w ∧ FLEP_OPCODE w = FLEP_CONST)

/-! ## Invariants of the parser -/

/-- The invariant of the program under construction: nothing stale in the
buffers, and the constant references of the code are the pool slots
`0, 1, ..., nd - 1` in this order. -/
def PInv {D : Type} (out : FLEP D) : Prop :=
  Tight out ∧ refs out.text = List.range out.nd

/-- The program `out'` satisfies the invariant and its code extends that of
`out`. -/
def Grows {D : Type} (out out' : FLEP D) : Prop :=
  PInv out' ∧ ∃ ops, out'.text = out.text ++ ops

/-- The program `out'` satisfies the invariant and its code extends that of
`out` by opcodes of which the first is a variable or constant reference. -/
def GrowsPush {D : Type} (out out' : FLEP D) : Prop :=
  PInv out' ∧ ∃ w ops, out'.text = out.text ++ w :: ops ∧
    (FLEP_OPCODE w = FLEP_VAR ∨ FLEP_OPCODE w = FLEP_CONST)

/-- The return values with which `flep_get_operand` gives up before it has
emitted anything. -/
def IsErr (ret : Nat) : Prop :=
  ret = FLEP_BADSYNTAX ∨ ret = FLEP_EXPECTED_OPEN ∨ ret = FLEP_UNBALANCED

/-- The invariant of the eight parsing routines at fuel `n`: each leaves a
program that extends the one it was given; the four productions have emitted
a reference first unless they return an error of `IsErr`; the loops pass
such an error through; the sign loop returns `+` or `-`. -/
def ParserInvAt {D : Type} (A : Arith D) (n : Nat) : Prop :=
  (∀ tok out r, PInv out → flep_get_operand A n tok out = some r →
      Grows out r.2.2 ∧ (¬ IsErr r.1 → GrowsPush out r.2.2)) ∧
  (∀ tok out r, PInv out → flep_get_power A n tok out = some r →
      Grows out r.2.2 ∧ (¬ IsErr r.1 → GrowsPush out r.2.2)) ∧
  (∀ ret tok out r, PInv out → flep_get_power_loop A n ret tok out = some r →
      Grows out r.2.2 ∧ (IsErr ret → IsErr r.1)) ∧
  (∀ tok out r, PInv out → flep_get_prod A n tok out = some r →
      Grows out r.2.2 ∧ (¬ IsErr r.1 → GrowsPush out r.2.2)) ∧
  (∀ ret tok out r, PInv out → flep_get_prod_loop A n ret tok out = some r →
      Grows out r.2.2 ∧ (IsErr ret → IsErr r.1)) ∧
  (∀ tok out r, PInv out → flep_get_sum A n tok out = some r →
      Grows out r.2.2 ∧ (¬ IsErr r.1 → GrowsPush out r.2.2)) ∧
  (∀ ret tok out r, PInv out → flep_get_sum_loop A n ret tok out = some r →
      Grows out r.2.2 ∧ (IsErr ret → IsErr r.1)) ∧
  (∀ op ret tok r, (op = FLEP_PLUS ∨ op = FLEP_MINUS) →
      flep_get_sum_signs A n op ret tok = some r → (r.1 = FLEP_PLUS ∨ r.1 = FLEP_MINUS))

/-! ## Expression trees -/

/-- The five binary operators. -/
inductive BinOp where
  /-- The operator `+`. -/
  | add
  /-- The operator `-`. -/
  | sub
  /-- The operator `*`. -/
  | mul
  /-- The operator `/`. -/
  | div
  /-- The operator `^`. -/
  | pow
  deriving DecidableEq

/-- The character of a binary operator. -/
def BinOp.char : BinOp → Char
  | .add => '+'
  | .sub => '-'
  | .mul => '*'
  | .div => '/'
  | .pow => '^'

/-- The arithmetic primitive of a binary operator; its first argument is the
left operand. -/
def BinOp.apply {D : Type} (A : Arith D) : BinOp → D → D → D
  | .add => A.add
  | .sub => A.sub
  | .mul => A.mul
  | .div => A.div
  | .pow => A.pow

/-- Expression trees: variables, numeric literals, binary operators and
function applications. -/
inductive Tree where
  /-- The variable `vars[i]`. -/
  | var (i : Nat)
  /-- The numeric literal with text `s`. -/
  | num (s : List Char)
  /-- A binary operator applied to two trees. -/
  | bin (op : BinOp) (l r : Tree)
  /-- The function `fnames[f]` applied to a tree. -/
  | fn (f : Nat) (x : Tree)

/-- The infix text of a tree, every binary subexpression and every function
argument in parentheses, without blanks. -/
def Tree.render : Tree → List Char
  | .var i => [vars.getD i 'a']
  | .num s => s
  | .bin op l r => '(' :: l.render ++ op.char :: r.render ++ [')']
  | .fn f x => fnames.getD f [] ++ '(' :: x.render ++ [')']

/-- Direct evaluation of a tree on the variable values `val`. -/
def Tree.value {D : Type} (A : Arith D) (val : List D) : Tree → D
  | .var i => val.getD i A.indet
  | .num s => A.strtod s
  | .bin op l r => op.apply A (l.value A val) (r.value A val)
  | .fn f x => fnOf A f (x.value A val)

/-- Number of stack slots the evaluation of a tree needs: the left operand
is evaluated first and its value is kept while the right one is. -/
def Tree.slots : Tree → Nat
  | .var _ => 1
  | .num _ => 1
  | .bin _ l r => max l.slots (r.slots + 1)
  | .fn _ x => x.slots

/-- The leaves of a tree are among the seven variables and the numeric
literals, its functions among the seven functions. -/
def Tree.Valid : Tree → Prop
  | .var i => i < 7
  | .num s => Literal s
  | .bin _ l r => l.Valid ∧ r.Valid
  | .fn f x => f < 7 ∧ x.Valid

/-- The tree as the parser reads its text. -/
def Tree.toExpr : Tree → Expr
  | .var i => .var i
  | .num s => .lit s
  | .bin .add l r => .paren (.sum [false] l.toExpr r.toExpr)
  | .bin .sub l r => .paren (.sum [true] l.toExpr r.toExpr)
  | .bin .mul l r => .paren (.prod false l.toExpr r.toExpr)
  | .bin .div l r => .paren (.prod true l.toExpr r.toExpr)
  | .bin .pow l r => .paren (.pow l.toExpr r.toExpr)
  | .fn f x => .call f x.toExpr

/-- An operand in the narrow sense: a variable letter or a numeric
literal. -/
def Atom (x : Expr) : Prop :=
  (∃ i, i < 7 ∧ x = .var i) ∨ (∃ s, Literal s ∧ x = .lit s)

/-! ## An exact arithmetic for integral examples -/

/-- The number a run of decimal digits denotes. -/
def digitsVal (s : List Char) : Int :=
  s.foldl (fun n c => 10 * n + ((c.toNat : Int) - 48)) 0

/-- The arithmetic of the integers, on which sums, differences, products
and powers with a natural exponent are exact and agree with `double`
arithmetic as long as the values are small; `strtod` is exact on runs of
decimal digits.  The quotient is the truncated one and the functions of libm,
which have no counterpart on the integers, are constant; examples run on
this arithmetic use none of them. -/
def intArith : Arith Int where
  neg x := -x
  add x y := x + y
  sub x y := x - y
  mul x y := x * y
  div x y := Int.tdiv x y
  pow x y := x ^ y.toNat
  sin _ := 0
  cos _ := 0
  tan _ := 0
  exp _ := 0
  log _ := 0
  fabs x := |x|
  sqrt _ := 0
  one := 1
  pi := 3
  strtod := digitsVal
  indet := 0

/-! ## The free arithmetic -/

/-- Formal `double` expressions: what a run of flep.c computes, written down
instead of computed. -/
inductive Term where
  /-- Unary minus. -/
  | neg (x : Term)
  /-- Addition. -/
  | add (x y : Term)
  /-- Subtraction. -/
  | sub (x y : Term)
  /-- Multiplication. -/
  | mul (x y : Term)
  /-- Division. -/
  | div (x y : Term)
  /-- The function `pow`. -/
  | pow (x y : Term)
  /-- The function `sin`. -/
  | sin (x : Term)
  /-- The function `cos`. -/
  | cos (x : Term)
  /-- The function `tan`. -/
  | tan (x : Term)
  /-- The function `exp`. -/
  | exp (x : Term)
  /-- The function `log`. -/
  | log (x : Term)
  /-- The function `fabs`. -/
  | fabs (x : Term)
  /-- The function `sqrt`. -/
  | sqrt (x : Term)
  /-- The constant `1`. -/
  | one
  /-- The constant `M_PI`. -/
  | pi
  /-- The value of `strtod` on a text. -/
  | strtod (s : List Char)
  /-- An unassigned `double`. -/
  | indet
  /-- The entry `val[i]` of the variable vector. -/
  | var (i : Nat)
  deriving DecidableEq

/-- The arithmetic that builds formal expressions. -/
def freeArith : Arith Term :=
  ⟨.neg, .add, .sub, .mul, .div, .pow, .sin, .cos, .tan, .exp, .log, .fabs, .sqrt, .one, .pi,
    .strtod, .indet⟩

/-- The value of a formal expression in an arithmetic, on the variable
values `val`. -/
def Term.interp {D : Type} (A : Arith D) (val : List D) : Term → D
  | .neg x => A.neg (x.interp A val)
  | .add x y => A.add (x.interp A val) (y.interp A val)
  | .sub x y => A.sub (x.interp A val) (y.interp A val)
  | .mul x y => A.mul (x.interp A val) (y.interp A val)
  | .div x y => A.div (x.interp A val) (y.interp A val)
  | .pow x y => A.pow (x.interp A val) (y.interp A val)
  | .sin x => A.sin (x.interp A val)
  | .cos x => A.cos (x.interp A val)
  | .tan x => A.tan (x.interp A val)
  | .exp x => A.exp (x.interp A val)
  | .log x => A.log (x.interp A val)
  | .fabs x => A.fabs (x.interp A val)
  | .sqrt x => A.sqrt (x.interp A val)
  | .one => A.one
  | .pi => A.pi
  | .strtod s => A.strtod s
  | .indet => A.indet
  | .var i => val.getD i A.indet

deriving instance DecidableEq for FLEP
deriving instance DecidableEq for FLEPTokens
deriving instance DecidableEq for Except

/-- The formal variable vector of length `n`. -/
def formalVars (n : Nat) : List Term := (List.range n).map Term.var

/-- A map between the carriers of two arithmetics that commutes with every
primitive. -/
structure Hom {D E : Type} (A : Arith D) (B : Arith E) (h : D → E) : Prop where
  /-- Unary minus. -/
  neg : ∀ x, h (A.neg x) = B.neg (h x)
  /-- Addition. -/
  add : ∀ x y, h (A.add x y) = B.add (h x) (h y)
  /-- Subtraction. -/
  sub : ∀ x y, h (A.sub x y) = B.sub (h x) (h y)
  /-- Multiplication. -/
  mul : ∀ x y, h (A.mul x y) = B.mul (h x) (h y)
  /-- Division. -/
  div : ∀ x y, h (A.div x y) = B.div (h x) (h y)
  /-- The function `pow`. -/
  pow : ∀ x y, h (A.pow x y) = B.pow (h x) (h y)
  /-- The function `sin`. -/
  sin : ∀ x, h (A.sin x) = B.sin (h x)
  /-- The function `cos`. -/
  cos : ∀ x, h (A.cos x) = B.cos (h x)
  /-- The function `tan`. -/
  tan : ∀ x, h (A.tan x) = B.tan (h x)
  /-- The function `exp`. -/
  exp : ∀ x, h (A.exp x) = B.exp (h x)
  /-- The function `log`. -/
  log : ∀ x, h (A.log x) = B.log (h x)
  /-- The function `fabs`. -/
  fabs : ∀ x, h (A.fabs x) = B.fabs (h x)
  /-- The function `sqrt`. -/
  sqrt : ∀ x, h (A.sqrt x) = B.sqrt (h x)
  /-- The constant `1`. -/
  one : h A.one = B.one
  /-- The constant `M_PI`. -/
  pi : h A.pi = B.pi
  /-- The value of `strtod`. -/
  strtod : ∀ s, h (A.strtod s) = B.strtod s

/-- The token stream with its `double` field mapped. -/
def FLEPTokens.map {D E : Type} (h : D → E) (t : FLEPTokens D) : FLEPTokens E :=
  ⟨t.src, t.p, t.q, t.ival, h t.fval, t.curr, t.last⟩

/-- The program with its constant pool mapped. -/
def FLEP.map {D E : Type} (h : D → E) (o : FLEP D) : FLEP E :=
  ⟨o.data.map h, o.text, o.nd, o.nt⟩

/-- The result of a parsing routine, mapped. -/
def PState.map {D E : Type} (h : D → E) (r : PState D) : PState E :=
  (r.1, r.2.1.map h, r.2.2.map h)

/-- The result of a round of `flep_eval`, mapped. -/
def Round.map {D E : Type} (h : D → E) : Round D → Round E
  | .next s => .next (s.map h)
  | .ret x => .ret (h x)
  | .fault => .fault

/-- The eight parsing routines at fuel `n` commute with a map of the
carrier. -/
def NatAt {D E : Type} (A : Arith D) (B : Arith E) (h : D → E) (n : Nat) : Prop :=
  (∀ tok out, flep_get_operand B n (tok.map h) (out.map h) =
      (flep_get_operand A n tok out).map (PState.map h)) ∧
  (∀ tok out, flep_get_power B n (tok.map h) (out.map h) =
      (flep_get_power A n tok out).map (PState.map h)) ∧
  (∀ ret tok out, flep_get_power_loop B n ret (tok.map h) (out.map h) =
      (flep_get_power_loop A n ret tok out).map (PState.map h)) ∧
  (∀ tok out, flep_get_prod B n (tok.map h) (out.map h) =
      (flep_get_prod A n tok out).map (PState.map h)) ∧
  (∀ ret tok out, flep_get_prod_loop B n ret (tok.map h) (out.map h) =
      (flep_get_prod_loop A n ret tok out).map (PState.map h)) ∧
  (∀ tok out, flep_get_sum B n (tok.map h) (out.map h) =
      (flep_get_sum A n tok out).map (PState.map h)) ∧
  (∀ ret tok out, flep_get_sum_loop B n ret (tok.map h) (out.map h) =
      (flep_get_sum_loop A n ret tok out).map (PState.map h)) ∧
  (∀ op ret tok, flep_get_sum_signs B n op ret (tok.map h) =
      (flep_get_sum_signs A n op ret tok).map (fun r => (r.1, r.2.1, r.2.2.map h)))

/-! ## Notions for the completeness of constant folding -/

/-- The expression is built from literals, `e`, `pi`, binary operators and
parentheses only: no variable and no function call. -/
def Foldable : Expr → Prop
  | .var _ => False
  | .lit _ => True
  | .econst => True
  | .piconst => True
  | .paren x => Foldable x
  | .call _ _ => False
  | .pow l r => Foldable l ∧ Foldable r
  | .prod _ l r => Foldable l ∧ Foldable r
  | .sum _ l r => Foldable l ∧ Foldable r

/-- The loop of the optimizer gets from the scan index `i` on the program
`out` to the scan index `j` on the program `out'` in some number of rounds. -/
def Reaches {D : Type} (A : Arith D) (i : Int) (out : FLEP D) (j : Int) (out' : FLEP D) :
    Prop :=
  ∃ k, ∀ fuel, flep_optimize_loop A (fuel + k) i out = flep_optimize_loop A fuel j out'

/-- A pending operation on the value to the left: the pool slot of the right
operand, the opcode, the operation it selects and the value in the slot. -/
abbrev Pending (D : Type) := Nat × Nat × (D → D → D) × D

/-- The opcodes of a chain of pending operations: a constant reference and
an operator for each. -/
def chainCode {D : Type} : List (Pending D) → List Nat
  | [] => []
  | c :: t => FLEP_BITFUSE FLEP_CONST c.1 :: c.2.1 :: chainCode t

/-- The value a chain of pending operations makes of `v`. -/
def chainVal {D : Type} : D → List (Pending D) → D
  | v, [] => v
  | v, c :: t => chainVal (c.2.2.1 v c.2.2.2) t

/-- The chain fits the arithmetic and the pool, and its slots lie outside
`[lo, hi)`. -/
def ChainOK {D : Type} (A : Arith D) (data : List D) (lo hi : Nat) (ch : List (Pending D)) :
    Prop :=
  ∀ c ∈ ch, binary A c.2.1 = some c.2.2.1 ∧ data[c.1]? = some c.2.2.2 ∧ (c.1 < lo ∨ hi ≤ c.1)

/-- The opcode after a piece of code is not a constant reference (or there
is none). -/
def OpNext (post : List Nat) : Prop := ∀ w, post.head? = some w → FLEP_OPCODE w ≠ FLEP_CONST

/-- What the loop of the optimizer makes of a piece of code `cd nd` with
`nc` constants `pl` from pool slot `nd` on, entered at its last opcode when
no constant reference follows: the single reference to slot `nd`, which then
holds `v`, the scan index on it; slots outside the piece keep their
content. -/
def FoldR {D : Type} (A : Arith D) (cd : Nat → List Nat) (nc : Nat) (pl : List D) (v : D) :
    Prop :=
  ∀ (out : FLEP D) (pre post : List Nat) (nd : Nat),
    live out = pre ++ cd nd ++ post → out.nt ≤ out.text.length →
    (∀ j, j < nc → out.data[nd + j]? = pl[j]?) → OpNext post →
    ∃ out', Reaches A ((pre.length + (cd nd).length - 1 : Nat) : Int) out
        ((pre.length : Nat) : Int) out' ∧
      live out' = pre ++ FLEP_BITFUSE FLEP_CONST nd :: post ∧
      out'.nt ≤ out'.text.length ∧ out'.data[nd]? = some v ∧
      out'.data.length = out.data.length ∧
      ∀ j, j < nd ∨ nd + nc ≤ j → out'.data[j]? = out.data[j]?

/-- The same for a piece of code followed by a chain of pending operations
on its value, entered at the first constant reference of the chain: the
single reference to slot `nd`, which then holds what the chain makes of
`v`. -/
def FoldQ {D : Type} (A : Arith D) (cd : Nat → List Nat) (nc : Nat) (pl : List D) (v : D) :
    Prop :=
  ∀ (ch : List (Pending D)) (out : FLEP D) (pre post : List Nat) (nd : Nat), ch ≠ [] →
    live out = pre ++ cd nd ++ chainCode ch ++ post → out.nt ≤ out.text.length →
    (∀ j, j < nc → out.data[nd + j]? = pl[j]?) → ChainOK A out.data nd (nd + nc) ch →
    OpNext post →
    ∃ out', Reaches A ((pre.length + (cd nd).length : Nat) : Int) out
        ((pre.length : Nat) : Int) out' ∧
      live out' = pre ++ FLEP_BITFUSE FLEP_CONST nd :: post ∧
      out'.nt ≤ out'.text.length ∧ out'.data[nd]? = some (chainVal v ch) ∧
      out'.data.length = out.data.length ∧
      ∀ j, j < nd ∨ nd + nc ≤ j → out'.data[j]? = out.data[j]?

/-! ## Notions for the parser on arbitrary sources -/

/-- A bound on the number of tokens the parser can still step over: the
bytes after the current token, and the current token itself unless it is the
end of the input or a bad token. -/
def left {D : Type} (tok : FLEPTokens D) : Nat :=
  tok.src.length - tok.q +
    (if tok.curr = FLEP_END ∨ tok.curr = FLEP_BADTOKEN then 0 else 1)

/-- A property of token streams on which the parser can rely: `flep_next`
keeps it from every token that is neither the end of the input nor a bad
token, the stream is within its source, and a variable token carries one of
the seven indices. -/
structure StreamInv {D : Type} (A : Arith D) (P : FLEPTokens D → Prop) : Prop where
  /-- Kept by `flep_next`. -/
  next : ∀ tok, P tok → tok.curr ≠ FLEP_END → tok.curr ≠ FLEP_BADTOKEN → P (flep_next A tok)
  /-- The stream is within its source. -/
  within : ∀ tok, P tok → tok.q ≤ tok.src.length
  /-- The index of a variable token. -/
  index : ∀ tok, P tok → tok.curr = FLEP_VAR → tok.ival < 7

/-- Every variable reference of the opcode buffer carries one of the seven
indices. -/
def VarOK {D : Type} (out : FLEP D) : Prop :=
  ∀ w ∈ out.text, FLEP_OPCODE w = FLEP_VAR → FLEP_OPPARM w < 7

/-- What a parsing routine leaves behind when started in the stream `tok`:
the stream still has the property `P`, the return value is the kind of the
current token unless it is an error of `IsErr`, the variable references are
in range, and at least `k` tokens were stepped over unless an error is
returned. -/
def Good {D : Type} (P : FLEPTokens D → Prop) (k : Nat) (tok : FLEPTokens D)
    (r : PState D) : Prop :=
  P r.2.1 ∧ (r.1 = r.2.1.curr ∨ IsErr r.1) ∧ VarOK r.2.2 ∧
    (¬ IsErr r.1 → left r.2.1 + k ≤ left tok)

/-- The eight parsing routines return at fuel `n` when `n` is at least four
times the number of tokens left, plus the depth of the routine. -/
def TotalAt {D : Type} (A : Arith D) (P : FLEPTokens D → Prop) (n : Nat) : Prop :=
  (∀ tok out, P tok → VarOK out → 4 * left tok + 1 ≤ n →
      ∃ r, flep_get_operand A n tok out = some r ∧ Good P 1 tok r) ∧
  (∀ tok out, P tok → VarOK out → 4 * left tok + 2 ≤ n →
      ∃ r, flep_get_power A n tok out = some r ∧ Good P 1 tok r) ∧
  (∀ ret tok out, P tok → (ret = tok.curr ∨ IsErr ret) → VarOK out → 1 ≤ n →
      (ret = FLEP_POWER → 4 * left tok ≤ n) →
      ∃ r, flep_get_power_loop A n ret tok out = some r ∧ Good P 0 tok r ∧
        (IsErr ret → IsErr r.1)) ∧
  (∀ tok out, P tok → VarOK out → 4 * left tok + 3 ≤ n →
      ∃ r, flep_get_prod A n tok out = some r ∧ Good P 1 tok r) ∧
  (∀ ret tok out, P tok → (ret = tok.curr ∨ IsErr ret) → VarOK out → 1 ≤ n →
      (ret = FLEP_MULT ∨ ret = FLEP_DIV → 4 * left tok ≤ n) →
      ∃ r, flep_get_prod_loop A n ret tok out = some r ∧ Good P 0 tok r ∧
        (IsErr ret → IsErr r.1)) ∧
  (∀ tok out, P tok → VarOK out → 4 * left tok + 4 ≤ n →
      ∃ r, flep_get_sum A n tok out = some r ∧ Good P 1 tok r) ∧
  (∀ ret tok out, P tok → (ret = tok.curr ∨ IsErr ret) → VarOK out → 1 ≤ n →
      (ret = FLEP_PLUS ∨ ret = FLEP_MINUS → 4 * left tok ≤ n) →
      ∃ r, flep_get_sum_loop A n ret tok out = some r ∧ Good P 0 tok r ∧
        (IsErr ret → IsErr r.1)) ∧
  (∀ op tok, P tok → left tok + 1 ≤ n →
      ∃ r, flep_get_sum_signs A n op tok.curr tok = some r ∧ P r.2.2 ∧
        left r.2.2 ≤ left tok)

/-- The invariant of token streams that holds of every stream the lexer
produces. -/
def InSource {D : Type} (tok : FLEPTokens D) : Prop :=
  tok.q ≤ tok.src.length ∧ (tok.curr = FLEP_VAR → tok.ival < 7)

/-- The arithmetic on a one-point carrier. -/
def unitArith : Arith Unit :=
  ⟨fun _ => (), fun _ _ => (), fun _ _ => (), fun _ _ => (), fun _ _ => (), fun _ _ => (),
    fun _ => (), fun _ => (), fun _ => (), fun _ => (), fun _ => (), fun _ => (), fun _ => (),
    (), (), fun _ => (), ()⟩

/-- The token stream of a source after `k` further calls of `flep_next`. -/
def lexStream {D : Type} (A : Arith D) (s : List Char) : Nat → FLEPTokens D
  | 0 => flep_tokenize A s
  | k + 1 => flep_next A (lexStream A s k)

/-- The defines `FLEP_*` of flep.c (34-52) and flep.h (47-51): each name
with its value. -/
def defines : List (String × Nat) :=
  [("FLEP_OK", FLEP_OK), ("FLEP_UNARY_MINUS", FLEP_UNARY_MINUS), ("FLEP_OPEN", FLEP_OPEN),
   ("FLEP_CLOSE", FLEP_CLOSE), ("FLEP_PLUS", FLEP_PLUS), ("FLEP_MINUS", FLEP_MINUS),
   ("FLEP_MULT", FLEP_MULT), ("FLEP_DIV", FLEP_DIV), ("FLEP_POWER", FLEP_POWER),
   ("FLEP_VAR", FLEP_VAR), ("FLEP_CONST", FLEP_CONST), ("FLEP_SIN", FLEP_SIN),
   ("FLEP_COS", FLEP_COS), ("FLEP_TAN", FLEP_TAN), ("FLEP_EXP", FLEP_EXP),
   ("FLEP_LOG", FLEP_LOG), ("FLEP_ABS", FLEP_ABS), ("FLEP_SQRT", FLEP_SQRT),
   ("FLEP_START", FLEP_START), ("FLEP_END", FLEP_END), ("FLEP_BADSYNTAX", FLEP_BADSYNTAX),
   ("FLEP_BADTOKEN", FLEP_BADTOKEN), ("FLEP_EXPECTED_OPEN", FLEP_EXPECTED_OPEN),
   ("FLEP_UNBALANCED", FLEP_UNBALANCED)]

/-- Every reference among the used opcodes of a program is valid: a
constant reference carries an index below the number `nd` of used pool
slots, a variable reference an index from 0 to 6. -/
def IndexOK {D : Type} (f : FLEP D) : Prop :=
  ∀ w ∈ live f, (FLEP_OPCODE w = FLEP_CONST → FLEP_OPPARM w < f.nd) ∧
    (FLEP_OPCODE w = FLEP_VAR → FLEP_OPPARM w < 7)

/-- The alphabetic names the lexer knows: the seven variables, `e`, `pi`
and the seven functions. -/
def names : List (List Char) :=
  [['a'], ['b'], ['c'], ['x'], ['y'], ['z'], ['w'], ['e'], ['p', 'i'],
   ['s', 'i', 'n'], ['c', 'o', 's'], ['t', 'a', 'n'], ['e', 'x', 'p'], ['l', 'o', 'g'],
   ['a', 'b', 's'], ['s', 'q', 'r', 't']]

/-- The alphabetic run that starts where the current token starts; empty
when the token does not start with a letter. -/
def word {D : Type} (tok : FLEPTokens D) : List Char :=
  (tok.src.drop tok.p).takeWhile isalpha

/-- The expression `x` inside `k` pairs of parentheses. -/
def nest : Nat → Expr → Expr
  | 0, x => x
  | k + 1, x => .paren (nest k x)

/-- The chain `a^a^...^a` with `n` operators. -/
def chain : Nat → Expr
  | 0 => .var 0
  | n + 1 => .pow (.var 0) (chain n)

/-- The code contains no single-operand opcode: neither the unary minus nor
one of the seven functions. -/
def NoUnary (c : List Nat) : Prop :=
  ∀ w ∈ c, w ≠ FLEP_UNARY_MINUS ∧ ¬ (FLEP_SIN ≤ w ∧ w ≤ FLEP_SQRT)

/-- At index `m` of the code there is no pattern the third rule of the
optimizer rewrites: two constant references followed by a two-operand
opcode. -/
def Quiet3 {D : Type} (A : Arith D) (l : List Nat) (m : Nat) : Prop :=
  ∀ tm ti t1, l[m]? = some tm → l[m + 1]? = some ti → l[m + 2]? = some t1 →
    FLEP_OPCODE tm = FLEP_CONST → FLEP_OPCODE ti = FLEP_CONST → binary A t1 = none

/-- The used opcodes above the scan index `i` contain no pattern the third
rule rewrites. -/
def StableAbove {D : Type} (A : Arith D) (i : Int) (out : FLEP D) : Prop :=
  ∀ m : Nat, i < (m : Int) + 1 → Quiet3 A (live out) m

/-- The token stream of a source seen from one byte `c` earlier: the same
stream on the source `c :: src`. -/
def shift {D : Type} (c : Char) (tok : FLEPTokens D) : FLEPTokens D :=
  ⟨c :: tok.src, tok.p + 1, tok.q + 1, tok.ival, tok.fval, tok.curr, tok.last⟩

/-- The result of a parsing routine, with its token stream shifted. -/
def PState.shift {D : Type} (c : Char) (r : PState D) : PState D :=
  (r.1, Flep.shift c r.2.1, r.2.2)

/-- The eight parsing routines at fuel `n` do on a shifted stream what they
do on the stream. -/
def ShiftAt {D : Type} (A : Arith D) (c : Char) (n : Nat) : Prop :=
  (∀ tok out, flep_get_operand A n (shift c tok) out =
      (flep_get_operand A n tok out).map (PState.shift c)) ∧
  (∀ tok out, flep_get_power A n (shift c tok) out =
      (flep_get_power A n tok out).map (PState.shift c)) ∧
  (∀ ret tok out, flep_get_power_loop A n ret (shift c tok) out =
      (flep_get_power_loop A n ret tok out).map (PState.shift c)) ∧
  (∀ tok out, flep_get_prod A n (shift c tok) out =
      (flep_get_prod A n tok out).map (PState.shift c)) ∧
  (∀ ret tok out, flep_get_prod_loop A n ret (shift c tok) out =
      (flep_get_prod_loop A n ret tok out).map (PState.shift c)) ∧
  (∀ tok out, flep_get_sum A n (shift c tok) out =
      (flep_get_sum A n tok out).map (PState.shift c)) ∧
  (∀ ret tok out, flep_get_sum_loop A n ret (shift c tok) out =
      (flep_get_sum_loop A n ret tok out).map (PState.shift c)) ∧
  (∀ op ret tok, flep_get_sum_signs A n op ret (shift c tok) =
      (flep_get_sum_signs A n op ret tok).map (fun r => (r.1, r.2.1, shift c r.2.2)))

/-! ## Notions for the run of the optimizer -/

/-- What one round of the loop of `flep_optimize`, entered at the scan index
`n` on the program `out`, has done when it reaches the loop's `i--` with the
index `i'` and the program `out'`: nothing, and the index is the one it
was entered with; or a rewrite, which has made the logical length `nt` smaller by one or
by two and has raised the index by at most one. -/
def Progress {D : Type} (n : Nat) (out : FLEP D) (i' : Int) (out' : FLEP D) : Prop :=
  (out' = out ∧ i' = n) ∨
    ((out'.nt + 1 = out.nt ∨ out'.nt + 2 = out.nt) ∧ i' ≤ (n : Int) + 1)

/-- The scan index `i` of the optimizer is not above `nt`, and when it
equals `nt` the stale opcode it points at is a constant reference. -/
def ScanAt {D : Type} (i : Int) (out : FLEP D) : Prop :=
  i ≤ out.nt ∧ (i = out.nt → ∃ w, out.text[out.nt]? = some w ∧ FLEP_OPCODE w = FLEP_CONST)

/-- Every read of the optimizer stays inside a buffer of the program: the
used opcodes lie within the opcode buffer, every constant reference among
them names a slot of the pool, and the first of them is no unary minus. -/
def Readable {D : Type} (out : FLEP D) : Prop :=
  out.nt ≤ out.text.length ∧
    (∀ w ∈ live out, FLEP_OPCODE w = FLEP_CONST → FLEP_OPPARM w < out.data.length) ∧
    (live out)[0]? ≠ some FLEP_UNARY_MINUS

/-- The invariant of the run of the optimizer on a program whose reads stay
inside the buffers, `N` being the logical length the run started with: the
first `N` opcodes of the buffer are the ones the run can reach, the scan
index is below `N - 1`, and the conditions of `Readable` and `ScanAt`
hold. -/
def RunOK {D : Type} (N : Nat) (i : Int) (out : FLEP D) : Prop :=
  N ≤ out.text.length ∧ out.nt ≤ N ∧ i + 1 < (N : Int) ∧
    (∀ w ∈ out.text.take N, FLEP_OPCODE w = FLEP_CONST → FLEP_OPPARM w < out.data.length) ∧
    out.text[0]? ≠ some FLEP_UNARY_MINUS ∧ ScanAt i out

/-- The state of the `for` loop of `flep_optimize` after `k` rounds (or at
its exit, if it is left before): the scan index the next round is entered
with and the program. -/
def flep_optimize_rounds {D : Type} (A : Arith D) :
    Nat → Int → FLEP D → Except Fault (Int × FLEP D)
  | 0, i, out => .ok (i, out)
  | k + 1, i, out =>
    if i < 0 then .ok (i, out)
    else
      match flep_optimize_body A i out with
      | .error e => .error e
      | .ok (i, out) => flep_optimize_rounds A k (i - 1) out

/-! ## The lexer and the parser with the lookup of an absent byte made explicit

`flep_next` computes `int i = strchr(vars, *tok->p) - vars` and tests
`i >= 0`, and the same with `sym`.  When the byte is not in the string,
`strchr` returns the null pointer and the difference is not defined by the
C standard; what the test sees is then the `int` a given build makes of it.
The definitions of this section take these two values as the parameters
`dv` (for `vars`) and `ds` (for `sym`).  With negative values they are the
definitions `flep_next`, ..., `flep_parse` above. -/

/-- The function `flep_next`, where `dv` is the value of
`strchr(vars, c) - vars` and `ds` the value of `strchr(sym, c) - sym` for a
byte `c` that `strchr` does not find (values for which `FLEP_OPEN + ds` is no
`int` are not meant). -/
def flep_next_at {D : Type} (dv ds : Int) (A : Arith D) (tok : FLEPTokens D) :
    FLEPTokens D :=
  let tok := { tok with last := tok.curr }
  let tok := { tok with p := tok.q }
  let tok := { tok with p := tok.p + ((tok.src.drop tok.p).takeWhile isspace).length }
  let tok := { tok with curr := FLEP_BADTOKEN }
  let c := peek tok.src tok.p
  if c = Char.ofNat 0 then
    { tok with curr := FLEP_END }
  else if isalpha c then
    let tok := { tok with
      q := tok.p + 1 + ((tok.src.drop (tok.p + 1)).takeWhile isalpha).length }
    if tok.q - tok.p = 1 then
      if c = 'e' then
        { tok with curr := FLEP_CONST, fval := A.exp A.one }
      else
        match firstIndex vars c with
        | some i => { tok with curr := FLEP_VAR, ival := i }
        | none => if 0 ≤ dv then { tok with curr := FLEP_VAR, ival := dv.toNat } else tok
    else if tok.q - tok.p = 2 then
      if (tok.src.drop tok.p).take 2 = ['p', 'i'] then
        { tok with curr := FLEP_CONST, fval := A.pi }
      else tok
    else if tok.q - tok.p = 3 then
      match firstIndex built_in ((tok.src.drop tok.p).take 3) with
      | some i => { tok with curr := FLEP_SIN + i }
      | none => tok
    else if tok.q - tok.p = 4 then
      if (tok.src.drop tok.p).take 4 = ['s', 'q', 'r', 't'] then
        { tok with curr := FLEP_SQRT }
      else tok
    else tok
  else if isdigit c then
    let n := strtodLen (tok.src.drop tok.p)
    { tok with fval := A.strtod ((tok.src.drop tok.p).take n),
               curr := FLEP_CONST, q := tok.p + n }
  else
    match firstIndex sym c with
    | some i => { tok with curr := FLEP_OPEN + i, q := tok.p + 1 }
    | none =>
      if 0 ≤ ds then { tok with curr := FLEP_OPEN + ds.toNat, q := tok.p + 1 } else tok

/-- The function `flep_tokenize`, reading the first token with
`flep_next_at`. -/
def flep_tokenize_at {D : Type} (dv ds : Int) (A : Arith D) (s : List Char) :
    FLEPTokens D :=
  flep_next_at dv ds A
    { src := s, p := 0, q := 0, ival := 0, fval := A.indet,
      curr := FLEP_START, last := 0 }

mutual

/-- The function `flep_get_operand`, reading its tokens with `flep_next_at`. -/
def flep_get_operand_at {D : Type} (dv ds : Int) (A : Arith D) :
    Nat → FLEPTokens D → FLEP D → Option (PState D)
  | 0, _, _ => none
  | fuel + 1, tok, out =>
    if tok.curr = FLEP_OPEN then
      let tok := flep_next_at dv ds A tok
      match flep_get_sum_at dv ds A fuel tok out with
      | none => none
      | some (ret, tok, out) =>
        if ret ≠ FLEP_CLOSE then some (FLEP_UNBALANCED, tok, out)
        else
          let tok := flep_next_at dv ds A tok
          some (tok.curr, tok, out)
    else if tok.curr = FLEP_PLUS then
      if tok.last = FLEP_START ∨ tok.last = FLEP_OPEN ∨
          tok.last = FLEP_PLUS ∨ tok.last = FLEP_MULT ∨
          tok.last = FLEP_DIV ∨ tok.last = FLEP_POWER then
        let tok := flep_next_at dv ds A tok
        flep_get_operand_at dv ds A fuel tok out
      else some (FLEP_BADSYNTAX, tok, out)
    else if tok.curr = FLEP_MINUS then
      if tok.last = FLEP_START ∨ tok.last = FLEP_OPEN ∨
          tok.last = FLEP_MULT ∨ tok.last = FLEP_DIV then
        let tok := flep_next_at dv ds A tok
        match flep_get_prod_at dv ds A fuel tok out with
        | none => none
        | some (ret, tok, out) =>
          some (ret, tok, flep_add_opcode out FLEP_UNARY_MINUS)
      else if tok.last = FLEP_POWER then
        let tok := flep_next_at dv ds A tok
        match flep_get_power_at dv ds A fuel tok out with
        | none => none
        | some (ret, tok, out) =>
          some (ret, tok, flep_add_opcode out FLEP_UNARY_MINUS)
      else
        let tok := flep_next_at dv ds A tok
        match flep_get_operand_at dv ds A fuel tok out with
        | none => none
        | some (ret, tok, out) =>
          some (ret, tok, flep_add_opcode out FLEP_MINUS)
    else if FLEP_SIN ≤ tok.curr ∧ tok.curr ≤ FLEP_SQRT then
      let op := tok.curr
      let tok := flep_next_at dv ds A tok
      if tok.curr ≠ FLEP_OPEN then some (FLEP_EXPECTED_OPEN, tok, out)
      else
        match flep_get_operand_at dv ds A fuel tok out with
        | none => none
        | some (ret, tok, out) => some (ret, tok, flep_add_opcode out op)
    else if tok.curr = FLEP_CONST then
      let out := flep_add_data out tok.fval
      let out := flep_add_opcode out (FLEP_BITFUSE FLEP_CONST (out.nd - 1))
      let tok := flep_next_at dv ds A tok
      some (tok.curr, tok, out)
    else if tok.curr = FLEP_VAR then
      let out := flep_add_opcode out (FLEP_BITFUSE FLEP_VAR tok.ival)
      let tok := flep_next_at dv ds A tok
      some (tok.curr, tok, out)
    else some (FLEP_BADSYNTAX, tok, out)

/-- The function `flep_get_power`, reading its tokens with `flep_next_at`. -/
def flep_get_power_at {D : Type} (dv ds : Int) (A : Arith D) :
    Nat → FLEPTokens D → FLEP D → Option (PState D)
  | 0, _, _ => none
  | fuel + 1, tok, out =>
    match flep_get_operand_at dv ds A fuel tok out with
    | none => none
    | some (ret, tok, out) => flep_get_power_loop_at dv ds A fuel ret tok out

/-- The `while (ret == FLEP_POWER)` loop of `flep_get_power`, reading its
tokens with `flep_next_at`. -/
def flep_get_power_loop_at {D : Type} (dv ds : Int) (A : Arith D) :
    Nat → Nat → FLEPTokens D → FLEP D → Option (PState D)
  | 0, _, _, _ => none
  | fuel + 1, ret, tok, out =>
    if ret = FLEP_POWER then
      let tok := flep_next_at dv ds A tok
      match flep_get_power_at dv ds A fuel tok out with
      | none => none
      | some (ret, tok, out) =>
        flep_get_power_loop_at dv ds A fuel ret tok (flep_add_opcode out FLEP_POWER)
    else some (ret, tok, out)

/-- The function `flep_get_prod`, reading its tokens with `flep_next_at`. -/
def flep_get_prod_at {D : Type} (dv ds : Int) (A : Arith D) :
    Nat → FLEPTokens D → FLEP D → Option (PState D)
  | 0, _, _ => none
  | fuel + 1, tok, out =>
    match flep_get_power_at dv ds A fuel tok out with
    | none => none
    | some (ret, tok, out) => flep_get_prod_loop_at dv ds A fuel ret tok out

/-- The `while (ret == FLEP_MULT || ret == FLEP_DIV)` loop of
`flep_get_prod`, reading its tokens with `flep_next_at`. -/
def flep_get_prod_loop_at {D : Type} (dv ds : Int) (A : Arith D) :
    Nat → Nat → FLEPTokens D → FLEP D → Option (PState D)
  | 0, _, _, _ => none
  | fuel + 1, ret, tok, out =>
    if ret = FLEP_MULT ∨ ret = FLEP_DIV then
      let op := ret
      let tok := flep_next_at dv ds A tok
      match flep_get_power_at dv ds A fuel tok out with
      | none => none
      | some (ret, tok, out) =>
        flep_get_prod_loop_at dv ds A fuel ret tok (flep_add_opcode out op)
    else some (ret, tok, out)

/-- The function `flep_get_sum`, reading its tokens with `flep_next_at`. -/
def flep_get_sum_at {D : Type} (dv ds : Int) (A : Arith D) :
    Nat → FLEPTokens D → FLEP D → Option (PState D)
  | 0, _, _ => none
  | fuel + 1, tok, out =>
    match flep_get_prod_at dv ds A fuel tok out with
    | none => none
    | some (ret, tok, out) => flep_get_sum_loop_at dv ds A fuel ret tok out

/-- The outer `while (ret == FLEP_PLUS || ret == FLEP_MINUS)` loop of
`flep_get_sum`, reading its tokens with `flep_next_at`. -/
def flep_get_sum_loop_at {D : Type} (dv ds : Int) (A : Arith D) :
    Nat → Nat → FLEPTokens D → FLEP D → Option (PState D)
  | 0, _, _, _ => none
  | fuel + 1, ret, tok, out =>
    if ret = FLEP_PLUS ∨ ret = FLEP_MINUS then
      let op := ret
      let tok := flep_next_at dv ds A tok
      match flep_get_sum_signs_at dv ds A fuel op tok.curr tok with
      | none => none
      | some (op, _, tok) =>
        match flep_get_prod_at dv ds A fuel tok out with
        | none => none
        | some (ret, tok, out) =>
          flep_get_sum_loop_at dv ds A fuel ret tok (flep_add_opcode out op)
    else some (ret, tok, out)

/-- The inner `while (ret == FLEP_PLUS || ret == FLEP_MINUS)` loop of
`flep_get_sum`, reading its tokens with `flep_next_at`. -/
def flep_get_sum_signs_at {D : Type} (dv ds : Int) (A : Arith D) :
    Nat → Nat → Nat → FLEPTokens D → Option (Nat × Nat × FLEPTokens D)
  | 0, _, _, _ => none
  | fuel + 1, op, ret, tok =>
    if ret = FLEP_PLUS ∨ ret = FLEP_MINUS then
      let op := if op = ret then FLEP_PLUS else FLEP_MINUS
      let tok := flep_next_at dv ds A tok
      flep_get_sum_signs_at dv ds A fuel op tok.curr tok
    else some (op, ret, tok)

end

/-- The parsing phase of `flep_parse`, reading its tokens with
`flep_next_at`. -/
def flep_compile_at {D : Type} (dv ds : Int) (A : Arith D) (s : List Char) :
    Option (PState D) :=
  flep_get_sum_at dv ds A (parseFuel s) (flep_tokenize_at dv ds A s)
    { data := [], text := [], nd := 0, nt := 0 }

/-- The function `flep_parse`, reading its tokens with `flep_next_at`. -/
def flep_parse_at {D : Type} (dv ds : Int) (A : Arith D) (s : List Char)
    (error position : Int) : Except Fault (Option (FLEP D) × Int × Int) :=
  match flep_compile_at dv ds A s with
  | none => .error .fuel
  | some (status, tok, out) =>
    if status = FLEP_END then
      match flep_optimize A out with
      | .error e => .error e
      | .ok out => .ok (some (flep_add_opcode out FLEP_END), error, position)
    else .ok (none, (status : Int), (tok.p : Int) - 0 + 1)

/-- The eight parsing routines at fuel `n` with the differences `dv` and
`ds` are those with `flep_next`. -/
def SameAt {D : Type} (dv ds : Int) (A : Arith D) (n : Nat) : Prop :=
  (∀ tok out, flep_get_operand_at dv ds A n tok out = flep_get_operand A n tok out) ∧
  (∀ tok out, flep_get_power_at dv ds A n tok out = flep_get_power A n tok out) ∧
  (∀ ret tok out, flep_get_power_loop_at dv ds A n ret tok out =
      flep_get_power_loop A n ret tok out) ∧
  (∀ tok out, flep_get_prod_at dv ds A n tok out = flep_get_prod A n tok out) ∧
  (∀ ret tok out, flep_get_prod_loop_at dv ds A n ret tok out =
      flep_get_prod_loop A n ret tok out) ∧
  (∀ tok out, flep_get_sum_at dv ds A n tok out = flep_get_sum A n tok out) ∧
  (∀ ret tok out, flep_get_sum_loop_at dv ds A n ret tok out =
      flep_get_sum_loop A n ret tok out) ∧
  (∀ op ret tok, flep_get_sum_signs_at dv ds A n op ret tok =
      flep_get_sum_signs A n op ret tok)

/-! # Theorems -/

section

/-! ## Packing lemmas -/

theorem opcode_bitfuse (a b : Nat) (h : a < 256) :
    FLEP_OPCODE (FLEP_BITFUSE a b) = a := by
  unfold FLEP_OPCODE FLEP_BITFUSE
  have e1 : (255 : Nat) = 2 ^ 8 - 1 := by norm_num
  have e2 : a ||| b <<< 8 = 2 ^ 8 * b + a := by
    rw [Nat.shiftLeft_eq, Nat.mul_comm, Nat.mul_add_lt_is_or (by simpa using h), Nat.or_comm]
  rw [e1, Nat.and_pow_two_sub_one_eq_mod, e2]
  omega

theorem opparm_bitfuse (a b : Nat) (h : a < 256) :
    FLEP_OPPARM (FLEP_BITFUSE a b) = b := by
  unfold FLEP_OPPARM FLEP_BITFUSE
  have e2 : a ||| b <<< 8 = 2 ^ 8 * b + a := by
    rw [Nat.shiftLeft_eq, Nat.mul_comm, Nat.mul_add_lt_is_or (by simpa using h), Nat.or_comm]
  rw [e2, Nat.shiftRight_eq_div_pow]
  omega

theorem opcode_small (a : Nat) (h : a < 256) : FLEP_OPCODE a = a := by
  unfold FLEP_OPCODE
  have e1 : (255 : Nat) = 2 ^ 8 - 1 := by norm_num
  rw [e1, Nat.and_pow_two_sub_one_eq_mod]
  omega

theorem bitfuse_ne_small (a b c : Nat) (ha : a < 256) (hc : c < 256) (h : a ≠ c) :
    FLEP_BITFUSE a b ≠ c := by
  intro e
  have := opcode_bitfuse a b ha
  rw [e, opcode_small c hc] at this
  exact h this.symm

theorem opcode_var (i : Nat) : FLEP_OPCODE (FLEP_BITFUSE FLEP_VAR i) = 9 :=
  opcode_bitfuse 9 i (by norm_num)

theorem opparm_var (i : Nat) : FLEP_OPPARM (FLEP_BITFUSE FLEP_VAR i) = i :=
  opparm_bitfuse 9 i (by norm_num)

theorem opcode_const (k : Nat) : FLEP_OPCODE (FLEP_BITFUSE FLEP_CONST k) = 10 :=
  opcode_bitfuse 10 k (by norm_num)

theorem opparm_const (k : Nat) : FLEP_OPPARM (FLEP_BITFUSE FLEP_CONST k) = k :=
  opparm_bitfuse 10 k (by norm_num)

end

section

/-! ## Lexer lemmas -/

theorem delim_nil : Delim [] := by intro c h; simp at h

theorem delim_cons {c : Char} {t : List Char} (h : c ∈ sym) : Delim (c :: t) := by
  intro d hd; simp at hd; subst hd; exact h

theorem peek_of_drop {s : List Char} {i : Nat} {c : Char} {t : List Char}
    (h : s.drop i = c :: t) : peek s i = c := by
  have h1 : (s.drop i).head? = some c := by rw [h]; rfl
  rw [List.head?_drop] at h1
  simp [peek, List.getD_eq_getElem?_getD, h1]

theorem peek_of_drop_nil {s : List Char} {i : Nat}
    (h : s.drop i = []) : peek s i = Char.ofNat 0 := by
  have h1 : (s.drop i).head? = none := by rw [h]; rfl
  rw [List.head?_drop] at h1
  simp [peek, List.getD_eq_getElem?_getD, h1]

theorem sym_facts {c : Char} (h : c ∈ sym) :
    isspace c = false ∧ isalpha c = false ∧ isdigit c = false ∧ c ≠ Char.ofNat 0 := by
  simp only [sym, List.mem_cons, List.mem_singleton, List.not_mem_nil, or_false] at h
  rcases h with rfl | rfl | rfl | rfl | rfl | rfl | rfl <;> decide

theorem takeWhile_alpha_delim {t : List Char} (h : Delim t) : t.takeWhile isalpha = [] := by
  cases t with
  | nil => rfl
  | cons c t =>
    have := (sym_facts (h c rfl)).2.1
    simp [List.takeWhile, this]

/-- Lexing an operator or a parenthesis. -/
theorem flep_next_sym {D : Type} (A : Arith D) (tok : FLEPTokens D) {c : Char}
    {t : List Char} {k : Nat} (h : tok.src.drop tok.q = c :: t)
    (hk : firstIndex sym c = some k) :
    flep_next A tok =
      ⟨tok.src, tok.q, tok.q + 1, tok.ival, tok.fval, FLEP_OPEN + k, tok.curr⟩ := by
  have hc : c ∈ sym := by
    simp only [sym] at hk ⊢
    by_contra hn
    simp only [List.mem_cons, List.mem_singleton, List.not_mem_nil, or_false, not_or] at hn
    obtain ⟨h1, h2, h3, h4, h5, h6, h7⟩ := hn
    simp [firstIndex, Ne.symm h1, Ne.symm h2, Ne.symm h3, Ne.symm h4, Ne.symm h5, Ne.symm h6,
      Ne.symm h7] at hk
  obtain ⟨f1, f2, f3, f4⟩ := sym_facts hc
  unfold flep_next
  simp [h, List.takeWhile, f1, peek_of_drop h, f2, f3, f4, hk]

/-- Lexing the end of the source. -/
theorem flep_next_end {D : Type} (A : Arith D) (tok : FLEPTokens D)
    (h : tok.src.drop tok.q = []) :
    flep_next A tok =
      ⟨tok.src, tok.q, tok.q, tok.ival, tok.fval, FLEP_END, tok.curr⟩ := by
  unfold flep_next
  simp [h, peek_of_drop_nil h]

end

section

theorem run_length (a b : Nat) : a + 1 + b - a = 1 + b := by omega

theorem drop_succ_of_drop {s : List Char} {i : Nat} {c : Char} {t : List Char}
    (h : s.drop i = c :: t) : s.drop (i + 1) = t := by
  have : s.drop (i + 1) = (s.drop i).drop 1 := by rw [List.drop_drop, Nat.add_comm]
  rw [this, h]; rfl

theorem drop_add_of_drop {s : List Char} {i : Nat} {u t : List Char}
    (h : s.drop i = u ++ t) : s.drop (i + u.length) = t := by
  have : s.drop (i + u.length) = (s.drop i).drop u.length := by
    rw [List.drop_drop, Nat.add_comm]
  rw [this, h]; simp

theorem digit_facts {c : Char} (h : isdigit c = true) :
    isspace c = false ∧ isalpha c = false ∧ c ≠ Char.ofNat 0 := by
  simp only [isdigit, Bool.and_eq_true, decide_eq_true_eq] at h
  refine ⟨?_, ?_, ?_⟩
  · simp only [isspace, Bool.or_eq_false_iff, decide_eq_false_iff_not, Bool.and_eq_false_iff]
    omega
  · simp only [isalpha, Bool.or_eq_false_iff, decide_eq_false_iff_not, Bool.and_eq_false_iff]
    omega
  · intro e
    rw [e] at h
    revert h
    decide

/-- Lexing a numeric literal. -/
theorem flep_next_lit {D : Type} (A : Arith D) (tok : FLEPTokens D) {s t : List Char}
    (h : tok.src.drop tok.q = s ++ t) (hs : Literal s) (ht : Delim t) :
    flep_next A tok =
      ⟨tok.src, tok.q, tok.q + s.length, tok.ival, A.strtod s, FLEP_CONST, tok.curr⟩ := by
  obtain ⟨⟨c, u, rfl, hc⟩, hlen⟩ := hs
  obtain ⟨f1, f2, f3⟩ := digit_facts hc
  have hl := hlen t ht
  unfold flep_next
  simp only [List.cons_append] at h hl
  simp [h, List.takeWhile, f1, peek_of_drop h, f2, f3, hc, hl]

theorem vars_facts {c : Char} {i : Nat} (h : firstIndex vars c = some i) :
    isspace c = false ∧ isalpha c = true ∧ c ≠ Char.ofNat 0 ∧ c ≠ 'e' := by
  have hc : c ∈ vars := by
    by_contra hn
    simp only [vars, List.mem_cons, List.mem_singleton, List.not_mem_nil, or_false, not_or] at hn
    obtain ⟨h1, h2, h3, h4, h5, h6, h7⟩ := hn
    simp [firstIndex, vars, Ne.symm h1, Ne.symm h2, Ne.symm h3, Ne.symm h4, Ne.symm h5,
      Ne.symm h6, Ne.symm h7] at h
  simp only [vars, List.mem_cons, List.mem_singleton, List.not_mem_nil, or_false] at hc
  rcases hc with rfl | rfl | rfl | rfl | rfl | rfl | rfl <;> decide

/-- Lexing a variable letter. -/
theorem flep_next_var {D : Type} (A : Arith D) (tok : FLEPTokens D) {c : Char}
    {t : List Char} {i : Nat} (h : tok.src.drop tok.q = c :: t)
    (hi : firstIndex vars c = some i) (ht : Delim t) :
    flep_next A tok =
      ⟨tok.src, tok.q, tok.q + 1, i, tok.fval, FLEP_VAR, tok.curr⟩ := by
  obtain ⟨f1, f2, f3, f4⟩ := vars_facts hi
  unfold flep_next
  simp [h, List.takeWhile, f1, peek_of_drop h, f2, f3, f4, drop_succ_of_drop h,
    takeWhile_alpha_delim ht, hi]

/-- Lexing the constant `e`. -/
theorem flep_next_e {D : Type} (A : Arith D) (tok : FLEPTokens D)
    {t : List Char} (h : tok.src.drop tok.q = 'e' :: t) (ht : Delim t) :
    flep_next A tok =
      ⟨tok.src, tok.q, tok.q + 1, tok.ival, A.exp A.one, FLEP_CONST, tok.curr⟩ := by
  have f1 : isspace 'e' = false := by decide
  have f2 : isalpha 'e' = true := by decide
  have f3 : 'e' ≠ Char.ofNat 0 := by decide
  unfold flep_next
  simp [h, List.takeWhile, f1, peek_of_drop h, f2, f3, drop_succ_of_drop h,
    takeWhile_alpha_delim ht]

/-- Lexing the constant `pi`. -/
theorem flep_next_pi {D : Type} (A : Arith D) (tok : FLEPTokens D)
    {t : List Char} (h : tok.src.drop tok.q = 'p' :: 'i' :: t) (ht : Delim t) :
    flep_next A tok =
      ⟨tok.src, tok.q, tok.q + 2, tok.ival, A.pi, FLEP_CONST, tok.curr⟩ := by
  have f1 : isspace 'p' = false := by decide
  have f2 : isalpha 'p' = true := by decide
  have f3 : 'p' ≠ Char.ofNat 0 := by decide
  have f4 : isalpha 'i' = true := by decide
  unfold flep_next
  simp [h, List.takeWhile, f1, peek_of_drop h, f2, f3, f4, drop_succ_of_drop h,
    takeWhile_alpha_delim ht, run_length]

/-- Lexing a function name. -/
theorem flep_next_fn {D : Type} (A : Arith D) (tok : FLEPTokens D) {name : List Char}
    {t : List Char} {k : Nat} (h : tok.src.drop tok.q = name ++ t)
    (hk : fnames.get? k = some name) (ht : Delim t) :
    flep_next A tok =
      ⟨tok.src, tok.q, tok.q + name.length, tok.ival, tok.fval, FLEP_SIN + k, tok.curr⟩ := by
  have hta := takeWhile_alpha_delim ht
  have hcases : k < 7 := by
    by_contra hn
    have : fnames.get? k = none := by
      apply List.get?_eq_none.mpr
      simp [fnames, built_in]; omega
    rw [this] at hk; cases hk
  interval_cases k <;>
    · simp only [fnames, built_in, List.cons_append, List.nil_append, List.get?, Option.some.injEq] at hk
      subst hk
      simp only [List.cons_append, List.nil_append] at h
      have h1 := drop_succ_of_drop h
      unfold flep_next
      simp [h, h1, List.takeWhile, peek_of_drop h, isspace, isalpha, hta, firstIndex, built_in,
        run_length]

end

section

/-! ## More fuel never changes a parse -/

set_option maxHeartbeats 1000000 in
theorem monoAt {D : Type} (A : Arith D) (n : Nat) : MonoAt A n := by
  induction n with
  | zero =>
    refine ⟨?_, ?_, ?_, ?_, ?_, ?_, ?_, ?_⟩
    · intro tok out h; exact absurd (by rw [flep_get_operand]) h
    · intro tok out h; exact absurd (by rw [flep_get_power]) h
    · intro ret tok out h; exact absurd (by rw [flep_get_power_loop]) h
    · intro tok out h; exact absurd (by rw [flep_get_prod]) h
    · intro ret tok out h; exact absurd (by rw [flep_get_prod_loop]) h
    · intro tok out h; exact absurd (by rw [flep_get_sum]) h
    · intro ret tok out h; exact absurd (by rw [flep_get_sum_loop]) h
    · intro op ret tok h; exact absurd (by rw [flep_get_sum_signs]) h
  | succ n ih =>
    obtain ⟨i1, i2, i3, i4, i5, i6, i7, i8⟩ := ih
    refine ⟨?_, ?_, ?_, ?_, ?_, ?_, ?_, ?_⟩
    · intro tok out h
      conv_lhs => rw [flep_get_operand]
      conv_rhs => rw [flep_get_operand]
      rw [flep_get_operand] at h
      try dsimp only at h ⊢
      split_ifs at h ⊢
      · have hc : flep_get_sum A n (flep_next A tok) out ≠ none := by
          intro e; simp [e] at h
        rw [i6 _ _ hc]
      · exact i1 _ _ h
      · rfl
      · have hc : flep_get_prod A n (flep_next A tok) out ≠ none := by
          intro e; simp [e] at h
        rw [i4 _ _ hc]
      · have hc : flep_get_power A n (flep_next A tok) out ≠ none := by
          intro e; simp [e] at h
        rw [i2 _ _ hc]
      · have hc : flep_get_operand A n (flep_next A tok) out ≠ none := by
          intro e; simp [e] at h
        rw [i1 _ _ hc]
      · rfl
      · have hc : flep_get_operand A n (flep_next A tok) out ≠ none := by
          intro e; simp [e] at h
        rw [i1 _ _ hc]
      · rfl
      · rfl
      · rfl
    · intro tok out h
      conv_lhs => rw [flep_get_power]
      conv_rhs => rw [flep_get_power]
      rw [flep_get_power] at h
      try dsimp only at h ⊢
      cases hc : flep_get_operand A n tok out with
      | none => simp [hc] at h
      | some x =>
        obtain ⟨ret, tok1, out1⟩ := x
        simp only [hc] at h
        rw [i1 _ _ (by simp [hc]), hc]
        exact i3 _ _ _ h
    · intro ret tok out h
      conv_lhs => rw [flep_get_power_loop]
      conv_rhs => rw [flep_get_power_loop]
      rw [flep_get_power_loop] at h
      try dsimp only at h ⊢
      split_ifs at h ⊢
      · cases hc : flep_get_power A n (flep_next A tok) out with
        | none => simp [hc] at h
        | some x =>
          obtain ⟨ret1, tok1, out1⟩ := x
          simp only [hc] at h
          rw [i2 _ _ (by simp [hc]), hc]
          exact i3 _ _ _ h
      · rfl
    · intro tok out h
      conv_lhs => rw [flep_get_prod]
      conv_rhs => rw [flep_get_prod]
      rw [flep_get_prod] at h
      try dsimp only at h ⊢
      cases hc : flep_get_power A n tok out with
      | none => simp [hc] at h
      | some x =>
        obtain ⟨ret, tok1, out1⟩ := x
        simp only [hc] at h
        rw [i2 _ _ (by simp [hc]), hc]
        exact i5 _ _ _ h
    · intro ret tok out h
      conv_lhs => rw [flep_get_prod_loop]
      conv_rhs => rw [flep_get_prod_loop]
      rw [flep_get_prod_loop] at h
      try dsimp only at h ⊢
      split_ifs at h ⊢
      · cases hc : flep_get_power A n (flep_next A tok) out with
        | none => simp [hc] at h
        | some x =>
          obtain ⟨ret1, tok1, out1⟩ := x
          simp only [hc] at h
          rw [i2 _ _ (by simp [hc]), hc]
          exact i5 _ _ _ h
      · rfl
    · intro tok out h
      conv_lhs => rw [flep_get_sum]
      conv_rhs => rw [flep_get_sum]
      rw [flep_get_sum] at h
      try dsimp only at h ⊢
      cases hc : flep_get_prod A n tok out with
      | none => simp [hc] at h
      | some x =>
        obtain ⟨ret, tok1, out1⟩ := x
        simp only [hc] at h
        rw [i4 _ _ (by simp [hc]), hc]
        exact i7 _ _ _ h
    · intro ret tok out h
      conv_lhs => rw [flep_get_sum_loop]
      conv_rhs => rw [flep_get_sum_loop]
      rw [flep_get_sum_loop] at h
      try dsimp only at h ⊢
      split_ifs at h ⊢
      · cases hs : flep_get_sum_signs A n ret (flep_next A tok).curr (flep_next A tok) with
        | none => simp [hs] at h
        | some y =>
          obtain ⟨op1, ret0, tok0⟩ := y
          simp only [hs] at h
          rw [i8 _ _ _ (by simp [hs]), hs]
          cases hc : flep_get_prod A n tok0 out with
          | none => simp [hc] at h
          | some x =>
            obtain ⟨ret1, tok1, out1⟩ := x
            simp only [hc] at h
            simp only []
            rw [i4 _ _ (by simp [hc]), hc]
            exact i7 _ _ _ h
      · rfl
    · intro op ret tok h
      conv_lhs => rw [flep_get_sum_signs]
      conv_rhs => rw [flep_get_sum_signs]
      rw [flep_get_sum_signs] at h
      try dsimp only at h ⊢
      split_ifs at h ⊢
      · exact i8 _ _ _ h
      · exact i8 _ _ _ h
      · rfl

end

section

variable {D : Type} (A : Arith D)

theorem operand_mono {n m : Nat} (hm : n ≤ m) {tok : FLEPTokens D} {out : FLEP D}
    {r : PState D} (h : flep_get_operand A n tok out = some r) :
    flep_get_operand A m tok out = some r := by
  induction hm with
  | refl => exact h
  | step _ ih => rw [(monoAt A _).1 tok out (by rw [ih]; simp), ih]

theorem power_mono {n m : Nat} (hm : n ≤ m) {tok : FLEPTokens D} {out : FLEP D}
    {r : PState D} (h : flep_get_power A n tok out = some r) :
    flep_get_power A m tok out = some r := by
  induction hm with
  | refl => exact h
  | step _ ih => rw [(monoAt A _).2.1 tok out (by rw [ih]; simp), ih]

theorem power_loop_mono {n m : Nat} (hm : n ≤ m) {ret : Nat} {tok : FLEPTokens D}
    {out : FLEP D} {r : PState D} (h : flep_get_power_loop A n ret tok out = some r) :
    flep_get_power_loop A m ret tok out = some r := by
  induction hm with
  | refl => exact h
  | step _ ih => rw [(monoAt A _).2.2.1 ret tok out (by rw [ih]; simp), ih]

theorem prod_mono {n m : Nat} (hm : n ≤ m) {tok : FLEPTokens D} {out : FLEP D}
    {r : PState D} (h : flep_get_prod A n tok out = some r) :
    flep_get_prod A m tok out = some r := by
  induction hm with
  | refl => exact h
  | step _ ih => rw [(monoAt A _).2.2.2.1 tok out (by rw [ih]; simp), ih]

theorem prod_loop_mono {n m : Nat} (hm : n ≤ m) {ret : Nat} {tok : FLEPTokens D}
    {out : FLEP D} {r : PState D} (h : flep_get_prod_loop A n ret tok out = some r) :
    flep_get_prod_loop A m ret tok out = some r := by
  induction hm with
  | refl => exact h
  | step _ ih => rw [(monoAt A _).2.2.2.2.1 ret tok out (by rw [ih]; simp), ih]

theorem sum_mono {n m : Nat} (hm : n ≤ m) {tok : FLEPTokens D} {out : FLEP D}
    {r : PState D} (h : flep_get_sum A n tok out = some r) :
    flep_get_sum A m tok out = some r := by
  induction hm with
  | refl => exact h
  | step _ ih => rw [(monoAt A _).2.2.2.2.2.1 tok out (by rw [ih]; simp), ih]

theorem sum_loop_mono {n m : Nat} (hm : n ≤ m) {ret : Nat} {tok : FLEPTokens D}
    {out : FLEP D} {r : PState D} (h : flep_get_sum_loop A n ret tok out = some r) :
    flep_get_sum_loop A m ret tok out = some r := by
  induction hm with
  | refl => exact h
  | step _ ih => rw [(monoAt A _).2.2.2.2.2.2.1 ret tok out (by rw [ih]; simp), ih]

theorem sum_signs_mono {n m : Nat} (hm : n ≤ m) {op ret : Nat} {tok : FLEPTokens D}
    {r : Nat × Nat × FLEPTokens D} (h : flep_get_sum_signs A n op ret tok = some r) :
    flep_get_sum_signs A m op ret tok = some r := by
  induction hm with
  | refl => exact h
  | step _ ih => rw [(monoAt A _).2.2.2.2.2.2.2 op ret tok (by rw [ih]; simp), ih]

/-! ## Bookkeeping of the code buffer -/

theorem pool_length (x : Expr) : (pool A x).length = nconst x := by
  induction x <;> simp [pool, nconst, *]

theorem fuelOf_ge (x : Expr) : 4 ≤ fuelOf x := by
  induction x <;> simp [fuelOf] <;> omega

theorem tight_append {out : FLEP D} (h : Tight out) (ops : List Nat) (ds : List D) :
    Tight (out.append ops ds) := by
  obtain ⟨h1, h2⟩ := h
  simp [Tight, FLEP.append, h1, h2]

theorem append_append (out : FLEP D) (a c : List Nat) (b d : List D) :
    (out.append a b).append c d = out.append (a ++ c) (b ++ d) := by
  simp [FLEP.append, Nat.add_assoc]

theorem append_nd (out : FLEP D) (a : List Nat) (b : List D) :
    (out.append a b).nd = out.nd + b.length := rfl

theorem store_length {α : Type} (l : List α) (v : α) : store l l.length v = l ++ [v] := by
  simp [store]

theorem add_opcode_tight {out : FLEP D} (h : Tight out) (op : Nat) :
    flep_add_opcode out op = out.append [op] [] := by
  obtain ⟨h1, h2⟩ := h
  simp [flep_add_opcode, FLEP.append, ← h1, store_length]

theorem add_const_tight {out : FLEP D} (h : Tight out) (v : D) :
    flep_add_opcode (flep_add_data out v)
        (FLEP_BITFUSE FLEP_CONST ((flep_add_data out v).nd - 1)) =
      out.append [FLEP_BITFUSE FLEP_CONST out.nd] [v] := by
  obtain ⟨h1, h2⟩ := h
  simp [flep_add_opcode, flep_add_data, FLEP.append, ← h1, ← h2, store_length]

theorem vars_index {i : Nat} (h : i < 7) : firstIndex vars (vars.getD i 'a') = some i := by
  interval_cases i <;> decide

theorem fnames_get {f : Nat} (h : f < 7) : fnames.get? f = some (fnames.getD f []) := by
  interval_cases f <;> rfl

theorem sym_index_caret : firstIndex sym '^' = some 6 := by decide
theorem sym_index_open : firstIndex sym '(' = some 0 := by decide
theorem sym_index_close : firstIndex sym ')' = some 1 := by decide
theorem sym_index_plus : firstIndex sym '+' = some 2 := by decide
theorem sym_index_minus : firstIndex sym '-' = some 3 := by decide
theorem sym_index_mult : firstIndex sym '*' = some 4 := by decide
theorem sym_index_div : firstIndex sym '/' = some 5 := by decide

theorem mem_sym_of_index {c : Char} {k : Nat} (h : firstIndex sym c = some k) : c ∈ sym := by
  by_contra hn
  simp only [sym, List.mem_cons, List.mem_singleton, List.not_mem_nil, or_false, not_or] at hn
  obtain ⟨h1, h2, h3, h4, h5, h6, h7⟩ := hn
  simp [firstIndex, sym, Ne.symm h1, Ne.symm h2, Ne.symm h3, Ne.symm h4, Ne.symm h5,
    Ne.symm h6, Ne.symm h7] at h

/-- The first token of an expression is neither `+` nor `-`. -/
theorem first_token (x : Expr) : ∀ (tok : FLEPTokens D) (rest : List Char), WF x →
    Delim rest → tok.src.drop tok.q = render x ++ rest →
    (flep_next A tok).curr ≠ FLEP_PLUS ∧ (flep_next A tok).curr ≠ FLEP_MINUS := by
  induction x with
  | var i =>
    intro tok rest hw hd h
    simp only [render, List.singleton_append] at h
    rw [flep_next_var A tok h (vars_index hw) hd]
    simp
  | lit s =>
    intro tok rest hw hd h
    simp only [render] at h
    rw [flep_next_lit A tok h hw hd]
    simp
  | econst =>
    intro tok rest _ hd h
    simp only [render, List.singleton_append] at h
    rw [flep_next_e A tok h hd]
    simp
  | piconst =>
    intro tok rest _ hd h
    simp only [render, List.cons_append, List.nil_append] at h
    rw [flep_next_pi A tok h hd]
    simp
  | paren x _ =>
    intro tok rest _ _ h
    simp only [render, List.cons_append] at h
    rw [flep_next_sym A tok h sym_index_open]
    simp
  | call f x _ =>
    intro tok rest hw _ h
    simp only [render, List.append_assoc] at h
    rw [flep_next_fn A tok h (fnames_get hw.1) (delim_cons (by decide))]
    simp only [FLEP_SIN, FLEP_PLUS, FLEP_MINUS]
    omega
  | pow l r ihl _ =>
    intro tok rest hw _ h
    simp only [render, List.append_assoc, List.cons_append] at h
    exact ihl tok _ hw.2.2.1 (delim_cons (by decide)) h
  | prod d l r ihl _ =>
    intro tok rest hw _ h
    simp only [render, List.append_assoc, List.cons_append] at h
    exact ihl tok _ hw.2.2.1 (delim_cons (by cases d <;> decide)) h
  | sum run l r ihl _ =>
    intro tok rest hw _ h
    simp only [render, List.append_assoc] at h
    obtain ⟨hne, _, hwl, _⟩ := hw
    cases run with
    | nil => exact absurd rfl hne
    | cons b t =>
      simp only [List.map_cons, List.cons_append] at h
      exact ihl tok _ hwl (delim_cons (by cases b <;> decide)) h

end

section

variable {D : Type} (A : Arith D)

theorem power_loop_exit (n ret : Nat) (tok : FLEPTokens D) (out : FLEP D)
    (h : ret ≠ FLEP_POWER) :
    flep_get_power_loop A (n + 1) ret tok out = some (ret, tok, out) := by
  rw [flep_get_power_loop]; simp [h]

theorem prod_loop_exit (n ret : Nat) (tok : FLEPTokens D) (out : FLEP D)
    (h1 : ret ≠ FLEP_MULT) (h2 : ret ≠ FLEP_DIV) :
    flep_get_prod_loop A (n + 1) ret tok out = some (ret, tok, out) := by
  rw [flep_get_prod_loop]; simp [h1, h2]

theorem sum_loop_exit (n ret : Nat) (tok : FLEPTokens D) (out : FLEP D)
    (h1 : ret ≠ FLEP_PLUS) (h2 : ret ≠ FLEP_MINUS) :
    flep_get_sum_loop A (n + 1) ret tok out = some (ret, tok, out) := by
  rw [flep_get_sum_loop]; simp [h1, h2]

theorem sum_signs_exit (n op ret : Nat) (tok : FLEPTokens D)
    (h1 : ret ≠ FLEP_PLUS) (h2 : ret ≠ FLEP_MINUS) :
    flep_get_sum_signs A (n + 1) op ret tok = some (op, ret, tok) := by
  rw [flep_get_sum_signs]; simp [h1, h2]

/-- The token that follows, when the text that follows does not start with
the character `c` of index `k` in `sym`, is not the token of `c`. -/
theorem after_ne {tok : FLEPTokens D} {rest : List Char} (hd : Delim rest)
    (h : tok.src.drop tok.q = rest) {c : Char} {k : Nat}
    (hk : firstIndex sym c = some k) (hne : rest.head? ≠ some c) :
    (flep_next A tok).curr ≠ FLEP_OPEN + k := by
  cases rest with
  | nil =>
    rw [flep_next_end A tok h]
    have : k < 7 := by
      simp only [firstIndex, sym] at hk
      split_ifs at hk <;> simp at hk <;> omega
    simp only [FLEP_END, FLEP_OPEN]
    omega
  | cons c1 t =>
    have hc := hd c1 rfl
    simp only [List.head?_cons, ne_eq, Option.some.injEq] at hne
    simp only [sym, List.mem_cons, List.mem_singleton, List.not_mem_nil, or_false] at hc
    rcases hc with rfl | rfl | rfl | rfl | rfl | rfl | rfl
    · rw [flep_next_sym A tok h sym_index_open]
      simp only [firstIndex, sym] at hk
      split_ifs at hk <;> simp_all <;> omega
    · rw [flep_next_sym A tok h sym_index_close]
      simp only [firstIndex, sym] at hk
      split_ifs at hk <;> simp_all <;> omega
    · rw [flep_next_sym A tok h sym_index_plus]
      simp only [firstIndex, sym] at hk
      split_ifs at hk <;> simp_all <;> omega
    · rw [flep_next_sym A tok h sym_index_minus]
      simp only [firstIndex, sym] at hk
      split_ifs at hk <;> simp_all <;> omega
    · rw [flep_next_sym A tok h sym_index_mult]
      simp only [firstIndex, sym] at hk
      split_ifs at hk <;> simp_all <;> omega
    · rw [flep_next_sym A tok h sym_index_div]
      simp only [firstIndex, sym] at hk
      split_ifs at hk <;> simp_all <;> omega
    · rw [flep_next_sym A tok h sym_index_caret]
      simp only [firstIndex, sym] at hk
      split_ifs at hk <;> simp_all <;> omega

end

section

variable {D : Type} (A : Arith D)

theorem lift_power {x : Expr} {tok0 : FLEPTokens D} {out : FLEP D} {rest : List Char}
    {r : PState D} (hd : Delim rest) (h : tok0.src.drop tok0.q = render x ++ rest)
    (hr : AfterExpr A tok0 x out r)
    (hop : ∀ n, fuelOf x ≤ n + 3 → flep_get_operand A n (flep_next A tok0) out = some r)
    (hne : rest.head? ≠ some '^') (n : Nat) (hn : fuelOf x ≤ n + 2) :
    flep_get_power A n (flep_next A tok0) out = some r := by
  have hF := fuelOf_ge x
  obtain ⟨k, rfl⟩ : ∃ k, n = k + 1 := ⟨n - 1, by omega⟩
  obtain ⟨j, rfl⟩ : ∃ j, k = j + 1 := ⟨k - 1, by omega⟩
  rw [flep_get_power, hop (j + 1) (by omega)]
  obtain ⟨tok1, hs, hq, rfl⟩ := hr
  have h1 : tok1.src.drop tok1.q = rest := by rw [hs, hq]; exact drop_add_of_drop h
  exact power_loop_exit A j _ _ _ (after_ne A hd h1 sym_index_caret hne)

theorem lift_prod {x : Expr} {tok0 : FLEPTokens D} {out : FLEP D}
    {r : PState D}
    (hpow : ∀ n, fuelOf x ≤ n + 2 → flep_get_power A n (flep_next A tok0) out = some r)
    (m : Nat) (res : PState D)
    (hm : flep_get_prod_loop A m r.1 r.2.1 r.2.2 = some res) (n : Nat)
    (hn : m + fuelOf x ≤ n + 1) :
    flep_get_prod A n (flep_next A tok0) out = some res := by
  have hF := fuelOf_ge x
  obtain ⟨k, rfl⟩ : ∃ k, n = k + 1 := ⟨n - 1, by omega⟩
  rw [flep_get_prod, hpow k (by omega)]
  exact prod_loop_mono A (by omega) hm

theorem lift_sum {x : Expr} {tok0 : FLEPTokens D} {out : FLEP D} {rest : List Char}
    {r : PState D} (hd : Delim rest) (h : tok0.src.drop tok0.q = render x ++ rest)
    (hr : AfterExpr A tok0 x out r)
    (hprod : ∀ m res, flep_get_prod_loop A m r.1 r.2.1 r.2.2 = some res →
      ∀ n, m + fuelOf x ≤ n + 1 → flep_get_prod A n (flep_next A tok0) out = some res)
    (h2 : rest.head? ≠ some '*') (h3 : rest.head? ≠ some '/')
    (m : Nat) (res : PState D)
    (hm : flep_get_sum_loop A m r.1 r.2.1 r.2.2 = some res) (n : Nat)
    (hn : m + fuelOf x ≤ n) :
    flep_get_sum A n (flep_next A tok0) out = some res := by
  have hF := fuelOf_ge x
  have hm1 : 1 ≤ m := by
    cases m with
    | zero => rw [flep_get_sum_loop] at hm; cases hm
    | succ m => omega
  obtain ⟨k, rfl⟩ : ∃ k, n = k + 1 := ⟨n - 1, by omega⟩
  have hex : flep_get_prod_loop A 1 r.1 r.2.1 r.2.2 = some r := by
    obtain ⟨tok1, hs, hq, rfl⟩ := hr
    have h1 : tok1.src.drop tok1.q = rest := by rw [hs, hq]; exact drop_add_of_drop h
    exact prod_loop_exit A 0 _ _ _ (after_ne A hd h1 sym_index_mult h2)
      (after_ne A hd h1 sym_index_div h3)
  rw [flep_get_sum, hprod 1 r hex k (by omega)]
  exact sum_loop_mono A (by omega) hm

end

section

variable {D : Type} (A : Arith D)

/-- An operand that `flep_get_operand` parses is parsed by all four entry
points. -/
theorem parses_of_operand {x : Expr} {tok0 : FLEPTokens D} {out : FLEP D}
    {rest : List Char} {r : PState D} (hd : Delim rest)
    (h : tok0.src.drop tok0.q = render x ++ rest) (hr : AfterExpr A tok0 x out r)
    (hop : ∀ n, fuelOf x ≤ n + 3 → flep_get_operand A n (flep_next A tok0) out = some r) :
    (level x = 3 → ∀ n, fuelOf x ≤ n + 3 →
        flep_get_operand A n (flep_next A tok0) out = some r) ∧
      (2 ≤ level x → rest.head? ≠ some '^' → ∀ n, fuelOf x ≤ n + 2 →
        flep_get_power A n (flep_next A tok0) out = some r) ∧
      (1 ≤ level x → rest.head? ≠ some '^' → ∀ m res,
        flep_get_prod_loop A m r.1 r.2.1 r.2.2 = some res → ∀ n, m + fuelOf x ≤ n + 1 →
        flep_get_prod A n (flep_next A tok0) out = some res) ∧
      (rest.head? ≠ some '^' → rest.head? ≠ some '*' → rest.head? ≠ some '/' →
        ∀ m res, flep_get_sum_loop A m r.1 r.2.1 r.2.2 = some res →
        ∀ n, m + fuelOf x ≤ n → flep_get_sum A n (flep_next A tok0) out = some res) := by
  have hpow := lift_power A hd h hr hop
  refine ⟨fun _ => hop, fun _ => hpow, fun _ hne => lift_prod A (hpow hne), ?_⟩
  intro h1 h2 h3
  exact lift_sum A hd h hr (lift_prod A (hpow h1)) h2 h3

theorem parses_var (i : Nat) (hw : WF (.var i)) : Parses A (.var i) := by
  intro tok0 out rest ht hd h
  simp only [render, List.singleton_append] at h
  have hn := flep_next_var A tok0 h (vars_index hw) hd
  refine ⟨((flep_next A (flep_next A tok0)).curr, flep_next A (flep_next A tok0),
    out.append (code out.nd (.var i)) (pool A (.var i))), ⟨flep_next A tok0, ?_, ?_, rfl⟩, ?_⟩
  · rw [hn]
  · rw [hn]; simp [render]
  · apply parses_of_operand A hd (by simpa [render] using h)
    · exact ⟨flep_next A tok0, by rw [hn], by rw [hn]; simp [render], rfl⟩
    · intro n hn1
      obtain ⟨k, rfl⟩ : ∃ k, n = k + 1 := ⟨n - 1, by simp [fuelOf] at hn1; omega⟩
      rw [flep_get_operand]
      have hc : (flep_next A tok0).curr = FLEP_VAR := by rw [hn]
      have hi : (flep_next A tok0).ival = i := by rw [hn]
      simp [hc, hi, add_opcode_tight ht, code, pool, FLEP_SIN, FLEP_VAR]

theorem parses_const (x : Expr) (v : D) (len : Nat)
    (hf : fuelOf x = 4) (hl : (render x).length = len)
    (hcode : ∀ nd, code nd x = [FLEP_BITFUSE FLEP_CONST nd]) (hpool : pool A x = [v])
    (hlex : ∀ (tok : FLEPTokens D) (rest : List Char), Delim rest →
      tok.src.drop tok.q = render x ++ rest →
      flep_next A tok = ⟨tok.src, tok.q, tok.q + len, tok.ival, v, FLEP_CONST, tok.curr⟩) :
    Parses A x := by
  intro tok0 out rest ht hd h
  have hn := hlex tok0 rest hd h
  have hr : AfterExpr A tok0 x out ((flep_next A (flep_next A tok0)).curr,
      flep_next A (flep_next A tok0), out.append (code out.nd x) (pool A x)) :=
    ⟨flep_next A tok0, by rw [hn], by rw [hn]; simp [hl], rfl⟩
  refine ⟨_, hr, parses_of_operand A hd h hr ?_⟩
  intro n hn1
  obtain ⟨k, rfl⟩ : ∃ k, n = k + 1 := ⟨n - 1, by omega⟩
  rw [flep_get_operand]
  have hc : (flep_next A tok0).curr = FLEP_CONST := by rw [hn]
  have hv : (flep_next A tok0).fval = v := by rw [hn]
  simp only [hc, hv]
  simp [add_const_tight ht, hcode, hpool]

theorem parses_lit (s : List Char) (hw : WF (.lit s)) : Parses A (.lit s) :=
  parses_const A (.lit s) (A.strtod s) s.length rfl rfl (fun _ => rfl) rfl
    (fun tok _ hd h => flep_next_lit A tok h hw hd)

theorem parses_e : Parses A .econst :=
  parses_const A .econst (A.exp A.one) 1 rfl rfl (fun _ => rfl) rfl
    (fun tok _ hd h => flep_next_e A tok h hd)

theorem parses_pi : Parses A .piconst :=
  parses_const A .piconst A.pi 2 rfl rfl (fun _ => rfl) rfl
    (fun tok _ hd h => flep_next_pi A tok h hd)

end

section

variable {D : Type} (A : Arith D)

/-- Parsing `(y)` from a stream whose current token is the `(`. -/
theorem operand_open {y : Expr} (ih : Parses A y) {tokA : FLEPTokens D} {out : FLEP D}
    {rest : List Char} (ht : Tight out) (hd : Delim rest)
    (hA : tokA.src.drop tokA.q = render y ++ ')' :: rest) (hc : tokA.curr = FLEP_OPEN) :
    ∃ tokB : FLEPTokens D, tokB.src = tokA.src ∧ tokB.q = tokA.q + (render y).length + 1 ∧
      ∀ n, fuelOf y + 2 ≤ n →
        flep_get_operand A n tokA out =
          some ((flep_next A tokB).curr, flep_next A tokB,
            out.append (code out.nd y) (pool A y)) := by
  obtain ⟨r, ⟨tok1, hs, hq, rfl⟩, -, -, -, hsum⟩ :=
    ih tokA out (')' :: rest) ht (delim_cons (by decide)) hA
  have h1 : tok1.src.drop tok1.q = ')' :: rest := by rw [hs, hq]; exact drop_add_of_drop hA
  have hB := flep_next_sym A tok1 h1 sym_index_close
  refine ⟨flep_next A tok1, by rw [hB, hs], by rw [hB, hq], ?_⟩
  intro n hn
  obtain ⟨k, rfl⟩ : ∃ k, n = k + 1 := ⟨n - 1, by omega⟩
  have hex := sum_loop_exit A 0 (flep_next A tok1).curr (flep_next A tok1)
    (out.append (code out.nd y) (pool A y)) (by rw [hB]; simp [FLEP_OPEN, FLEP_PLUS]) (by rw [hB]; simp [FLEP_OPEN, FLEP_MINUS])
  have hs1 := hsum (by simp) (by simp) (by simp) 1 _ hex k (by omega)
  rw [flep_get_operand]
  simp only [hc, if_true, hs1]
  have hcl : (flep_next A tok1).curr = FLEP_CLOSE := by rw [hB]
  simp [hcl]

theorem parses_paren (y : Expr) (ih : Parses A y) : Parses A (.paren y) := by
  intro tok0 out rest ht hd h
  simp only [render, List.cons_append, List.append_assoc, List.singleton_append] at h
  have hn := flep_next_sym A tok0 h sym_index_open
  have hA : (flep_next A tok0).src.drop (flep_next A tok0).q = render y ++ ')' :: rest := by
    rw [hn]; exact drop_succ_of_drop h
  obtain ⟨tokB, hs, hq, hop⟩ := operand_open A ih ht hd hA (by rw [hn])
  have hr : AfterExpr A tok0 (.paren y) out ((flep_next A tokB).curr, flep_next A tokB,
      out.append (code out.nd (.paren y)) (pool A (.paren y))) := by
    refine ⟨tokB, by rw [hs, hn], ?_, rfl⟩
    rw [hq, hn]; simp [render]; omega
  refine ⟨_, hr, parses_of_operand A hd (by simpa [render] using h) hr ?_⟩
  intro n hn1
  simp only [fuelOf] at hn1
  exact hop n (by omega)

theorem parses_call (f : Nat) (y : Expr) (hf : f < 7) (ih : Parses A y) :
    Parses A (.call f y) := by
  intro tok0 out rest ht hd h
  simp only [render, List.cons_append, List.append_assoc, List.singleton_append] at h
  have hn := flep_next_fn A tok0 h (fnames_get hf) (delim_cons (by decide))
  have hF : (flep_next A tok0).src.drop (flep_next A tok0).q =
      '(' :: (render y ++ ')' :: rest) := by
    rw [hn]; exact drop_add_of_drop h
  have hn2 := flep_next_sym A (flep_next A tok0) hF sym_index_open
  have hA : (flep_next A (flep_next A tok0)).src.drop (flep_next A (flep_next A tok0)).q =
      render y ++ ')' :: rest := by
    rw [hn2]; exact drop_succ_of_drop hF
  obtain ⟨tokB, hs, hq, hop⟩ := operand_open A ih ht hd hA (by rw [hn2])
  have hr : AfterExpr A tok0 (.call f y) out ((flep_next A tokB).curr, flep_next A tokB,
      out.append (code out.nd (.call f y)) (pool A (.call f y))) := by
    refine ⟨tokB, by rw [hs, hn2, hn], ?_, rfl⟩
    rw [hq, hn2, hn]; simp [render]; omega
  refine ⟨_, hr, parses_of_operand A hd (by simpa [render] using h) hr ?_⟩
  intro n hn1
  simp only [fuelOf] at hn1
  obtain ⟨k, rfl⟩ : ∃ k, n = k + 1 := ⟨n - 1, by omega⟩
  rw [flep_get_operand]
  have hc : (flep_next A tok0).curr = FLEP_SIN + f := by rw [hn]
  have hc2 : (flep_next A (flep_next A tok0)).curr = FLEP_OPEN := by rw [hn2]
  have e1 : FLEP_SIN + f ≠ FLEP_OPEN := by simp only [FLEP_SIN, FLEP_OPEN]; omega
  have e2 : FLEP_SIN + f ≠ FLEP_PLUS := by simp only [FLEP_SIN, FLEP_PLUS]; omega
  have e3 : FLEP_SIN + f ≠ FLEP_MINUS := by simp only [FLEP_SIN, FLEP_MINUS]; omega
  have e4 : FLEP_SIN ≤ FLEP_SIN + f ∧ FLEP_SIN + f ≤ FLEP_SQRT := by
    simp only [FLEP_SIN, FLEP_SQRT]; omega
  simp only [hc, e1, e2, e3, e4, if_false, if_true, hc2, ne_eq, not_true_eq_false,
    and_self]
  rw [hop k (by omega)]
  simp only [code, pool]
  rw [add_opcode_tight (tight_append ht _ _), append_append]
  simp

end

section

variable {D : Type} (A : Arith D)

theorem parses_pow (l r : Expr) (hw : WF (.pow l r)) (ihl : Parses A l) (ihr : Parses A r) :
    Parses A (.pow l r) := by
  obtain ⟨hl3, hr2, -, -⟩ := hw
  intro tok0 out rest ht hd h
  simp only [render, List.append_assoc, List.cons_append] at h
  obtain ⟨rl, ⟨tok1, hs1, hq1, rfl⟩, hopl, -, -, -⟩ :=
    ihl tok0 out ('^' :: (render r ++ rest)) ht (delim_cons (by decide)) h
  have h1 : tok1.src.drop tok1.q = '^' :: (render r ++ rest) := by
    rw [hs1, hq1]; exact drop_add_of_drop h
  have hC := flep_next_sym A tok1 h1 sym_index_caret
  have hC2 : (flep_next A tok1).src.drop (flep_next A tok1).q = render r ++ rest := by
    rw [hC]; exact drop_succ_of_drop h1
  have htl := tight_append ht (code out.nd l) (pool A l)
  obtain ⟨rr, ⟨tok2, hs2, hq2, rfl⟩, -, hpowr, -, -⟩ :=
    ihr (flep_next A tok1) (out.append (code out.nd l) (pool A l)) rest htl hd hC2
  have h2 : tok2.src.drop tok2.q = rest := by rw [hs2, hq2]; exact drop_add_of_drop hC2
  have hr : AfterExpr A tok0 (.pow l r) out ((flep_next A tok2).curr, flep_next A tok2,
      out.append (code out.nd (.pow l r)) (pool A (.pow l r))) := by
    refine ⟨tok2, by rw [hs2, hC, hs1], ?_, rfl⟩
    rw [hq2, hC, hq1]; simp [render]; omega
  have hpow : rest.head? ≠ some '^' → ∀ n, fuelOf (.pow l r) ≤ n + 2 →
      flep_get_power A n (flep_next A tok0) out = some ((flep_next A tok2).curr,
        flep_next A tok2, out.append (code out.nd (.pow l r)) (pool A (.pow l r))) := by
    intro hne n hn
    simp only [fuelOf] at hn
    have hFl := fuelOf_ge l
    have hFr := fuelOf_ge r
    obtain ⟨k, rfl⟩ : ∃ k, n = k + 1 := ⟨n - 1, by omega⟩
    obtain ⟨j, rfl⟩ : ∃ j, k = j + 1 := ⟨k - 1, by omega⟩
    obtain ⟨i, rfl⟩ : ∃ i, j = i + 1 := ⟨j - 1, by omega⟩
    rw [flep_get_power, hopl hl3 (i + 1 + 1) (by omega)]
    simp only []
    rw [flep_get_power_loop]
    have hcur : (flep_next A tok1).curr = FLEP_POWER := by rw [hC]
    simp only [hcur, if_true]
    rw [hpowr hr2 hne (i + 1) (by omega)]
    simp only []
    rw [power_loop_exit A i _ _ _ (after_ne A hd h2 sym_index_caret hne)]
    simp only [code, pool, append_nd, pool_length]
    rw [add_opcode_tight (tight_append htl _ _), append_append, append_append]
    simp
  refine ⟨_, hr, fun hl => by simp [level] at hl, fun _ => hpow,
    fun _ hne => lift_prod A (hpow hne), ?_⟩
  intro e1 e2 e3
  exact lift_sum A hd (by simpa [render] using h) hr (lift_prod A (hpow e1)) e2 e3

theorem parses_prod (d : Bool) (l r : Expr) (hw : WF (.prod d l r)) (ihl : Parses A l)
    (ihr : Parses A r) : Parses A (.prod d l r) := by
  obtain ⟨hl1, hr2, -, -⟩ := hw
  intro tok0 out rest ht hd h
  simp only [render, List.append_assoc, List.cons_append] at h
  have hdc : (if d then '/' else '*') ∈ sym := by cases d <;> decide
  have hk : firstIndex sym (if d then '/' else '*') = some (if d then 5 else 4) := by
    cases d <;> decide
  have hnc : (List.head? ((if d then '/' else '*') :: (render r ++ rest))) ≠ some '^' := by
    cases d <;> simp
  obtain ⟨rl, ⟨tok1, hs1, hq1, rfl⟩, -, -, hprodl, -⟩ :=
    ihl tok0 out ((if d then '/' else '*') :: (render r ++ rest)) ht (delim_cons hdc) h
  have h1 : tok1.src.drop tok1.q = (if d then '/' else '*') :: (render r ++ rest) := by
    rw [hs1, hq1]; exact drop_add_of_drop h
  have hC := flep_next_sym A tok1 h1 hk
  have hC2 : (flep_next A tok1).src.drop (flep_next A tok1).q = render r ++ rest := by
    rw [hC]; exact drop_succ_of_drop h1
  have htl := tight_append ht (code out.nd l) (pool A l)
  obtain ⟨rr, ⟨tok2, hs2, hq2, rfl⟩, -, hpowr, -, -⟩ :=
    ihr (flep_next A tok1) (out.append (code out.nd l) (pool A l)) rest htl hd hC2
  have hr : AfterExpr A tok0 (.prod d l r) out ((flep_next A tok2).curr, flep_next A tok2,
      out.append (code out.nd (.prod d l r)) (pool A (.prod d l r))) := by
    refine ⟨tok2, by rw [hs2, hC, hs1], ?_, rfl⟩
    rw [hq2, hC, hq1]; simp [render]; omega
  have hprod : rest.head? ≠ some '^' → ∀ m res,
      flep_get_prod_loop A m (flep_next A tok2).curr (flep_next A tok2)
        (out.append (code out.nd (.prod d l r)) (pool A (.prod d l r))) = some res →
      ∀ n, m + fuelOf (.prod d l r) ≤ n + 1 →
        flep_get_prod A n (flep_next A tok0) out = some res := by
    intro hne m res hm n hn
    simp only [fuelOf] at hn
    apply hprodl hl1 hnc (m + fuelOf r + 1) res _ n (by omega)
    rw [flep_get_prod_loop]
    have hcur : (flep_next A tok1).curr = (if d then FLEP_DIV else FLEP_MULT) := by
      rw [hC]; cases d <;> rfl
    have hcon : (flep_next A tok1).curr = FLEP_MULT ∨ (flep_next A tok1).curr = FLEP_DIV := by
      rw [hcur]; cases d <;> simp
    simp only [hcon, if_true]
    rw [hpowr hr2 hne (m + fuelOf r) (by omega)]
    simp only []
    have e : flep_add_opcode (out.append (code out.nd l) (pool A l) |>.append
          (code (out.append (code out.nd l) (pool A l)).nd r) (pool A r))
          (flep_next A tok1).curr =
        out.append (code out.nd (.prod d l r)) (pool A (.prod d l r)) := by
      simp only [code, pool, append_nd, pool_length, hcur]
      rw [add_opcode_tight (tight_append htl _ _), append_append, append_append]
      cases d <;> simp
    rw [e]
    exact prod_loop_mono A (by omega) hm
  refine ⟨_, hr, fun hl => by simp [level] at hl, fun hl => by simp [level] at hl,
    fun _ => hprod, ?_⟩
  intro e1 e2 e3
  exact lift_sum A hd (by simpa [render] using h) hr (hprod e1) e2 e3

end

section

variable {D : Type} (A : Arith D)

theorem sign_index (b : Bool) : firstIndex sym (signChar b) = some (if b then 3 else 2) := by
  cases b <;> decide

theorem sign_tag (b : Bool) : FLEP_OPEN + (if b then 3 else 2) = signTag b := by
  cases b <;> rfl

theorem signTag_cases (b : Bool) : signTag b = FLEP_PLUS ∨ signTag b = FLEP_MINUS := by
  cases b <;> simp [signTag]

/-- The inner loop of `flep_get_sum` on the rest of a run of signs. -/
theorem signs_run (r : Expr) (rest : List Char) (hw : WF r) (hd : Delim rest) :
    ∀ (t : List Bool) (op : Nat) (tokP : FLEPTokens D),
      tokP.src.drop tokP.q = t.map signChar ++ (render r ++ rest) →
      ∃ tokQ : FLEPTokens D, tokQ.src = tokP.src ∧ tokQ.q = tokP.q + t.length ∧
        ∀ n, t.length + 1 ≤ n →
          flep_get_sum_signs A n op (flep_next A tokP).curr (flep_next A tokP) =
            some (t.foldl (fun op b => if op = signTag b then FLEP_PLUS else FLEP_MINUS) op,
              (flep_next A tokQ).curr, flep_next A tokQ) := by
  intro t
  induction t with
  | nil =>
    intro op tokP h
    simp only [List.map_nil, List.nil_append] at h
    obtain ⟨f1, f2⟩ := first_token A r tokP rest hw hd h
    refine ⟨tokP, rfl, rfl, ?_⟩
    intro n hn
    obtain ⟨k, rfl⟩ : ∃ k, n = k + 1 := ⟨n - 1, by simp at hn; omega⟩
    exact sum_signs_exit A k op _ _ f1 f2
  | cons b t ih =>
    intro op tokP h
    simp only [List.map_cons, List.cons_append] at h
    have hS := flep_next_sym A tokP h (sign_index b)
    have hS2 : (flep_next A tokP).src.drop (flep_next A tokP).q =
        t.map signChar ++ (render r ++ rest) := by
      rw [hS]; exact drop_succ_of_drop h
    obtain ⟨tokQ, hs, hq, hrun⟩ :=
      ih (if op = signTag b then FLEP_PLUS else FLEP_MINUS) (flep_next A tokP) hS2
    refine ⟨tokQ, by rw [hs, hS], by rw [hq, hS]; simp; omega, ?_⟩
    intro n hn
    obtain ⟨k, rfl⟩ : ∃ k, n = k + 1 := ⟨n - 1, by simp at hn; omega⟩
    have hcur : (flep_next A tokP).curr = signTag b := by rw [hS]; exact sign_tag b
    rw [flep_get_sum_signs]
    simp only [hcur, signTag_cases b, if_true, List.foldl_cons]
    exact hrun k (by simp at hn; omega)

theorem parses_sum (run : List Bool) (l r : Expr) (hw : WF (.sum run l r))
    (ihl : Parses A l) (ihr : Parses A r) : Parses A (.sum run l r) := by
  obtain ⟨hne, hr1, -, hwr⟩ := hw
  obtain ⟨b, t, rfl⟩ : ∃ b t, run = b :: t := by
    cases run with
    | nil => exact absurd rfl hne
    | cons b t => exact ⟨b, t, rfl⟩
  intro tok0 out rest ht hd h
  simp only [render, List.append_assoc, List.map_cons, List.cons_append] at h
  have hdc : signChar b ∈ sym := mem_sym_of_index (sign_index b)
  obtain ⟨rl, ⟨tok1, hs1, hq1, rfl⟩, -, -, -, hsuml⟩ :=
    ihl tok0 out (signChar b :: (t.map signChar ++ (render r ++ rest))) ht (delim_cons hdc) h
  have h1 : tok1.src.drop tok1.q = signChar b :: (t.map signChar ++ (render r ++ rest)) := by
    rw [hs1, hq1]; exact drop_add_of_drop h
  have hC := flep_next_sym A tok1 h1 (sign_index b)
  have hC2 : (flep_next A tok1).src.drop (flep_next A tok1).q =
      t.map signChar ++ (render r ++ rest) := by
    rw [hC]; exact drop_succ_of_drop h1
  obtain ⟨tokQ, hsQ, hqQ, hrun⟩ := signs_run A r rest hwr hd t (signTag b) (flep_next A tok1) hC2
  have hQ : tokQ.src.drop tokQ.q = render r ++ rest := by
    rw [hsQ, hqQ]
    have := drop_add_of_drop hC2
    simpa using this
  have htl := tight_append ht (code out.nd l) (pool A l)
  obtain ⟨rr, ⟨tok2, hs2, hq2, rfl⟩, -, -, hprodr, -⟩ :=
    ihr tokQ (out.append (code out.nd l) (pool A l)) rest htl hd hQ
  have h2 : tok2.src.drop tok2.q = rest := by rw [hs2, hq2]; exact drop_add_of_drop hQ
  have hr : AfterExpr A tok0 (.sum (b :: t) l r) out ((flep_next A tok2).curr,
      flep_next A tok2,
      out.append (code out.nd (.sum (b :: t) l r)) (pool A (.sum (b :: t) l r))) := by
    refine ⟨tok2, by rw [hs2, hsQ, hC, hs1], ?_, rfl⟩
    rw [hq2, hqQ, hC, hq1]; simp [render]; omega
  refine ⟨_, hr, fun hl => by simp [level] at hl, fun hl => by simp [level] at hl,
    fun hl => by simp [level] at hl, ?_⟩
  intro e1 e2 e3 m res hm n hn
  simp only [fuelOf, List.length_cons] at hn
  have hnc1 : (List.head? (signChar b :: (t.map signChar ++ (render r ++ rest)))) ≠ some '^' := by
    cases b <;> simp [signChar]
  have hnc2 : (List.head? (signChar b :: (t.map signChar ++ (render r ++ rest)))) ≠ some '*' := by
    cases b <;> simp [signChar]
  have hnc3 : (List.head? (signChar b :: (t.map signChar ++ (render r ++ rest)))) ≠ some '/' := by
    cases b <;> simp [signChar]
  apply hsuml hnc1 hnc2 hnc3 (m + fuelOf r + t.length + 1 + 1) res _ n (by omega)
  rw [flep_get_sum_loop]
  have hcur : (flep_next A tok1).curr = signTag b := by rw [hC]; exact sign_tag b
  simp only [hcur, signTag_cases b, if_true]
  rw [hrun (m + fuelOf r + t.length + 1) (by omega)]
  simp only []
  have hex : flep_get_prod_loop A 1 (flep_next A tok2).curr (flep_next A tok2)
      ((out.append (code out.nd l) (pool A l)).append
        (code (out.append (code out.nd l) (pool A l)).nd r) (pool A r)) = some
      ((flep_next A tok2).curr, flep_next A tok2,
        (out.append (code out.nd l) (pool A l)).append
        (code (out.append (code out.nd l) (pool A l)).nd r) (pool A r)) :=
    prod_loop_exit A 0 _ _ _ (after_ne A hd h2 sym_index_mult e2)
      (after_ne A hd h2 sym_index_div e3)
  rw [hprodr hr1 e1 1 _ hex (m + fuelOf r + t.length + 1) (by omega)]
  simp only []
  have e : flep_add_opcode ((out.append (code out.nd l) (pool A l)).append
        (code (out.append (code out.nd l) (pool A l)).nd r) (pool A r))
        (t.foldl (fun op b => if op = signTag b then FLEP_PLUS else FLEP_MINUS) (signTag b)) =
      out.append (code out.nd (.sum (b :: t) l r)) (pool A (.sum (b :: t) l r)) := by
    simp only [code, pool, append_nd, pool_length, signOp]
    rw [add_opcode_tight (tight_append htl _ _), append_append, append_append]
    simp
  rw [e]
  exact sum_loop_mono A (by omega) hm

/-- The parser reads every well-formed expression as the grammar says. -/
theorem parses_all (x : Expr) : WF x → Parses A x := by
  induction x with
  | var i => exact parses_var A i
  | lit s => exact parses_lit A s
  | econst => exact fun _ => parses_e A
  | piconst => exact fun _ => parses_pi A
  | paren y ih => exact fun hw => parses_paren A y (ih hw)
  | call f y ih => exact fun hw => parses_call A f y hw.1 (ih hw.2)
  | pow l r ihl ihr => exact fun hw => parses_pow A l r hw (ihl hw.2.2.1) (ihr hw.2.2.2)
  | prod d l r ihl ihr => exact fun hw => parses_prod A d l r hw (ihl hw.2.2.1) (ihr hw.2.2.2)
  | sum run l r ihl ihr => exact fun hw => parses_sum A run l r hw (ihl hw.2.2.1) (ihr hw.2.2.2)

end

section

variable {D : Type} (A : Arith D)

theorem literal_length {s : List Char} (h : Literal s) : 1 ≤ s.length := by
  obtain ⟨⟨c, t, rfl, -⟩, -⟩ := h
  simp

theorem fnames_length {f : Nat} (h : f < 7) : 1 ≤ (fnames.getD f []).length := by
  interval_cases f <;> decide

theorem fuelOf_le (x : Expr) : WF x → fuelOf x ≤ 6 * (render x).length := by
  induction x with
  | var i => intro _; simp [fuelOf, render]
  | lit s => intro hw; have := literal_length hw; simp [fuelOf, render]; omega
  | econst => intro _; simp [fuelOf, render]
  | piconst => intro _; simp [fuelOf, render]
  | paren y ih => intro hw; have := ih hw; simp [fuelOf, render]; omega
  | call f y ih =>
    intro hw; have := ih hw.2; have := fnames_length hw.1
    simp [fuelOf, render]; omega
  | pow l r ihl ihr =>
    intro hw; have := ihl hw.2.2.1; have := ihr hw.2.2.2
    simp [fuelOf, render]; omega
  | prod d l r ihl ihr =>
    intro hw; have := ihl hw.2.2.1; have := ihr hw.2.2.2
    simp [fuelOf, render]; omega
  | sum run l r ihl ihr =>
    intro hw; have := ihl hw.2.2.1; have := ihr hw.2.2.2
    have : 1 ≤ run.length := by
      cases run with
      | nil => exact absurd rfl hw.1
      | cons b t => simp
    simp [fuelOf, render]; omega

/-- The parsing phase on the text of a well-formed expression: it returns
the end-of-input token, stops at the end of the source and has emitted the
postfix code of the expression on an empty program. -/
theorem compile_expr (x : Expr) (hw : WF x) :
    ∃ tok : FLEPTokens D, tok.p = (render x).length ∧
      flep_compile A (render x) =
        some (FLEP_END, tok, ⟨pool A x, code 0 x, nconst x, (code 0 x).length⟩) := by
  have h0 : (⟨render x, 0, 0, 0, A.indet, FLEP_START, 0⟩ : FLEPTokens D).src.drop
      (⟨render x, 0, 0, 0, A.indet, FLEP_START, 0⟩ : FLEPTokens D).q = render x ++ [] := by
    simp
  obtain ⟨r, ⟨tok1, hs, hq, rfl⟩, -, -, -, hsum⟩ :=
    parses_all A x hw ⟨render x, 0, 0, 0, A.indet, FLEP_START, 0⟩ ⟨[], [], 0, 0⟩ []
      ⟨rfl, rfl⟩ delim_nil h0
  have h1 : tok1.src.drop tok1.q = [] := by rw [hs, hq]; exact drop_add_of_drop h0
  have hE := flep_next_end A tok1 h1
  have hex := sum_loop_exit A 0 (flep_next A tok1).curr (flep_next A tok1)
    ((⟨[], [], 0, 0⟩ : FLEP D).append (code 0 x) (pool A x))
    (by rw [hE]; simp [FLEP_END, FLEP_PLUS]) (by rw [hE]; simp [FLEP_END, FLEP_MINUS])
  have hF := fuelOf_le x hw
  have hc := hsum (by simp) (by simp) (by simp) 1 _ hex (parseFuel (render x))
    (by simp only [parseFuel]; omega)
  refine ⟨flep_next A tok1, by rw [hE, hq]; simp, ?_⟩
  unfold flep_compile flep_tokenize
  rw [hc]
  have hcur : (flep_next A tok1).curr = FLEP_END := by rw [hE]
  simp [hcur, FLEP.append, pool_length]

end

section

variable {D : Type} (A : Arith D)

/-! ## Steps of the evaluator -/

theorem unary_cases {op : Nat} {f : D → D} (h : unary A op = some f) :
    op = 1 ∨ op = 11 ∨ op = 12 ∨ op = 13 ∨ op = 14 ∨ op = 15 ∨ op = 16 ∨ op = 17 := by
  unfold unary at h
  split_ifs at h <;> simp_all

theorem binary_cases {op : Nat} {g : D → D → D} (h : binary A op = some g) :
    op = 4 ∨ op = 5 ∨ op = 6 ∨ op = 7 ∨ op = 8 := by
  unfold binary at h
  split_ifs at h <;> simp_all

theorem opcode_lit (n : Nat) (h : n < 256) : FLEP_OPCODE n = n := opcode_small n h

theorem eval_unary {o : Nat} {f : D → D} (h : unary A o = some f) (data val : List D)
    (text : List Nat) (x : D) (s : List D) :
    flep_eval_loop A data val (o :: text) (x :: s) =
      flep_eval_loop A data val text (f x :: s) := by
  rcases unary_cases A h with rfl | rfl | rfl | rfl | rfl | rfl | rfl | rfl <;>
    · simp only [unary] at h
      simp at h
      subst h
      rw [flep_eval_loop, flep_eval_round]
      simp [opcode_lit]

theorem eval_binary {o : Nat} {g : D → D → D} (h : binary A o = some g) (data val : List D)
    (text : List Nat) (x y : D) (s : List D) :
    flep_eval_loop A data val (o :: text) (x :: y :: s) =
      flep_eval_loop A data val text (g y x :: s) := by
  rcases binary_cases A h with rfl | rfl | rfl | rfl | rfl <;>
    · simp only [binary] at h
      simp at h
      subst h
      rw [flep_eval_loop, flep_eval_round]
      simp [opcode_lit]

theorem eval_var (data val : List D) (text : List Nat) (i : Nat) (v : D) (s : List D)
    (hv : val[i]? = some v) (hs : s.length < 64) :
    flep_eval_loop A data val (FLEP_BITFUSE FLEP_VAR i :: text) s =
      flep_eval_loop A data val text (v :: s) := by
  rw [flep_eval_loop]
  unfold flep_eval_round
  simp [opcode_var, opparm_var, opcode_const, opparm_const, hv, hs]

theorem eval_const (data val : List D) (text : List Nat) (k : Nat) (v : D) (s : List D)
    (hv : data[k]? = some v) (hs : s.length < 64) :
    flep_eval_loop A data val (FLEP_BITFUSE FLEP_CONST k :: text) s =
      flep_eval_loop A data val text (v :: s) := by
  rw [flep_eval_loop]
  unfold flep_eval_round
  simp [opcode_var, opparm_var, opcode_const, opparm_const, hv, hs]

theorem eval_end (data val : List D) (text : List Nat) (s : List D) :
    flep_eval_loop A data val (FLEP_END :: text) s =
      match s.getLast? with
      | some r => .ok r
      | none => .error .bounds := by
  have e : FLEP_OPCODE FLEP_END = 19 := by decide
  rw [flep_eval_loop]
  unfold flep_eval_round
  simp only [e]
  cases s.getLast? <;> rfl

theorem unary_fn {f : Nat} (h : f < 7) : unary A (FLEP_SIN + f) = some (fnOf A f) := by
  interval_cases f <;> rfl

theorem signOp_cases (run : List Bool) : signOp run = FLEP_PLUS ∨ signOp run = FLEP_MINUS := by
  cases run with
  | nil => left; rfl
  | cons b t =>
    simp only [signOp]
    induction t using List.reverseRecOn with
    | nil => cases b <;> simp [signTag]
    | append_singleton t c _ =>
      rw [List.foldl_append]
      simp only [List.foldl_cons, List.foldl_nil]
      split_ifs <;> simp

/-- Running the code of an expression pushes its value. -/
theorem eval_code (data val : List D) (hval : 7 ≤ val.length) (x : Expr) :
    ∀ (nd : Nat) (text : List Nat) (s : List D), WF x → s.length + need x ≤ 64 →
      (∀ j, j < nconst x → data[nd + j]? = (pool A x)[j]?) →
      flep_eval_loop A data val (code nd x ++ text) s =
        flep_eval_loop A data val text (evalExpr A val x :: s) := by
  induction x with
  | var i =>
    intro nd text s hw hs _
    simp only [need] at hs
    have hi : val[i]? = some (val.getD i A.indet) := by
      have hw' : i < 7 := hw
      have : i < val.length := by omega
      simp [List.getD_eq_getElem?_getD, List.getElem?_eq_getElem this]
    simpa [code, evalExpr] using eval_var A data val text i _ s hi (by omega)
  | lit t =>
    intro nd text s _ hs hp
    simp only [need] at hs
    have := hp 0 (by simp [nconst])
    simp only [pool, Nat.add_zero, List.getElem?_cons_zero] at this
    simpa [code, evalExpr] using eval_const A data val text nd _ s this (by omega)
  | econst =>
    intro nd text s _ hs hp
    simp only [need] at hs
    have := hp 0 (by simp [nconst])
    simp only [pool, Nat.add_zero, List.getElem?_cons_zero] at this
    simpa [code, evalExpr] using eval_const A data val text nd _ s this (by omega)
  | piconst =>
    intro nd text s _ hs hp
    simp only [need] at hs
    have := hp 0 (by simp [nconst])
    simp only [pool, Nat.add_zero, List.getElem?_cons_zero] at this
    simpa [code, evalExpr] using eval_const A data val text nd _ s this (by omega)
  | paren y ih =>
    intro nd text s hw hs hp
    exact ih nd text s hw hs hp
  | call f y ih =>
    intro nd text s hw hs hp
    simp only [code, List.append_assoc, List.singleton_append, evalExpr]
    rw [ih nd _ s hw.2 hs hp, eval_unary A (unary_fn A hw.1)]
  | pow l r ihl ihr =>
    intro nd text s hw hs hp
    simp only [need] at hs
    simp only [code, List.append_assoc, List.singleton_append, evalExpr]
    rw [ihl nd _ s hw.2.2.1 (by omega), ihr (nd + nconst l) _ _ hw.2.2.2 (by simp; omega),
      eval_binary A (o := FLEP_POWER) (g := A.pow) rfl]
    · intro j hj
      have := hp (nconst l + j) (by simp [nconst]; omega)
      simp only [pool] at this
      rw [← Nat.add_assoc] at this
      rw [this, List.getElem?_append_right (by simp [pool_length])]
      simp [pool_length]
    · intro j hj
      have := hp j (by simp [nconst]; omega)
      simp only [pool] at this
      rw [this, List.getElem?_append_left (by simp [pool_length]; exact hj)]
  | prod d l r ihl ihr =>
    intro nd text s hw hs hp
    simp only [need] at hs
    simp only [code, List.append_assoc, List.singleton_append, evalExpr]
    rw [ihl nd _ s hw.2.2.1 (by omega), ihr (nd + nconst l) _ _ hw.2.2.2 (by simp; omega)]
    · cases d
      · simp only [Bool.false_eq_true, if_false]
        rw [eval_binary A (o := FLEP_MULT) (g := A.mul) rfl]
      · simp only [if_true]
        rw [eval_binary A (o := FLEP_DIV) (g := A.div) rfl]
    · intro j hj
      have := hp (nconst l + j) (by simp [nconst]; omega)
      simp only [pool] at this
      rw [← Nat.add_assoc] at this
      rw [this, List.getElem?_append_right (by simp [pool_length])]
      simp [pool_length]
    · intro j hj
      have := hp j (by simp [nconst]; omega)
      simp only [pool] at this
      rw [this, List.getElem?_append_left (by simp [pool_length]; exact hj)]
  | sum run l r ihl ihr =>
    intro nd text s hw hs hp
    simp only [need] at hs
    simp only [code, List.append_assoc, List.singleton_append, evalExpr]
    rw [ihl nd _ s hw.2.2.1 (by omega), ihr (nd + nconst l) _ _ hw.2.2.2 (by simp; omega)]
    · rcases signOp_cases run with e | e
      · rw [e, eval_binary A (o := FLEP_PLUS) (g := A.add) rfl]; simp [FLEP_PLUS, FLEP_MINUS]
      · rw [e, eval_binary A (o := FLEP_MINUS) (g := A.sub) rfl]; simp
    · intro j hj
      have := hp (nconst l + j) (by simp [nconst]; omega)
      simp only [pool] at this
      rw [← Nat.add_assoc] at this
      rw [this, List.getElem?_append_right (by simp [pool_length])]
      simp [pool_length]
    · intro j hj
      have := hp j (by simp [nconst]; omega)
      simp only [pool] at this
      rw [this, List.getElem?_append_left (by simp [pool_length]; exact hj)]

end

section

variable {D : Type} (A : Arith D)

/-! ## `flep_delete_text` in closed form -/

theorem delete_loop_eq (n : Nat) (hn : 1 ≤ n) :
    ∀ (cnt j : Nat) (text : List Nat), n ≤ j → j + cnt ≤ text.length →
      flep_delete_text_loop n cnt j text =
        text.take (j - n) ++ (text.drop j).take cnt ++ text.drop (j - n + cnt) := by
  intro cnt
  induction cnt with
  | zero =>
    intro j text _ _
    simp [flep_delete_text_loop]
  | succ cnt ih =>
    intro j text hj hlen
    rw [flep_delete_text_loop, ih (j + 1) _ (by omega) (by simp; omega)]
    have hjl : j < text.length := by omega
    have e1 : j + 1 - n = (j - n) + 1 := by omega
    have e2 : (text.set (j - n) (text.getD j 0)).take (j - n + 1) =
        text.take (j - n) ++ [text.getD j 0] := by
      have hlt : j - n < text.length := by omega
      rw [List.set_eq_take_cons_drop _ hlt, List.take_append_eq_append_take]
      simp [List.length_take, Nat.min_eq_left (Nat.le_of_lt hlt), List.take_take]
    have e3 : (text.set (j - n) (text.getD j 0)).drop (j + 1) = text.drop (j + 1) := by
      rw [List.drop_set_of_lt]; omega
    have e4 : (text.set (j - n) (text.getD j 0)).drop (j - n + 1 + cnt) =
        text.drop (j - n + 1 + cnt) := by
      rw [List.drop_set_of_lt]; omega
    have e5 : (text.drop j).take (cnt + 1) = text.getD j 0 :: (text.drop (j + 1)).take cnt := by
      have eg : text.getD j 0 = text[j] := by
        simp [List.getD_eq_getElem?_getD, List.getElem?_eq_getElem hjl]
      rw [List.drop_eq_getElem_cons hjl, List.take_succ_cons, eg]
    rw [e1, e2, e3, e4, e5]
    simp [Nat.add_assoc, Nat.add_comm 1 cnt]

end

section

variable {D : Type} (A : Arith D)

/-! ## Evaluation under a change of one pool slot -/

theorem refs_cons (w : Nat) (c : List Nat) :
    refs (w :: c) = if FLEP_OPCODE w = FLEP_CONST then FLEP_OPPARM w :: refs c else refs c := by
  unfold refs
  by_cases h : FLEP_OPCODE w = FLEP_CONST <;> simp [List.filter_cons, h]

theorem refs_append (a b : List Nat) : refs (a ++ b) = refs a ++ refs b := by
  simp [refs]

theorem mem_refs {c : List Nat} {w : Nat} (hw : w ∈ c) (hc : FLEP_OPCODE w = FLEP_CONST) :
    FLEP_OPPARM w ∈ refs c := by
  unfold refs
  exact List.mem_map.mpr ⟨w, List.mem_filter.mpr ⟨hw, by simpa using hc⟩, rfl⟩

theorem agree_set (d : List D) (k : Nat) (v : D) (c : List Nat) (hk : k ∉ refs c) :
    AgreeOn d (d.set k v) c := by
  intro w hw hc
  have : FLEP_OPPARM w ≠ k := fun e => hk (e ▸ mem_refs hw hc)
  rw [List.getElem?_set_ne (Ne.symm this)]

theorem agree_refl (d : List D) (c : List Nat) : AgreeOn d d c := fun _ _ _ => rfl

theorem round_congr (d d' val : List D) (w : Nat)
    (hw : FLEP_OPCODE w = FLEP_CONST → d'[FLEP_OPPARM w]? = d[FLEP_OPPARM w]?) (s : List D) :
    flep_eval_round A d' val w s = flep_eval_round A d val w s := by
  unfold flep_eval_round
  by_cases h : FLEP_OPCODE w = FLEP_CONST
  · simp [h, hw h]
  · simp [h]

theorem eval_prefix (d d' val : List D) (X X' : List Nat)
    (H : ∀ s r, flep_eval_loop A d val X s = .ok r → flep_eval_loop A d' val X' s = .ok r) :
    ∀ pre : List Nat, AgreeOn d d' pre → ∀ s r,
      flep_eval_loop A d val (pre ++ X) s = .ok r →
      flep_eval_loop A d' val (pre ++ X') s = .ok r := by
  intro pre
  induction pre with
  | nil => intro _ s r h; exact H s r h
  | cons w pre ih =>
    intro hk s r h
    have hw := hk w (List.mem_cons_self _ _)
    have hk' : AgreeOn d d' pre := fun u hu => hk u (List.mem_cons_of_mem _ hu)
    rw [List.cons_append, flep_eval_loop] at h ⊢
    rw [round_congr A d d' val w hw s]
    cases hr : flep_eval_round A d val w s with
    | next s' => rw [hr] at h; exact ih hk' s' r h
    | ret x => rw [hr] at h; exact h
    | fault => rw [hr] at h; exact h

theorem eval_end_junk (d d' val : List D) (junk junk' : List Nat) (s : List D) :
    flep_eval_loop A d val (FLEP_END :: junk) s =
      flep_eval_loop A d' val (FLEP_END :: junk') s := by
  rw [eval_end, eval_end]

/-- Code is not affected by a change of slots it does not reference, nor by
what follows the end-marker. -/
theorem eval_post (d d' val : List D) (post : List Nat) (hk : AgreeOn d d' post)
    (junk junk' : List Nat) (s : List D) (r : D)
    (h : flep_eval_loop A d val (post ++ FLEP_END :: junk) s = .ok r) :
    flep_eval_loop A d' val (post ++ FLEP_END :: junk') s = .ok r :=
  eval_prefix A d d' val _ _
    (fun s r h => by rw [← eval_end_junk A d d' val junk junk' s]; exact h) post hk s r h

theorem refines_refl (d : List D) (c : List Nat) : Refines A d c d c :=
  fun val junk junk' s r h => eval_post A d d val c (agree_refl d c) junk junk' s r h

theorem refines_trans {d1 d2 d3 : List D} {c1 c2 c3 : List Nat}
    (h12 : Refines A d1 c1 d2 c2) (h23 : Refines A d2 c2 d3 c3) : Refines A d1 c1 d3 c3 :=
  fun val junk junk' s r h => h23 val junk junk' s r (h12 val junk junk s r h)

/-- Rule 1 of the optimizer: two adjacent unary minus opcodes are dropped. -/
theorem refines_rule1 (hneg : ∀ x, A.neg (A.neg x) = x) (d : List D) (pre post : List Nat) :
    Refines A d (pre ++ FLEP_UNARY_MINUS :: FLEP_UNARY_MINUS :: post) d (pre ++ post) := by
  intro val junk junk' s r h
  rw [List.append_assoc] at h ⊢
  refine eval_prefix A d d val _ _ ?_ pre (agree_refl d pre) s r h
  intro s r h
  cases s with
  | nil =>
    rw [List.cons_append, flep_eval_loop] at h
    simp [flep_eval_round, opcode_lit] at h
  | cons x s =>
    rw [List.cons_append, List.cons_append,
      eval_unary A (o := FLEP_UNARY_MINUS) (f := A.neg) rfl,
      eval_unary A (o := FLEP_UNARY_MINUS) (f := A.neg) rfl, hneg] at h
    exact eval_post A d d val post (agree_refl d post) junk junk' _ r h

theorem const_round (d val : List D) (w : Nat) (hc : FLEP_OPCODE w = FLEP_CONST) (s : List D) :
    flep_eval_round A d val w s =
      match d[FLEP_OPPARM w]? with
      | some v => if s.length < 64 then .next (v :: s) else .fault
      | none => .fault := by
  unfold flep_eval_round
  simp only [hc]
  simp only [FLEP_CONST, FLEP_UNARY_MINUS, FLEP_PLUS, FLEP_MINUS, FLEP_MULT, FLEP_DIV,
    FLEP_POWER, FLEP_VAR]
  first
    | (simp; done)
    | (simp; cases d[FLEP_OPPARM w]? <;> rfl)

/-- Rule 2 of the optimizer: a constant followed by a single-operand
opcode is folded into its pool slot. -/
theorem refines_rule2 (d : List D) (pre post : List Nat) (ti t1 : Nat) (x : D) (f : D → D)
    (hc : FLEP_OPCODE ti = FLEP_CONST) (hx : d[FLEP_OPPARM ti]? = some x)
    (hf : unary A t1 = some f) (hpre : FLEP_OPPARM ti ∉ refs pre)
    (hpost : FLEP_OPPARM ti ∉ refs post) :
    Refines A d (pre ++ ti :: t1 :: post) (d.set (FLEP_OPPARM ti) (f x)) (pre ++ ti :: post) := by
  intro val junk junk' s r h
  rw [List.append_assoc] at h ⊢
  refine eval_prefix A d _ val _ _ ?_ pre (agree_set d _ _ pre hpre) s r h
  intro s r h
  rw [List.cons_append, flep_eval_loop, const_round A d val ti hc, hx] at h
  rw [List.cons_append, flep_eval_loop, const_round A _ val ti hc]
  have hlt : FLEP_OPPARM ti < d.length := by
    by_contra hn
    rw [List.getElem?_eq_none (by omega)] at hx
    cases hx
  rw [List.getElem?_set_self hlt]
  by_cases hs : s.length < 64
  · simp only [hs, if_true] at h ⊢
    rw [List.cons_append, eval_unary A hf] at h
    exact eval_post A d _ val post (agree_set d _ _ post hpost) junk junk' _ r h
  · simp [hs] at h

/-- Rule 3 of the optimizer: two constants followed by a two-operand opcode
are folded into the pool slot of the first. -/
theorem refines_rule3 (d : List D) (pre post : List Nat) (tm ti t1 : Nat) (x y : D)
    (g : D → D → D) (hcm : FLEP_OPCODE tm = FLEP_CONST) (hci : FLEP_OPCODE ti = FLEP_CONST)
    (hx : d[FLEP_OPPARM tm]? = some x) (hy : d[FLEP_OPPARM ti]? = some y)
    (hg : binary A t1 = some g) (hpre : FLEP_OPPARM tm ∉ refs pre)
    (hpost : FLEP_OPPARM tm ∉ refs post) :
    Refines A d (pre ++ tm :: ti :: t1 :: post) (d.set (FLEP_OPPARM tm) (g x y))
      (pre ++ tm :: post) := by
  intro val junk junk' s r h
  rw [List.append_assoc] at h ⊢
  refine eval_prefix A d _ val _ _ ?_ pre (agree_set d _ _ pre hpre) s r h
  intro s r h
  rw [List.cons_append, flep_eval_loop, const_round A d val tm hcm, hx] at h
  rw [List.cons_append, flep_eval_loop, const_round A _ val tm hcm]
  have hlt : FLEP_OPPARM tm < d.length := by
    by_contra hn
    rw [List.getElem?_eq_none (by omega)] at hx
    cases hx
  rw [List.getElem?_set_self hlt]
  by_cases hs : s.length < 64
  · simp only [hs, if_true] at h ⊢
    rw [List.cons_append, flep_eval_loop, const_round A d val ti hci, hy] at h
    by_cases hs2 : (x :: s).length < 64
    · simp only [hs2, if_true] at h
      rw [List.cons_append, eval_binary A hg] at h
      exact eval_post A d _ val post (agree_set d _ _ post hpost) junk junk' _ r h
    · simp only [List.length_cons] at hs2
      simp [hs2] at h
  · simp [hs] at h

end

section

variable {D : Type} (A : Arith D)

/-! ## What a deletion does to a program -/

theorem delete_text_spec (out : FLEP D) (i n : Nat) (hn : 1 ≤ n) (h1 : i + n ≤ out.nt)
    (h2 : out.nt ≤ out.text.length) :
    (flep_delete_text out i n).nt = out.nt - n ∧
    (flep_delete_text out i n).data = out.data ∧
    (flep_delete_text out i n).text.length = out.text.length ∧
    live (flep_delete_text out i n) = (live out).take i ++ (live out).drop (i + n) ∧
    (∀ j, out.nt - n ≤ j → (flep_delete_text out i n).text[j]? = out.text[j]?) := by
  have hcl := delete_loop_eq n hn (out.nt - (i + n)) (i + n) out.text (by omega) (by omega)
  have e1 : i + n - n = i := by omega
  have e2 : i + (out.nt - (i + n)) = out.nt - n := by omega
  rw [e1, e2] at hcl
  refine ⟨rfl, rfl, ?_, ?_, ?_⟩
  · simp only [flep_delete_text, hcl, List.length_append, List.length_take, List.length_drop]
    omega
  · simp only [live, flep_delete_text, hcl]
    rw [List.append_assoc, List.take_append_eq_append_take, List.take_append_eq_append_take]
    have l1 : (List.take i out.text).length = i := by simp; omega
    have l2 : (List.take (out.nt - (i + n)) (List.drop (i + n) out.text)).length =
        out.nt - (i + n) := by simp; omega
    rw [l1, l2, List.take_take, List.take_take, List.take_take, List.drop_take]
    have m1 : min (out.nt - n) i = i := by omega
    have m2 : min i out.nt = i := by omega
    have m3 : min (out.nt - n - i) (out.nt - (i + n)) = out.nt - (i + n) := by omega
    have m4 : out.nt - n - i - (out.nt - (i + n)) = 0 := by omega
    rw [m1, m2, m3, m4]
    simp
  · intro j hj
    simp only [flep_delete_text, hcl]
    have l1 : (List.take i out.text ++ List.take (out.nt - (i + n))
        (List.drop (i + n) out.text)).length = out.nt - n := by simp; omega
    rw [List.getElem?_append_right (by omega), l1, List.getElem?_drop]
    congr 1
    omega

theorem split1 {l : List Nat} {m a : Nat} (ha : l[m]? = some a) :
    l = l.take m ++ a :: l.drop (m + 1) := by
  have hm : m < l.length := by
    by_contra hn
    rw [List.getElem?_eq_none (by omega)] at ha
    cases ha
  have e : l[m] = a := by
    rw [List.getElem?_eq_getElem hm] at ha
    exact Option.some.inj ha
  conv_lhs => rw [← List.take_append_drop m l, List.drop_eq_getElem_cons hm, e]

theorem split2 {l : List Nat} {m a b : Nat} (ha : l[m]? = some a) (hb : l[m + 1]? = some b) :
    l = l.take m ++ a :: b :: l.drop (m + 2) := by
  have h1 := split1 ha
  have hb' : (l.drop (m + 1))[0]? = some b := by
    rw [List.getElem?_drop]; simpa using hb
  have h2 := split1 hb'
  simp only [List.take_zero, List.nil_append, List.drop_drop] at h2
  conv_lhs => rw [h1, h2]

theorem split3 {l : List Nat} {m a b e : Nat} (ha : l[m]? = some a) (hb : l[m + 1]? = some b)
    (he : l[m + 2]? = some e) :
    l = l.take m ++ a :: b :: e :: l.drop (m + 3) := by
  have h1 := split2 ha hb
  have he' : (l.drop (m + 2))[0]? = some e := by
    rw [List.getElem?_drop]; simpa using he
  have h2 := split1 he'
  simp only [List.take_zero, List.nil_append, List.drop_drop] at h2
  conv_lhs => rw [h1, h2]

theorem live_get {out : FLEP D} {j : Nat} (h : j < out.nt) : (live out)[j]? = out.text[j]? := by
  simp [live, List.getElem?_take, h]

theorem refs_sublist {c' c : List Nat} (h : c'.Sublist c) : (refs c').Sublist (refs c) := by
  unfold refs
  exact (h.filter _).map _

/-- A program whose used opcodes are a sub-sequence of those of a good
program, still start with a reference, and whose pool has the same length, is
good. -/
theorem poolOK_of_sublist {out out' : FLEP D} (hP : PoolOK out)
    (hnt : out'.nt ≤ out'.text.length) (hsub : (live out').Sublist (live out))
    (hlen : out'.data.length = out.data.length) (hpf : PushFirst (live out')) : PoolOK out' := by
  obtain ⟨_, hnd, hb, _⟩ := hP
  refine ⟨hnt, hnd.sublist (refs_sublist hsub), ?_, hpf⟩
  intro k hk
  rw [hlen]
  exact hb k ((refs_sublist hsub).subset hk)

end

section

variable {D : Type} (A : Arith D)

theorem take_drop_sublist (l : List Nat) {a b : Nat} (h : a ≤ b) :
    (l.take a ++ l.drop b).Sublist l := by
  conv_rhs => rw [← List.take_append_drop a l]
  exact List.Sublist.append (List.Sublist.refl _) (List.drop_sublist_drop_left l h)

theorem pushFirst_take {l : List Nat} (h : PushFirst l) {m : Nat} (hm : 1 ≤ m) (x : List Nat) :
    PushFirst (l.take m ++ x) := by
  obtain ⟨w, rest, rfl, hw⟩ := h
  obtain ⟨k, rfl⟩ : ∃ k, m = k + 1 := ⟨m - 1, by omega⟩
  exact ⟨w, rest.take k ++ x, by simp, hw⟩

theorem pushFirst_head {l : List Nat} (h : PushFirst l) :
    ∃ w, l[0]? = some w ∧ (FLEP_OPCODE w = FLEP_VAR ∨ FLEP_OPCODE w = FLEP_CONST) := by
  obtain ⟨w, rest, rfl, hw⟩ := h
  exact ⟨w, by simp, hw⟩

theorem opcode_neg : FLEP_OPCODE FLEP_UNARY_MINUS = 1 := by decide

theorem nodup_split {pre post : List Nat} {w : Nat} (hc : FLEP_OPCODE w = FLEP_CONST)
    (h : (refs (pre ++ w :: post)).Nodup) :
    FLEP_OPPARM w ∉ refs pre ∧ FLEP_OPPARM w ∉ refs post := by
  rw [refs_append, refs_cons, if_pos hc] at h
  have h1 := List.nodup_append.mp h
  obtain ⟨_, h2, h3⟩ := h1
  refine ⟨fun hm => h3 hm (List.mem_cons_self _ _), (List.nodup_cons.mp h2).1⟩

/-- Effect of rule 1 at index `m + 1`. -/
theorem step_rule1 (out : FLEP D) (hneg : NegOK A out) (m : Nat)
    (hP : PoolOK out) (hlt : m + 1 < out.nt)
    (ha : out.text[m]? = some FLEP_UNARY_MINUS)
    (hb : out.text[m + 1]? = some FLEP_UNARY_MINUS) :
    PoolOK (flep_delete_text out m 2) ∧ ScanOK ((m : Int) - 1) (flep_delete_text out m 2) ∧
    Refines A out.data (live out) (flep_delete_text out m 2).data
      (live (flep_delete_text out m 2)) ∧
    (flep_delete_text out m 2).nt = out.nt - 2 ∧
    (live (flep_delete_text out m 2)).Sublist (live out) := by
  have hP' := hP
  obtain ⟨hnt, hnd, hbnd, hpf⟩ := hP
  obtain ⟨e_nt, e_data, e_len, e_live, -⟩ :=
    delete_text_spec out m 2 (by norm_num) (by omega) hnt
  have hla : (live out)[m]? = some FLEP_UNARY_MINUS := by rw [live_get (by omega)]; exact ha
  have hlb : (live out)[m + 1]? = some FLEP_UNARY_MINUS := by rw [live_get (by omega)]; exact hb
  have hsplit := split2 hla hlb
  have hm : 1 ≤ m := by
    by_contra hn
    have : m = 0 := by omega
    subst this
    obtain ⟨w, hw, hw2⟩ := pushFirst_head hpf
    rw [hla] at hw
    cases hw
    rw [opcode_neg] at hw2
    rcases hw2 with h | h <;> cases h
  have hsub : (live (flep_delete_text out m 2)).Sublist (live out) := by
    rw [e_live]; exact take_drop_sublist _ (by omega)
  have hlaw : ∀ x, A.neg (A.neg x) = x := by
    rcases hneg with h | h
    · exact h
    · exact absurd (List.getElem?_mem hla) h
  refine ⟨?_, ?_, ?_, e_nt, hsub⟩
  · apply poolOK_of_sublist hP'
    · rw [e_nt, e_len]; omega
    · exact hsub
    · rw [e_data]
    · rw [e_live]; exact pushFirst_take hpf hm _
  · refine ⟨?_, ?_, ?_⟩
    · rw [e_len]; omega
    · rw [e_nt]; omega
    · intro h; rw [e_nt] at h; omega
  · rw [e_data, e_live]
    conv => arg 3; rw [hsplit]
    exact refines_rule1 A hlaw _ _ _

/-- Effect of rule 2 at index `n`. -/
theorem step_rule2 (out : FLEP D) (n ti t1 : Nat) (x : D) (f : D → D)
    (hP : PoolOK out) (hlt : n + 1 < out.nt)
    (hti : out.text[n]? = some ti) (hc : FLEP_OPCODE ti = FLEP_CONST)
    (ht1 : out.text[n + 1]? = some t1) (hf : unary A t1 = some f)
    (hx : out.data[FLEP_OPPARM ti]? = some x) :
    PoolOK (flep_delete_text { out with data := out.data.set (FLEP_OPPARM ti) (f x) } (n + 1) 1) ∧
    ScanOK (n : Int)
      (flep_delete_text { out with data := out.data.set (FLEP_OPPARM ti) (f x) } (n + 1) 1) ∧
    Refines A out.data (live out)
      (flep_delete_text { out with data := out.data.set (FLEP_OPPARM ti) (f x) } (n + 1) 1).data
      (live (flep_delete_text
        { out with data := out.data.set (FLEP_OPPARM ti) (f x) } (n + 1) 1)) ∧
    (flep_delete_text { out with data := out.data.set (FLEP_OPPARM ti) (f x) } (n + 1) 1).nt =
      out.nt - 1 ∧
    (live (flep_delete_text
      { out with data := out.data.set (FLEP_OPPARM ti) (f x) } (n + 1) 1)).Sublist (live out) := by
  have hP' := hP
  obtain ⟨hnt, hnd, hbnd, hpf⟩ := hP
  obtain ⟨e_nt, e_data, e_len, e_live, -⟩ :=
    delete_text_spec { out with data := out.data.set (FLEP_OPPARM ti) (f x) } (n + 1) 1
      (by norm_num) (by simp only; omega) hnt
  have hl1 : live { out with data := out.data.set (FLEP_OPPARM ti) (f x) } = live out := rfl
  rw [hl1] at e_live
  simp only at e_nt e_data e_len
  have hla : (live out)[n]? = some ti := by rw [live_get (by omega)]; exact hti
  have hlb : (live out)[n + 1]? = some t1 := by rw [live_get (by omega)]; exact ht1
  have hsplit := split2 hla hlb
  have e_live' : live (flep_delete_text
      { out with data := out.data.set (FLEP_OPPARM ti) (f x) } (n + 1) 1) =
      (live out).take n ++ ti :: (live out).drop (n + 2) := by
    rw [e_live, List.take_succ, hla]; simp
  have hsub : (live (flep_delete_text
      { out with data := out.data.set (FLEP_OPPARM ti) (f x) } (n + 1) 1)).Sublist (live out) := by
    rw [e_live]; exact take_drop_sublist _ (by omega)
  refine ⟨?_, ?_, ?_, e_nt, hsub⟩
  · apply poolOK_of_sublist hP'
    · rw [e_nt, e_len]; omega
    · exact hsub
    · rw [e_data]; simp
    · rw [e_live]; exact pushFirst_take hpf (by omega) _
  · refine ⟨?_, ?_, ?_⟩
    · rw [e_len]; omega
    · rw [e_nt]; omega
    · intro h; rw [e_nt] at h; omega
  · rw [e_data, e_live']
    conv => arg 3; rw [hsplit]
    have hnd' := hnd
    rw [hsplit] at hnd'
    obtain ⟨n1, n2⟩ := nodup_split hc hnd'
    refine refines_rule2 A _ _ _ ti t1 x f hc hx hf n1 ?_
    intro hm
    apply n2
    rw [refs_cons]
    split_ifs
    · exact List.mem_cons_of_mem _ hm
    · exact hm

/-- Effect of rule 3 at index `m + 1`. -/
theorem step_rule3 (out : FLEP D) (m tm ti t1 : Nat) (x y : D) (g : D → D → D)
    (hP : PoolOK out) (hlt : m + 2 < out.nt)
    (htm : out.text[m]? = some tm) (hcm : FLEP_OPCODE tm = FLEP_CONST)
    (hti : out.text[m + 1]? = some ti) (hci : FLEP_OPCODE ti = FLEP_CONST)
    (ht1 : out.text[m + 2]? = some t1) (hg : binary A t1 = some g)
    (hx : out.data[FLEP_OPPARM tm]? = some x) (hy : out.data[FLEP_OPPARM ti]? = some y) :
    PoolOK (flep_delete_text { out with data := out.data.set (FLEP_OPPARM tm) (g x y) } (m + 1) 2) ∧
    Refines A out.data (live out)
      (flep_delete_text { out with data := out.data.set (FLEP_OPPARM tm) (g x y) } (m + 1) 2).data
      (live (flep_delete_text
        { out with data := out.data.set (FLEP_OPPARM tm) (g x y) } (m + 1) 2)) ∧
    (flep_delete_text { out with data := out.data.set (FLEP_OPPARM tm) (g x y) } (m + 1) 2).nt =
      out.nt - 2 ∧
    (flep_delete_text
      { out with data := out.data.set (FLEP_OPPARM tm) (g x y) } (m + 1) 2).text.length =
      out.text.length ∧
    (∀ j, out.nt - 2 ≤ j → (flep_delete_text
      { out with data := out.data.set (FLEP_OPPARM tm) (g x y) } (m + 1) 2).text[j]? =
      out.text[j]?) ∧
    (live (flep_delete_text
      { out with data := out.data.set (FLEP_OPPARM tm) (g x y) } (m + 1) 2)).Sublist
      (live out) := by
  have hP' := hP
  obtain ⟨hnt, hnd, hbnd, hpf⟩ := hP
  obtain ⟨e_nt, e_data, e_len, e_live, e_stale⟩ :=
    delete_text_spec { out with data := out.data.set (FLEP_OPPARM tm) (g x y) } (m + 1) 2
      (by norm_num) (by simp only; omega) hnt
  have hl1 : live { out with data := out.data.set (FLEP_OPPARM tm) (g x y) } = live out := rfl
  rw [hl1] at e_live
  simp only at e_nt e_data e_len e_stale
  have hla : (live out)[m]? = some tm := by rw [live_get (by omega)]; exact htm
  have hlb : (live out)[m + 1]? = some ti := by rw [live_get (by omega)]; exact hti
  have hlc : (live out)[m + 2]? = some t1 := by rw [live_get (by omega)]; exact ht1
  have hsplit := split3 hla hlb hlc
  have e_live' : live (flep_delete_text
      { out with data := out.data.set (FLEP_OPPARM tm) (g x y) } (m + 1) 2) =
      (live out).take m ++ tm :: (live out).drop (m + 3) := by
    rw [e_live, List.take_succ, hla]; simp
  have hsub : (live (flep_delete_text
      { out with data := out.data.set (FLEP_OPPARM tm) (g x y) } (m + 1) 2)).Sublist
      (live out) := by
    rw [e_live]; exact take_drop_sublist _ (by omega)
  refine ⟨?_, ?_, e_nt, e_len, e_stale, hsub⟩
  · apply poolOK_of_sublist hP'
    · rw [e_nt, e_len]; omega
    · exact hsub
    · rw [e_data]; simp
    · rw [e_live]; exact pushFirst_take hpf (by omega) _
  · rw [e_data, e_live']
    conv => arg 3; rw [hsplit]
    have hnd' := hnd
    rw [hsplit] at hnd'
    obtain ⟨n1, n2⟩ := nodup_split hcm hnd'
    refine refines_rule3 A _ _ _ tm ti t1 x y g hcm hci hx hy hg n1 ?_
    intro hm
    apply n2
    rw [refs_cons, refs_cons]
    split_ifs <;> simp [hm]

end

section

variable {D : Type} (A : Arith D)

theorem rd_nat {α : Type} (buf : List α) (n : Nat) (v : α) (h : buf[n]? = some v) :
    rd buf (n : Int) = .ok v := by
  simp [rd, h]

theorem rd_succ {α : Type} (buf : List α) (n : Nat) (v : α) (h : buf[n + 1]? = some v) :
    rd buf ((n : Int) + 1) = .ok v := by
  have : ((n : Int) + 1) = ((n + 1 : Nat) : Int) := by push_cast; rfl
  rw [this]; exact rd_nat buf _ v h

theorem rd_pred {α : Type} (buf : List α) (m : Nat) (v : α) (h : buf[m]? = some v) :
    rd buf (((m + 1 : Nat) : Int) - 1) = .ok v := by
  have : (((m + 1 : Nat) : Int) - 1) = (m : Int) := by push_cast; ring
  rw [this]; exact rd_nat buf _ v h

theorem get_of_lt {α : Type} (buf : List α) (n : Nat) (h : n < buf.length) :
    ∃ v, buf[n]? = some v := ⟨buf[n], List.getElem?_eq_getElem h⟩

theorem no_rewrite (out : FLEP D) (n : Nat) (hP : PoolOK out) (hS : ScanOK (n : Int) out) :
    PoolOK out ∧ ScanOK ((n : Int) - 1) out ∧ Refines A out.data (live out) out.data (live out) ∧
      (n : Int) - 1 + 2 * (out.nt : Int) < n + 2 * (out.nt : Int) ∧
      (live out).Sublist (live out) := by
  obtain ⟨s1, s2, _⟩ := hS
  refine ⟨hP, ⟨by omega, by omega, fun h => by omega⟩, refines_refl A _ _, by omega,
    List.Sublist.refl _⟩

theorem ref_valid {out : FLEP D} (hP : PoolOK out) {j w : Nat} (hj : j < out.nt)
    (hw : out.text[j]? = some w) (hc : FLEP_OPCODE w = FLEP_CONST) :
    ∃ x, out.data[FLEP_OPPARM w]? = some x := by
  obtain ⟨_, _, hb, _⟩ := hP
  have hl : (live out)[j]? = some w := by rw [live_get hj]; exact hw
  have hm : w ∈ live out := List.getElem?_mem hl
  exact get_of_lt _ _ (hb _ (mem_refs hm hc))

/-- One round of the optimizer keeps the program good, keeps the scan index
in a reachable position, refines the meaning, lowers `i + 2 * nt` and only
deletes opcodes. -/
theorem body_step (out : FLEP D) (hneg : NegOK A out) (n : Nat)
    (hP : PoolOK out) (hS : ScanOK (n : Int) out) :
    ∃ i' out', flep_optimize_body A (n : Int) out = .ok (i', out') ∧ PoolOK out' ∧
      ScanOK (i' - 1) out' ∧ Refines A out.data (live out) out'.data (live out') ∧
      i' - 1 + 2 * (out'.nt : Int) < n + 2 * (out.nt : Int) ∧
      (live out').Sublist (live out) := by
  have hnr := no_rewrite A out n hP hS
  obtain ⟨s1, s2, s3⟩ := hS
  have hnt := hP.1
  obtain ⟨ti, hti⟩ := get_of_lt out.text n (by omega)
  obtain ⟨w0, hw0, hpush⟩ := pushFirst_head hP.2.2.2
  have hnt1 : 1 ≤ out.nt := by
    by_contra hn
    have : out.nt = 0 := by omega
    simp [live, this] at hw0
  rw [live_get (by omega)] at hw0
  unfold flep_optimize_body
  rw [rd_nat _ n ti hti]
  simp only []
  by_cases hneg1 : ti = FLEP_UNARY_MINUS
  · subst hneg1
    have hn1 : 1 ≤ n := by
      by_contra hn
      have : n = 0 := by omega
      subst this
      rw [hti] at hw0
      cases hw0
      rw [opcode_neg] at hpush
      rcases hpush with h | h <;> cases h
    obtain ⟨m, rfl⟩ : ∃ m, n = m + 1 := ⟨n - 1, by omega⟩
    obtain ⟨tp, htp⟩ := get_of_lt out.text m (by omega)
    simp only [if_true]
    rw [rd_pred _ m tp htp]
    simp only [true_and]
    by_cases hp : tp = FLEP_UNARY_MINUS
    · subst hp
      have hlt : m + 1 < out.nt := by
        by_contra hn
        have e : ((m + 1 : Nat) : Int) = out.nt := by omega
        obtain ⟨w, hw, hwc⟩ := s3 e
        have e2 : m + 1 = out.nt := by omega
        rw [← e2, List.get?_eq_getElem?, hti] at hw
        cases hw
        rw [opcode_neg] at hwc
        cases hwc
      obtain ⟨q1, q2, q3, q4, q7⟩ := step_rule1 A out hneg m hP hlt htp hti
      have et : (((m + 1 : Nat) : Int) - 1).toNat = m := by omega
      simp only [if_true, et]
      refine ⟨_, _, rfl, q1, ?_, q3, ?_, q7⟩
      · have : (((m + 1 : Nat) : Int) - 1 - 1) = (m : Int) - 1 := by omega
        rw [this]; exact q2
      · rw [q4]; omega
    · simp only [hp, if_false, opcode_neg]
      exact ⟨_, _, rfl, hnr⟩
  · simp only [hneg1, if_false, false_and]
    by_cases hc : FLEP_OPCODE ti = FLEP_CONST ∧ (n : Int) < (out.nt : Int) - 1
    · obtain ⟨hc1, hc2⟩ := hc
      have hlt : n + 1 < out.nt := by omega
      obtain ⟨x, hx⟩ := ref_valid hP (by omega) hti hc1
      obtain ⟨t1, ht1⟩ := get_of_lt out.text (n + 1) (by omega)
      simp only [hc1, hc2, and_self, if_true]
      rw [rd_nat _ _ x hx, rd_succ _ n t1 ht1]
      simp only []
      cases hu : unary A t1 with
      | some f =>
        simp only []
        obtain ⟨q1, q2, q3, q4, q7⟩ := step_rule2 A out n ti t1 x f hP hlt hti hc1 ht1 hu hx
        have et : ((n : Int) + 1).toNat = n + 1 := by omega
        rw [et]
        refine ⟨_, _, rfl, q1, ?_, q3, ?_, q7⟩
        · have : ((n : Int) + 1 - 1) = (n : Int) := by omega
          rw [this]; exact q2
        · rw [q4]; omega
      | none =>
        simp only []
        by_cases hn0 : (n : Int) = 0
        · simp only [hn0, ne_eq, not_true_eq_false, if_false]
          have := hnr
          rw [hn0] at this
          exact ⟨_, _, rfl, by simpa [hn0] using hnr⟩
        · simp only [ne_eq, hn0, not_false_eq_true, if_true]
          obtain ⟨m, rfl⟩ : ∃ m, n = m + 1 := ⟨n - 1, by omega⟩
          obtain ⟨tm, htm⟩ := get_of_lt out.text m (by omega)
          rw [rd_pred _ m tm htm]
          simp only []
          by_cases hcm : FLEP_OPCODE tm = FLEP_CONST
          · obtain ⟨x', hx'⟩ := ref_valid hP (by omega) htm hcm
            simp only [hcm, if_true]
            rw [rd_nat _ _ x' hx']
            simp only []
            cases hb : binary A t1 with
            | some g =>
              simp only []
              obtain ⟨q1, q3, q4, q5, q6, q7⟩ :=
                step_rule3 A out m tm ti t1 x' x g hP (by omega) htm hcm hti hc1 ht1 hb hx' hx
              have et : ((m + 1 : Nat) : Int).toNat = m + 1 := by omega
              rw [et]
              obtain ⟨tn, htn⟩ := get_of_lt (flep_delete_text
                { out with data := out.data.set (FLEP_OPPARM tm) (g x' x) } (m + 1) 2).text
                (m + 1) (by rw [q5]; omega)
              rw [rd_nat _ _ tn htn]
              simp only []
              by_cases hcn : FLEP_OPCODE tn = FLEP_CONST
              · simp only [hcn, if_true]
                refine ⟨_, _, rfl, q1, ⟨?_, ?_, ?_⟩, q3, ?_, q7⟩
                · rw [q5]; omega
                · rw [q4]; omega
                · intro h
                  rw [q4] at h ⊢
                  have e2 : m + 1 = out.nt - 2 := by omega
                  refine ⟨tn, ?_, hcn⟩
                  rw [← e2, List.get?_eq_getElem?]; exact htn
                · rw [q4]; omega
              · simp only [hcn, if_false]
                refine ⟨_, _, rfl, q1, ⟨?_, ?_, ?_⟩, q3, ?_, q7⟩
                · rw [q5]; omega
                · rw [q4]; omega
                · intro h; rw [q4] at h; omega
                · rw [q4]; omega
            | none =>
              simp only []
              exact ⟨_, _, rfl, hnr⟩
          · simp only [hcm, if_false]
            exact ⟨_, _, rfl, hnr⟩
    · simp only [hc, if_false]
      exact ⟨_, _, rfl, hnr⟩

end

section

variable {D : Type} (A : Arith D)

/-- The loop of the optimizer, from a good program and a reachable scan
index, with enough fuel: it ends, on a good program that refines the one it
started from. -/
theorem optimize_loop_sound :
    ∀ (fuel : Nat) (i : Int) (out : FLEP D), NegOK A out → PoolOK out → ScanOK i out →
      i + 1 + 2 * (out.nt : Int) ≤ fuel →
      ∃ out', flep_optimize_loop A fuel i out = .ok out' ∧ PoolOK out' ∧
        Refines A out.data (live out) out'.data (live out') ∧
        (live out').Sublist (live out) := by
  intro fuel
  induction fuel with
  | zero =>
    intro i out _ hP _ hm
    refine ⟨out, ?_, hP, refines_refl A _ _, List.Sublist.refl _⟩
    rw [flep_optimize_loop.eq_def]
    have : i < 0 := by omega
    simp [this]
  | succ fuel ih =>
    intro i out hneg hP hS hm
    by_cases hi : i < 0
    · refine ⟨out, ?_, hP, refines_refl A _ _, List.Sublist.refl _⟩
      rw [flep_optimize_loop.eq_def]
      simp [hi]
    · obtain ⟨n, rfl⟩ : ∃ n : Nat, i = n := ⟨i.toNat, by omega⟩
      obtain ⟨i', out1, hb, hP1, hS1, hR1, hmeas, hsub1⟩ := body_step A out hneg n hP hS
      have hneg1 : NegOK A out1 := by
        rcases hneg with h | h
        · exact Or.inl h
        · exact Or.inr (fun hm => h (hsub1.subset hm))
      obtain ⟨out', hl, hP', hR', hsub'⟩ :=
        ih (i' - 1) out1 hneg1 hP1 hS1 (by push_cast at hm ⊢; omega)
      refine ⟨out', ?_, hP', refines_trans A hR1 hR', hsub'.trans hsub1⟩
      rw [flep_optimize_loop.eq_def]
      simp only [hi, if_false, hb]
      exact hl

/-- The optimizer, on a good program: it returns a good program that
refines it. -/
theorem optimize_sound (out : FLEP D) (hneg : NegOK A out) (hP : PoolOK out) :
    ∃ out', flep_optimize A out = .ok out' ∧ PoolOK out' ∧
      Refines A out.data (live out) out'.data (live out') ∧
      (live out').Sublist (live out) := by
  unfold flep_optimize
  apply optimize_loop_sound A
  · exact hneg
  · exact hP
  · exact ⟨by have := hP.1; omega, by omega, fun h => by omega⟩
  · push_cast; omega

theorem eval_add_end (out : FLEP D) (val : List D) :
    flep_eval A (flep_add_opcode out FLEP_END) val =
      flep_eval_loop A out.data val (live out ++ FLEP_END :: out.text.drop (out.nt + 1)) [] := by
  simp [flep_eval, flep_add_opcode, store, live]

/-- A refinement carries over to `flep_eval` of the programs closed by the
end-marker. -/
theorem eval_of_refines {out out' : FLEP D}
    (h : Refines A out.data (live out) out'.data (live out')) (val : List D) (r : D)
    (he : flep_eval A (flep_add_opcode out FLEP_END) val = .ok r) :
    flep_eval A (flep_add_opcode out' FLEP_END) val = .ok r := by
  rw [eval_add_end] at he ⊢
  exact h val _ _ [] r he

end

section

variable {D : Type} (A : Arith D)

/-! ## Invariants of the parser -/

theorem firstIndex_lt {α : Type} [DecidableEq α] (l : List α) (a : α) (i : Nat)
    (h : firstIndex l a = some i) : i < l.length := by
  induction l generalizing i with
  | nil => simp [firstIndex] at h
  | cons b t ih =>
    simp only [firstIndex] at h
    split_ifs at h
    · cases h; simp
    · cases ht : firstIndex t a with
      | none => simp [ht] at h
      | some j =>
        simp [ht] at h
        subst h
        have := ih j ht
        simp; omega

/-- The lexer never produces one of the three early error codes as a
token. -/
theorem next_not_err (tok : FLEPTokens D) : ¬ IsErr (flep_next A tok).curr := by
  unfold flep_next
  simp only []
  split_ifs <;> try (simp [IsErr])
  all_goals
    split <;> rename_i h <;>
    first
      | (simp [IsErr]; done)
      | (have hlt := firstIndex_lt _ _ _ h
         simp [IsErr, vars, built_in, sym, FLEP_SIN, FLEP_OPEN, FLEP_BADSYNTAX,
           FLEP_EXPECTED_OPEN, FLEP_UNBALANCED] at hlt ⊢
         omega)

theorem pinv_add_opcode {out : FLEP D} (h : PInv out) {o : Nat}
    (hop : FLEP_OPCODE o ≠ FLEP_CONST) : Grows out (flep_add_opcode out o) := by
  obtain ⟨ht, hr⟩ := h
  rw [add_opcode_tight ht]
  refine ⟨⟨tight_append ht _ _, ?_⟩, [o], rfl⟩
  simp only [FLEP.append, refs_append, refs_cons, if_neg hop, List.length_nil, Nat.add_zero]
  simpa [refs] using hr

theorem pinv_add_var {out : FLEP D} (h : PInv out) (i : Nat) :
    GrowsPush out (flep_add_opcode out (FLEP_BITFUSE FLEP_VAR i)) := by
  have hop : FLEP_OPCODE (FLEP_BITFUSE FLEP_VAR i) ≠ FLEP_CONST := by
    rw [opcode_var]; decide
  obtain ⟨hp, _⟩ := pinv_add_opcode h hop
  refine ⟨hp, _, [], ?_, Or.inl (opcode_var i)⟩
  rw [add_opcode_tight h.1]; rfl

theorem pinv_add_const {out : FLEP D} (h : PInv out) (v : D) :
    GrowsPush out (flep_add_opcode (flep_add_data out v)
      (FLEP_BITFUSE FLEP_CONST ((flep_add_data out v).nd - 1))) := by
  obtain ⟨ht, hr⟩ := h
  rw [add_const_tight ht]
  refine ⟨⟨tight_append ht _ _, ?_⟩, _, [], rfl, Or.inr (opcode_const _)⟩
  simp only [FLEP.append, refs_append, refs_cons, opcode_const, if_true, opparm_const, hr,
    List.length_singleton, List.range_succ]
  simp [refs]

theorem grows_refl {out : FLEP D} (h : PInv out) : Grows out out := ⟨h, [], by simp⟩

theorem grows_trans {a b c : FLEP D} (h1 : Grows a b) (h2 : Grows b c) : Grows a c := by
  obtain ⟨_, o1, e1⟩ := h1
  obtain ⟨p2, o2, e2⟩ := h2
  exact ⟨p2, o1 ++ o2, by rw [e2, e1, List.append_assoc]⟩

theorem growsPush_grows {a b c : FLEP D} (h1 : GrowsPush a b) (h2 : Grows b c) :
    GrowsPush a c := by
  obtain ⟨_, w, o1, e1, hw⟩ := h1
  obtain ⟨p2, o2, e2⟩ := h2
  exact ⟨p2, w, o1 ++ o2, by rw [e2, e1]; simp, hw⟩

theorem grows_growsPush {a b c : FLEP D} (h1 : Grows a b) (h2 : GrowsPush b c) :
    Grows a c := by
  obtain ⟨_, o1, e1⟩ := h1
  obtain ⟨p2, w, o2, e2, _⟩ := h2
  exact ⟨p2, o1 ++ w :: o2, by rw [e2, e1, List.append_assoc]⟩

theorem grows_of_push {a b : FLEP D} (h : GrowsPush a b) : Grows a b := by
  obtain ⟨p, w, o, e, _⟩ := h
  exact ⟨p, w :: o, e⟩

theorem opcode_ne_const {op : Nat} (h : op < 256) (hne : op ≠ FLEP_CONST) :
    FLEP_OPCODE op ≠ FLEP_CONST := by
  rw [opcode_small op h]; exact hne

end

section

variable {D : Type} (A : Arith D)

theorem not_err_close : ¬ IsErr FLEP_CLOSE := by simp [IsErr]

theorem isErr_unbalanced : IsErr FLEP_UNBALANCED := Or.inr (Or.inr rfl)
theorem isErr_badsyntax : IsErr FLEP_BADSYNTAX := Or.inl rfl
theorem isErr_expected : IsErr FLEP_EXPECTED_OPEN := Or.inr (Or.inl rfl)

set_option maxHeartbeats 1000000 in
theorem parserInvAt (n : Nat) : ParserInvAt A n := by
  induction n with
  | zero =>
    refine ⟨?_, ?_, ?_, ?_, ?_, ?_, ?_, ?_⟩
    · intro tok out r _ h; rw [flep_get_operand] at h; cases h
    · intro tok out r _ h; rw [flep_get_power] at h; cases h
    · intro ret tok out r _ h; rw [flep_get_power_loop] at h; cases h
    · intro tok out r _ h; rw [flep_get_prod] at h; cases h
    · intro ret tok out r _ h; rw [flep_get_prod_loop] at h; cases h
    · intro tok out r _ h; rw [flep_get_sum] at h; cases h
    · intro ret tok out r _ h; rw [flep_get_sum_loop] at h; cases h
    · intro op ret tok r _ h; rw [flep_get_sum_signs] at h; cases h
  | succ n ih =>
    obtain ⟨i1, i2, i3, i4, i5, i6, i7, i8⟩ := ih
    refine ⟨?_, ?_, ?_, ?_, ?_, ?_, ?_, ?_⟩
    · intro tok out r hP h
      rw [flep_get_operand] at h
      dsimp only at h
      split_ifs at h with c1 c2 c3 c4 c5 c6 c7 c8 c9 c10
      · cases hc : flep_get_sum A n (flep_next A tok) out with
        | none => simp [hc] at h
        | some x =>
          obtain ⟨ret, tok1, out1⟩ := x
          simp only [hc] at h
          obtain ⟨g1, g2⟩ := i6 _ _ _ hP hc
          split_ifs at h with hcl
          · cases h
            exact ⟨g1, fun hn => absurd isErr_unbalanced hn⟩
          · cases h
            have : ret = FLEP_CLOSE := by simpa using hcl
            subst this
            exact ⟨g1, fun _ => g2 not_err_close⟩
      · exact i1 _ _ _ hP h
      · cases h
        exact ⟨grows_refl hP, fun hn => absurd isErr_badsyntax hn⟩
      · cases hc : flep_get_prod A n (flep_next A tok) out with
        | none => simp [hc] at h
        | some x =>
          obtain ⟨ret, tok1, out1⟩ := x
          simp only [hc] at h
          obtain ⟨g1, g2⟩ := i4 _ _ _ hP hc
          cases h
          have ga := pinv_add_opcode g1.1 (o := FLEP_UNARY_MINUS) (by decide)
          exact ⟨grows_trans g1 ga, fun hn => growsPush_grows (g2 hn) ga⟩
      · cases hc : flep_get_power A n (flep_next A tok) out with
        | none => simp [hc] at h
        | some x =>
          obtain ⟨ret, tok1, out1⟩ := x
          simp only [hc] at h
          obtain ⟨g1, g2⟩ := i2 _ _ _ hP hc
          cases h
          have ga := pinv_add_opcode g1.1 (o := FLEP_UNARY_MINUS) (by decide)
          exact ⟨grows_trans g1 ga, fun hn => growsPush_grows (g2 hn) ga⟩
      · cases hc : flep_get_operand A n (flep_next A tok) out with
        | none => simp [hc] at h
        | some x =>
          obtain ⟨ret, tok1, out1⟩ := x
          simp only [hc] at h
          obtain ⟨g1, g2⟩ := i1 _ _ _ hP hc
          cases h
          have ga := pinv_add_opcode g1.1 (o := FLEP_MINUS) (by decide)
          exact ⟨grows_trans g1 ga, fun hn => growsPush_grows (g2 hn) ga⟩
      · cases h
        exact ⟨grows_refl hP, fun hn => absurd isErr_expected hn⟩
      · cases hc : flep_get_operand A n (flep_next A tok) out with
        | none => simp [hc] at h
        | some x =>
          obtain ⟨ret, tok1, out1⟩ := x
          simp only [hc] at h
          obtain ⟨g1, g2⟩ := i1 _ _ _ hP hc
          cases h
          have hfn : FLEP_SIN ≤ tok.curr ∧ tok.curr ≤ FLEP_SQRT := by assumption
          have hf1 : 11 ≤ tok.curr := hfn.1
          have hf2 : tok.curr ≤ 17 := hfn.2
          have hop : FLEP_OPCODE tok.curr ≠ FLEP_CONST := by
            apply opcode_ne_const
            · omega
            · show tok.curr ≠ 10
              omega
          have ga := pinv_add_opcode g1.1 hop
          exact ⟨grows_trans g1 ga, fun hn => growsPush_grows (g2 hn) ga⟩
      · cases h
        have ga := pinv_add_const hP tok.fval
        exact ⟨grows_of_push ga, fun _ => ga⟩
      · cases h
        have ga := pinv_add_var hP tok.ival
        exact ⟨grows_of_push ga, fun _ => ga⟩
      · cases h
        exact ⟨grows_refl hP, fun hn => absurd isErr_badsyntax hn⟩
    · intro tok out r hP h
      rw [flep_get_power] at h
      cases hc : flep_get_operand A n tok out with
      | none => simp [hc] at h
      | some x =>
        obtain ⟨ret, tok1, out1⟩ := x
        simp only [hc] at h
        obtain ⟨g1, g2⟩ := i1 _ _ _ hP hc
        obtain ⟨l1, l2⟩ := i3 _ _ _ _ g1.1 h
        refine ⟨grows_trans g1 l1, fun hn => ?_⟩
        by_cases he : IsErr ret
        · exact absurd (l2 he) hn
        · exact growsPush_grows (g2 he) l1
    · intro ret tok out r hP h
      rw [flep_get_power_loop] at h
      dsimp only at h
      split_ifs at h with c1
      · cases hc : flep_get_power A n (flep_next A tok) out with
        | none => simp [hc] at h
        | some x =>
          obtain ⟨ret1, tok1, out1⟩ := x
          simp only [hc] at h
          obtain ⟨g1, _⟩ := i2 _ _ _ hP hc
          have ga := pinv_add_opcode g1.1 (o := FLEP_POWER) (by decide)
          obtain ⟨l1, _⟩ := i3 _ _ _ _ ga.1 h
          refine ⟨grows_trans g1 (grows_trans ga l1), fun he => ?_⟩
          subst c1
          simp [IsErr] at he
      · cases h
        exact ⟨grows_refl hP, fun he => he⟩
    · intro tok out r hP h
      rw [flep_get_prod] at h
      cases hc : flep_get_power A n tok out with
      | none => simp [hc] at h
      | some x =>
        obtain ⟨ret, tok1, out1⟩ := x
        simp only [hc] at h
        obtain ⟨g1, g2⟩ := i2 _ _ _ hP hc
        obtain ⟨l1, l2⟩ := i5 _ _ _ _ g1.1 h
        refine ⟨grows_trans g1 l1, fun hn => ?_⟩
        by_cases he : IsErr ret
        · exact absurd (l2 he) hn
        · exact growsPush_grows (g2 he) l1
    · intro ret tok out r hP h
      rw [flep_get_prod_loop] at h
      dsimp only at h
      split_ifs at h with c1
      · cases hc : flep_get_power A n (flep_next A tok) out with
        | none => simp [hc] at h
        | some x =>
          obtain ⟨ret1, tok1, out1⟩ := x
          simp only [hc] at h
          obtain ⟨g1, _⟩ := i2 _ _ _ hP hc
          have hop : FLEP_OPCODE ret ≠ FLEP_CONST := by
            rcases c1 with e | e <;> subst e <;> decide
          have ga := pinv_add_opcode g1.1 hop
          obtain ⟨l1, _⟩ := i5 _ _ _ _ ga.1 h
          refine ⟨grows_trans g1 (grows_trans ga l1), fun he => ?_⟩
          rcases c1 with e | e <;> subst e <;> simp [IsErr] at he
      · cases h
        exact ⟨grows_refl hP, fun he => he⟩
    · intro tok out r hP h
      rw [flep_get_sum] at h
      cases hc : flep_get_prod A n tok out with
      | none => simp [hc] at h
      | some x =>
        obtain ⟨ret, tok1, out1⟩ := x
        simp only [hc] at h
        obtain ⟨g1, g2⟩ := i4 _ _ _ hP hc
        obtain ⟨l1, l2⟩ := i7 _ _ _ _ g1.1 h
        refine ⟨grows_trans g1 l1, fun hn => ?_⟩
        by_cases he : IsErr ret
        · exact absurd (l2 he) hn
        · exact growsPush_grows (g2 he) l1
    · intro ret tok out r hP h
      rw [flep_get_sum_loop] at h
      dsimp only at h
      split_ifs at h with c1
      · cases hs : flep_get_sum_signs A n ret (flep_next A tok).curr (flep_next A tok) with
        | none => simp [hs] at h
        | some y =>
          obtain ⟨op1, ret0, tok0⟩ := y
          simp only [hs] at h
          have hop1 := i8 _ _ _ _ c1 hs
          cases hc : flep_get_prod A n tok0 out with
          | none => simp [hc] at h
          | some x =>
            obtain ⟨ret1, tok1, out1⟩ := x
            simp only [hc] at h
            obtain ⟨g1, _⟩ := i4 _ _ _ hP hc
            have hop : FLEP_OPCODE op1 ≠ FLEP_CONST := by
              simp only at hop1
              rcases hop1 with e | e <;> subst e <;> decide
            have ga := pinv_add_opcode g1.1 hop
            obtain ⟨l1, _⟩ := i7 _ _ _ _ ga.1 h
            refine ⟨grows_trans g1 (grows_trans ga l1), fun he => ?_⟩
            rcases c1 with e | e <;> subst e <;> simp [IsErr] at he
      · cases h
        exact ⟨grows_refl hP, fun he => he⟩
    · intro op ret tok r hop h
      rw [flep_get_sum_signs] at h
      dsimp only at h
      split_ifs at h with c1 c2
      · exact i8 _ _ _ _ (Or.inl rfl) h
      · exact i8 _ _ _ _ (Or.inr rfl) h
      · cases h
        exact hop

end

section

variable {D : Type} (A : Arith D)

/-- The empty program satisfies the invariant of the parser. -/
theorem pinv_empty : PInv (⟨[], [], 0, 0⟩ : FLEP D) := ⟨⟨rfl, rfl⟩, rfl⟩

/-- A program that satisfies the invariant of the parser and starts with a
reference is one the optimizer can work on. -/
theorem poolOK_of_pinv {out : FLEP D} (h : PInv out) (hp : PushFirst out.text) :
    PoolOK out := by
  obtain ⟨⟨ht, hd⟩, hr⟩ := h
  have hl : live out = out.text := by
    unfold live; rw [← ht]; exact List.take_length _
  refine ⟨by omega, ?_, ?_, by rw [hl]; exact hp⟩
  · rw [hl, hr]; exact List.nodup_range _
  · intro k hk
    rw [hl, hr] at hk
    rw [hd]; exact List.mem_range.mp hk

/-- Whatever the source, a program the parsing phase accepts satisfies the
invariant of the parser and starts with a reference. -/
theorem compile_inv {s : List Char} {tok : FLEPTokens D} {out : FLEP D}
    (h : flep_compile A s = some (FLEP_END, tok, out)) : PInv out ∧ PushFirst out.text := by
  obtain ⟨-, -, -, -, -, hsum, -, -⟩ := parserInvAt A (parseFuel s)
  obtain ⟨-, hg⟩ := hsum _ _ _ pinv_empty h
  obtain ⟨hp, w, ops, he, hw⟩ := hg (by simp [IsErr, FLEP_END, FLEP_BADSYNTAX,
    FLEP_EXPECTED_OPEN, FLEP_UNBALANCED])
  exact ⟨hp, w, ops, by simpa using he, hw⟩

/-- A program the parsing phase accepts is one the optimizer can work on. -/
theorem compile_poolOK {s : List Char} {tok : FLEPTokens D} {out : FLEP D}
    (h : flep_compile A s = some (FLEP_END, tok, out)) : PoolOK out :=
  poolOK_of_pinv (compile_inv A h).1 (compile_inv A h).2

/-- The code of an expression contains no unary minus. -/
theorem neg_not_mem_code (x : Expr) : ∀ nd, FLEP_UNARY_MINUS ∉ code nd x := by
  induction x with
  | var i =>
    intro nd h
    simp only [code, List.mem_singleton] at h
    have := opcode_var i
    rw [← h] at this
    revert this; decide
  | lit s =>
    intro nd h
    simp only [code, List.mem_singleton] at h
    have := opcode_const nd
    rw [← h] at this
    revert this; decide
  | econst =>
    intro nd h
    simp only [code, List.mem_singleton] at h
    have := opcode_const nd
    rw [← h] at this
    revert this; decide
  | piconst =>
    intro nd h
    simp only [code, List.mem_singleton] at h
    have := opcode_const nd
    rw [← h] at this
    revert this; decide
  | paren y ih => intro nd; exact ih nd
  | call f y ih =>
    intro nd h
    simp only [code, List.mem_append, List.mem_singleton] at h
    rcases h with h | h
    · exact ih nd h
    · simp [FLEP_UNARY_MINUS, FLEP_SIN] at h; omega
  | pow l r ihl ihr =>
    intro nd h
    simp only [code, List.mem_append, List.mem_singleton] at h
    rcases h with (h | h) | h
    · exact ihl _ h
    · exact ihr _ h
    · simp [FLEP_UNARY_MINUS, FLEP_POWER] at h
  | prod d l r ihl ihr =>
    intro nd h
    simp only [code, List.mem_append, List.mem_singleton] at h
    rcases h with (h | h) | h
    · exact ihl _ h
    · exact ihr _ h
    · cases d <;> simp [FLEP_UNARY_MINUS, FLEP_MULT, FLEP_DIV] at h
  | sum run l r ihl ihr =>
    intro nd h
    simp only [code, List.mem_append, List.mem_singleton] at h
    rcases h with (h | h) | h
    · exact ihl _ h
    · exact ihr _ h
    · rcases signOp_cases run with e | e <;> rw [e] at h <;>
        simp [FLEP_UNARY_MINUS, FLEP_PLUS, FLEP_MINUS] at h

/-- The unoptimised program of a well-formed expression, closed by the
end-marker, evaluates to the value of the expression. -/
theorem eval_expr_code (x : Expr) (hw : WF x) (hn : need x ≤ 64) (val : List D)
    (hval : 7 ≤ val.length) :
    flep_eval A (flep_add_opcode ⟨pool A x, code 0 x, nconst x, (code 0 x).length⟩ FLEP_END)
      val = .ok (evalExpr A val x) := by
  rw [eval_add_end]
  have hl : live (⟨pool A x, code 0 x, nconst x, (code 0 x).length⟩ : FLEP D) = code 0 x := by
    simp [live]
  rw [hl, eval_code A (pool A x) val hval x 0 _ [] hw (by simpa using hn)
    (by intro j _; simp), eval_end]
  rfl

/-- End-to-end correctness on the grammar: the text of a well-formed
expression that needs at most 64 stack slots is accepted, and the program
returned evaluates to the value of the expression. -/
theorem parse_expr (x : Expr) (hw : WF x) (hn : need x ≤ 64) (val : List D)
    (hval : 7 ≤ val.length) (e p : Int) :
    ∃ f, flep_parse A (render x) e p = .ok (some f, e, p) ∧
      flep_eval A f val = .ok (evalExpr A val x) := by
  obtain ⟨tok, -, hc⟩ := compile_expr A x hw
  have hP := compile_poolOK A hc
  have hneg : NegOK A (⟨pool A x, code 0 x, nconst x, (code 0 x).length⟩ : FLEP D) := by
    right
    have hl : live (⟨pool A x, code 0 x, nconst x, (code 0 x).length⟩ : FLEP D) = code 0 x := by
      simp [live]
    rw [hl]; exact neg_not_mem_code x 0
  obtain ⟨out', ho, -, hR, -⟩ := optimize_sound A _ hneg hP
  refine ⟨flep_add_opcode out' FLEP_END, ?_, ?_⟩
  · unfold flep_parse
    rw [hc]
    simp [ho]
  · exact eval_of_refines A hR val _ (eval_expr_code A x hw hn val hval)

/-- The optimizer on an accepted program, when unary minus undoes itself:
it ends, and the program it leaves evaluates to whatever the program it was
given evaluates to. -/
theorem optimize_compiled (hneg : ∀ x, A.neg (A.neg x) = x) {s : List Char}
    {tok : FLEPTokens D} {out : FLEP D} (h : flep_compile A s = some (FLEP_END, tok, out)) :
    ∃ out', flep_optimize A out = .ok out' ∧
      ∀ (val : List D) (r : D), flep_eval A (flep_add_opcode out FLEP_END) val = .ok r →
        flep_eval A (flep_add_opcode out' FLEP_END) val = .ok r := by
  obtain ⟨out', ho, -, hR, -⟩ := optimize_sound A out (Or.inl hneg) (compile_poolOK A h)
  exact ⟨out', ho, fun val r he => eval_of_refines A hR val r he⟩

end

section

variable {D : Type} (A : Arith D)

/-- A non-empty run of decimal digits is a numeric literal. -/
theorem literal_digits (s : List Char) (hne : s ≠ []) (hd : ∀ c ∈ s, isdigit c = true) :
    Literal s := by
  obtain ⟨c, t, rfl⟩ := List.exists_cons_of_ne_nil hne
  refine ⟨⟨c, t, rfl, hd c (List.mem_cons_self _ _)⟩, ?_⟩
  intro rest hr
  have hrd : rest.takeWhile isdigit = [] := by
    cases rest with
    | nil => rfl
    | cons a u =>
      have ha := (sym_facts (hr a rfl)).2.2.1
      rw [List.takeWhile, ha]
  have htw : ((c :: t) ++ rest).takeWhile isdigit = c :: t := by
    rw [List.takeWhile_append_of_pos hd, hrd, List.append_nil]
  have hdot : rest.head? ≠ some '.' := by
    intro h; have := hr _ h; revert this; decide
  have hexp : expLen 'e' 'E' rest = 0 := by
    cases rest with
    | nil => rfl
    | cons a u =>
      have ha := hr a rfl
      have h1 : a ≠ 'e' := by rintro rfl; revert ha; decide
      have h2 : a ≠ 'E' := by rintro rfl; revert ha; decide
      simp [expLen, h1, h2]
  have hfl : floatLen isdigit 'e' 'E' ((c :: t) ++ rest) = (c :: t).length := by
    unfold floatLen
    simp only [htw, List.drop_left, hdot, if_false]
    simp [hexp]
  have hx : ∀ x u, (c :: t) ++ rest = '0' :: x :: u → ¬ (x = 'x' ∨ x = 'X') := by
    intro x u h
    cases t with
    | nil =>
      simp only [List.singleton_append, List.cons.injEq] at h
      have hm := hr x (by rw [h.2]; rfl)
      rintro (rfl | rfl) <;> revert hm <;> decide
    | cons b v =>
      simp only [List.cons_append, List.cons.injEq] at h
      have hb := hd b (by simp)
      rw [h.2.1] at hb
      rintro (rfl | rfl) <;> revert hb <;> decide
  unfold strtodLen
  split
  · rename_i x u heq
    rw [if_neg (fun h => hx x u heq h.1)]
    exact hfl
  · exact hfl

/-! ## Trees and the grammar -/

theorem toExpr_render (t : Tree) : render t.toExpr = t.render := by
  induction t with
  | var i => rfl
  | num s => rfl
  | bin op l r ihl ihr =>
    cases op <;> simp [Tree.toExpr, render, Tree.render, BinOp.char, signChar, ihl, ihr]
  | fn f x ih => simp [Tree.toExpr, render, Tree.render, ih]

theorem toExpr_level (t : Tree) : level t.toExpr = 3 := by
  cases t with
  | var i => rfl
  | num s => rfl
  | bin op l r => cases op <;> rfl
  | fn f x => rfl

theorem toExpr_wf (t : Tree) : t.Valid → WF t.toExpr := by
  induction t with
  | var i => exact id
  | num s => exact id
  | bin op l r ihl ihr =>
    intro hv
    have h1 := ihl hv.1
    have h2 := ihr hv.2
    have l1 := toExpr_level l
    have l2 := toExpr_level r
    cases op <;> simp [Tree.toExpr, WF, h1, h2, l1, l2]
  | fn f x ih => intro hv; exact ⟨hv.1, ih hv.2⟩

theorem toExpr_need (t : Tree) : need t.toExpr = t.slots := by
  induction t with
  | var i => rfl
  | num s => rfl
  | bin op l r ihl ihr => cases op <;> simp [Tree.toExpr, need, Tree.slots, ihl, ihr]
  | fn f x ih => simpa [Tree.toExpr, need, Tree.slots] using ih

theorem toExpr_value (val : List D) (t : Tree) : evalExpr A val t.toExpr = t.value A val := by
  induction t with
  | var i => rfl
  | num s => rfl
  | bin op l r ihl ihr =>
    cases op <;>
      simp [Tree.toExpr, evalExpr, Tree.value, BinOp.apply, signOp, signTag, ihl, ihr,
        FLEP_PLUS, FLEP_MINUS]
  | fn f x ih => simp [Tree.toExpr, evalExpr, Tree.value, ih]

theorem atom_facts {x : Expr} (h : Atom x) : WF x ∧ level x = 3 ∧ need x = 1 := by
  rcases h with ⟨i, hi, rfl⟩ | ⟨s, hs, rfl⟩
  · exact ⟨hi, rfl, rfl⟩
  · exact ⟨hs, rfl, rfl⟩

theorem atom_code_length {x : Expr} (h : Atom x) (nd : Nat) : (code nd x).length = 1 := by
  rcases h with ⟨i, -, rfl⟩ | ⟨s, -, rfl⟩ <;> rfl

/-- The parsing phase on the text of a well-formed expression emits its
postfix code. -/
theorem compile_code (x : Expr) (hw : WF x) :
    ∃ tok : FLEPTokens D, flep_compile A (render x) =
      some (FLEP_END, tok, ⟨pool A x, code 0 x, nconst x, (code 0 x).length⟩) := by
  obtain ⟨tok, -, h⟩ := compile_expr A x hw
  exact ⟨tok, h⟩

/-- The operator of a run of signs is decided by the parity of its minus
signs. -/
theorem signOp_parity (run : List Bool) (hne : run ≠ []) :
    signOp run = if Odd (run.count true) then FLEP_MINUS else FLEP_PLUS := by
  obtain ⟨b, t, rfl⟩ := List.exists_cons_of_ne_nil hne
  have key : ∀ (t : List Bool) (b : Bool),
      t.foldl (fun op c => if op = signTag c then FLEP_PLUS else FLEP_MINUS) (signTag b) =
        if Odd ((b :: t).count true) then FLEP_MINUS else FLEP_PLUS := by
    intro t
    induction t with
    | nil => intro b; cases b <;> simp [signTag]
    | cons c t ih =>
      intro b
      have hstep : (if signTag b = signTag c then FLEP_PLUS else FLEP_MINUS) =
          signTag (b != c) := by
        cases b <;> cases c <;> simp [signTag, FLEP_PLUS, FLEP_MINUS]
      rw [List.foldl_cons, hstep, ih]
      cases b <;> cases c <;> simp [List.count_cons, Nat.odd_add_one, Nat.succ_eq_add_one]
  simpa [signOp] using key t b

end

section

variable {D E : Type} {A : Arith D} {B : Arith E} {h : D → E}

/-! ## The code commutes with a map of the carrier -/

theorem interp_hom (A : Arith D) (val : List D) :
    Hom freeArith A (Term.interp A val) :=
  ⟨fun _ => rfl, fun _ _ => rfl, fun _ _ => rfl, fun _ _ => rfl, fun _ _ => rfl,
    fun _ _ => rfl, fun _ => rfl, fun _ => rfl, fun _ => rfl, fun _ => rfl, fun _ => rfl,
    fun _ => rfl, fun _ => rfl, rfl, rfl, fun _ => rfl⟩

@[simp] theorem map_src (t : FLEPTokens D) : (t.map h).src = t.src := rfl
@[simp] theorem map_p (t : FLEPTokens D) : (t.map h).p = t.p := rfl
@[simp] theorem map_q (t : FLEPTokens D) : (t.map h).q = t.q := rfl
@[simp] theorem map_ival (t : FLEPTokens D) : (t.map h).ival = t.ival := rfl
@[simp] theorem map_fval (t : FLEPTokens D) : (t.map h).fval = h t.fval := rfl
@[simp] theorem map_curr (t : FLEPTokens D) : (t.map h).curr = t.curr := rfl
@[simp] theorem map_last (t : FLEPTokens D) : (t.map h).last = t.last := rfl
@[simp] theorem map_text (o : FLEP D) : (o.map h).text = o.text := rfl
@[simp] theorem map_data (o : FLEP D) : (o.map h).data = o.data.map h := rfl
@[simp] theorem map_nd (o : FLEP D) : (o.map h).nd = o.nd := rfl
@[simp] theorem map_nt (o : FLEP D) : (o.map h).nt = o.nt := rfl

theorem next_map (H : Hom A B h) (tok : FLEPTokens D) :
    flep_next B (tok.map h) = (flep_next A tok).map h := by
  unfold flep_next
  simp only [map_src, map_q, map_curr]
  split_ifs
  · rfl
  · simp only [FLEPTokens.map, H.exp, H.one]
  · cases firstIndex vars (peek tok.src (tok.q + (List.takeWhile isspace
      (List.drop tok.q tok.src)).length)) <;> rfl
  · simp only [FLEPTokens.map, H.pi]
  · rfl
  · cases firstIndex built_in (List.take 3 (List.drop (tok.q + (List.takeWhile isspace
      (List.drop tok.q tok.src)).length) tok.src)) <;> rfl
  · rfl
  · rfl
  · rfl
  · simp only [FLEPTokens.map, H.strtod]
  · cases firstIndex sym (peek tok.src (tok.q + (List.takeWhile isspace
      (List.drop tok.q tok.src)).length)) <;> rfl

theorem store_map {α β : Type} (g : α → β) (l : List α) (i : Nat) (v : α) :
    store (l.map g) i (g v) = (store l i v).map g := by
  simp [store, List.map_take, List.map_drop]

theorem add_opcode_map (out : FLEP D) (op : Nat) :
    flep_add_opcode (out.map h) op = (flep_add_opcode out op).map h := rfl

theorem add_data_map (out : FLEP D) (v : D) :
    flep_add_data (out.map h) (h v) = (flep_add_data out v).map h := by
  simp [flep_add_data, FLEP.map, store_map]

end

section

variable {D E : Type} {A : Arith D} {B : Arith E} {h : D → E}

theorem pstate_map_mk (ret : Nat) (tok : FLEPTokens D) (out : FLEP D) :
    PState.map h (ret, tok, out) = (ret, tok.map h, out.map h) := rfl

set_option maxHeartbeats 1000000 in
theorem natAt (H : Hom A B h) (n : Nat) : NatAt A B h n := by
  induction n with
  | zero =>
    refine ⟨?_, ?_, ?_, ?_, ?_, ?_, ?_, ?_⟩
    · intro tok out; rw [flep_get_operand, flep_get_operand]; rfl
    · intro tok out; rw [flep_get_power, flep_get_power]; rfl
    · intro ret tok out; rw [flep_get_power_loop, flep_get_power_loop]; rfl
    · intro tok out; rw [flep_get_prod, flep_get_prod]; rfl
    · intro ret tok out; rw [flep_get_prod_loop, flep_get_prod_loop]; rfl
    · intro tok out; rw [flep_get_sum, flep_get_sum]; rfl
    · intro ret tok out; rw [flep_get_sum_loop, flep_get_sum_loop]; rfl
    · intro op ret tok; rw [flep_get_sum_signs, flep_get_sum_signs]; rfl
  | succ n ih =>
    obtain ⟨i1, i2, i3, i4, i5, i6, i7, i8⟩ := ih
    refine ⟨?_, ?_, ?_, ?_, ?_, ?_, ?_, ?_⟩
    · intro tok out
      conv_lhs => rw [flep_get_operand]
      conv_rhs => rw [flep_get_operand]
      simp only [map_curr, map_last, next_map H, map_fval, map_ival, map_nd]
      split_ifs
      · rw [i6]
        cases flep_get_sum A n (flep_next A tok) out with
        | none => rfl
        | some x =>
          obtain ⟨ret, tok1, out1⟩ := x
          simp only [Option.map_some', pstate_map_mk]
          split_ifs
          · rfl
          · simp only [next_map H, map_curr]; rfl
      · rw [i1]
      · rfl
      · rw [i4]
        cases flep_get_prod A n (flep_next A tok) out <;> rfl
      · rw [i2]
        cases flep_get_power A n (flep_next A tok) out <;> rfl
      · rw [i1]
        cases flep_get_operand A n (flep_next A tok) out <;> rfl
      · rfl
      · rw [i1]
        cases flep_get_operand A n (flep_next A tok) out <;> rfl
      · simp only [add_data_map, add_opcode_map, map_nd, Option.map_some', pstate_map_mk,
          map_curr]
      · simp only [add_opcode_map, Option.map_some', pstate_map_mk, map_curr]
      · rfl
    · intro tok out
      conv_lhs => rw [flep_get_power]
      conv_rhs => rw [flep_get_power]
      rw [i1]
      cases flep_get_operand A n tok out with
      | none => rfl
      | some x =>
        obtain ⟨ret, tok1, out1⟩ := x
        exact i3 _ _ _
    · intro ret tok out
      conv_lhs => rw [flep_get_power_loop]
      conv_rhs => rw [flep_get_power_loop]
      simp only [next_map H]
      split_ifs
      · rw [i2]
        cases flep_get_power A n (flep_next A tok) out with
        | none => rfl
        | some x =>
          obtain ⟨ret1, tok1, out1⟩ := x
          exact i3 ret1 tok1 (flep_add_opcode out1 FLEP_POWER)
      · rfl
    · intro tok out
      conv_lhs => rw [flep_get_prod]
      conv_rhs => rw [flep_get_prod]
      rw [i2]
      cases flep_get_power A n tok out with
      | none => rfl
      | some x =>
        obtain ⟨ret, tok1, out1⟩ := x
        exact i5 _ _ _
    · intro ret tok out
      conv_lhs => rw [flep_get_prod_loop]
      conv_rhs => rw [flep_get_prod_loop]
      simp only [next_map H]
      split_ifs
      · rw [i2]
        cases flep_get_power A n (flep_next A tok) out with
        | none => rfl
        | some x =>
          obtain ⟨ret1, tok1, out1⟩ := x
          exact i5 ret1 tok1 (flep_add_opcode out1 ret)
      · rfl
    · intro tok out
      conv_lhs => rw [flep_get_sum]
      conv_rhs => rw [flep_get_sum]
      rw [i4]
      cases flep_get_prod A n tok out with
      | none => rfl
      | some x =>
        obtain ⟨ret, tok1, out1⟩ := x
        exact i7 _ _ _
    · intro ret tok out
      conv_lhs => rw [flep_get_sum_loop]
      conv_rhs => rw [flep_get_sum_loop]
      simp only [next_map H, map_curr]
      split_ifs
      · rw [i8]
        cases flep_get_sum_signs A n ret (flep_next A tok).curr (flep_next A tok) with
        | none => rfl
        | some y =>
          obtain ⟨op1, ret0, tok0⟩ := y
          simp only [Option.map_some']
          rw [i4]
          cases flep_get_prod A n tok0 out with
          | none => rfl
          | some x =>
            obtain ⟨ret1, tok1, out1⟩ := x
            exact i7 ret1 tok1 (flep_add_opcode out1 op1)
      · rfl
    · intro op ret tok
      conv_lhs => rw [flep_get_sum_signs]
      conv_rhs => rw [flep_get_sum_signs]
      simp only [next_map H, map_curr]
      split_ifs
      · exact i8 _ _ _
      · exact i8 _ _ _
      · rfl

/-- The parsing phase commutes with a map of the carrier that respects the
arithmetic and the content of an unassigned `double`. -/
theorem compile_map (H : Hom A B h) (hi : h A.indet = B.indet) (s : List Char) :
    flep_compile B s = (flep_compile A s).map (PState.map h) := by
  unfold flep_compile flep_tokenize
  have e1 : (⟨s, 0, 0, 0, B.indet, FLEP_START, 0⟩ : FLEPTokens E) =
      (⟨s, 0, 0, 0, A.indet, FLEP_START, 0⟩ : FLEPTokens D).map h := by
    simp [FLEPTokens.map, hi]
  have e2 : (⟨[], [], 0, 0⟩ : FLEP E) = (⟨[], [], 0, 0⟩ : FLEP D).map h := rfl
  rw [e1, e2, next_map H]
  exact (natAt H _).2.2.2.2.2.1 _ _

end

section

variable {D E : Type} {A : Arith D} {B : Arith E} {h : D → E}

theorem rd_map {α β : Type} (g : α → β) (l : List α) (i : Int) :
    rd (l.map g) i = (rd l i).map g := by
  unfold rd
  split_ifs
  · simp only [List.get?_eq_getElem?, List.getElem?_map]
    cases l[i.toNat]? <;> rfl
  · rfl

theorem delete_text_map (out : FLEP D) (i n : Nat) :
    flep_delete_text (out.map h) i n = (flep_delete_text out i n).map h := rfl

theorem set_data_map (out : FLEP D) (k : Nat) (v : D) :
    ({ out.map h with data := (out.map h).data.set k (h v) } : FLEP E) =
      ({ out with data := out.data.set k v } : FLEP D).map h := by
  simp [FLEP.map, List.map_set]

theorem unary_some (H : Hom A B h) {op : Nat} {f : D → D} (hf : unary A op = some f) :
    ∃ g, unary B op = some g ∧ ∀ x, g (h x) = h (f x) := by
  unfold unary at hf ⊢
  split_ifs at hf ⊢ <;> cases hf
  · exact ⟨_, rfl, fun x => (H.neg x).symm⟩
  · exact ⟨_, rfl, fun x => (H.sin x).symm⟩
  · exact ⟨_, rfl, fun x => (H.cos x).symm⟩
  · exact ⟨_, rfl, fun x => (H.tan x).symm⟩
  · exact ⟨_, rfl, fun x => (H.exp x).symm⟩
  · exact ⟨_, rfl, fun x => (H.log x).symm⟩
  · exact ⟨_, rfl, fun x => (H.fabs x).symm⟩
  · exact ⟨_, rfl, fun x => (H.sqrt x).symm⟩

theorem unary_none {op : Nat} (hf : unary A op = none) : unary B op = none := by
  unfold unary at hf ⊢
  split_ifs at hf ⊢
  rfl

theorem binary_some (H : Hom A B h) {op : Nat} {f : D → D → D} (hf : binary A op = some f) :
    ∃ g, binary B op = some g ∧ ∀ x y, g (h x) (h y) = h (f x y) := by
  unfold binary at hf ⊢
  split_ifs at hf ⊢ <;> cases hf
  · exact ⟨_, rfl, fun x y => (H.add x y).symm⟩
  · exact ⟨_, rfl, fun x y => (H.sub x y).symm⟩
  · exact ⟨_, rfl, fun x y => (H.mul x y).symm⟩
  · exact ⟨_, rfl, fun x y => (H.div x y).symm⟩
  · exact ⟨_, rfl, fun x y => (H.pow x y).symm⟩

theorem binary_none {op : Nat} (hf : binary A op = none) : binary B op = none := by
  unfold binary at hf ⊢
  split_ifs at hf ⊢
  rfl

end

section

variable {D E : Type} {A : Arith D} {B : Arith E} {h : D → E}

theorem map_set_data (l : List D) (k : Nat) (v : D) :
    (l.map h).set k (h v) = (l.set k v).map h := by
  simp [List.map_set]

theorem delete_text_text {α : Type} (d : List α) (t : List Nat) (nd nt i n : Nat) :
    (flep_delete_text (⟨d, t, nd, nt⟩ : FLEP α) i n).text =
      flep_delete_text_loop n (nt - (i + n)) (i + n) t := rfl

theorem body_map (H : Hom A B h) (i : Int) (out : FLEP D) :
    flep_optimize_body B i (out.map h) =
      (flep_optimize_body A i out).map (fun r => (r.1, r.2.map h)) := by
  unfold flep_optimize_body
  simp only [map_text, map_nt, map_data, map_nd, rd_map]
  cases rd out.text i with
  | error e => rfl
  | ok ti =>
    simp only []
    cases (if ti = FLEP_UNARY_MINUS then rd out.text (i - 1) else Except.ok 0) with
    | error e => rfl
    | ok tp =>
      simp only []
      by_cases c1 : ti = FLEP_UNARY_MINUS ∧ tp = FLEP_UNARY_MINUS
      · rw [if_pos c1, if_pos c1]; rfl
      rw [if_neg c1, if_neg c1]
      by_cases c2 : FLEP_OPCODE ti = FLEP_CONST ∧ i < (out.nt : Int) - 1
      swap
      · rw [if_neg c2, if_neg c2]; rfl
      rw [if_pos c2, if_pos c2]
      cases hx : rd out.data ↑(FLEP_OPPARM ti) with
      | error e => cases rd out.text (i + 1) <;> rfl
      | ok x =>
        cases ht1 : rd out.text (i + 1) with
        | error e => rfl
        | ok t1 =>
          simp only [Except.map]
          cases hu : unary A t1 with
          | some f =>
            obtain ⟨g, hg, hgf⟩ := unary_some H hu
            simp only [hg, hgf, map_set_data]
            rfl
          | none =>
            rw [unary_none hu]
            simp only []
            by_cases c3 : i ≠ 0
            swap
            · rw [if_neg c3, if_neg c3]
            rw [if_pos c3, if_pos c3]
            cases rd out.text (i - 1) with
            | error e => rfl
            | ok tm =>
              simp only []
              by_cases c4 : FLEP_OPCODE tm = FLEP_CONST
              swap
              · rw [if_neg c4, if_neg c4]
              rw [if_pos c4, if_pos c4]
              cases hy : rd out.data ↑(FLEP_OPPARM tm) with
              | error e => rfl
              | ok y =>
                simp only [Except.map]
                cases hb : binary A t1 with
                | none => rw [binary_none hb]
                | some f =>
                  obtain ⟨g, hg, hgf⟩ := binary_some H hb
                  simp only [hg, hgf, map_set_data, delete_text_text]
                  cases rd (flep_delete_text_loop 2 (out.nt - (i.toNat + 2)) (i.toNat + 2)
                    out.text) i with
                  | error e => rfl
                  | ok tn =>
                    simp only []
                    split_ifs <;> rfl

theorem loop_map (H : Hom A B h) : ∀ (fuel : Nat) (i : Int) (out : FLEP D),
    flep_optimize_loop B fuel i (out.map h) =
      (flep_optimize_loop A fuel i out).map (FLEP.map h) := by
  intro fuel
  induction fuel with
  | zero =>
    intro i out
    rw [flep_optimize_loop.eq_def, flep_optimize_loop.eq_def]
    simp only []
    split_ifs <;> rfl
  | succ n ih =>
    intro i out
    rw [flep_optimize_loop.eq_def, flep_optimize_loop.eq_def]
    simp only []
    split_ifs
    · rfl
    · simp only [body_map H]
      cases flep_optimize_body A i out with
      | error e => rfl
      | ok r =>
        obtain ⟨j, o⟩ := r
        exact ih _ _

theorem optimize_map (H : Hom A B h) (out : FLEP D) :
    flep_optimize B (out.map h) = (flep_optimize A out).map (FLEP.map h) :=
  loop_map H _ _ _

/-- The function `flep_parse` commutes with a map of the carrier that
respects the arithmetic and the content of an unassigned `double`. -/
theorem parse_map (H : Hom A B h) (hi : h A.indet = B.indet) (s : List Char) (e p : Int) :
    flep_parse B s e p =
      (flep_parse A s e p).map (fun r => (r.1.map (FLEP.map h), r.2)) := by
  unfold flep_parse
  rw [compile_map H hi]
  cases flep_compile A s with
  | none => rfl
  | some r =>
    obtain ⟨status, tok, out⟩ := r
    simp only [Option.map_some', pstate_map_mk]
    split_ifs
    · rw [optimize_map H]
      cases flep_optimize A out <;> rfl
    · rfl

end

section

variable {D E : Type} {A : Arith D} {B : Arith E} {h : D → E}

theorem get_map {α β : Type} (g : α → β) (l : List α) (k : Nat) :
    (l.map g).get? k = (l.get? k).map g := by
  simp

theorem round_map (H : Hom A B h) (data val : List D) (w : Nat) (stack : List D) :
    flep_eval_round B (data.map h) (val.map h) w (stack.map h) =
      (flep_eval_round A data val w stack).map h := by
  have hv : ∀ s : List D, (match (val.map h).get? (FLEP_OPPARM w) with
      | some v => if (s.map h).length < 64 then Round.next (v :: s.map h) else Round.fault
      | none => Round.fault) =
      Round.map h (match val.get? (FLEP_OPPARM w) with
      | some v => if s.length < 64 then Round.next (v :: s) else Round.fault
      | none => Round.fault) := by
    intro s
    rw [get_map, List.length_map]
    cases val.get? (FLEP_OPPARM w) with
    | none => rfl
    | some v => simp only [Option.map_some']; split_ifs <;> rfl
  have hd : ∀ s : List D, (match (data.map h).get? (FLEP_OPPARM w) with
      | some v => if (s.map h).length < 64 then Round.next (v :: s.map h) else Round.fault
      | none => Round.fault) =
      Round.map h (match data.get? (FLEP_OPPARM w) with
      | some v => if s.length < 64 then Round.next (v :: s) else Round.fault
      | none => Round.fault) := by
    intro s
    rw [get_map, List.length_map]
    cases data.get? (FLEP_OPPARM w) with
    | none => rfl
    | some v => simp only [Option.map_some']; split_ifs <;> rfl
  have he : ∀ s : List D, (match (s.map h).getLast? with
      | some r => Round.ret r
      | none => Round.fault) =
      Round.map h (match s.getLast? with
      | some r => Round.ret r
      | none => Round.fault) := by
    intro s
    rw [List.getLast?_map]
    cases s.getLast? <;> rfl
  unfold flep_eval_round
  dsimp only
  by_cases c : FLEP_OPCODE w = FLEP_UNARY_MINUS
  · rw [if_pos c, if_pos c]
    rcases stack with _ | ⟨x, s⟩
    · rfl
    · simp only [List.map_cons, Round.map, H.neg]
  rw [if_neg c, if_neg c]
  clear c
  by_cases c : FLEP_OPCODE w = FLEP_PLUS
  · rw [if_pos c, if_pos c]
    rcases stack with _ | ⟨x, _ | ⟨y, s⟩⟩
    · rfl
    · rfl
    · simp only [List.map_cons, Round.map, H.add]
  rw [if_neg c, if_neg c]
  clear c
  by_cases c : FLEP_OPCODE w = FLEP_MINUS
  · rw [if_pos c, if_pos c]
    rcases stack with _ | ⟨x, _ | ⟨y, s⟩⟩
    · rfl
    · rfl
    · simp only [List.map_cons, Round.map, H.sub]
  rw [if_neg c, if_neg c]
  clear c
  by_cases c : FLEP_OPCODE w = FLEP_MULT
  · rw [if_pos c, if_pos c]
    rcases stack with _ | ⟨x, _ | ⟨y, s⟩⟩
    · rfl
    · rfl
    · simp only [List.map_cons, Round.map, H.mul]
  rw [if_neg c, if_neg c]
  clear c
  by_cases c : FLEP_OPCODE w = FLEP_DIV
  · rw [if_pos c, if_pos c]
    rcases stack with _ | ⟨x, _ | ⟨y, s⟩⟩
    · rfl
    · rfl
    · simp only [List.map_cons, Round.map, H.div]
  rw [if_neg c, if_neg c]
  clear c
  by_cases c : FLEP_OPCODE w = FLEP_POWER
  · rw [if_pos c, if_pos c]
    rcases stack with _ | ⟨x, _ | ⟨y, s⟩⟩
    · rfl
    · rfl
    · simp only [List.map_cons, Round.map, H.pow]
  rw [if_neg c, if_neg c]
  clear c
  by_cases c : FLEP_OPCODE w = FLEP_VAR
  · rw [if_pos c, if_pos c]
    exact hv _
  rw [if_neg c, if_neg c]
  clear c
  by_cases c : FLEP_OPCODE w = FLEP_CONST
  · rw [if_pos c, if_pos c]
    exact hd _
  rw [if_neg c, if_neg c]
  clear c
  by_cases c : FLEP_OPCODE w = FLEP_SIN
  · rw [if_pos c, if_pos c]
    rcases stack with _ | ⟨x, s⟩
    · rfl
    · simp only [List.map_cons, Round.map, H.sin]
  rw [if_neg c, if_neg c]
  clear c
  by_cases c : FLEP_OPCODE w = FLEP_COS
  · rw [if_pos c, if_pos c]
    rcases stack with _ | ⟨x, s⟩
    · rfl
    · simp only [List.map_cons, Round.map, H.cos]
  rw [if_neg c, if_neg c]
  clear c
  by_cases c : FLEP_OPCODE w = FLEP_TAN
  · rw [if_pos c, if_pos c]
    rcases stack with _ | ⟨x, s⟩
    · rfl
    · simp only [List.map_cons, Round.map, H.tan]
  rw [if_neg c, if_neg c]
  clear c
  by_cases c : FLEP_OPCODE w = FLEP_EXP
  · rw [if_pos c, if_pos c]
    rcases stack with _ | ⟨x, s⟩
    · rfl
    · simp only [List.map_cons, Round.map, H.exp]
  rw [if_neg c, if_neg c]
  clear c
  by_cases c : FLEP_OPCODE w = FLEP_LOG
  · rw [if_pos c, if_pos c]
    rcases stack with _ | ⟨x, s⟩
    · rfl
    · simp only [List.map_cons, Round.map, H.log]
  rw [if_neg c, if_neg c]
  clear c
  by_cases c : FLEP_OPCODE w = FLEP_ABS
  · rw [if_pos c, if_pos c]
    rcases stack with _ | ⟨x, s⟩
    · rfl
    · simp only [List.map_cons, Round.map, H.fabs]
  rw [if_neg c, if_neg c]
  clear c
  by_cases c : FLEP_OPCODE w = FLEP_SQRT
  · rw [if_pos c, if_pos c]
    rcases stack with _ | ⟨x, s⟩
    · rfl
    · simp only [List.map_cons, Round.map, H.sqrt]
  rw [if_neg c, if_neg c]
  clear c
  by_cases c : FLEP_OPCODE w = FLEP_END
  · rw [if_pos c, if_pos c]
    exact he _
  rw [if_neg c, if_neg c]
  clear c
  rfl

theorem eval_loop_map (H : Hom A B h) (data val : List D) :
    ∀ (text : List Nat) (stack : List D),
      flep_eval_loop B (data.map h) (val.map h) text (stack.map h) =
        (flep_eval_loop A data val text stack).map h := by
  intro text
  induction text with
  | nil => intro stack; rfl
  | cons w text ih =>
    intro stack
    rw [flep_eval_loop, flep_eval_loop, round_map H]
    cases flep_eval_round A data val w stack with
    | next s => exact ih s
    | ret x => rfl
    | fault => rfl

/-- The function `flep_eval` commutes with a map of the carrier that
respects the arithmetic. -/
theorem eval_map (H : Hom A B h) (f : FLEP D) (val : List D) :
    flep_eval B (f.map h) (val.map h) = (flep_eval A f val).map h :=
  eval_loop_map H f.data val f.text []

end

section

variable {D : Type} (A : Arith D)

/-! ## Running the code on formal expressions -/

theorem formalVars_interp (val : List D) :
    (formalVars val.length).map (Term.interp A val) = val := by
  apply List.ext_getElem?
  intro i
  simp only [formalVars, List.map_map, List.getElem?_map, List.getElem?_range']
  by_cases hi : i < val.length
  · rw [List.getElem?_range hi, List.getElem?_eq_getElem hi]
    simp [Term.interp, List.getD_eq_getElem?_getD, List.getElem?_eq_getElem hi]
  · rw [List.getElem?_eq_none (by simpa using hi), List.getElem?_eq_none (by simpa using hi)]
    rfl

/-- The caller's two `int` variables do not influence what `flep_parse`
does. -/
theorem parse_indep (s : List Char) (e p : Int) :
    flep_parse A s e p =
      match flep_parse A s 0 0 with
      | .ok (some f, _, _) => .ok (some f, e, p)
      | r => r := by
  unfold flep_parse
  cases flep_compile A s with
  | none => rfl
  | some r =>
    obtain ⟨status, tok, out⟩ := r
    simp only []
    split_ifs
    · cases flep_optimize A out <;> rfl
    · rfl

/-- A source accepted on formal expressions is accepted in every arithmetic,
with the same opcodes and the values of the formal constants. -/
theorem parse_of_free {s : List Char} {F : FLEP Term}
    (h0 : flep_parse freeArith s 0 0 = .ok (some F, 0, 0)) (val : List D) (e p : Int) :
    flep_parse A s e p = .ok (some (F.map (Term.interp A val)), e, p) := by
  rw [parse_indep, parse_map (interp_hom A val) rfl s 0 0, h0]
  rfl

/-- A source refused on formal expressions is refused in every arithmetic,
with the same error and position. -/
theorem fail_of_free {s : List Char} {k q : Int}
    (h0 : flep_parse freeArith s 0 0 = .ok (none, k, q)) (e p : Int) :
    flep_parse A s e p = .ok (none, k, q) := by
  rw [parse_indep, parse_map (interp_hom A []) rfl s 0 0, h0]
  rfl

/-- Evaluation in an arithmetic is the value of the formal evaluation. -/
theorem eval_of_free {F : FLEP Term} (val : List D) {r : Except Fault Term}
    (h1 : flep_eval freeArith F (formalVars val.length) = r) :
    flep_eval A (F.map (Term.interp A val)) val = r.map (Term.interp A val) := by
  rw [← h1, ← eval_map (interp_hom A val), formalVars_interp]

end

section

/-- Digits, a radix point and further digits form a numeric literal. -/
theorem literal_decimal (a b : List Char) (ha : a ≠ []) (hb : b ≠ [])
    (hda : ∀ c ∈ a, isdigit c = true) (hdb : ∀ c ∈ b, isdigit c = true) :
    Literal (a ++ '.' :: b) := by
  obtain ⟨c, t, rfl⟩ := List.exists_cons_of_ne_nil ha
  refine ⟨⟨c, t ++ '.' :: b, rfl, hda c (List.mem_cons_self _ _)⟩, ?_⟩
  intro rest hr
  have hrd : rest.takeWhile isdigit = [] := by
    cases rest with
    | nil => rfl
    | cons x u =>
      have hx := (sym_facts (hr x rfl)).2.2.1
      rw [List.takeWhile, hx]
  have e0 : (c :: t ++ '.' :: b) ++ rest = (c :: t) ++ ('.' :: (b ++ rest)) := by simp
  have htw : ((c :: t) ++ ('.' :: (b ++ rest))).takeWhile isdigit = c :: t := by
    rw [List.takeWhile_append_of_pos hda]
    have : ('.' :: (b ++ rest)).takeWhile isdigit = [] := by
      rw [List.takeWhile]; rfl
    rw [this, List.append_nil]
  have htb : (b ++ rest).takeWhile isdigit = b := by
    rw [List.takeWhile_append_of_pos hdb, hrd, List.append_nil]
  have hexp : expLen 'e' 'E' rest = 0 := by
    cases rest with
    | nil => rfl
    | cons x u =>
      have hx := hr x rfl
      have h1 : x ≠ 'e' := by rintro rfl; revert hx; decide
      have h2 : x ≠ 'E' := by rintro rfl; revert hx; decide
      simp [expLen, h1, h2]
  have hbl : 0 < b.length := List.length_pos.mpr hb
  have hfl : floatLen isdigit 'e' 'E' ((c :: t) ++ ('.' :: (b ++ rest))) =
      (c :: t ++ '.' :: b).length := by
    unfold floatLen
    simp only [htw, List.drop_left, List.head?_cons, if_true, List.drop_succ_cons, List.drop_zero,
      htb]
    have hd : List.drop ((c :: t).length + 1 + b.length) ((c :: t) ++ ('.' :: (b ++ rest))) =
        rest := by
      have : (c :: t) ++ ('.' :: (b ++ rest)) = ((c :: t) ++ '.' :: b) ++ rest := by simp
      rw [this]
      have hl : (c :: t).length + 1 + b.length = ((c :: t) ++ '.' :: b).length := by
        simp; omega
      rw [hl, List.drop_left]
    rw [hd, hexp]
    simp
    omega
  have hx : ∀ x u, (c :: t) ++ ('.' :: (b ++ rest)) = '0' :: x :: u → ¬ (x = 'x' ∨ x = 'X') := by
    intro x u h
    cases t with
    | nil =>
      simp only [List.singleton_append, List.cons.injEq] at h
      rw [← h.2.1]
      decide
    | cons y v =>
      simp only [List.cons_append, List.cons.injEq] at h
      have hy := hda y (by simp)
      rw [h.2.1] at hy
      rintro (rfl | rfl) <;> revert hy <;> decide
  rw [e0]
  unfold strtodLen
  split
  · rename_i x u heq
    rw [if_neg (fun h => hx x u heq h.1)]
    exact hfl
  · exact hfl

end

section

variable {D : Type} (A : Arith D)

/-! ## Rounds of the optimizer -/

theorem loop_done (fuel : Nat) (i : Int) (out : FLEP D) (hi : i < 0) :
    flep_optimize_loop A fuel i out = .ok out := by
  rw [flep_optimize_loop.eq_def]
  simp [hi]

theorem loop_succ (fuel : Nat) (n : Nat) (out out' : FLEP D) (j : Int)
    (h : flep_optimize_body A n out = .ok (j, out')) :
    flep_optimize_loop A (fuel + 1) (n : Int) out = flep_optimize_loop A fuel (j - 1) out' := by
  rw [flep_optimize_loop.eq_def]
  have : ¬ ((n : Int) < 0) := by omega
  simp [this, h]

theorem loop_fault (fuel : Nat) (n : Nat) (out : FLEP D) (e : Fault)
    (h : flep_optimize_body A n out = .error e) :
    flep_optimize_loop A (fuel + 1) (n : Int) out = .error e := by
  rw [flep_optimize_loop.eq_def]
  have : ¬ ((n : Int) < 0) := by omega
  simp [this, h]

theorem loop_mono : ∀ (fuel : Nat) (i : Int) (out r : FLEP D),
    flep_optimize_loop A fuel i out = .ok r → flep_optimize_loop A (fuel + 1) i out = .ok r := by
  intro fuel
  induction fuel with
  | zero =>
    intro i out r h
    by_cases hi : i < 0
    · rw [loop_done A _ _ _ hi] at h ⊢; exact h
    · rw [flep_optimize_loop.eq_def] at h
      simp [hi] at h
  | succ f ih =>
    intro i out r h
    by_cases hi : i < 0
    · rw [loop_done A _ _ _ hi] at h ⊢; exact h
    · obtain ⟨n, rfl⟩ : ∃ n : Nat, i = n := ⟨i.toNat, by omega⟩
      cases hb : flep_optimize_body A n out with
      | error e => rw [loop_fault A _ _ _ _ hb] at h; cases h
      | ok q =>
        obtain ⟨j, o⟩ := q
        rw [loop_succ A _ _ _ _ _ hb] at h ⊢
        exact ih _ _ _ h

theorem loop_mono_le {f g : Nat} (hfg : f ≤ g) {i : Int} {out r : FLEP D}
    (h : flep_optimize_loop A f i out = .ok r) : flep_optimize_loop A g i out = .ok r := by
  induction hfg with
  | refl => exact h
  | step _ ih => exact loop_mono A _ _ _ _ ih

theorem reaches_refl (i : Int) (out : FLEP D) : Reaches A i out i out := ⟨0, fun _ => rfl⟩

theorem reaches_trans {i j k : Int} {a b c : FLEP D} (h1 : Reaches A i a j b)
    (h2 : Reaches A j b k c) : Reaches A i a k c := by
  obtain ⟨k1, e1⟩ := h1
  obtain ⟨k2, e2⟩ := h2
  refine ⟨k2 + k1, fun fuel => ?_⟩
  rw [← Nat.add_assoc, e1, e2]

theorem reaches_round {n : Nat} {out out' : FLEP D} {j : Int}
    (h : flep_optimize_body A n out = .ok (j, out')) : Reaches A n out (j - 1) out' :=
  ⟨1, fun fuel => loop_succ A fuel _ _ _ _ h⟩

/-- A program the optimizer can work on, on which the loop gets from the
start of the scan to an index below zero: the optimizer returns the program
reached. -/
theorem optimize_of_reaches {out out' : FLEP D} {j : Int} (hneg : NegOK A out)
    (hP : PoolOK out) (h : Reaches A ((out.nt : Int) - 2) out j out') (hj : j < 0) :
    flep_optimize A out = .ok out' := by
  obtain ⟨o2, ho, -⟩ := optimize_sound A out hneg hP
  obtain ⟨k, hk⟩ := h
  have h1 : flep_optimize_loop A k ((out.nt : Int) - 2) out = .ok out' := by
    have := hk 0
    rw [Nat.zero_add, loop_done A _ _ _ hj] at this
    exact this
  unfold flep_optimize at ho ⊢
  have a := loop_mono_le A (Nat.le_max_left k (3 * out.nt)) h1
  have b := loop_mono_le A (Nat.le_max_right k (3 * out.nt)) ho
  rw [a] at b
  cases b
  exact ho

/-- A round at an opcode that is neither a unary minus nor a constant
reference with an opcode after it changes nothing. -/
theorem skip_round (out : FLEP D) (n ti : Nat) (hti : out.text[n]? = some ti)
    (h1 : ti ≠ FLEP_UNARY_MINUS)
    (h2 : ¬ (FLEP_OPCODE ti = FLEP_CONST ∧ (n : Int) < (out.nt : Int) - 1)) :
    flep_optimize_body A n out = .ok (n, out) := by
  unfold flep_optimize_body
  rw [rd_nat _ n ti hti]
  simp only [h1, if_false, false_and, h2]

/-- A round at a constant reference followed by an opcode that is not a
single-operand operation and preceded by an opcode that is not a constant
reference changes nothing. -/
theorem noop_const (out : FLEP D) (m tm ti t1 : Nat) (x : D)
    (htm : out.text[m]? = some tm) (hti : out.text[m + 1]? = some ti)
    (ht1 : out.text[m + 2]? = some t1) (hci : FLEP_OPCODE ti = FLEP_CONST)
    (hcm : FLEP_OPCODE tm ≠ FLEP_CONST) (hx : out.data[FLEP_OPPARM ti]? = some x)
    (hu : unary A t1 = none) :
    flep_optimize_body A ((m + 1 : Nat) : Int) out = .ok (((m + 1 : Nat) : Int), out) := by
  have h1 : ti ≠ FLEP_UNARY_MINUS := by
    intro e; rw [e, opcode_neg] at hci; cases hci
  unfold flep_optimize_body
  rw [rd_nat _ (m + 1) ti hti]
  simp only [h1, if_false, false_and]
  have hn0 : ((m + 1 : Nat) : Int) ≠ 0 := by omega
  by_cases hc : FLEP_OPCODE ti = FLEP_CONST ∧ ((m + 1 : Nat) : Int) < (out.nt : Int) - 1
  · simp only [hc, and_self, if_true]
    rw [rd_nat _ _ x hx, rd_succ _ (m + 1) t1 ht1]
    simp only [hu, ne_eq, hn0, not_false_eq_true, if_true]
    rw [rd_pred _ m tm htm]
    simp only [hcm, if_false]
  · simp only [hc, if_false]

end

section

variable {D : Type} (A : Arith D)

theorem unary_of_binary {op : Nat} {g : D → D → D} (h : binary A op = some g) :
    unary A op = none ∧ op ≠ FLEP_UNARY_MINUS ∧ FLEP_OPCODE op ≠ FLEP_CONST := by
  rcases binary_cases A h with rfl | rfl | rfl | rfl | rfl <;>
    exact ⟨rfl, by decide, by decide⟩

theorem get_append_add (pre l : List Nat) (k : Nat) : (pre ++ l)[pre.length + k]? = l[k]? := by
  rw [List.getElem?_append_right (by omega)]
  congr 1
  omega

theorem get_append_zero (pre l : List Nat) : (pre ++ l)[pre.length]? = l[0]? :=
  get_append_add pre l 0

theorem live_length {out : FLEP D} (hnt : out.nt ≤ out.text.length) :
    (live out).length = out.nt := by
  simp [live, hnt]

theorem text_of_live {out : FLEP D} {l : List Nat} (hl : live out = l) {j : Nat}
    (hj : j < out.nt) : out.text[j]? = l[j]? := by
  rw [← hl, live_get hj]

/-- The body of a round that folds a two-operand operation on two
constants. -/
theorem fold_body (out : FLEP D) (pre post : List Nat) (tm ti t1 : Nat) (x y : D)
    (g : D → D → D) (hl : live out = pre ++ tm :: ti :: t1 :: post)
    (hnt : out.nt ≤ out.text.length) (hcm : FLEP_OPCODE tm = FLEP_CONST)
    (hci : FLEP_OPCODE ti = FLEP_CONST) (hg : binary A t1 = some g)
    (hx : out.data[FLEP_OPPARM tm]? = some x) (hy : out.data[FLEP_OPPARM ti]? = some y) :
    ∃ out' tn, out'.text[pre.length + 1]? = some tn ∧
      flep_optimize_body A ((pre.length + 1 : Nat) : Int) out =
        .ok (if FLEP_OPCODE tn = FLEP_CONST then ((pre.length + 1 : Nat) : Int) + 1
          else ((pre.length + 1 : Nat) : Int), out') ∧
      live out' = pre ++ tm :: post ∧ out'.nt ≤ out'.text.length ∧
      out'.data = out.data.set (FLEP_OPPARM tm) (g x y) ∧
      out'.nt = out.nt - 2 ∧
      (post = [] → tn = ti) ∧ (∀ c rest, post = c :: rest → tn = c) := by
  have hlen := live_length hnt
  rw [hl] at hlen
  simp only [List.length_append, List.length_cons] at hlen
  have htm : out.text[pre.length]? = some tm := by
    rw [text_of_live hl (by omega), get_append_zero]; rfl
  have hti : out.text[pre.length + 1]? = some ti := by
    rw [text_of_live hl (by omega), get_append_add]; rfl
  have ht1 : out.text[pre.length + 2]? = some t1 := by
    rw [text_of_live hl (by omega), get_append_add]; simp
  obtain ⟨hu, -, -⟩ := unary_of_binary A hg
  have h1 : ti ≠ FLEP_UNARY_MINUS := by
    intro e; rw [e, opcode_neg] at hci; cases hci
  obtain ⟨e_nt, e_data, e_len, e_live, e_stale⟩ :=
    delete_text_spec { out with data := out.data.set (FLEP_OPPARM tm) (g x y) }
      (pre.length + 1) 2 (by norm_num) (by simp only; omega) hnt
  have hl1 : live { out with data := out.data.set (FLEP_OPPARM tm) (g x y) } = live out := rfl
  rw [hl1, hl] at e_live
  simp only at e_nt e_data e_len e_stale
  have e_live' : live (flep_delete_text
      { out with data := out.data.set (FLEP_OPPARM tm) (g x y) } (pre.length + 1) 2) =
      pre ++ tm :: post := by
    rw [e_live]
    have a1 : List.take (pre.length + 1) (pre ++ tm :: ti :: t1 :: post) = pre ++ [tm] := by
      rw [List.take_append_eq_append_take]; simp
    have a2 : List.drop (pre.length + 1 + 2) (pre ++ tm :: ti :: t1 :: post) = post := by
      rw [List.drop_append_eq_append_drop]
      have : pre.length + 1 + 2 - pre.length = 3 := by omega
      have h0 : List.drop (pre.length + 1 + 2) pre = [] :=
        List.drop_eq_nil_of_le (by omega)
      rw [this, h0]; rfl
    rw [a1, a2]; simp
  obtain ⟨tn, htn⟩ := get_of_lt (flep_delete_text
    { out with data := out.data.set (FLEP_OPPARM tm) (g x y) } (pre.length + 1) 2).text
    (pre.length + 1) (by rw [e_len]; omega)
  refine ⟨_, tn, htn, ?_, e_live', by rw [e_nt, e_len]; omega, e_data, e_nt, ?_, ?_⟩
  · unfold flep_optimize_body
    rw [rd_nat _ (pre.length + 1) ti hti]
    simp only [h1, if_false, false_and]
    have hc2 : ((pre.length + 1 : Nat) : Int) < (out.nt : Int) - 1 := by omega
    have hn0 : ((pre.length + 1 : Nat) : Int) ≠ 0 := by omega
    simp only [hci, hc2, and_self, if_true]
    rw [rd_nat _ _ y hy, rd_succ _ (pre.length + 1) t1 ht1]
    simp only [hu, ne_eq, hn0, not_false_eq_true, if_true]
    rw [rd_pred _ pre.length tm htm]
    simp only [hcm, if_true]
    rw [rd_nat _ _ x hx]
    simp only [hg]
    have et : ((pre.length + 1 : Nat) : Int).toNat = pre.length + 1 := by omega
    rw [et, rd_nat _ _ tn htn]
    simp only []
    split_ifs <;> rfl
  · intro hp
    subst hp
    simp only [List.length_nil] at hlen
    rw [e_stale _ (by omega), hti] at htn
    cases htn; rfl
  · intro c rest hp
    subst hp
    simp only [List.length_cons] at hlen
    have hlt : pre.length + 1 < (flep_delete_text
        { out with data := out.data.set (FLEP_OPPARM tm) (g x y) } (pre.length + 1) 2).nt := by
      rw [e_nt]; omega
    rw [text_of_live e_live' hlt, get_append_add] at htn
    simp at htn
    exact htn.symm

end

section

variable {D : Type} (A : Arith D)

/-- A fold after which a constant reference follows: the scan stays on the
index, which now holds that reference. -/
theorem fold_next (out : FLEP D) (pre rest : List Nat) (tm ti t1 c : Nat) (x y : D)
    (g : D → D → D) (hl : live out = pre ++ tm :: ti :: t1 :: c :: rest)
    (hnt : out.nt ≤ out.text.length) (hcm : FLEP_OPCODE tm = FLEP_CONST)
    (hci : FLEP_OPCODE ti = FLEP_CONST) (hg : binary A t1 = some g)
    (hx : out.data[FLEP_OPPARM tm]? = some x) (hy : out.data[FLEP_OPPARM ti]? = some y)
    (hc : FLEP_OPCODE c = FLEP_CONST) :
    ∃ out', Reaches A ((pre.length + 1 : Nat) : Int) out ((pre.length + 1 : Nat) : Int) out' ∧
      live out' = pre ++ tm :: c :: rest ∧ out'.nt ≤ out'.text.length ∧
      out'.data = out.data.set (FLEP_OPPARM tm) (g x y) := by
  obtain ⟨out', tn, -, hb, l', n', d', -, -, hcons⟩ :=
    fold_body A out pre (c :: rest) tm ti t1 x y g hl hnt hcm hci hg hx hy
  have e := hcons c rest rfl
  subst e
  rw [if_pos hc] at hb
  have hr := reaches_round A hb
  have e2 : ((pre.length + 1 : Nat) : Int) + 1 - 1 = ((pre.length + 1 : Nat) : Int) := by omega
  rw [e2] at hr
  exact ⟨out', hr, l', n', d'⟩

/-- A fold after which no constant reference follows: the scan moves to the
constant that took the result. -/
theorem fold_back (out : FLEP D) (pre post : List Nat) (tm ti t1 : Nat) (x y : D)
    (g : D → D → D) (hl : live out = pre ++ tm :: ti :: t1 :: post)
    (hnt : out.nt ≤ out.text.length) (hcm : FLEP_OPCODE tm = FLEP_CONST)
    (hci : FLEP_OPCODE ti = FLEP_CONST) (hg : binary A t1 = some g)
    (hx : out.data[FLEP_OPPARM tm]? = some x) (hy : out.data[FLEP_OPPARM ti]? = some y)
    (hp : OpNext post) :
    ∃ out', Reaches A ((pre.length + 1 : Nat) : Int) out ((pre.length : Nat) : Int) out' ∧
      live out' = pre ++ tm :: post ∧ out'.nt ≤ out'.text.length ∧
      out'.data = out.data.set (FLEP_OPPARM tm) (g x y) := by
  obtain ⟨out', tn, htn, hb, l', n', d', ent, hnil, hcons⟩ :=
    fold_body A out pre post tm ti t1 x y g hl hnt hcm hci hg hx hy
  have hlen := live_length hnt
  rw [hl] at hlen
  simp only [List.length_append, List.length_cons] at hlen
  cases post with
  | nil =>
    have e := hnil rfl
    subst e
    rw [if_pos hci] at hb
    have hr := reaches_round A hb
    have e2 : ((pre.length + 1 : Nat) : Int) + 1 - 1 = ((pre.length + 1 : Nat) : Int) := by
      omega
    rw [e2] at hr
    have h1 : tn ≠ FLEP_UNARY_MINUS := by
      intro e; rw [e, opcode_neg] at hci; cases hci
    simp only [List.length_nil] at hlen
    have hs := skip_round A out' (pre.length + 1) tn htn h1 (by rw [ent]; omega)
    have hr2 := reaches_round A hs
    have e3 : ((pre.length + 1 : Nat) : Int) - 1 = ((pre.length : Nat) : Int) := by omega
    rw [e3] at hr2
    exact ⟨out', reaches_trans A hr hr2, l', n', d'⟩
  | cons c rest =>
    have e := hcons c rest rfl
    subst e
    rw [if_neg (hp tn rfl)] at hb
    have hr := reaches_round A hb
    have e3 : ((pre.length + 1 : Nat) : Int) - 1 = ((pre.length : Nat) : Int) := by omega
    rw [e3] at hr
    exact ⟨out', hr, l', n', d'⟩

/-- A chain of pending operations on a constant folds into it. -/
theorem fold_chain : ∀ (ch : List (Pending D)) (out : FLEP D) (pre post : List Nat) (nd : Nat)
    (v : D), ch ≠ [] →
    live out = pre ++ FLEP_BITFUSE FLEP_CONST nd :: chainCode ch ++ post →
    out.nt ≤ out.text.length → out.data[nd]? = some v → ChainOK A out.data nd (nd + 1) ch →
    OpNext post →
    ∃ out', Reaches A ((pre.length + 1 : Nat) : Int) out ((pre.length : Nat) : Int) out' ∧
      live out' = pre ++ FLEP_BITFUSE FLEP_CONST nd :: post ∧ out'.nt ≤ out'.text.length ∧
      out'.data = out.data.set nd (chainVal v ch) := by
  intro ch
  induction ch with
  | nil => intro out pre post nd v h; exact absurd rfl h
  | cons c t ih =>
    intro out pre post nd v _ hl hnt hv hok hp
    obtain ⟨hb, hy, hne⟩ := hok c (List.mem_cons_self _ _)
    have hnd : nd < out.data.length := by
      by_contra hn
      rw [List.getElem?_eq_none (by omega)] at hv
      cases hv
    cases t with
    | nil =>
      have hl' : live out = pre ++ FLEP_BITFUSE FLEP_CONST nd ::
          FLEP_BITFUSE FLEP_CONST c.1 :: c.2.1 :: post := by
        rw [hl]; simp [chainCode]
      obtain ⟨out', hr, l', n', d'⟩ := fold_back A out pre post _ _ _ v c.2.2.2 c.2.2.1 hl' hnt
        (opcode_const nd) (opcode_const c.1) hb (by rw [opparm_const]; exact hv)
        (by rw [opparm_const]; exact hy) hp
      rw [opparm_const] at d'
      exact ⟨out', hr, l', n', d'⟩
    | cons c2 t2 =>
      have hl' : live out = pre ++ FLEP_BITFUSE FLEP_CONST nd ::
          FLEP_BITFUSE FLEP_CONST c.1 :: c.2.1 :: FLEP_BITFUSE FLEP_CONST c2.1 ::
            (c2.2.1 :: chainCode t2 ++ post) := by
        rw [hl]; simp [chainCode]
      obtain ⟨out1, hr, l1, n1, d1⟩ := fold_next A out pre _ _ _ _ _ v c.2.2.2 c.2.2.1 hl' hnt
        (opcode_const nd) (opcode_const c.1) hb (by rw [opparm_const]; exact hv)
        (by rw [opparm_const]; exact hy) (opcode_const c2.1)
      rw [opparm_const] at d1
      have hl1 : live out1 = pre ++ FLEP_BITFUSE FLEP_CONST nd :: chainCode (c2 :: t2) ++
          post := by
        rw [l1]; simp [chainCode]
      have hv1 : out1.data[nd]? = some (c.2.2.1 v c.2.2.2) := by
        rw [d1, List.getElem?_set_self hnd]
      have hok1 : ChainOK A out1.data nd (nd + 1) (c2 :: t2) := by
        intro c' hc'
        obtain ⟨b1, b2, b3⟩ := hok c' (List.mem_cons_of_mem _ hc')
        refine ⟨b1, ?_, b3⟩
        rw [d1, List.getElem?_set_ne (by omega)]
        exact b2
      obtain ⟨out', hr', l', n', d'⟩ :=
        ih out1 pre post nd (c.2.2.1 v c.2.2.2) (by simp) hl1 n1 hv1 hok1 hp
      refine ⟨out', reaches_trans A hr hr', l', n', ?_⟩
      rw [d', d1, List.set_set]
      rfl

end

section

variable {D : Type} (A : Arith D)

theorem text_at {out : FLEP D} {a b : List Nat} (hl : live out = a ++ b)
    (hnt : out.nt ≤ out.text.length) {k w : Nat} (hb : b[k]? = some w) :
    out.text[a.length + k]? = some w := by
  have hlen := live_length hnt
  rw [hl, List.length_append] at hlen
  have hk : k < b.length := by
    by_contra hn
    rw [List.getElem?_eq_none (by omega)] at hb
    cases hb
  rw [text_of_live hl (by omega), get_append_add, hb]

/-- A single constant reference is folded already, and a chain of pending
operations on it folds into it. -/
theorem fold_leaf (v : D) :
    FoldR A (fun nd => [FLEP_BITFUSE FLEP_CONST nd]) 1 [v] v ∧
      FoldQ A (fun nd => [FLEP_BITFUSE FLEP_CONST nd]) 1 [v] v := by
  constructor
  · intro out pre post nd hl hnt hpool _
    have hv : out.data[nd]? = some v := by
      have := hpool 0 (by omega)
      simpa using this
    refine ⟨out, ?_, by simpa using hl, hnt, hv, rfl, fun _ _ => rfl⟩
    have e : ((pre.length + [FLEP_BITFUSE FLEP_CONST nd].length - 1 : Nat) : Int) =
        ((pre.length : Nat) : Int) := by simp
    rw [e]
    exact reaches_refl A _ _
  · intro ch out pre post nd hne hl hnt hpool hok hp
    have hv : out.data[nd]? = some v := by
      have := hpool 0 (by omega)
      simpa using this
    have hnd : nd < out.data.length := by
      by_contra hn
      rw [List.getElem?_eq_none (by omega)] at hv
      cases hv
    obtain ⟨out', hr, l', n', d'⟩ := fold_chain A ch out pre post nd v hne
      (by simpa using hl) hnt hv hok hp
    refine ⟨out', ?_, l', n', ?_, ?_, ?_⟩
    · simpa using hr
    · rw [d', List.getElem?_set_self hnd]
    · rw [d', List.length_set]
    · intro j hj
      rw [d', List.getElem?_set_ne (by omega)]

end

section

variable {D : Type} (A : Arith D)

/-- The right operand folds, then the left one takes the operation of the
node as the first of its pending operations. -/
theorem fold_node {cdl cdr : Nat → List Nat} {ncl ncr : Nat} {pll plr : List D} {vl vr : D}
    {o : Nat} {g : D → D → D} (hQl : FoldQ A cdl ncl pll vl) (hRr : FoldR A cdr ncr plr vr)
    (hg : binary A o = some g) (hpl : pll.length = ncl) (hcr : ∀ nd, 1 ≤ (cdr nd).length) :
    FoldR A (fun nd => cdl nd ++ cdr (nd + ncl) ++ [o]) (ncl + ncr) (pll ++ plr) (g vl vr) ∧
      FoldQ A (fun nd => cdl nd ++ cdr (nd + ncl) ++ [o]) (ncl + ncr) (pll ++ plr)
        (g vl vr) := by
  obtain ⟨hu, hop1, hopc⟩ := unary_of_binary A hg
  have pool_l : ∀ (d : List D) (nd : Nat), (∀ j, j < ncl + ncr → d[nd + j]? = (pll ++ plr)[j]?) →
      ∀ j, j < ncl → d[nd + j]? = pll[j]? := by
    intro d nd h j hj
    rw [h j (by omega), List.getElem?_append_left (by omega)]
  have pool_r : ∀ (d : List D) (nd : Nat), (∀ j, j < ncl + ncr → d[nd + j]? = (pll ++ plr)[j]?) →
      ∀ j, j < ncr → d[nd + ncl + j]? = plr[j]? := by
    intro d nd h j hj
    rw [Nat.add_assoc, h (ncl + j) (by omega), List.getElem?_append_right (by omega)]
    congr 1
    omega
  -- the part common to both: from the operator of the node down to the folded node
  have core : ∀ (ch : List (Pending D)) (out : FLEP D) (pre post : List Nat) (nd : Nat),
      live out = pre ++ (cdl nd ++ cdr (nd + ncl) ++ [o]) ++ chainCode ch ++ post →
      out.nt ≤ out.text.length →
      (∀ j, j < ncl + ncr → out.data[nd + j]? = (pll ++ plr)[j]?) →
      ChainOK A out.data nd (nd + (ncl + ncr)) ch → OpNext post →
      ∃ out', Reaches A ((pre.length + (cdl nd).length + (cdr (nd + ncl)).length : Nat) : Int)
          out ((pre.length : Nat) : Int) out' ∧
        live out' = pre ++ FLEP_BITFUSE FLEP_CONST nd :: post ∧
        out'.nt ≤ out'.text.length ∧ out'.data[nd]? = some (chainVal (g vl vr) ch) ∧
        out'.data.length = out.data.length ∧
        ∀ j, j < nd ∨ nd + (ncl + ncr) ≤ j → out'.data[j]? = out.data[j]? := by
    intro ch out pre post nd hl hnt hpool hok hp
    have hcr1 := hcr (nd + ncl)
    -- the round at the operator
    have hl0 : live out = (pre ++ cdl nd ++ cdr (nd + ncl)) ++ (o :: (chainCode ch ++ post)) := by
      rw [hl]; simp
    have ht0 := text_at hl0 hnt (k := 0) (w := o) (by simp)
    simp only [List.length_append, Nat.add_zero] at ht0
    have hs := skip_round A out _ o ht0 hop1 (fun h => hopc h.1)
    have hr0 := reaches_round A hs
    -- the right operand
    have hlr : live out = (pre ++ cdl nd) ++ cdr (nd + ncl) ++ (o :: (chainCode ch ++ post)) := by
      rw [hl]; simp
    obtain ⟨out1, hr1, l1, n1, v1, len1, ag1⟩ := hRr out (pre ++ cdl nd)
      (o :: (chainCode ch ++ post)) (nd + ncl) hlr hnt (pool_r _ _ hpool)
      (by intro w hw; cases hw; exact hopc)
    have e1 : ((pre.length + (cdl nd).length + (cdr (nd + ncl)).length : Nat) : Int) - 1 =
        (((pre ++ cdl nd).length + (cdr (nd + ncl)).length - 1 : Nat) : Int) := by
      rw [List.length_append]; omega
    rw [e1] at hr0
    -- the left operand with the node as first pending operation
    have hl1 : live out1 = pre ++ cdl nd ++
        chainCode ((nd + ncl, o, g, vr) :: ch) ++ post := by
      rw [l1]; simp [chainCode]
    have hok1 : ChainOK A out1.data nd (nd + ncl) ((nd + ncl, o, g, vr) :: ch) := by
      intro c hc
      rcases List.mem_cons.mp hc with rfl | hc
      · exact ⟨hg, v1, Or.inr (Nat.le_refl _)⟩
      · obtain ⟨b1, b2, b3⟩ := hok c hc
        refine ⟨b1, ?_, by omega⟩
        rw [ag1 c.1 (by omega)]
        exact b2
    have hpool1 : ∀ j, j < ncl → out1.data[nd + j]? = pll[j]? := by
      intro j hj
      rw [ag1 (nd + j) (by omega)]
      exact pool_l _ _ hpool j hj
    obtain ⟨out2, hr2, l2, n2, v2, len2, ag2⟩ := hQl ((nd + ncl, o, g, vr) :: ch) out1 pre post
      nd (by simp) hl1 n1 hpool1 hok1 hp
    have e2 : (((pre ++ cdl nd).length : Nat) : Int) =
        ((pre.length + (cdl nd).length : Nat) : Int) := by
      rw [List.length_append]
    rw [e2] at hr1
    refine ⟨out2, reaches_trans A hr0 (reaches_trans A hr1 hr2), l2, n2, v2, by omega, ?_⟩
    intro j hj
    rw [ag2 j (by omega), ag1 j (by omega)]
  constructor
  · intro out pre post nd hl hnt hpool hp
    have hok : ChainOK A out.data nd (nd + (ncl + ncr)) ([] : List (Pending D)) := by
      intro c hc; cases hc
    obtain ⟨out', hr, rest⟩ := core [] out pre post nd (by simpa [chainCode] using hl) hnt
      hpool hok hp
    refine ⟨out', ?_, rest⟩
    have e : ((pre.length + (cdl nd ++ cdr (nd + ncl) ++ [o]).length - 1 : Nat) : Int) =
        ((pre.length + (cdl nd).length + (cdr (nd + ncl)).length : Nat) : Int) := by
      simp only [List.length_append, List.length_singleton]
      omega
    rw [e]; exact hr
  · intro ch out pre post nd hne hl hnt hpool hok hp
    obtain ⟨c, t, rfl⟩ := List.exists_cons_of_ne_nil hne
    obtain ⟨b1, b2, -⟩ := hok c (List.mem_cons_self _ _)
    obtain ⟨hu1, -, -⟩ := unary_of_binary A b1
    have hl0 : live out = (pre ++ cdl nd ++ cdr (nd + ncl)) ++
        (o :: FLEP_BITFUSE FLEP_CONST c.1 :: c.2.1 :: (chainCode t ++ post)) := by
      rw [hl]; simp [chainCode]
    have ht0 := text_at hl0 hnt (k := 0) (w := o) (by simp)
    have ht1 := text_at hl0 hnt (k := 1) (w := FLEP_BITFUSE FLEP_CONST c.1) (by simp)
    have ht2 := text_at hl0 hnt (k := 2) (w := c.2.1) (by simp)
    simp only [List.length_append, Nat.add_zero] at ht0 ht1 ht2
    have hn := noop_const A out _ o _ _ c.2.2.2 ht0 ht1 ht2 (opcode_const _) hopc
      (by rw [opparm_const]; exact b2) hu1
    have hr0 := reaches_round A hn
    obtain ⟨out', hr, rest⟩ := core (c :: t) out pre post nd hl hnt hpool hok hp
    refine ⟨out', ?_, rest⟩
    have e : ((pre.length + (cdl nd ++ cdr (nd + ncl) ++ [o]).length : Nat) : Int) =
        ((pre.length + (cdl nd).length + (cdr (nd + ncl)).length + 1 : Nat) : Int) := by
      simp only [List.length_append, List.length_singleton]
      omega
    have e' : ((pre.length + (cdl nd).length + (cdr (nd + ncl)).length + 1 : Nat) : Int) - 1 =
        ((pre.length + (cdl nd).length + (cdr (nd + ncl)).length : Nat) : Int) := by omega
    rw [e' ] at hr0
    rw [e]
    exact reaches_trans A hr0 hr

end

section

variable {D : Type} (A : Arith D)

theorem code_length_pos (x : Expr) : ∀ nd, 1 ≤ (code nd x).length := by
  induction x with
  | paren y ih => intro nd; exact ih nd
  | _ => intro nd; simp only [code, List.length_append, List.length_singleton]; omega

/-- The code of a foldable expression folds into a single constant
reference that holds the value of the expression. -/
theorem fold_expr (x : Expr) : Foldable x →
    FoldR A (fun nd => code nd x) (nconst x) (pool A x) (evalExpr A [] x) ∧
      FoldQ A (fun nd => code nd x) (nconst x) (pool A x) (evalExpr A [] x) := by
  induction x with
  | var i => intro h; exact h.elim
  | lit s => intro _; exact fold_leaf A (A.strtod s)
  | econst => intro _; exact fold_leaf A (A.exp A.one)
  | piconst => intro _; exact fold_leaf A A.pi
  | paren y ih => intro h; exact ih h
  | call f y _ => intro h; exact h.elim
  | pow l r ihl ihr =>
    intro h
    exact fold_node A (ihl h.1).2 (ihr h.2).1 (o := FLEP_POWER) (g := A.pow) rfl
      (pool_length A l) (code_length_pos r)
  | prod d l r ihl ihr =>
    intro h
    cases d
    · exact fold_node A (ihl h.1).2 (ihr h.2).1 (o := FLEP_MULT) (g := A.mul) rfl
        (pool_length A l) (code_length_pos r)
    · exact fold_node A (ihl h.1).2 (ihr h.2).1 (o := FLEP_DIV) (g := A.div) rfl
        (pool_length A l) (code_length_pos r)
  | sum run l r ihl ihr =>
    intro h
    rcases signOp_cases run with e | e
    · have key := fold_node A (ihl h.1).2 (ihr h.2).1 (o := FLEP_PLUS) (g := A.add) rfl
        (pool_length A l) (code_length_pos r)
      simpa only [code, nconst, pool, evalExpr, e, FLEP_PLUS, FLEP_MINUS, Nat.reduceEqDiff,
        if_false] using key
    · have key := fold_node A (ihl h.1).2 (ihr h.2).1 (o := FLEP_MINUS) (g := A.sub) rfl
        (pool_length A l) (code_length_pos r)
      simpa only [code, nconst, pool, evalExpr, e, if_true] using key

theorem loop_zero_ne (i : Int) (out r : FLEP D) (hi : 0 ≤ i) :
    flep_optimize_loop A 0 i out ≠ .ok r := by
  rw [flep_optimize_loop.eq_def]
  have : ¬ i < 0 := by omega
  simp [this]

/-- A run of the loop from the start of the scan that ends is the run of
`flep_optimize`. -/
theorem optimize_of_loop {out out' : FLEP D} {k : Nat} (hneg : NegOK A out) (hP : PoolOK out)
    (h : flep_optimize_loop A k ((out.nt : Int) - 2) out = .ok out') :
    flep_optimize A out = .ok out' := by
  obtain ⟨o2, ho, -⟩ := optimize_sound A out hneg hP
  unfold flep_optimize at ho ⊢
  have a := loop_mono_le A (Nat.le_max_left k (3 * out.nt)) h
  have b := loop_mono_le A (Nat.le_max_right k (3 * out.nt)) ho
  rw [a] at b
  cases b
  exact ho

/-- Complete folding: the optimizer turns the code of a foldable expression,
as the parser emits it, into a single constant reference to slot 0, which then
holds the value of the expression. -/
theorem optimize_foldable (x : Expr) (hw : WF x) (hf : Foldable x) :
    ∃ out', flep_optimize A ⟨pool A x, code 0 x, nconst x, (code 0 x).length⟩ = .ok out' ∧
      live out' = [FLEP_BITFUSE FLEP_CONST 0] ∧ out'.nt ≤ out'.text.length ∧
      out'.data[0]? = some (evalExpr A [] x) := by
  obtain ⟨tok, hc⟩ := compile_code A x hw
  have hP := compile_poolOK A hc
  have hl0 : live (⟨pool A x, code 0 x, nconst x, (code 0 x).length⟩ : FLEP D) = code 0 x := by
    simp [live]
  have hneg : NegOK A (⟨pool A x, code 0 x, nconst x, (code 0 x).length⟩ : FLEP D) := by
    right; rw [hl0]; exact neg_not_mem_code x 0
  have hpos := code_length_pos x 0
  obtain ⟨out1, hr1, l1, n1, v1, -, -⟩ := (fold_expr A x hf).1
    ⟨pool A x, code 0 x, nconst x, (code 0 x).length⟩ [] [] 0 (by rw [hl0]; simp)
    (Nat.le_refl _) (by intro j _; simp) (by intro w hw; cases hw)
  simp only [List.length_nil, Nat.zero_add, List.nil_append] at hr1 l1
  -- the round at the reference left
  have hnt1 : out1.nt = 1 := by
    have := live_length n1
    rw [l1] at this
    simpa using this.symm
  have ht1 : out1.text[0]? = some (FLEP_BITFUSE FLEP_CONST 0) := by
    have := text_at (a := []) (b := [FLEP_BITFUSE FLEP_CONST 0]) (by simpa using l1) n1
      (k := 0) (w := FLEP_BITFUSE FLEP_CONST 0) rfl
    simpa using this
  have hne1 : FLEP_BITFUSE FLEP_CONST 0 ≠ FLEP_UNARY_MINUS := by decide
  have hs1 := skip_round A out1 0 _ ht1 hne1 (by rw [hnt1]; simp)
  have hr2 := reaches_round A hs1
  obtain ⟨k, hk⟩ := reaches_trans A hr1 hr2
  have hk0 := hk 0
  have hdone := loop_done A 0 (((0 : Nat) : Int) - 1) out1 (by omega)
  rw [Nat.zero_add, hdone] at hk0
  -- the first round, at the last opcode, changes nothing
  cases k with
  | zero => exact absurd hk0 (loop_zero_ne A _ _ _ (by omega))
  | succ k =>
    obtain ⟨w, hw⟩ := get_of_lt (code 0 x) ((code 0 x).length - 1) (by omega)
    have hwn : w ≠ FLEP_UNARY_MINUS := by
      intro e
      exact neg_not_mem_code x 0 (e ▸ List.getElem?_mem hw)
    have hs0 := skip_round A (⟨pool A x, code 0 x, nconst x, (code 0 x).length⟩ : FLEP D)
      ((code 0 x).length - 1) w hw hwn (by simp only; omega)
    rw [loop_succ A _ _ _ _ _ hs0] at hk0
    have e : (((code 0 x).length - 1 : Nat) : Int) - 1 =
        (((⟨pool A x, code 0 x, nconst x, (code 0 x).length⟩ : FLEP D).nt : Nat) : Int) - 2 := by
      simp only; omega
    rw [e] at hk0
    exact ⟨out1, optimize_of_loop A hneg hP hk0, l1, n1, v1⟩

end

section

variable {D : Type} (A : Arith D)

/-- The loop of the optimizer over opcodes that are neither unary minus nor
constant references changes nothing. -/
theorem loop_skip_all (out : FLEP D)
    (h : ∀ (j w : Nat), out.text[j]? = some w →
      w ≠ FLEP_UNARY_MINUS ∧ FLEP_OPCODE w ≠ FLEP_CONST) :
    ∀ (n : Nat) (fuel : Nat), n < out.text.length → n + 1 ≤ fuel →
      flep_optimize_loop A fuel (n : Int) out = .ok out := by
  intro n
  induction n with
  | zero =>
    intro fuel hn hf
    obtain ⟨f, rfl⟩ : ∃ f, fuel = f + 1 := ⟨fuel - 1, by omega⟩
    obtain ⟨w, hw⟩ := get_of_lt out.text 0 hn
    obtain ⟨h1, h2⟩ := h 0 w hw
    rw [loop_succ A f 0 out out _ (skip_round A out 0 w hw h1 (fun c => h2 c.1))]
    exact loop_done A _ _ _ (by norm_num)
  | succ n ih =>
    intro fuel hn hf
    obtain ⟨f, rfl⟩ : ∃ f, fuel = f + 1 := ⟨fuel - 1, by omega⟩
    obtain ⟨w, hw⟩ := get_of_lt out.text (n + 1) hn
    obtain ⟨h1, h2⟩ := h (n + 1) w hw
    rw [loop_succ A f (n + 1) out out _ (skip_round A out (n + 1) w hw h1 (fun c => h2 c.1))]
    have e : (((n + 1 : Nat) : Int) - 1) = (n : Int) := by omega
    rw [e]
    exact ih f (by omega) (by omega)

/-- The optimizer leaves a program without unary minus and constant
references as it is. -/
theorem optimize_no_const (text : List Nat) (data : List D) (nd : Nat)
    (h : ∀ w ∈ text, w ≠ FLEP_UNARY_MINUS ∧ FLEP_OPCODE w ≠ FLEP_CONST) :
    flep_optimize A ⟨data, text, nd, text.length⟩ = .ok ⟨data, text, nd, text.length⟩ := by
  unfold flep_optimize
  by_cases hl : text.length < 2
  · exact loop_done A _ _ _ (by simp only; omega)
  · have e : (((⟨data, text, nd, text.length⟩ : FLEP D).nt : Nat) : Int) - 2 =
        ((text.length - 2 : Nat) : Int) := by simp only; omega
    rw [e]
    exact loop_skip_all A _ (fun j w hw => h w (List.getElem?_mem hw)) _ _
      (by simp only; omega) (by simp only; omega)

end

section

variable {D : Type} (A : Arith D)

/-! ## The lexer on arbitrary sources -/

theorem takeWhile_le_sub (f : Char → Bool) (s : List Char) (i : Nat) :
    ((s.drop i).takeWhile f).length ≤ s.length - i := by
  have h := (List.takeWhile_sublist f (l := s.drop i)).length_le
  simpa using h

theorem expLen_le (lo up : Char) (s : List Char) : expLen lo up s ≤ s.length := by
  cases s with
  | nil => simp [expLen]
  | cons c t =>
    unfold expLen
    simp only []
    split_ifs with h1 h2 h3 h4
    · omega
    · have hne : 1 ≤ t.length := by
        cases t with
        | nil => simp at h2
        | cons a u => simp
      have := takeWhile_le_sub isdigit t 1
      simp only [List.length_cons]
      omega
    · omega
    · have := takeWhile_le_sub isdigit t 0
      simp only [List.length_cons]
      omega
    · omega

theorem floatLen_le (dig : Char → Bool) (lo up : Char) (s : List Char) :
    floatLen dig lo up s ≤ s.length := by
  unfold floatLen
  simp only []
  have ha := takeWhile_le_sub dig s 0
  simp only [List.drop_zero, Nat.sub_zero] at ha
  by_cases hdot : (s.drop (s.takeWhile dig).length).head? = some '.'
  · simp only [hdot, if_true]
    have hne : 1 ≤ (s.drop (s.takeWhile dig).length).length := by
      cases hd : s.drop (s.takeWhile dig).length with
      | nil => rw [hd] at hdot; simp at hdot
      | cons a u => simp
    have hb := takeWhile_le_sub dig (s.drop (s.takeWhile dig).length) 1
    have he := expLen_le lo up (s.drop ((s.takeWhile dig).length + 1 +
      (((s.drop (s.takeWhile dig).length).drop 1).takeWhile dig).length))
    simp only [List.length_drop] at hne hb he
    split_ifs <;> omega
  · simp only [hdot, if_false]
    have he := expLen_le lo up (s.drop (s.takeWhile dig).length)
    simp only [List.length_drop] at he
    split_ifs <;> omega

theorem strtodLen_le (s : List Char) : strtodLen s ≤ s.length := by
  unfold strtodLen
  split
  · rename_i x t
    split_ifs
    · have := floatLen_le isxdigit 'p' 'P' t
      simp only [List.length_cons]; omega
    · exact floatLen_le _ _ _ _
  · exact floatLen_le _ _ _ _

theorem floatLen_pos (lo up : Char) (c : Char) (t : List Char) (hc : isdigit c = true) :
    1 ≤ floatLen isdigit lo up (c :: t) := by
  unfold floatLen
  simp only []
  have ha : 1 ≤ ((c :: t).takeWhile isdigit).length := by
    rw [List.takeWhile_cons, hc]; simp
  split_ifs <;> omega

theorem strtodLen_pos (c : Char) (t : List Char) (hc : isdigit c = true) :
    1 ≤ strtodLen (c :: t) := by
  unfold strtodLen
  split
  · split_ifs
    · omega
    · exact floatLen_pos _ _ _ _ hc
  · exact floatLen_pos _ _ _ _ hc

theorem peek_lt {s : List Char} {i : Nat} (h : peek s i ≠ Char.ofNat 0) : i < s.length := by
  by_contra hn
  apply h
  unfold peek
  rw [List.getD_eq_getElem?_getD, List.getElem?_eq_none (by omega)]
  rfl

theorem drop_of_peek {s : List Char} {i : Nat} (h : i < s.length) :
    s.drop i = peek s i :: s.drop (i + 1) := by
  rw [List.drop_eq_getElem_cons h]
  congr 1
  unfold peek
  rw [List.getD_eq_getElem?_getD, List.getElem?_eq_getElem h]
  rfl

set_option maxHeartbeats 1000000 in
theorem next_facts (tok : FLEPTokens D) (hq : tok.q ≤ tok.src.length) :
    (flep_next A tok).src = tok.src ∧ (flep_next A tok).q ≤ tok.src.length ∧
      tok.q ≤ (flep_next A tok).q ∧
      ((flep_next A tok).curr ≠ FLEP_END → (flep_next A tok).curr ≠ FLEP_BADTOKEN →
        tok.q + 1 ≤ (flep_next A tok).q) ∧
      ((flep_next A tok).curr = FLEP_VAR → (flep_next A tok).ival < 7) := by
  have hsp := takeWhile_le_sub isspace tok.src tok.q
  unfold flep_next
  simp only []
  generalize hp : tok.q + ((tok.src.drop tok.q).takeWhile isspace).length = p
  have hpl : p ≤ tok.src.length := by omega
  have hqp : tok.q ≤ p := by omega
  by_cases c0 : peek tok.src p = Char.ofNat 0
  · rw [if_pos c0]
    exact ⟨rfl, hq, le_refl _, fun h => absurd rfl h, fun h => by cases h⟩
  rw [if_neg c0]
  have hlt := peek_lt c0
  have hal := takeWhile_le_sub isalpha tok.src (p + 1)
  by_cases c1 : isalpha (peek tok.src p) = true
  · rw [if_pos c1]
    split_ifs
    · refine ⟨rfl, by simp only []; omega, by simp only []; omega, fun _ _ => by simp only []; omega, fun h => by cases h⟩
    · split
      · rename_i i hi
        refine ⟨rfl, by simp only []; omega, by simp only []; omega, fun _ _ => by simp only []; omega, fun _ => firstIndex_lt _ _ _ hi⟩
      · refine ⟨rfl, by simp only []; omega, by simp only []; omega, fun _ h => absurd rfl h, fun h => by cases h⟩
    · refine ⟨rfl, by simp only []; omega, by simp only []; omega,
        fun _ _ => by simp only []; omega, fun h => by cases h⟩
    · refine ⟨rfl, by simp only []; omega, by simp only []; omega,
        fun _ h => absurd rfl h, fun h => by cases h⟩
    · split
      · rename_i i hi
        have hi7 := firstIndex_lt _ _ _ hi
        refine ⟨rfl, by simp only []; omega, by simp only []; omega,
          fun _ _ => by simp only []; omega, fun h => ?_⟩
        simp only [FLEP_SIN, FLEP_VAR] at h
        omega
      · refine ⟨rfl, by simp only []; omega, by simp only []; omega,
          fun _ h => absurd rfl h, fun h => by cases h⟩
    · refine ⟨rfl, by simp only []; omega, by simp only []; omega,
        fun _ _ => by simp only []; omega, fun h => by cases h⟩
    · refine ⟨rfl, by simp only []; omega, by simp only []; omega,
        fun _ h => absurd rfl h, fun h => by cases h⟩
    · refine ⟨rfl, by simp only []; omega, by simp only []; omega,
        fun _ h => absurd rfl h, fun h => by cases h⟩
  rw [if_neg c1]
  by_cases c2 : isdigit (peek tok.src p) = true
  · rw [if_pos c2]
    have h1 := strtodLen_le (tok.src.drop p)
    have h2 : 1 ≤ strtodLen (tok.src.drop p) := by
      rw [drop_of_peek hlt]; exact strtodLen_pos _ _ c2
    simp only [List.length_drop] at h1
    refine ⟨rfl, by simp only []; omega, by simp only []; omega,
      fun _ _ => by simp only []; omega, fun h => by cases h⟩
  rw [if_neg c2]
  split
  · rename_i i hi
    have hi7 := firstIndex_lt _ _ _ hi
    have hs : sym.length = 7 := rfl
    refine ⟨rfl, by simp only []; omega, by simp only []; omega,
      fun _ _ => by simp only []; omega, fun h => ?_⟩
    simp only [FLEP_OPEN, FLEP_VAR] at h
    omega
  · refine ⟨rfl, by simp only []; omega, by simp only []; omega,
      fun _ h => absurd rfl h, fun h => by cases h⟩

theorem left_next (tok : FLEPTokens D) (hq : tok.q ≤ tok.src.length) :
    left (flep_next A tok) ≤ tok.src.length - tok.q := by
  obtain ⟨h1, h2, h3, h4, -⟩ := next_facts A tok hq
  unfold left
  rw [h1]
  split_ifs with c
  · omega
  · have := h4 (fun h => c (Or.inl h)) (fun h => c (Or.inr h))
    omega

theorem left_real (tok : FLEPTokens D) (h1 : tok.curr ≠ FLEP_END)
    (h2 : tok.curr ≠ FLEP_BADTOKEN) : left tok = tok.src.length - tok.q + 1 := by
  unfold left
  rw [if_neg (by rintro (h | h) <;> contradiction)]

/-- Stepping over a token which is neither the end nor a bad token lowers
the number of tokens left. -/
theorem left_step (tok : FLEPTokens D) (hq : tok.q ≤ tok.src.length)
    (h1 : tok.curr ≠ FLEP_END) (h2 : tok.curr ≠ FLEP_BADTOKEN) :
    left (flep_next A tok) + 1 ≤ left tok := by
  have := left_next A tok hq
  rw [left_real tok h1 h2]
  omega

theorem inSource_next (tok : FLEPTokens D) (hq : tok.q ≤ tok.src.length) :
    InSource (flep_next A tok) := by
  obtain ⟨h1, h2, -, -, h5⟩ := next_facts A tok hq
  exact ⟨by rw [h1]; exact h2, h5⟩

theorem streamInv_inSource : StreamInv A (InSource : FLEPTokens D → Prop) :=
  ⟨fun tok h _ _ => inSource_next A tok h.1, fun _ h => h.1, fun _ h => h.2⟩

theorem inSource_tokenize (s : List Char) : InSource (flep_tokenize A s) :=
  inSource_next A _ (Nat.zero_le _)

theorem left_tokenize (s : List Char) : left (flep_tokenize A s) ≤ s.length :=
  left_next A _ (Nat.zero_le _)

/-! ## Variable references of the buffer -/

theorem mem_store {α : Type} {l : List α} {i : Nat} {v w : α} (h : w ∈ store l i v) :
    w ∈ l ∨ w = v := by
  unfold store at h
  rcases List.mem_append.mp h with h | h
  · exact Or.inl (List.mem_of_mem_take h)
  · rcases List.mem_cons.mp h with h | h
    · exact Or.inr h
    · exact Or.inl (List.mem_of_mem_drop h)

theorem varOK_add_opcode {out : FLEP D} (h : VarOK out) {o : Nat}
    (ho : FLEP_OPCODE o = FLEP_VAR → FLEP_OPPARM o < 7) : VarOK (flep_add_opcode out o) := by
  intro w hw
  rcases mem_store hw with h1 | rfl
  · exact h w h1
  · exact ho

theorem varOK_add_small {out : FLEP D} (h : VarOK out) {o : Nat} (ho : o < 256)
    (hne : o ≠ FLEP_VAR) : VarOK (flep_add_opcode out o) :=
  varOK_add_opcode h (fun hc => absurd ((opcode_small o ho).symm.trans hc) hne)

theorem varOK_add_data {out : FLEP D} (h : VarOK out) (v : D) : VarOK (flep_add_data out v) :=
  h

end

section

variable {D : Type} (A : Arith D) {P : FLEPTokens D → Prop}

/-! ## The parser returns on every source -/

theorem not_err_of_eq {ret k : Nat} (h : ret = k) (hk : k < 20) : ¬ IsErr ret := by
  subst h
  unfold IsErr FLEP_BADSYNTAX FLEP_EXPECTED_OPEN FLEP_UNBALANCED
  omega

theorem real_of_eq {tok : FLEPTokens D} {k : Nat} (h : tok.curr = k) (hk : k < 19) :
    tok.curr ≠ FLEP_END ∧ tok.curr ≠ FLEP_BADTOKEN := by
  rw [h]; unfold FLEP_END FLEP_BADTOKEN; omega

theorem real_of_fn {tok : FLEPTokens D} (h : FLEP_SIN ≤ tok.curr ∧ tok.curr ≤ FLEP_SQRT) :
    tok.curr ≠ FLEP_END ∧ tok.curr ≠ FLEP_BADTOKEN ∧ tok.curr < 256 ∧ tok.curr ≠ FLEP_VAR := by
  simp only [FLEP_SIN, FLEP_SQRT, FLEP_END, FLEP_BADTOKEN, FLEP_VAR] at h ⊢
  omega

theorem curr_of_ret {ret : Nat} {tok : FLEPTokens D} (h : ret = tok.curr ∨ IsErr ret)
    (hn : ¬ IsErr ret) : tok.curr = ret := by
  rcases h with h | h
  · exact h.symm
  · exact absurd h hn

theorem good_of_next {k : Nat} {tok : FLEPTokens D} {r : PState D}
    (h : Good P k (flep_next A tok) r) (hl : left (flep_next A tok) ≤ left tok) :
    Good P k tok r :=
  ⟨h.1, h.2.1, h.2.2.1, fun hn => le_trans (h.2.2.2 hn) hl⟩

theorem good_add {k : Nat} {tok tok1 : FLEPTokens D} {ret : Nat} {out1 : FLEP D}
    (h : Good P k tok (ret, tok1, out1)) {o : Nat} (ho : o < 256) (hne : o ≠ FLEP_VAR) :
    Good P k tok (ret, tok1, flep_add_opcode out1 o) :=
  ⟨h.1, h.2.1, varOK_add_small h.2.2.1 ho hne, h.2.2.2⟩

theorem good_err {k : Nat} {tok tok1 : FLEPTokens D} {ret : Nat} {out : FLEP D}
    (hP : P tok1) (hV : VarOK out) (he : IsErr ret) : Good P k tok (ret, tok1, out) :=
  ⟨hP, Or.inr he, hV, fun hn => absurd he hn⟩

set_option maxHeartbeats 1000000 in
/-- The eight parsing routines return at every fuel that covers the tokens
left. -/
theorem totalAt (S : StreamInv A P) (n : Nat) : TotalAt A P n := by
  induction n with
  | zero =>
    refine ⟨?_, ?_, ?_, ?_, ?_, ?_, ?_, ?_⟩
    · intro tok out _ _ h; omega
    · intro tok out _ _ h; omega
    · intro ret tok out _ _ _ h; omega
    · intro tok out _ _ h; omega
    · intro ret tok out _ _ _ h; omega
    · intro tok out _ _ h; omega
    · intro ret tok out _ _ _ h; omega
    · intro op tok _ h; omega
  | succ n ih =>
    obtain ⟨t1, t2, t3, t4, t5, t6, t7, t8⟩ := ih
    refine ⟨?_, ?_, ?_, ?_, ?_, ?_, ?_, ?_⟩
    · intro tok out hP hV hn
      have hq := S.within tok hP
      rw [flep_get_operand]
      dsimp only
      split_ifs with c1 c2 c3 c4 c5 c6 c7 c8 c9 c10
      · obtain ⟨r1, r2⟩ := real_of_eq c1 (by decide)
        have hs := left_step A tok hq r1 r2
        obtain ⟨⟨ret, tok1, out1⟩, e1, g1⟩ := t6 (flep_next A tok) out (S.next tok hP r1 r2) hV
          (by omega)
        rw [e1]
        dsimp only
        split_ifs with hcl
        · exact ⟨_, rfl, good_err g1.1 g1.2.2.1 isErr_unbalanced⟩
        · have hcl : ret = FLEP_CLOSE := not_not.mp hcl
          have hne := not_err_of_eq hcl (by decide)
          have hc : tok1.curr = FLEP_CLOSE := (curr_of_ret g1.2.1 hne).trans hcl
          obtain ⟨r3, r4⟩ := real_of_eq hc (by decide)
          have h1 := left_step A tok1 (S.within _ g1.1) r3 r4
          have h2 := g1.2.2.2 hne
          exact ⟨_, rfl, S.next tok1 g1.1 r3 r4, Or.inl rfl, g1.2.2.1, fun _ => by
            dsimp only at h2 ⊢; omega⟩
      · obtain ⟨r1, r2⟩ := real_of_eq c2 (by decide)
        have hs := left_step A tok hq r1 r2
        obtain ⟨r, e1, g1⟩ := t1 (flep_next A tok) out (S.next tok hP r1 r2) hV (by omega)
        exact ⟨r, e1, good_of_next A g1 (by omega)⟩
      · exact ⟨_, rfl, good_err hP hV isErr_badsyntax⟩
      · obtain ⟨r1, r2⟩ := real_of_eq c4 (by decide)
        have hs := left_step A tok hq r1 r2
        obtain ⟨⟨ret, tok1, out1⟩, e1, g1⟩ := t4 (flep_next A tok) out (S.next tok hP r1 r2) hV
          (by omega)
        rw [e1]
        exact ⟨_, rfl, good_add (good_of_next A g1 (by omega)) (by decide) (by decide)⟩
      · obtain ⟨r1, r2⟩ := real_of_eq c4 (by decide)
        have hs := left_step A tok hq r1 r2
        obtain ⟨⟨ret, tok1, out1⟩, e1, g1⟩ := t2 (flep_next A tok) out (S.next tok hP r1 r2) hV
          (by omega)
        rw [e1]
        exact ⟨_, rfl, good_add (good_of_next A g1 (by omega)) (by decide) (by decide)⟩
      · obtain ⟨r1, r2⟩ := real_of_eq c4 (by decide)
        have hs := left_step A tok hq r1 r2
        obtain ⟨⟨ret, tok1, out1⟩, e1, g1⟩ := t1 (flep_next A tok) out (S.next tok hP r1 r2) hV
          (by omega)
        rw [e1]
        exact ⟨_, rfl, good_add (good_of_next A g1 (by omega)) (by decide) (by decide)⟩
      · obtain ⟨r1, r2, r3, r4⟩ := real_of_fn c7
        exact ⟨_, rfl, good_err (S.next tok hP r1 r2) hV isErr_expected⟩
      · obtain ⟨r1, r2, r3, r4⟩ := real_of_fn c7
        have hs := left_step A tok hq r1 r2
        obtain ⟨⟨ret, tok1, out1⟩, e1, g1⟩ := t1 (flep_next A tok) out (S.next tok hP r1 r2) hV
          (by omega)
        rw [e1]
        exact ⟨_, rfl, good_add (good_of_next A g1 (by omega)) r3 r4⟩
      · obtain ⟨r1, r2⟩ := real_of_eq c9 (by decide)
        have hs := left_step A tok hq r1 r2
        refine ⟨_, rfl, S.next tok hP r1 r2, Or.inl rfl, ?_, fun _ => hs⟩
        apply varOK_add_opcode (varOK_add_data hV _)
        intro h
        rw [opcode_const] at h
        cases h
      · obtain ⟨r1, r2⟩ := real_of_eq c10 (by decide)
        have hs := left_step A tok hq r1 r2
        refine ⟨_, rfl, S.next tok hP r1 r2, Or.inl rfl, ?_, fun _ => hs⟩
        apply varOK_add_opcode hV
        intro _
        rw [opparm_var]
        exact S.index tok hP c10
      · exact ⟨_, rfl, good_err hP hV isErr_badsyntax⟩
    · intro tok out hP hV hn
      rw [flep_get_power]
      obtain ⟨⟨ret, tok1, out1⟩, e1, g1⟩ := t1 tok out hP hV (by omega)
      rw [e1]
      dsimp only
      obtain ⟨r, e2, g2, g3⟩ := t3 ret tok1 out1 g1.1 g1.2.1 g1.2.2.1 (by omega)
        (fun hr => by
          have := g1.2.2.2 (not_err_of_eq hr (by decide))
          dsimp only at this; omega)
      refine ⟨r, e2, g2.1, g2.2.1, g2.2.2.1, fun hne => ?_⟩
      have h1 := g1.2.2.2 (fun he => hne (g3 he))
      have h2 := g2.2.2.2 hne
      dsimp only at h1 h2
      omega
    · intro ret tok out hP hI hV h1 hb
      rw [flep_get_power_loop]
      split_ifs with c
      · have hb := hb c
        have hne : ¬ IsErr ret := by
          exact not_err_of_eq c (by decide)
        have hc := curr_of_ret hI hne
        obtain ⟨r1, r2⟩ : tok.curr ≠ FLEP_END ∧ tok.curr ≠ FLEP_BADTOKEN := by
          rw [hc, c]; exact ⟨by decide, by decide⟩
        have hs := left_step A tok (S.within tok hP) r1 r2
        obtain ⟨⟨ret1, tok1, out1⟩, e1, g1⟩ := t2 (flep_next A tok) out (S.next tok hP r1 r2)
          hV (by omega)
        dsimp only
        rw [e1]
        dsimp only
        have hop : FLEP_POWER < 256 ∧ FLEP_POWER ≠ FLEP_VAR := by
          exact ⟨by decide, by decide⟩
        obtain ⟨r, e2, g2, g3⟩ := t3 ret1 tok1 (flep_add_opcode out1 FLEP_POWER) g1.1 g1.2.1
          (varOK_add_small g1.2.2.1 hop.1 hop.2) (by omega)
          (fun hr => by
            have := g1.2.2.2 (not_err_of_eq hr (by decide))
            dsimp only at this; omega)
        refine ⟨r, e2, ⟨g2.1, g2.2.1, g2.2.2.1, fun hn2 => ?_⟩, fun he => absurd he hne⟩
        have h3 := g1.2.2.2 (fun he => hn2 (g3 he))
        have h4 := g2.2.2.2 hn2
        dsimp only at h3 h4
        omega
      · exact ⟨_, rfl, ⟨hP, hI, hV, fun _ => by dsimp only; omega⟩, id⟩
    · intro tok out hP hV hn
      rw [flep_get_prod]
      obtain ⟨⟨ret, tok1, out1⟩, e1, g1⟩ := t2 tok out hP hV (by omega)
      rw [e1]
      dsimp only
      obtain ⟨r, e2, g2, g3⟩ := t5 ret tok1 out1 g1.1 g1.2.1 g1.2.2.1 (by omega)
        (fun hr => by
          have := g1.2.2.2 (by rcases hr with hr | hr <;> exact not_err_of_eq hr (by decide))
          dsimp only at this; omega)
      refine ⟨r, e2, g2.1, g2.2.1, g2.2.2.1, fun hne => ?_⟩
      have h1 := g1.2.2.2 (fun he => hne (g3 he))
      have h2 := g2.2.2.2 hne
      dsimp only at h1 h2
      omega
    · intro ret tok out hP hI hV h1 hb
      rw [flep_get_prod_loop]
      split_ifs with c
      · have hb := hb c
        have hne : ¬ IsErr ret := by
          rcases c with c | c <;> exact not_err_of_eq c (by decide)
        have hc := curr_of_ret hI hne
        obtain ⟨r1, r2⟩ : tok.curr ≠ FLEP_END ∧ tok.curr ≠ FLEP_BADTOKEN := by
          rw [hc]; rcases c with c | c <;> rw [c] <;> exact ⟨by decide, by decide⟩
        have hs := left_step A tok (S.within tok hP) r1 r2
        obtain ⟨⟨ret1, tok1, out1⟩, e1, g1⟩ := t2 (flep_next A tok) out (S.next tok hP r1 r2)
          hV (by omega)
        dsimp only
        rw [e1]
        dsimp only
        have hop : ret < 256 ∧ ret ≠ FLEP_VAR := by
          rcases c with c | c <;> rw [c] <;> exact ⟨by decide, by decide⟩
        obtain ⟨r, e2, g2, g3⟩ := t5 ret1 tok1 (flep_add_opcode out1 ret) g1.1 g1.2.1
          (varOK_add_small g1.2.2.1 hop.1 hop.2) (by omega)
          (fun hr => by
            have := g1.2.2.2 (by rcases hr with hr | hr <;> exact not_err_of_eq hr (by decide))
            dsimp only at this; omega)
        refine ⟨r, e2, ⟨g2.1, g2.2.1, g2.2.2.1, fun hn2 => ?_⟩, fun he => absurd he hne⟩
        have h3 := g1.2.2.2 (fun he => hn2 (g3 he))
        have h4 := g2.2.2.2 hn2
        dsimp only at h3 h4
        omega
      · exact ⟨_, rfl, ⟨hP, hI, hV, fun _ => by dsimp only; omega⟩, id⟩
    · intro tok out hP hV hn
      rw [flep_get_sum]
      obtain ⟨⟨ret, tok1, out1⟩, e1, g1⟩ := t4 tok out hP hV (by omega)
      rw [e1]
      dsimp only
      obtain ⟨r, e2, g2, g3⟩ := t7 ret tok1 out1 g1.1 g1.2.1 g1.2.2.1 (by omega)
        (fun hr => by
          have := g1.2.2.2 (by rcases hr with hr | hr <;> exact not_err_of_eq hr (by decide))
          dsimp only at this; omega)
      refine ⟨r, e2, g2.1, g2.2.1, g2.2.2.1, fun hne => ?_⟩
      have h1 := g1.2.2.2 (fun he => hne (g3 he))
      have h2 := g2.2.2.2 hne
      dsimp only at h1 h2
      omega
    · intro ret tok out hP hI hV h1 hb
      rw [flep_get_sum_loop]
      split_ifs with c
      · have hb := hb c
        have hne : ¬ IsErr ret := by
          rcases c with c | c <;> exact not_err_of_eq c (by decide)
        have hc := curr_of_ret hI hne
        obtain ⟨r1, r2⟩ : tok.curr ≠ FLEP_END ∧ tok.curr ≠ FLEP_BADTOKEN := by
          rw [hc]; rcases c with c | c <;> rw [c] <;> exact ⟨by decide, by decide⟩
        have hs := left_step A tok (S.within tok hP) r1 r2
        obtain ⟨⟨op1, ret0, tok0⟩, e0, g0, l0⟩ := t8 ret (flep_next A tok)
          (S.next tok hP r1 r2) (by omega)
        have o1 : op1 = FLEP_PLUS ∨ op1 = FLEP_MINUS :=
          (parserInvAt A n).2.2.2.2.2.2.2 _ _ _ _ c e0
        dsimp only at l0 g0
        dsimp only
        rw [e0]
        dsimp only
        obtain ⟨⟨ret1, tok1, out1⟩, e1, g1⟩ := t4 tok0 out g0 hV (by omega)
        rw [e1]
        dsimp only
        have hop : op1 < 256 ∧ op1 ≠ FLEP_VAR := by
          rcases o1 with c | c <;> rw [c] <;> exact ⟨by decide, by decide⟩
        obtain ⟨r, e2, g2, g3⟩ := t7 ret1 tok1 (flep_add_opcode out1 op1) g1.1 g1.2.1
          (varOK_add_small g1.2.2.1 hop.1 hop.2) (by omega)
          (fun hr => by
            have := g1.2.2.2 (by rcases hr with hr | hr <;> exact not_err_of_eq hr (by decide))
            dsimp only at this; omega)
        refine ⟨r, e2, ⟨g2.1, g2.2.1, g2.2.2.1, fun hn2 => ?_⟩, fun he => absurd he hne⟩
        have h3 := g1.2.2.2 (fun he => hn2 (g3 he))
        have h4 := g2.2.2.2 hn2
        dsimp only at h3 h4
        omega
      · exact ⟨_, rfl, ⟨hP, hI, hV, fun _ => by dsimp only; omega⟩, id⟩
    · intro op tok hP hn
      rw [flep_get_sum_signs]
      by_cases c : tok.curr = FLEP_PLUS ∨ tok.curr = FLEP_MINUS
      · rw [if_pos c]
        obtain ⟨r1, r2⟩ : tok.curr ≠ FLEP_END ∧ tok.curr ≠ FLEP_BADTOKEN := by
          rcases c with c | c <;> rw [c] <;> exact ⟨by decide, by decide⟩
        have hs := left_step A tok (S.within tok hP) r1 r2
        obtain ⟨r, e1, g1, l1⟩ := t8 (if op = tok.curr then FLEP_PLUS else FLEP_MINUS)
          (flep_next A tok) (S.next tok hP r1 r2) (by omega)
        exact ⟨r, e1, g1, by omega⟩
      · rw [if_neg c]
        exact ⟨_, rfl, hP, le_refl _⟩

/-- The parsing phase returns on every source, in a stream that kept the
property it started with. -/
theorem compile_total (S : StreamInv A P) (s : List Char) (h0 : P (flep_tokenize A s)) :
    ∃ status tok out, flep_compile A s = some (status, tok, out) ∧ P tok ∧
      (status = tok.curr ∨ IsErr status) ∧ VarOK out := by
  have hl := left_tokenize A s
  obtain ⟨⟨status, tok, out⟩, e, g⟩ := (totalAt A S (parseFuel s)).2.2.2.2.2.1
    (flep_tokenize A s) ⟨[], [], 0, 0⟩ h0 (by intro w hw; cases hw)
    (by unfold parseFuel; omega)
  exact ⟨status, tok, out, e, g.1, g.2.1, g.2.2.1⟩

end

section

variable {D : Type} (A : Arith D)

/-! ## The optimizer ends on every accepted program -/

theorem hom_unit : Hom A unitArith (fun _ => ()) :=
  ⟨fun _ => rfl, fun _ _ => rfl, fun _ _ => rfl, fun _ _ => rfl, fun _ _ => rfl,
    fun _ _ => rfl, fun _ => rfl, fun _ => rfl, fun _ => rfl, fun _ => rfl, fun _ => rfl,
    fun _ => rfl, fun _ => rfl, rfl, rfl, fun _ => rfl⟩

/-- The optimizer returns without a fault on every program the parsing phase
accepts, whatever the arithmetic. -/
theorem optimize_total {s : List Char} {tok : FLEPTokens D} {out : FLEP D}
    (h : flep_compile A s = some (FLEP_END, tok, out)) :
    ∃ out', flep_optimize A out = .ok out' := by
  have hc := compile_map (hom_unit A) rfl s
  rw [h] at hc
  have hp := compile_poolOK unitArith hc
  obtain ⟨o, ho, -⟩ := optimize_sound unitArith _ (Or.inl fun _ => rfl) hp
  rw [optimize_map (hom_unit A)] at ho
  cases hr : flep_optimize A out with
  | error e => rw [hr] at ho; cases ho
  | ok out' => exact ⟨out', rfl⟩

/-- The parsing phase returns on every source. -/
theorem compile_returns (s : List Char) :
    ∃ status tok out, flep_compile A s = some (status, tok, out) ∧ InSource tok ∧
      (status = tok.curr ∨ IsErr status) ∧ VarOK out :=
  compile_total A (streamInv_inSource A) s (inSource_tokenize A s)

/-- The function `flep_parse` returns on every source: a program with the
caller's variables untouched when the parsing phase ends on the end of the
input, and otherwise no program, the status and the offset of the current
token plus one. -/
theorem parse_total (s : List Char) (e p : Int) :
    ∃ status tok out, flep_compile A s = some (status, tok, out) ∧
      (status = FLEP_END → ∃ out', flep_optimize A out = .ok out' ∧
        flep_parse A s e p = .ok (some (flep_add_opcode out' FLEP_END), e, p)) ∧
      (status ≠ FLEP_END →
        flep_parse A s e p = .ok (none, (status : Int), (tok.p : Int) + 1)) := by
  obtain ⟨status, tok, out, hc, -⟩ := compile_returns A s
  refine ⟨status, tok, out, hc, fun he => ?_, fun hne => ?_⟩
  · subst he
    obtain ⟨out', ho⟩ := optimize_total A hc
    refine ⟨out', ho, ?_⟩
    unfold flep_parse
    rw [hc]
    simp [ho]
  · unfold flep_parse
    rw [hc]
    simp [hne]

end

section

variable {D : Type} (A : Arith D)

/-! ## An opening parenthesis that is never closed -/

/-- The parsing phase on `(` followed by the text of a well-formed
expression: it returns the status unbalanced, in the stream that stands at
the end of the source. -/
theorem compile_open_expr (x : Expr) (hw : WF x) :
    ∃ (tok : FLEPTokens D) (out : FLEP D), tok.p = (render x).length + 1 ∧
      flep_compile A ('(' :: render x) = some (FLEP_UNBALANCED, tok, out) := by
  have h0 : (⟨'(' :: render x, 0, 0, 0, A.indet, FLEP_START, 0⟩ : FLEPTokens D).src.drop
      (⟨'(' :: render x, 0, 0, 0, A.indet, FLEP_START, 0⟩ : FLEPTokens D).q =
        '(' :: render x := by simp
  have hn := flep_next_sym A _ h0 sym_index_open
  have hA : (flep_next A (⟨'(' :: render x, 0, 0, 0, A.indet, FLEP_START, 0⟩ :
      FLEPTokens D)).src.drop (flep_next A (⟨'(' :: render x, 0, 0, 0, A.indet, FLEP_START, 0⟩ :
      FLEPTokens D)).q = render x ++ [] := by
    rw [hn]; simp
  generalize hg : flep_next A (⟨'(' :: render x, 0, 0, 0, A.indet, FLEP_START, 0⟩ :
      FLEPTokens D) = tokA at hn hA
  obtain ⟨r, ⟨tok1, hs, hq, rfl⟩, -, -, -, hsum⟩ :=
    parses_all A x hw tokA ⟨[], [], 0, 0⟩ [] ⟨rfl, rfl⟩ delim_nil hA
  have h1 : tok1.src.drop tok1.q = [] := by rw [hs, hq]; exact drop_add_of_drop hA
  have hE := flep_next_end A tok1 h1
  have hcur : (flep_next A tok1).curr = FLEP_END := by rw [hE]
  have hex := sum_loop_exit A 0 (flep_next A tok1).curr (flep_next A tok1)
    ((⟨[], [], 0, 0⟩ : FLEP D).append (code 0 x) (pool A x))
    (by rw [hcur]; decide) (by rw [hcur]; decide)
  have hF := fuelOf_le x hw
  have hc := hsum (by simp) (by simp) (by simp) 1 _ hex (6 * (render x).length + 14)
    (by omega)
  have hop : flep_get_operand A (6 * (render x).length + 15) tokA ⟨[], [], 0, 0⟩ =
      some (FLEP_UNBALANCED, flep_next A tok1,
        (⟨[], [], 0, 0⟩ : FLEP D).append (code 0 x) (pool A x)) := by
    rw [flep_get_operand]
    have hca : tokA.curr = FLEP_OPEN := by rw [hn]
    simp only [hca, if_true, hc, hcur]
    rfl
  have hpow : flep_get_power A (6 * (render x).length + 16) tokA ⟨[], [], 0, 0⟩ =
      some (FLEP_UNBALANCED, flep_next A tok1,
        (⟨[], [], 0, 0⟩ : FLEP D).append (code 0 x) (pool A x)) := by
    rw [flep_get_power, hop]
    exact power_loop_exit A _ _ _ _ (by decide)
  have hprod : flep_get_prod A (6 * (render x).length + 17) tokA ⟨[], [], 0, 0⟩ =
      some (FLEP_UNBALANCED, flep_next A tok1,
        (⟨[], [], 0, 0⟩ : FLEP D).append (code 0 x) (pool A x)) := by
    rw [flep_get_prod, hpow]
    exact prod_loop_exit A _ _ _ _ (by decide) (by decide)
  refine ⟨flep_next A tok1, (⟨[], [], 0, 0⟩ : FLEP D).append (code 0 x) (pool A x), ?_, ?_⟩
  · rw [hE, hq, hn]; simp; omega
  · unfold flep_compile flep_tokenize parseFuel
    have hl : 6 * ('(' :: render x).length + 12 = 6 * (render x).length + 17 + 1 := by
      simp only [List.length_cons]; omega
    rw [hl, flep_get_sum, hg, hprod]
    exact sum_loop_exit A _ _ _ _ (by decide) (by decide)

/-- The function `flep_parse` on `(` followed by the text of a well-formed
expression. -/
theorem parse_open_expr (x : Expr) (hw : WF x) (e p : Int) :
    flep_parse A ('(' :: render x) e p =
      .ok (none, ((FLEP_UNBALANCED : Nat) : Int), ((('(' :: render x).length : Nat) : Int) + 1) := by
  obtain ⟨tok, out, hp, hc⟩ := compile_open_expr A x hw
  unfold flep_parse
  rw [hc]
  simp [hp]

end

section

variable {D : Type} (A : Arith D)

/-! ## What the optimizer keeps -/

theorem body_nd_eq (i : Int) (out : FLEP D) :
    (flep_optimize_body A i out).map (fun r => r.2.nd) =
      (flep_optimize_body A i out).map (fun _ => out.nd) := by
  unfold flep_optimize_body
  cases rd out.text i with
  | error e => rfl
  | ok ti =>
    simp only []
    cases (if ti = FLEP_UNARY_MINUS then rd out.text (i - 1) else Except.ok 0) with
    | error e => rfl
    | ok tp =>
      simp only []
      by_cases c1 : ti = FLEP_UNARY_MINUS ∧ tp = FLEP_UNARY_MINUS
      · rw [if_pos c1]; rfl
      rw [if_neg c1]
      by_cases c2 : FLEP_OPCODE ti = FLEP_CONST ∧ i < (out.nt : Int) - 1
      swap
      · rw [if_neg c2]; rfl
      rw [if_pos c2]
      cases hx : rd out.data ↑(FLEP_OPPARM ti) with
      | error e => cases rd out.text (i + 1) <;> rfl
      | ok x =>
        cases ht1 : rd out.text (i + 1) with
        | error e => rfl
        | ok t1 =>
          simp only []
          cases hu : unary A t1 with
          | some f => rfl
          | none =>
            simp only []
            by_cases c3 : i ≠ 0
            swap
            · rw [if_neg c3]; rfl
            rw [if_pos c3]
            cases rd out.text (i - 1) with
            | error e => rfl
            | ok tm =>
              simp only []
              by_cases c4 : FLEP_OPCODE tm = FLEP_CONST
              swap
              · rw [if_neg c4]; rfl
              rw [if_pos c4]
              cases hy : rd out.data ↑(FLEP_OPPARM tm) with
              | error e => rfl
              | ok y =>
                simp only []
                cases hb : binary A t1 with
                | none => rfl
                | some f =>
                  simp only [delete_text_text]
                  cases rd (flep_delete_text_loop 2 (out.nt - (i.toNat + 2)) (i.toNat + 2)
                    out.text) i with
                  | error e => rfl
                  | ok tn =>
                    simp only []
                    split_ifs <;> rfl

theorem body_nd (i : Int) (out : FLEP D) (j : Int) (out' : FLEP D)
    (h : flep_optimize_body A i out = .ok (j, out')) : out'.nd = out.nd := by
  have := body_nd_eq A i out
  rw [h] at this
  exact Except.ok.inj this

theorem loop_nd : ∀ (fuel : Nat) (i : Int) (out out' : FLEP D),
    flep_optimize_loop A fuel i out = .ok out' → out'.nd = out.nd := by
  intro fuel
  induction fuel with
  | zero =>
    intro i out out' h
    rw [flep_optimize_loop] at h
    split_ifs at h
    · cases h; rfl
  | succ n ih =>
    intro i out out' h
    rw [flep_optimize_loop] at h
    split_ifs at h
    · cases h; rfl
    · cases hb : flep_optimize_body A i out with
      | error e => rw [hb] at h; cases h
      | ok r =>
        obtain ⟨j, o⟩ := r
        rw [hb] at h
        exact (ih _ _ _ h).trans (body_nd A i out j o hb)

/-- The optimizer leaves the number of used pool slots as it is. -/
theorem optimize_nd {out out' : FLEP D} (h : flep_optimize A out = .ok out') :
    out'.nd = out.nd :=
  loop_nd A _ _ _ _ h

/-- The used opcodes the optimizer leaves, on a program the parsing phase
accepts, are picked from the used opcodes it was given. -/
theorem optimize_sublist {s : List Char} {tok : FLEPTokens D} {out out' : FLEP D}
    (h : flep_compile A s = some (FLEP_END, tok, out)) (ho : flep_optimize A out = .ok out') :
    (live out').Sublist (live out) ∧ out'.nt ≤ out'.text.length := by
  have hc := compile_map (hom_unit A) rfl s
  rw [h] at hc
  have hp := compile_poolOK unitArith hc
  obtain ⟨o, h1, h2, -, h3⟩ := optimize_sound unitArith _ (Or.inl fun _ => rfl) hp
  rw [optimize_map (hom_unit A), ho] at h1
  cases h1
  exact ⟨h3, h2.1⟩

/-- The program under construction that the parsing phase accepts has valid
references. -/
theorem compile_indexOK {s : List Char} {tok : FLEPTokens D} {out : FLEP D}
    (h : flep_compile A s = some (FLEP_END, tok, out)) : IndexOK out := by
  obtain ⟨⟨⟨ht, -⟩, hr⟩, -⟩ := compile_inv A h
  obtain ⟨status, tok1, out1, hc, -, -, hv⟩ := compile_returns A s
  rw [h] at hc
  cases hc
  have hl : live out = out.text := by
    unfold live; rw [← ht]; exact List.take_length _
  intro w hw
  rw [hl] at hw
  refine ⟨fun hc => ?_, hv w hw⟩
  have := mem_refs hw hc
  rw [hr] at this
  exact List.mem_range.mp this

theorem indexOK_of_sublist {out out' : FLEP D} (h : IndexOK out)
    (hs : (live out').Sublist (live out)) (hn : out'.nd = out.nd) : IndexOK out' := by
  intro w hw
  rw [hn]
  exact h w (hs.subset hw)

theorem live_add_end {out : FLEP D} (h : out.nt ≤ out.text.length) :
    live (flep_add_opcode out FLEP_END) = live out ++ [FLEP_END] := by
  simp only [live, flep_add_opcode, store]
  rw [List.take_append_eq_append_take]
  simp [List.take_take, Nat.min_eq_left h]

theorem indexOK_add_end {out : FLEP D} (h : IndexOK out) (hn : out.nt ≤ out.text.length) :
    IndexOK (flep_add_opcode out FLEP_END) := by
  intro w hw
  rw [live_add_end hn] at hw
  rcases List.mem_append.mp hw with hw | hw
  · exact h w hw
  · rw [List.mem_singleton] at hw
    subst hw
    have e : FLEP_OPCODE FLEP_END = 19 := by decide
    refine ⟨fun hc => ?_, fun hc => ?_⟩ <;> rw [e] at hc <;> cases hc

end

section

variable {D : Type} (A : Arith D)

/-! ## The end of the input and alphabetic runs -/

/-- The lexer reports the end of the input only on the terminating NUL. -/
theorem next_end (tok : FLEPTokens D) (h : (flep_next A tok).curr = FLEP_END) :
    peek tok.src (tok.q + ((tok.src.drop tok.q).takeWhile isspace).length) = Char.ofNat 0 ∧
      (flep_next A tok).q = tok.q ∧ (flep_next A tok).src = tok.src := by
  unfold flep_next at h ⊢
  simp only [] at h ⊢
  generalize tok.q + ((tok.src.drop tok.q).takeWhile isspace).length = p at h ⊢
  by_cases c0 : peek tok.src p = Char.ofNat 0
  · rw [if_pos c0]
    exact ⟨c0, rfl, rfl⟩
  exfalso
  rw [if_neg c0] at h
  by_cases c1 : isalpha (peek tok.src p) = true
  · rw [if_pos c1] at h
    split_ifs at h
    all_goals first
      | cases h
      | (split at h
         · rename_i i hi
           have hi7 := firstIndex_lt _ _ _ hi
           have hb : built_in.length = 6 := rfl
           simp only [FLEP_SIN, FLEP_END, FLEP_VAR] at h
           try omega
         · cases h)
  rw [if_neg c1] at h
  by_cases c2 : isdigit (peek tok.src p) = true
  · rw [if_pos c2] at h
    cases h
  rw [if_neg c2] at h
  split at h
  · rename_i i hi
    have hi7 := firstIndex_lt _ _ _ hi
    have hs : sym.length = 7 := rfl
    simp only [FLEP_OPEN, FLEP_END] at h
    omega
  · cases h

theorem next_end_of_peek (tok : FLEPTokens D)
    (h : peek tok.src (tok.q + ((tok.src.drop tok.q).takeWhile isspace).length) =
      Char.ofNat 0) : (flep_next A tok).curr = FLEP_END := by
  unfold flep_next
  simp only []
  rw [if_pos h]

/-- After the end of the input the lexer stays there. -/
theorem next_end_again (tok : FLEPTokens D) (h : (flep_next A tok).curr = FLEP_END) :
    (flep_next A (flep_next A tok)).curr = FLEP_END := by
  obtain ⟨hp, hq, hs⟩ := next_end A tok h
  apply next_end_of_peek
  rw [hq, hs]
  exact hp

theorem firstIndex_mem {α : Type} [DecidableEq α] (l : List α) (a : α) (i : Nat)
    (h : firstIndex l a = some i) : a ∈ l := by
  induction l generalizing i with
  | nil => simp [firstIndex] at h
  | cons b t ih =>
    simp only [firstIndex] at h
    split_ifs at h with hb
    · subst hb; simp
    · cases ht : firstIndex t a with
      | none => simp [ht] at h
      | some j => exact List.mem_cons_of_mem _ (ih j ht)

theorem next_p (tok : FLEPTokens D) :
    (flep_next A tok).p = tok.q + ((tok.src.drop tok.q).takeWhile isspace).length ∧
      (flep_next A tok).src = tok.src := by
  unfold flep_next
  simp only []
  split_ifs <;> (try split) <;> exact ⟨rfl, rfl⟩

theorem takeWhile_eq_take (f : Char → Bool) (l : List Char) :
    l.takeWhile f = l.take (l.takeWhile f).length :=
  List.prefix_iff_eq_take.mp (List.takeWhile_prefix f)

set_option maxHeartbeats 1000000 in
/-- An alphabetic run that the lexer does not know is a bad token. -/
theorem next_bad_word (tok : FLEPTokens D) (h1 : word (flep_next A tok) ≠ [])
    (h2 : word (flep_next A tok) ∉ names) : (flep_next A tok).curr = FLEP_BADTOKEN := by
  obtain ⟨hp, hs⟩ := next_p A tok
  unfold word at h1 h2
  rw [hp, hs] at h1 h2
  unfold flep_next
  simp only []
  generalize tok.q + ((tok.src.drop tok.q).takeWhile isspace).length = p at h1 h2 ⊢
  have hlt : p < tok.src.length := by
    by_contra hn
    rw [List.drop_eq_nil_of_le (by omega)] at h1
    exact h1 rfl
  have hd := drop_of_peek hlt
  have c1 : isalpha (peek tok.src p) = true := by
    by_contra hn
    rw [hd, List.takeWhile_cons] at h1
    simp only [hn] at h1
    exact h1 rfl
  have c0 : peek tok.src p ≠ Char.ofNat 0 := by
    intro h; rw [h] at c1; revert c1; decide
  have hw : (tok.src.drop p).takeWhile isalpha =
      peek tok.src p :: (tok.src.drop (p + 1)).takeWhile isalpha := by
    rw [hd, List.takeWhile_cons, c1]
    simp [List.drop_drop]
  rw [hw] at h2
  have htk : (tok.src.drop p).take (((tok.src.drop (p + 1)).takeWhile isalpha).length + 1) =
      peek tok.src p :: (tok.src.drop (p + 1)).takeWhile isalpha := by
    have := takeWhile_eq_take isalpha (tok.src.drop p)
    rw [hw] at this
    simpa using this.symm
  rw [if_neg c0, if_pos c1]
  generalize (tok.src.drop (p + 1)).takeWhile isalpha = tw at h2 htk ⊢
  generalize peek tok.src p = c at h2 htk c1 c0 ⊢
  have hsub : ∀ k, p + 1 + tw.length - p = k ↔ tw.length + 1 = k := fun k => by omega
  simp only [hsub]
  by_cases a1 : tw.length + 1 = 1
  · rw [if_pos a1]
    have htw : tw = [] := List.length_eq_zero.mp (by omega)
    subst htw
    by_cases b1 : c = 'e'
    · subst b1; exact absurd (by decide) h2
    rw [if_neg b1]
    split
    · rename_i i hi
      have hm := firstIndex_mem _ _ _ hi
      exfalso
      apply h2
      simp only [vars, List.mem_cons, List.mem_singleton, List.not_mem_nil, or_false] at hm
      rcases hm with rfl | rfl | rfl | rfl | rfl | rfl | rfl <;> decide
    · rfl
  rw [if_neg a1]
  by_cases a2 : tw.length + 1 = 2
  · rw [if_pos a2]
    rw [show tw.length + 1 = 2 from a2] at htk
    split_ifs with b2
    · rw [htk] at b2
      rw [b2] at h2
      exact absurd (by decide) h2
    · rfl
  rw [if_neg a2]
  by_cases a3 : tw.length + 1 = 3
  · rw [if_pos a3]
    rw [show tw.length + 1 = 3 from a3] at htk
    split
    · rename_i i hi
      have hm := firstIndex_mem _ _ _ hi
      rw [htk] at hm
      exfalso
      apply h2
      simp only [built_in, List.mem_cons, List.mem_singleton, List.not_mem_nil, or_false] at hm
      rcases hm with h | h | h | h | h | h <;> rw [h] <;> decide
    · rfl
  rw [if_neg a3]
  by_cases a4 : tw.length + 1 = 4
  · rw [if_pos a4]
    rw [show tw.length + 1 = 4 from a4] at htk
    split_ifs with b2
    · rw [htk] at b2
      rw [b2] at h2
      exact absurd (by decide) h2
    · rfl
  rw [if_neg a4]

/-! ## The token stream of a source -/

theorem stream_is_next (s : List Char) (k : Nat) :
    ∃ t : FLEPTokens D, lexStream A s k = flep_next A t := by
  cases k with
  | zero => exact ⟨_, rfl⟩
  | succ k => exact ⟨_, rfl⟩

theorem stream_inSource (s : List Char) (k : Nat) : InSource (lexStream A s k) := by
  induction k with
  | zero => exact inSource_tokenize A s
  | succ k ih => exact inSource_next A _ ih.1

theorem stream_end_mono (s : List Char) {j k : Nat} (hjk : j ≤ k)
    (h : (lexStream A s j).curr = FLEP_END) : (lexStream A s k).curr = FLEP_END := by
  induction k with
  | zero =>
    have : j = 0 := by omega
    subst this; exact h
  | succ k ih =>
    by_cases hj : j = k + 1
    · subst hj; exact h
    · have hk := ih (by omega)
      obtain ⟨t, ht⟩ := stream_is_next A s k
      show (flep_next A (lexStream A s k)).curr = FLEP_END
      rw [ht] at hk ⊢
      exact next_end_again A t hk

/-- A source whose token stream contains a bad token is not accepted by the
parsing phase. -/
theorem compile_bad_token (s : List Char) (k : Nat)
    (hk : (lexStream A s k).curr = FLEP_BADTOKEN) :
    ∃ status tok out, flep_compile A s = some (status, tok, out) ∧ status ≠ FLEP_END := by
  have S : StreamInv A (fun tok : FLEPTokens D =>
      InSource tok ∧ ∃ j, j ≤ k ∧ tok = lexStream A s j) := by
    refine ⟨?_, fun _ h => h.1.1, fun _ h => h.1.2⟩
    rintro tok ⟨hi, j, hj, rfl⟩ - hb
    refine ⟨inSource_next A _ hi.1, j + 1, ?_, rfl⟩
    by_contra hn
    have : j = k := by omega
    subst this
    exact hb hk
  obtain ⟨status, tok, out, hc, ⟨-, j, hj, rfl⟩, hI, -⟩ :=
    compile_total A S s ⟨inSource_tokenize A s, 0, Nat.zero_le _, rfl⟩
  refine ⟨status, _, out, hc, fun he => ?_⟩
  rcases hI with hI | hI
  · have := stream_end_mono A s hj (hI.symm.trans he)
    rw [hk] at this
    cases this
  · subst he
    revert hI
    simp [IsErr]

/-- A source whose token stream contains a bad token is refused by
`flep_parse`. -/
theorem parse_bad_token (s : List Char) (k : Nat)
    (hk : (lexStream A s k).curr = FLEP_BADTOKEN) (e p : Int) :
    ∃ err pos, flep_parse A s e p = .ok (none, err, pos) := by
  obtain ⟨status, tok, out, hc, hne⟩ := compile_bad_token A s k hk
  refine ⟨(status : Int), (tok.p : Int) + 1, ?_⟩
  unfold flep_parse
  rw [hc]
  simp [hne]

end

section

variable {D : Type} (A : Arith D)

/-! ## The prefix minus -/

theorem add_opcode_append {out : FLEP D} (ht : Tight out) (ops : List Nat) (ds : List D)
    (o : Nat) : flep_add_opcode (out.append ops ds) o = out.append (ops ++ [o]) ds := by
  rw [add_opcode_tight (tight_append ht ops ds), append_append, List.append_nil]

/-- A prefix minus whose previous token is the start marker, `(`, `*` or
`/`: `flep_get_operand` emits the code of the product that follows, then one
unary minus, and stops at the token after the product. -/
theorem minus_product (x : Expr) (hw : WF x) (hl : 1 ≤ level x) (tok : FLEPTokens D)
    (out : FLEP D) (rest : List Char) (ht : Tight out) (hd : Delim rest)
    (h1 : rest.head? ≠ some '^') (h2 : rest.head? ≠ some '*') (h3 : rest.head? ≠ some '/')
    (hc : tok.curr = FLEP_MINUS)
    (hlast : tok.last = FLEP_START ∨ tok.last = FLEP_OPEN ∨ tok.last = FLEP_MULT ∨
      tok.last = FLEP_DIV)
    (hsrc : tok.src.drop tok.q = render x ++ rest) (n : Nat) (hn : fuelOf x + 1 ≤ n) :
    ∃ t : FLEPTokens D, t.src = tok.src ∧ t.q = tok.q + (render x).length ∧
      flep_get_operand A n tok out =
        some ((flep_next A t).curr, flep_next A t,
          out.append (code out.nd x ++ [FLEP_UNARY_MINUS]) (pool A x)) := by
  obtain ⟨r, ⟨t, hs, hq, rfl⟩, -, -, hprod, -⟩ := parses_all A x hw tok out rest ht hd hsrc
  have hr : t.src.drop t.q = rest := by rw [hs, hq]; exact drop_add_of_drop hsrc
  obtain ⟨k, rfl⟩ : ∃ k, n = k + 1 := ⟨n - 1, by omega⟩
  have hex := prod_loop_exit A 0 (flep_next A t).curr (flep_next A t)
    (out.append (code out.nd x) (pool A x))
    (after_ne A hd hr sym_index_mult h2) (after_ne A hd hr sym_index_div h3)
  have hp := hprod hl h1 1 _ hex k (by omega)
  refine ⟨t, hs, hq, ?_⟩
  rw [flep_get_operand]
  have c1 : tok.curr ≠ FLEP_OPEN := by rw [hc]; decide
  have c2 : tok.curr ≠ FLEP_PLUS := by rw [hc]; decide
  rw [if_neg c1, if_neg c2, if_pos hc, if_pos hlast]
  simp only [hp]
  rw [add_opcode_append ht]

/-- A prefix minus whose previous token is `^`: `flep_get_operand` emits the
code of the power that follows, then one unary minus, and stops at the token
after the power. -/
theorem minus_power (x : Expr) (hw : WF x) (hl : 2 ≤ level x) (tok : FLEPTokens D)
    (out : FLEP D) (rest : List Char) (ht : Tight out) (hd : Delim rest)
    (h1 : rest.head? ≠ some '^') (hc : tok.curr = FLEP_MINUS) (hlast : tok.last = FLEP_POWER)
    (hsrc : tok.src.drop tok.q = render x ++ rest) (n : Nat) (hn : fuelOf x + 1 ≤ n) :
    ∃ t : FLEPTokens D, t.src = tok.src ∧ t.q = tok.q + (render x).length ∧
      flep_get_operand A n tok out =
        some ((flep_next A t).curr, flep_next A t,
          out.append (code out.nd x ++ [FLEP_UNARY_MINUS]) (pool A x)) := by
  obtain ⟨r, ⟨t, hs, hq, rfl⟩, -, hpow, -, -⟩ := parses_all A x hw tok out rest ht hd hsrc
  obtain ⟨k, rfl⟩ : ∃ k, n = k + 1 := ⟨n - 1, by omega⟩
  have hp := hpow hl h1 k (by omega)
  refine ⟨t, hs, hq, ?_⟩
  rw [flep_get_operand]
  have c1 : tok.curr ≠ FLEP_OPEN := by rw [hc]; decide
  have c2 : tok.curr ≠ FLEP_PLUS := by rw [hc]; decide
  have c3 : ¬ (tok.last = FLEP_START ∨ tok.last = FLEP_OPEN ∨ tok.last = FLEP_MULT ∨
      tok.last = FLEP_DIV) := by rw [hlast]; decide
  rw [if_neg c1, if_neg c2, if_pos hc, if_neg c3, if_pos hlast]
  simp only [hp]
  rw [add_opcode_append ht]

end

section

variable {D : Type} (A : Arith D)

/-! ## Nested parentheses and chains of powers -/

theorem nest_wf (k : Nat) (x : Expr) (h : WF x) : WF (nest k x) := by
  induction k with
  | zero => exact h
  | succ k ih => exact ih

theorem nest_need (k : Nat) (x : Expr) : need (nest k x) = need x := by
  induction k with
  | zero => rfl
  | succ k ih => exact ih

theorem nest_render (k : Nat) (x : Expr) :
    render (nest k x) = List.replicate k '(' ++ render x ++ List.replicate k ')' := by
  induction k with
  | zero => simp [nest]
  | succ k ih =>
    simp only [nest, render, ih, List.replicate_succ, List.cons_append, List.append_assoc]
    congr 3
    rw [← List.replicate_succ, List.replicate_succ']

theorem chain_level (n : Nat) : 2 ≤ level (chain n) := by
  cases n <;> simp [chain, level]

theorem chain_wf (n : Nat) : WF (chain n) := by
  induction n with
  | zero => simp [chain, WF]
  | succ n ih => exact ⟨rfl, chain_level n, by simp [WF], ih⟩

theorem chain_need (n : Nat) : need (chain n) = n + 1 := by
  induction n with
  | zero => rfl
  | succ n ih => simp [chain, need, ih]

theorem chain_nconst (n : Nat) : nconst (chain n) = 0 := by
  induction n with
  | zero => rfl
  | succ n ih => simp [chain, nconst, ih]

theorem chain_pool (n : Nat) : pool A (chain n) = [] := by
  induction n with
  | zero => rfl
  | succ n ih => simp [chain, pool, ih]

theorem chain_code (n nd : Nat) :
    code nd (chain n) =
      List.replicate (n + 1) (FLEP_BITFUSE FLEP_VAR 0) ++ List.replicate n FLEP_POWER := by
  induction n generalizing nd with
  | zero => rfl
  | succ n ih =>
    simp only [chain, code, ih, nconst]
    rw [List.replicate_succ' n FLEP_POWER]
    simp [List.replicate_succ]

theorem chain_render (n : Nat) :
    render (chain (n + 1)) = 'a' :: '^' :: render (chain n) := rfl

end

section

variable {D : Type} (A : Arith D)

/-! ## Programs without constants -/

theorem code_no_const (x : Expr) : WF x → nconst x = 0 → ∀ nd, ∀ w ∈ code nd x,
    FLEP_OPCODE w ≠ FLEP_CONST := by
  induction x with
  | var i =>
    intro _ _ nd w hw
    simp only [code, List.mem_singleton] at hw
    subst hw
    rw [opcode_var]; decide
  | lit s => intro _ h; simp [nconst] at h
  | econst => intro _ h; simp [nconst] at h
  | piconst => intro _ h; simp [nconst] at h
  | paren x ih => intro hw h nd w hm; exact ih hw h nd w hm
  | call f x ih =>
    intro hw h nd w hm
    simp only [code, List.mem_append, List.mem_singleton] at hm
    rcases hm with hm | rfl
    · exact ih hw.2 h nd w hm
    · have hf := hw.1
      rw [opcode_small _ (by simp only [FLEP_SIN]; omega)]
      simp only [FLEP_SIN, FLEP_CONST]; omega
  | pow l r ihl ihr =>
    intro hw h nd w hm
    simp only [nconst] at h
    simp only [code, List.mem_append, List.mem_singleton] at hm
    rcases hm with (hm | hm) | rfl
    · exact ihl hw.2.2.1 (by omega) nd w hm
    · exact ihr hw.2.2.2 (by omega) _ w hm
    · decide
  | prod d l r ihl ihr =>
    intro hw h nd w hm
    simp only [nconst] at h
    simp only [code, List.mem_append, List.mem_singleton] at hm
    rcases hm with (hm | hm) | rfl
    · exact ihl hw.2.2.1 (by omega) nd w hm
    · exact ihr hw.2.2.2 (by omega) _ w hm
    · cases d <;> decide
  | sum run l r ihl ihr =>
    intro hw h nd w hm
    simp only [nconst] at h
    simp only [code, List.mem_append, List.mem_singleton] at hm
    rcases hm with (hm | hm) | rfl
    · exact ihl hw.2.2.1 (by omega) nd w hm
    · exact ihr hw.2.2.2 (by omega) _ w hm
    · rcases signOp_cases run with e | e <;> rw [e] <;> decide

/-- The optimizer leaves the program of an expression without constants as
it is. -/
theorem optimize_const_free (x : Expr) (hw : WF x) (h0 : nconst x = 0) :
    flep_optimize A ⟨pool A x, code 0 x, nconst x, (code 0 x).length⟩ =
      .ok ⟨pool A x, code 0 x, nconst x, (code 0 x).length⟩ :=
  optimize_no_const A _ _ _ (fun w hm =>
    ⟨fun e => neg_not_mem_code x 0 (e ▸ hm), code_no_const x hw h0 0 w hm⟩)

/-- The program `flep_parse` returns for an expression without constants:
its postfix code and the end-marker. -/
theorem parse_const_free (x : Expr) (hw : WF x) (h0 : nconst x = 0) (e p : Int) :
    flep_parse A (render x) e p =
      .ok (some (flep_add_opcode ⟨pool A x, code 0 x, nconst x, (code 0 x).length⟩ FLEP_END),
        e, p) := by
  obtain ⟨tok, hc⟩ := compile_code A x hw
  unfold flep_parse
  rw [hc]
  simp [optimize_const_free A x hw h0]

end

section

variable {D : Type} (A : Arith D)

/-! ## A chain of 65 operands -/

theorem push_run (d val : List D) (v : D) (hv : val[0]? = some v) (rest : List Nat) :
    ∀ (k : Nat) (stack : List D), stack.length + k ≤ 64 →
      flep_eval_loop A d val (List.replicate k (FLEP_BITFUSE FLEP_VAR 0) ++ rest) stack =
        flep_eval_loop A d val rest (List.replicate k v ++ stack) := by
  intro k
  induction k with
  | zero => intro stack _; rfl
  | succ k ih =>
    intro stack hs
    rw [List.replicate_succ, List.cons_append, eval_var A d val _ 0 v stack hv (by omega),
      ih (v :: stack) (by simp only [List.length_cons]; omega), List.replicate_succ']
    simp

/-- A variable reference met with 64 values on the stack: the push
`stack[++sp] = val[idx]` goes to `stack[64]`. -/
theorem push_full (d val : List D) (w : Nat) (hw : FLEP_OPCODE w = FLEP_VAR)
    (stack : List D) (hs : stack.length = 64) :
    flep_eval_round A d val w stack = .fault := by
  unfold flep_eval_round
  simp only [hw]
  simp only [FLEP_VAR, FLEP_UNARY_MINUS, FLEP_PLUS, FLEP_MINUS, FLEP_MULT, FLEP_DIV,
    FLEP_POWER, hs]
  simp only [Nat.reduceEqDiff, if_false, if_true, lt_self_iff_false]
  cases val.get? (FLEP_OPPARM w) <;> rfl

/-- The program of the chain `a^a^...^a` with at least 65 operands pushes
onto a full stack. -/
theorem chain_overflow (n : Nat) (hn : 64 ≤ n) (val : List D) (v : D)
    (hv : val[0]? = some v) :
    flep_eval A (flep_add_opcode
      ⟨pool A (chain n), code 0 (chain n), nconst (chain n), (code 0 (chain n)).length⟩
      FLEP_END) val = .error .bounds := by
  rw [eval_add_end]
  have hl : live (⟨pool A (chain n), code 0 (chain n), nconst (chain n),
      (code 0 (chain n)).length⟩ : FLEP D) = code 0 (chain n) := by simp [live]
  rw [hl, chain_code]
  obtain ⟨m, rfl⟩ : ∃ m, n = 64 + m := ⟨n - 64, by omega⟩
  have e : List.replicate (64 + m + 1) (FLEP_BITFUSE FLEP_VAR 0) =
      List.replicate 64 (FLEP_BITFUSE FLEP_VAR 0) ++
        FLEP_BITFUSE FLEP_VAR 0 :: List.replicate m (FLEP_BITFUSE FLEP_VAR 0) := by
    rw [show 64 + m + 1 = 64 + (m + 1) by omega, List.replicate_add]
    rfl
  rw [e]
  simp only [List.append_assoc, List.cons_append]
  rw [push_run A _ val v hv _ 64 [] (by simp), flep_eval_loop,
    push_full A _ val _ (opcode_var 0) _ (by simp)]

end

section

variable {D : Type} (A : Arith D)

/-! ## Programs without single-operand opcodes -/

theorem unary_none_of {w : Nat}
    (h : w ≠ FLEP_UNARY_MINUS ∧ ¬ (FLEP_SIN ≤ w ∧ w ≤ FLEP_SQRT)) : unary A w = none := by
  obtain ⟨h1, h2⟩ := h
  simp only [FLEP_UNARY_MINUS, FLEP_SIN, FLEP_SQRT] at h1 h2
  unfold unary
  simp only [FLEP_UNARY_MINUS, FLEP_SIN, FLEP_COS, FLEP_TAN, FLEP_EXP, FLEP_LOG, FLEP_ABS,
    FLEP_SQRT]
  split_ifs <;> first | rfl | omega

/-- A round at a constant reference at index 0 that is followed by an opcode
that is not a single-operand operation changes nothing. -/
theorem noop_zero (out : FLEP D) (ti t1 : Nat) (x : D) (hti : out.text[0]? = some ti)
    (ht1 : out.text[1]? = some t1) (hci : FLEP_OPCODE ti = FLEP_CONST)
    (hx : out.data[FLEP_OPPARM ti]? = some x) (hu : unary A t1 = none) :
    flep_optimize_body A ((0 : Nat) : Int) out = .ok (((0 : Nat) : Int), out) := by
  have h1 : ti ≠ FLEP_UNARY_MINUS := by
    intro e; rw [e, opcode_neg] at hci; cases hci
  unfold flep_optimize_body
  rw [rd_nat _ 0 ti hti]
  simp only [h1, if_false, false_and]
  by_cases hc : FLEP_OPCODE ti = FLEP_CONST ∧ ((0 : Nat) : Int) < (out.nt : Int) - 1
  · simp only [hc, and_self, if_true]
    rw [rd_nat _ _ x hx, rd_succ _ 0 t1 ht1]
    simp only [hu]
    simp
  · simp only [hc, if_false]

/-- A round at a constant reference between a constant reference and an
opcode that is no operation changes nothing. -/
theorem noop_nobin (out : FLEP D) (m tm ti t1 : Nat) (x y : D)
    (htm : out.text[m]? = some tm) (hti : out.text[m + 1]? = some ti)
    (ht1 : out.text[m + 2]? = some t1) (hci : FLEP_OPCODE ti = FLEP_CONST)
    (hx : out.data[FLEP_OPPARM ti]? = some x) (hy : out.data[FLEP_OPPARM tm]? = some y)
    (hu : unary A t1 = none) (hb : binary A t1 = none) :
    flep_optimize_body A ((m + 1 : Nat) : Int) out = .ok (((m + 1 : Nat) : Int), out) := by
  have h1 : ti ≠ FLEP_UNARY_MINUS := by
    intro e; rw [e, opcode_neg] at hci; cases hci
  unfold flep_optimize_body
  rw [rd_nat _ (m + 1) ti hti]
  simp only [h1, if_false, false_and]
  have hn0 : ((m + 1 : Nat) : Int) ≠ 0 := by omega
  by_cases hc : FLEP_OPCODE ti = FLEP_CONST ∧ ((m + 1 : Nat) : Int) < (out.nt : Int) - 1
  · simp only [hc, and_self, if_true]
    rw [rd_nat _ _ x hx, rd_succ _ (m + 1) t1 ht1]
    simp only [hu, ne_eq, hn0, not_false_eq_true, if_true]
    rw [rd_pred _ m tm htm]
    simp only []
    by_cases hcm : FLEP_OPCODE tm = FLEP_CONST
    · simp only [hcm, if_true]
      rw [rd_nat _ _ y hy]
      simp only [hb]
    · simp only [hcm, if_false]
  · simp only [hc, if_false]

theorem quiet3_none {l : List Nat} {m : Nat} (h : l.length ≤ m + 2) : Quiet3 A l m := by
  intro tm ti t1 _ _ h3
  rw [List.getElem?_eq_none h] at h3
  cases h3

theorem quiet3_mid {l : List Nat} {m : Nat}
    (h : ∀ ti, l[m + 1]? = some ti → FLEP_OPCODE ti ≠ FLEP_CONST) : Quiet3 A l m :=
  fun _ ti _ _ h2 _ _ hc => absurd hc (h ti h2)

theorem quiet3_left {l : List Nat} {m : Nat}
    (h : ∀ tm, l[m]? = some tm → FLEP_OPCODE tm ≠ FLEP_CONST) : Quiet3 A l m :=
  fun tm _ _ h1 _ _ hc _ => absurd hc (h tm h1)

theorem quiet3_shift {pre post : List Nat} {tm ti t1 : Nat} {m : Nat}
    (hm : pre.length + 1 ≤ m) (h : Quiet3 A (pre ++ tm :: ti :: t1 :: post) (m + 2)) :
    Quiet3 A (pre ++ tm :: post) m := by
  obtain ⟨k, rfl⟩ : ∃ k, m = pre.length + (1 + k) := ⟨m - pre.length - 1, by omega⟩
  have e : ∀ j, (pre ++ tm :: post)[pre.length + (1 + k) + j]? =
      (pre ++ tm :: ti :: t1 :: post)[pre.length + (1 + k) + 2 + j]? := by
    intro j
    rw [show pre.length + (1 + k) + j = pre.length + (1 + (k + j)) by omega,
      show pre.length + (1 + k) + 2 + j = pre.length + (3 + (k + j)) by omega,
      get_append_add, get_append_add]
    simp [Nat.add_comm 1, Nat.add_comm 3]
  intro a b c h1 h2 h3
  have e0 := e 0
  have e1 := e 1
  have e2 := e 2
  simp only [Nat.add_zero] at e0
  exact h a b c (by rw [← e0]; exact h1) (by rw [← e1]; exact h2) (by rw [← e2]; exact h3)

theorem noUnary_get {out : FLEP D} (hU : NoUnary (live out)) {j w : Nat} (hj : j < out.nt)
    (hw : out.text[j]? = some w) : w ≠ FLEP_UNARY_MINUS ∧ ¬ (FLEP_SIN ≤ w ∧ w ≤ FLEP_SQRT) := by
  have hl : (live out)[j]? = some w := by rw [live_get hj]; exact hw
  exact hU w (List.getElem?_mem hl)

set_option maxHeartbeats 1000000 in
/-- One round of the optimizer on a program without single-operand opcodes
keeps the opcodes above the scan index free of foldable patterns. -/
theorem body_quiet (out : FLEP D) (n : Nat) (hP : PoolOK out) (hS : ScanOK (n : Int) out)
    (hU : NoUnary (live out)) (hQ : StableAbove A n out) :
    ∃ i' out', flep_optimize_body A (n : Int) out = .ok (i', out') ∧
      StableAbove A (i' - 1) out' := by
  obtain ⟨s1, s2, s3⟩ := hS
  have hnt := hP.1
  have hlen := live_length hnt
  obtain ⟨ti, hti⟩ := get_of_lt out.text n (by omega)
  have hne : ti ≠ FLEP_UNARY_MINUS := by
    by_cases hlt : n < out.nt
    · exact (noUnary_get hU hlt hti).1
    · have e : (n : Int) = out.nt := by omega
      obtain ⟨w, hw, hwc⟩ := s3 e
      have e2 : n = out.nt := by omega
      rw [← e2, List.get?_eq_getElem?, hti] at hw
      cases hw
      intro h; rw [h, opcode_neg] at hwc; cases hwc
  by_cases hB : n + 1 < out.nt
  swap
  · refine ⟨_, _, skip_round A out n ti hti hne (fun h => by omega), ?_⟩
    intro m hm
    exact quiet3_none A (by rw [hlen]; omega)
  have hti' : (live out)[n]? = some ti := by rw [live_get (by omega)]; exact hti
  by_cases hci : FLEP_OPCODE ti = FLEP_CONST
  swap
  · refine ⟨_, _, skip_round A out n ti hti hne (fun h => hci h.1), ?_⟩
    intro m hm
    by_cases hmn : m + 1 = n
    · apply quiet3_mid
      intro w hw
      rw [hmn, hti'] at hw
      cases hw
      exact hci
    · exact hQ m (by omega)
  obtain ⟨x, hx⟩ := ref_valid hP (by omega) hti hci
  obtain ⟨t1, ht1⟩ := get_of_lt out.text (n + 1) (by omega)
  have ht1' : (live out)[n + 1]? = some t1 := by rw [live_get (by omega)]; exact ht1
  have hu : unary A t1 = none := unary_none_of A (noUnary_get hU hB ht1)
  cases n with
  | zero =>
    refine ⟨_, _, noop_zero A out ti t1 x hti ht1 hci hx hu, ?_⟩
    intro m _
    exact hQ m (by omega)
  | succ m0 =>
    obtain ⟨tm, htm⟩ := get_of_lt out.text m0 (by omega)
    have htm' : (live out)[m0]? = some tm := by rw [live_get (by omega)]; exact htm
    by_cases hcm : FLEP_OPCODE tm = FLEP_CONST
    swap
    · refine ⟨_, _, noop_const A out m0 tm ti t1 x htm hti ht1 hci hcm hx hu, ?_⟩
      intro m hm
      by_cases hmn : m = m0
      · apply quiet3_left
        intro w hw
        rw [hmn, htm'] at hw
        cases hw
        exact hcm
      · exact hQ m (by omega)
    obtain ⟨y, hy⟩ := ref_valid hP (by omega) htm hcm
    cases hb : binary A t1 with
    | none =>
      refine ⟨_, _, noop_nobin A out m0 tm ti t1 x y htm hti ht1 hci hx hy hu hb, ?_⟩
      intro m hm
      by_cases hmn : m = m0
      · subst hmn
        intro a b c h1 h2 h3 _ _
        rw [ht1'] at h3
        cases h3
        exact hb
      · exact hQ m (by omega)
    | some g =>
      have hl := split3 htm' hti' ht1'
      have hpl : ((live out).take m0).length = m0 := by
        rw [List.length_take, hlen]; omega
      obtain ⟨out', tn, htn, hbody, hl', -, -, -, hp1, hp2⟩ :=
        fold_body A out _ _ tm ti t1 y x g hl hnt hcm hci hb hy hx
      rw [hpl] at hbody htn
      refine ⟨_, _, hbody, ?_⟩
      have hshift : ∀ m, m0 + 1 ≤ m → Quiet3 A (live out') m := by
        intro m hm
        rw [hl']
        apply quiet3_shift A (by rw [hpl]; exact hm)
        rw [← hl]
        exact hQ (m + 2) (by omega)
      by_cases hcn : FLEP_OPCODE tn = FLEP_CONST
      · rw [if_pos hcn]
        intro m hm
        exact hshift m (by omega)
      · rw [if_neg hcn]
        intro m hm
        by_cases hmn : m = m0
        · subst hmn
          rw [hl']
          apply quiet3_mid
          intro w hw
          have e := get_append_add ((live out).take m) (tm :: (live out).drop (m + 3)) 1
          rw [hpl] at e
          rw [e] at hw
          cases hpost : (live out).drop (m + 3) with
          | nil => rw [hpost] at hw; cases hw
          | cons c rest =>
            rw [hpost] at hw
            simp only [List.getElem?_cons_succ, List.getElem?_cons_zero] at hw
            cases hw
            rw [← hp2 _ _ hpost]
            exact hcn
        · exact hshift m (by omega)

end

section

variable {D : Type} (A : Arith D)

/-! ## A second run of the optimizer -/

theorem noUnary_sublist {a b : List Nat} (h : a.Sublist b) (hb : NoUnary b) : NoUnary a :=
  fun w hw => hb w (h.subset hw)

theorem neg_not_mem_of_noUnary {l : List Nat} (h : NoUnary l) : FLEP_UNARY_MINUS ∉ l :=
  fun hm => (h _ hm).1 rfl

/-- The loop of the optimizer on a program without single-operand opcodes
ends on a program without foldable pattern. -/
theorem loop_quiet :
    ∀ (fuel : Nat) (i : Int) (out : FLEP D), PoolOK out → ScanOK i out →
      NoUnary (live out) → StableAbove A i out → i + 1 + 2 * (out.nt : Int) ≤ fuel →
      ∃ out', flep_optimize_loop A fuel i out = .ok out' ∧ PoolOK out' ∧
        NoUnary (live out') ∧ StableAbove A (-1) out' := by
  intro fuel
  induction fuel with
  | zero =>
    intro i out hP _ hU hQ hm
    have hi : i < 0 := by omega
    exact ⟨out, loop_done A _ _ _ hi, hP, hU, fun m _ => hQ m (by omega)⟩
  | succ fuel ih =>
    intro i out hP hS hU hQ hm
    by_cases hi : i < 0
    · exact ⟨out, loop_done A _ _ _ hi, hP, hU, fun m _ => hQ m (by omega)⟩
    · obtain ⟨n, rfl⟩ : ∃ n : Nat, i = n := ⟨i.toNat, by omega⟩
      obtain ⟨i', out1, hb, hP1, hS1, -, hmeas, hsub1⟩ :=
        body_step A out (Or.inr (neg_not_mem_of_noUnary hU)) n hP hS
      obtain ⟨i2, out2, hb2, hQ2⟩ := body_quiet A out n hP hS hU hQ
      rw [hb] at hb2
      simp only [Except.ok.injEq, Prod.mk.injEq] at hb2
      obtain ⟨rfl, rfl⟩ := hb2
      obtain ⟨out', hl, hP', hU', hQ'⟩ :=
        ih (i' - 1) out1 hP1 hS1 (noUnary_sublist hsub1 hU) hQ2 (by push_cast at hm ⊢; omega)
      refine ⟨out', ?_, hP', hU', hQ'⟩
      rw [loop_succ A fuel n out out1 i' hb]
      exact hl

/-- A round on a program without single-operand opcodes and without
foldable pattern changes nothing. -/
theorem stable_round (out : FLEP D) (n : Nat) (hP : PoolOK out) (hU : NoUnary (live out))
    (hQ : StableAbove A (-1) out) (hB : n + 1 < out.nt) :
    flep_optimize_body A (n : Int) out = .ok ((n : Int), out) := by
  have hnt := hP.1
  obtain ⟨ti, hti⟩ := get_of_lt out.text n (by omega)
  have hne := (noUnary_get hU (by omega) hti).1
  have hti' : (live out)[n]? = some ti := by rw [live_get (by omega)]; exact hti
  by_cases hci : FLEP_OPCODE ti = FLEP_CONST
  swap
  · exact skip_round A out n ti hti hne (fun h => hci h.1)
  obtain ⟨x, hx⟩ := ref_valid hP (by omega) hti hci
  obtain ⟨t1, ht1⟩ := get_of_lt out.text (n + 1) (by omega)
  have ht1' : (live out)[n + 1]? = some t1 := by rw [live_get (by omega)]; exact ht1
  have hu : unary A t1 = none := unary_none_of A (noUnary_get hU hB ht1)
  cases n with
  | zero => exact noop_zero A out ti t1 x hti ht1 hci hx hu
  | succ m0 =>
    obtain ⟨tm, htm⟩ := get_of_lt out.text m0 (by omega)
    have htm' : (live out)[m0]? = some tm := by rw [live_get (by omega)]; exact htm
    by_cases hcm : FLEP_OPCODE tm = FLEP_CONST
    swap
    · exact noop_const A out m0 tm ti t1 x htm hti ht1 hci hcm hx hu
    obtain ⟨y, hy⟩ := ref_valid hP (by omega) htm hcm
    exact noop_nobin A out m0 tm ti t1 x y htm hti ht1 hci hx hy hu
      (hQ m0 (by omega) tm ti t1 htm' hti' ht1' hcm hci)

theorem loop_stable (out : FLEP D) (hP : PoolOK out) (hU : NoUnary (live out))
    (hQ : StableAbove A (-1) out) :
    ∀ (n : Nat) (fuel : Nat), n + 1 < out.nt → n + 1 ≤ fuel →
      flep_optimize_loop A fuel (n : Int) out = .ok out := by
  intro n
  induction n with
  | zero =>
    intro fuel hn hf
    obtain ⟨f, rfl⟩ : ∃ f, fuel = f + 1 := ⟨fuel - 1, by omega⟩
    rw [loop_succ A f 0 out out _ (stable_round A out 0 hP hU hQ hn)]
    exact loop_done A _ _ _ (by norm_num)
  | succ n ih =>
    intro fuel hn hf
    obtain ⟨f, rfl⟩ : ∃ f, fuel = f + 1 := ⟨fuel - 1, by omega⟩
    rw [loop_succ A f (n + 1) out out _ (stable_round A out (n + 1) hP hU hQ hn)]
    have e : (((n + 1 : Nat) : Int) - 1) = (n : Int) := by omega
    rw [e]
    exact ih f (by omega) (by omega)

/-- The optimizer leaves a program without single-operand opcodes and
without foldable pattern as it is. -/
theorem quiet_fixed (out : FLEP D) (hP : PoolOK out) (hU : NoUnary (live out))
    (hQ : StableAbove A (-1) out) : flep_optimize A out = .ok out := by
  unfold flep_optimize
  by_cases hl : out.nt < 2
  · exact loop_done A _ _ _ (by omega)
  · have e : (out.nt : Int) - 2 = ((out.nt - 2 : Nat) : Int) := by omega
    rw [e]
    exact loop_stable A out hP hU hQ _ _ (by omega) (by omega)

/-- On a program the parsing phase accepts that has no single-operand
opcode, a second run of the optimizer changes nothing. -/
theorem optimize_twice_binary {s : List Char} {tok : FLEPTokens D} {out : FLEP D}
    (h : flep_compile A s = some (FLEP_END, tok, out)) (hU : NoUnary out.text) :
    ∃ o1, flep_optimize A out = .ok o1 ∧ flep_optimize A o1 = .ok o1 := by
  have hP := compile_poolOK A h
  obtain ⟨⟨⟨ht, -⟩, -⟩, -⟩ := compile_inv A h
  have hl : live out = out.text := by
    unfold live; rw [← ht]; exact List.take_length _
  have hnt := hP.1
  obtain ⟨o1, h1, hP1, hU1, hQ1⟩ := loop_quiet A (3 * out.nt) ((out.nt : Int) - 2) out hP
    ⟨by omega, by omega, fun h => by omega⟩ (by rw [hl]; exact hU)
    (fun m hm => quiet3_none A (by rw [live_length hnt]; omega)) (by push_cast; omega)
  exact ⟨o1, h1, quiet_fixed A o1 hP1 hU1 hQ1⟩

/-- On a program the parsing phase accepts that has neither a unary minus
nor a constant reference, the optimizer changes nothing. -/
theorem optimize_plain {s : List Char} {tok : FLEPTokens D} {out : FLEP D}
    (h : flep_compile A s = some (FLEP_END, tok, out))
    (hU : ∀ w ∈ out.text, w ≠ FLEP_UNARY_MINUS ∧ FLEP_OPCODE w ≠ FLEP_CONST) :
    flep_optimize A out = .ok out := by
  obtain ⟨⟨⟨ht, -⟩, -⟩, -⟩ := compile_inv A h
  obtain ⟨data, text, nd, nt⟩ := out
  simp only at ht hU
  subst ht
  exact optimize_no_const A text data nd hU

end

section

variable {D : Type} (A : Arith D)

/-! ## The parser on a source seen from one byte earlier -/

@[simp] theorem shift_src (c : Char) (t : FLEPTokens D) : (shift c t).src = c :: t.src := rfl
@[simp] theorem shift_p (c : Char) (t : FLEPTokens D) : (shift c t).p = t.p + 1 := rfl
@[simp] theorem shift_q (c : Char) (t : FLEPTokens D) : (shift c t).q = t.q + 1 := rfl
@[simp] theorem shift_ival (c : Char) (t : FLEPTokens D) : (shift c t).ival = t.ival := rfl
@[simp] theorem shift_fval (c : Char) (t : FLEPTokens D) : (shift c t).fval = t.fval := rfl
@[simp] theorem shift_curr (c : Char) (t : FLEPTokens D) : (shift c t).curr = t.curr := rfl
@[simp] theorem shift_last (c : Char) (t : FLEPTokens D) : (shift c t).last = t.last := rfl

theorem pstate_shift_mk (c : Char) (ret : Nat) (tok : FLEPTokens D) (out : FLEP D) :
    PState.shift c (ret, tok, out) = (ret, shift c tok, out) := rfl

theorem peek_cons (c : Char) (s : List Char) (i : Nat) : peek (c :: s) (i + 1) = peek s i := by
  simp [peek]

theorem next_shift (c : Char) (tok : FLEPTokens D) :
    flep_next A (shift c tok) = shift c (flep_next A tok) := by
  unfold flep_next shift
  simp only [List.drop_succ_cons]
  have e1 : ∀ k, tok.q + 1 + k = tok.q + k + 1 := fun k => by omega
  simp only [e1, peek_cons, List.drop_succ_cons]
  generalize tok.q + ((tok.src.drop tok.q).takeWhile isspace).length = p
  have e2 : ∀ k, p + 1 + 1 + k = p + 1 + k + 1 := fun k => by omega
  have e3 : ∀ k, p + 1 + k + 1 - (p + 1) = p + 1 + k - p := fun k => by omega
  have e4 : ∀ k, p + 1 + k = p + k + 1 := fun k => by omega
  simp only [e2, e3]
  split_ifs <;> (try split) <;> simp [e4]

set_option maxHeartbeats 1000000 in
theorem shiftAt (c : Char) (n : Nat) : ShiftAt A c n := by
  induction n with
  | zero =>
    refine ⟨?_, ?_, ?_, ?_, ?_, ?_, ?_, ?_⟩
    · intro tok out; rw [flep_get_operand, flep_get_operand]; rfl
    · intro tok out; rw [flep_get_power, flep_get_power]; rfl
    · intro ret tok out; rw [flep_get_power_loop, flep_get_power_loop]; rfl
    · intro tok out; rw [flep_get_prod, flep_get_prod]; rfl
    · intro ret tok out; rw [flep_get_prod_loop, flep_get_prod_loop]; rfl
    · intro tok out; rw [flep_get_sum, flep_get_sum]; rfl
    · intro ret tok out; rw [flep_get_sum_loop, flep_get_sum_loop]; rfl
    · intro op ret tok; rw [flep_get_sum_signs, flep_get_sum_signs]; rfl
  | succ n ih =>
    obtain ⟨i1, i2, i3, i4, i5, i6, i7, i8⟩ := ih
    refine ⟨?_, ?_, ?_, ?_, ?_, ?_, ?_, ?_⟩
    · intro tok out
      conv_lhs => rw [flep_get_operand]
      conv_rhs => rw [flep_get_operand]
      simp only [shift_curr, shift_last, next_shift A c, shift_fval, shift_ival]
      split_ifs
      · rw [i6]
        cases flep_get_sum A n (flep_next A tok) out with
        | none => rfl
        | some x =>
          obtain ⟨ret, tok1, out1⟩ := x
          simp only [Option.map_some', pstate_shift_mk]
          split_ifs
          · rfl
          · simp only [next_shift A c, shift_curr]; rfl
      · rw [i1]
      · rfl
      · rw [i4]
        cases flep_get_prod A n (flep_next A tok) out <;> rfl
      · rw [i2]
        cases flep_get_power A n (flep_next A tok) out <;> rfl
      · rw [i1]
        cases flep_get_operand A n (flep_next A tok) out <;> rfl
      · rfl
      · rw [i1]
        cases flep_get_operand A n (flep_next A tok) out <;> rfl
      · simp only [Option.map_some', pstate_shift_mk, shift_curr]
      · simp only [Option.map_some', pstate_shift_mk, shift_curr]
      · rfl
    · intro tok out
      conv_lhs => rw [flep_get_power]
      conv_rhs => rw [flep_get_power]
      rw [i1]
      cases flep_get_operand A n tok out with
      | none => rfl
      | some x =>
        obtain ⟨ret, tok1, out1⟩ := x
        exact i3 _ _ _
    · intro ret tok out
      conv_lhs => rw [flep_get_power_loop]
      conv_rhs => rw [flep_get_power_loop]
      simp only [next_shift A c]
      split_ifs
      · rw [i2]
        cases flep_get_power A n (flep_next A tok) out with
        | none => rfl
        | some x =>
          obtain ⟨ret1, tok1, out1⟩ := x
          exact i3 ret1 tok1 (flep_add_opcode out1 FLEP_POWER)
      · rfl
    · intro tok out
      conv_lhs => rw [flep_get_prod]
      conv_rhs => rw [flep_get_prod]
      rw [i2]
      cases flep_get_power A n tok out with
      | none => rfl
      | some x =>
        obtain ⟨ret, tok1, out1⟩ := x
        exact i5 _ _ _
    · intro ret tok out
      conv_lhs => rw [flep_get_prod_loop]
      conv_rhs => rw [flep_get_prod_loop]
      simp only [next_shift A c]
      split_ifs
      · rw [i2]
        cases flep_get_power A n (flep_next A tok) out with
        | none => rfl
        | some x =>
          obtain ⟨ret1, tok1, out1⟩ := x
          exact i5 ret1 tok1 (flep_add_opcode out1 ret)
      · rfl
    · intro tok out
      conv_lhs => rw [flep_get_sum]
      conv_rhs => rw [flep_get_sum]
      rw [i4]
      cases flep_get_prod A n tok out with
      | none => rfl
      | some x =>
        obtain ⟨ret, tok1, out1⟩ := x
        exact i7 _ _ _
    · intro ret tok out
      conv_lhs => rw [flep_get_sum_loop]
      conv_rhs => rw [flep_get_sum_loop]
      simp only [next_shift A c, shift_curr]
      split_ifs
      · rw [i8]
        cases flep_get_sum_signs A n ret (flep_next A tok).curr (flep_next A tok) with
        | none => rfl
        | some y =>
          obtain ⟨op1, ret0, tok0⟩ := y
          simp only [Option.map_some']
          rw [i4]
          cases flep_get_prod A n tok0 out with
          | none => rfl
          | some x =>
            obtain ⟨ret1, tok1, out1⟩ := x
            exact i7 ret1 tok1 (flep_add_opcode out1 op1)
      · rfl
    · intro op ret tok
      conv_lhs => rw [flep_get_sum_signs]
      conv_rhs => rw [flep_get_sum_signs]
      simp only [next_shift A c, shift_curr]
      split_ifs
      · exact i8 _ _ _
      · exact i8 _ _ _
      · rfl

end

section

variable {D : Type} (A : Arith D)

/-! ## An opening parenthesis before an accepted source -/

/-- What `flep_next` does depends on the source, the offset `q` and the
values carried along; the kind of the current token becomes that of the
previous one. -/
theorem next_congr (tok : FLEPTokens D) (p' cu la : Nat) :
    flep_next A { tok with p := p', curr := cu, last := la } =
      { flep_next A tok with last := cu } := by
  unfold flep_next
  simp only []
  split_ifs <;> (try split) <;> rfl

theorem operand_first (n : Nat) (tok : FLEPTokens D) (out : FLEP D)
    (hl : tok.last = FLEP_START) (r : PState D)
    (h : flep_get_operand A n tok out = some r) (hr : ¬ IsErr r.1) :
    flep_get_operand A n { tok with last := FLEP_OPEN } out = some r := by
  cases n with
  | zero => rw [flep_get_operand] at h; cases h
  | succ n =>
    have hn : flep_next A { tok with last := FLEP_OPEN } = flep_next A tok := by
      have := next_congr A tok tok.p tok.curr FLEP_OPEN
      rw [this]
      have h2 := next_congr A tok tok.p tok.curr tok.last
      simp only at h2
      exact h2.symm
    rw [flep_get_operand] at h ⊢
    simp only [hn, hl] at h ⊢
    split_ifs at h ⊢ with c1 c2 c3 c4 c5 c6 c7 c8 c9 c10
    all_goals first
      | exact h
      | (exfalso; cases h; exact hr isErr_badsyntax)
      | (exfalso; simp at *)

theorem power_loop_err {n ret : Nat} {tok : FLEPTokens D} {out : FLEP D} {r : PState D}
    (he : IsErr ret) (h : flep_get_power_loop A n ret tok out = some r) : IsErr r.1 := by
  cases n with
  | zero => rw [flep_get_power_loop] at h; cases h
  | succ n =>
    rw [power_loop_exit A n ret tok out (by rcases he with e | e | e <;> rw [e] <;> decide)] at h
    cases h; exact he

theorem prod_loop_err {n ret : Nat} {tok : FLEPTokens D} {out : FLEP D} {r : PState D}
    (he : IsErr ret) (h : flep_get_prod_loop A n ret tok out = some r) : IsErr r.1 := by
  cases n with
  | zero => rw [flep_get_prod_loop] at h; cases h
  | succ n =>
    rw [prod_loop_exit A n ret tok out (by rcases he with e | e | e <;> rw [e] <;> decide)
      (by rcases he with e | e | e <;> rw [e] <;> decide)] at h
    cases h; exact he

theorem sum_loop_err {n ret : Nat} {tok : FLEPTokens D} {out : FLEP D} {r : PState D}
    (he : IsErr ret) (h : flep_get_sum_loop A n ret tok out = some r) : IsErr r.1 := by
  cases n with
  | zero => rw [flep_get_sum_loop] at h; cases h
  | succ n =>
    rw [sum_loop_exit A n ret tok out (by rcases he with e | e | e <;> rw [e] <;> decide)
      (by rcases he with e | e | e <;> rw [e] <;> decide)] at h
    cases h; exact he

theorem power_first (n : Nat) (tok : FLEPTokens D) (out : FLEP D)
    (hl : tok.last = FLEP_START) (r : PState D)
    (h : flep_get_power A n tok out = some r) (hr : ¬ IsErr r.1) :
    flep_get_power A n { tok with last := FLEP_OPEN } out = some r := by
  cases n with
  | zero => rw [flep_get_power] at h; cases h
  | succ n =>
    rw [flep_get_power] at h ⊢
    cases ho : flep_get_operand A n tok out with
    | none => rw [ho] at h; cases h
    | some r1 =>
      rw [ho] at h
      simp only [] at h
      rw [operand_first A n tok out hl r1 ho (fun he => hr (power_loop_err A he h))]
      exact h

theorem prod_first (n : Nat) (tok : FLEPTokens D) (out : FLEP D)
    (hl : tok.last = FLEP_START) (r : PState D)
    (h : flep_get_prod A n tok out = some r) (hr : ¬ IsErr r.1) :
    flep_get_prod A n { tok with last := FLEP_OPEN } out = some r := by
  cases n with
  | zero => rw [flep_get_prod] at h; cases h
  | succ n =>
    rw [flep_get_prod] at h ⊢
    cases ho : flep_get_power A n tok out with
    | none => rw [ho] at h; cases h
    | some r1 =>
      rw [ho] at h
      simp only [] at h
      rw [power_first A n tok out hl r1 ho (fun he => hr (prod_loop_err A he h))]
      exact h

/-- A sum that starts right after the start marker is parsed in the same
way right after an opening parenthesis, unless it fails at once. -/
theorem sum_first (n : Nat) (tok : FLEPTokens D) (out : FLEP D)
    (hl : tok.last = FLEP_START) (r : PState D)
    (h : flep_get_sum A n tok out = some r) (hr : ¬ IsErr r.1) :
    flep_get_sum A n { tok with last := FLEP_OPEN } out = some r := by
  cases n with
  | zero => rw [flep_get_sum] at h; cases h
  | succ n =>
    rw [flep_get_sum] at h ⊢
    cases ho : flep_get_prod A n tok out with
    | none => rw [ho] at h; cases h
    | some r1 =>
      rw [ho] at h
      simp only [] at h
      rw [prod_first A n tok out hl r1 ho (fun he => hr (sum_loop_err A he h))]
      exact h

theorem next_last (tok : FLEPTokens D) : (flep_next A tok).last = tok.curr := by
  have h := next_congr A tok tok.p tok.curr tok.last
  simp only at h
  rw [h]

/-- The parsing phase on `(` followed by a source it accepts: it returns the
status unbalanced, in the stream in which it accepted the source, seen from
one byte earlier. -/
theorem compile_open {s : List Char} {tok : FLEPTokens D} {out : FLEP D}
    (h : flep_compile A s = some (FLEP_END, tok, out)) :
    flep_compile A ('(' :: s) = some (FLEP_UNBALANCED, shift '(' tok, out) := by
  unfold flep_compile flep_tokenize parseFuel at h ⊢
  have h1 : flep_get_sum A (6 * s.length + 14)
      (shift '(' (flep_next A ⟨s, 0, 0, 0, A.indet, FLEP_START, 0⟩)) ⟨[], [], 0, 0⟩ =
      some (FLEP_END, shift '(' tok, out) := by
    rw [(shiftAt A '(' _).2.2.2.2.2.1, sum_mono A (by omega) h]
    rfl
  have h2 := sum_first A _ _ _ (by rw [shift_last, next_last]) _ h1
    (by simp [IsErr, FLEP_END, FLEP_BADSYNTAX, FLEP_EXPECTED_OPEN, FLEP_UNBALANCED])
  have h0 : (⟨'(' :: s, 0, 0, 0, A.indet, FLEP_START, 0⟩ : FLEPTokens D).src.drop
      (⟨'(' :: s, 0, 0, 0, A.indet, FLEP_START, 0⟩ : FLEPTokens D).q = '(' :: s := rfl
  have hA : flep_next A (⟨'(' :: s, 0, 0, 0, A.indet, FLEP_START, 0⟩ : FLEPTokens D) =
      ⟨'(' :: s, 0, 1, 0, A.indet, FLEP_OPEN, FLEP_START⟩ :=
    flep_next_sym A _ h0 sym_index_open
  have hn : flep_next A (⟨'(' :: s, 0, 1, 0, A.indet, FLEP_OPEN, FLEP_START⟩ : FLEPTokens D) =
      { shift '(' (flep_next A ⟨s, 0, 0, 0, A.indet, FLEP_START, 0⟩) with last := FLEP_OPEN } := by
    rw [← next_shift]
    exact next_congr A (shift '(' ⟨s, 0, 0, 0, A.indet, FLEP_START, 0⟩) 0 FLEP_OPEN FLEP_START
  have hop : flep_get_operand A (6 * s.length + 15)
      (⟨'(' :: s, 0, 1, 0, A.indet, FLEP_OPEN, FLEP_START⟩ : FLEPTokens D) ⟨[], [], 0, 0⟩ =
      some (FLEP_UNBALANCED, shift '(' tok, out) := by
    rw [flep_get_operand]
    simp only [if_true, hn, h2]
    rfl
  have hpow : flep_get_power A (6 * s.length + 16)
      (⟨'(' :: s, 0, 1, 0, A.indet, FLEP_OPEN, FLEP_START⟩ : FLEPTokens D) ⟨[], [], 0, 0⟩ =
      some (FLEP_UNBALANCED, shift '(' tok, out) := by
    rw [flep_get_power, hop]
    exact power_loop_exit A _ _ _ _ (by decide)
  have hprod : flep_get_prod A (6 * s.length + 17)
      (⟨'(' :: s, 0, 1, 0, A.indet, FLEP_OPEN, FLEP_START⟩ : FLEPTokens D) ⟨[], [], 0, 0⟩ =
      some (FLEP_UNBALANCED, shift '(' tok, out) := by
    rw [flep_get_prod, hpow]
    exact prod_loop_exit A _ _ _ _ (by decide) (by decide)
  have hl : 6 * ('(' :: s).length + 12 = 6 * s.length + 17 + 1 := by
    simp only [List.length_cons]; omega
  rw [hl, flep_get_sum, hA, hprod]
  exact sum_loop_exit A _ _ _ _ (by decide) (by decide)

/-- The stream in which the parsing phase accepts a source without NUL
stands at the end of the source. -/
theorem compile_end_pos {s : List Char} {tok : FLEPTokens D} {out : FLEP D}
    (h : flep_compile A s = some (FLEP_END, tok, out)) (hnul : ∀ c ∈ s, c ≠ Char.ofNat 0) :
    tok.p = s.length := by
  have S : StreamInv A (fun tok : FLEPTokens D =>
      ∃ t, tok = flep_next A t ∧ t.src = s ∧ t.q ≤ s.length) := by
    refine ⟨?_, ?_, ?_⟩
    · rintro tok ⟨t, rfl, hs, hq⟩ - -
      obtain ⟨f1, f2, -⟩ := next_facts A t (by rw [hs]; exact hq)
      exact ⟨_, rfl, by rw [f1, hs], by rw [← hs]; exact f2⟩
    · rintro tok ⟨t, rfl, hs, hq⟩
      obtain ⟨f1, f2, -⟩ := next_facts A t (by rw [hs]; exact hq)
      rw [f1]; exact f2
    · rintro tok ⟨t, rfl, hs, hq⟩
      exact (next_facts A t (by rw [hs]; exact hq)).2.2.2.2
  obtain ⟨status, tok1, out1, hc, ⟨t, rfl, hs, hq⟩, hI, -⟩ :=
    compile_total A S s ⟨_, rfl, rfl, Nat.zero_le _⟩
  rw [h] at hc
  simp only [Option.some.injEq, Prod.mk.injEq] at hc
  obtain ⟨rfl, rfl, rfl⟩ := hc
  have hcur : (flep_next A t).curr = FLEP_END := by
    rcases hI with e | e
    · exact e.symm
    · revert e; simp [IsErr, FLEP_END, FLEP_BADSYNTAX, FLEP_EXPECTED_OPEN, FLEP_UNBALANCED]
  obtain ⟨hp, -, -⟩ := next_end A t hcur
  rw [(next_p A t).1]
  rw [hs] at hp ⊢
  have hle := takeWhile_le_sub isspace s t.q
  by_contra hne
  have hlt : t.q + ((s.drop t.q).takeWhile isspace).length < s.length := by omega
  apply hnul _ _ hp
  unfold peek
  rw [List.getD_eq_getElem?_getD, List.getElem?_eq_getElem hlt]
  exact List.getElem_mem _

/-- The function `flep_parse` on `(` followed by a source it accepts: no
program, the error unbalanced and the position after the end of the
source. -/
theorem parse_open {s : List Char} {f : FLEP D} {e p e' p' : Int}
    (h : flep_parse A s e p = .ok (some f, e', p')) (hnul : ∀ c ∈ s, c ≠ Char.ofNat 0) :
    flep_parse A ('(' :: s) e p =
      .ok (none, ((FLEP_UNBALANCED : Nat) : Int), ((('(' :: s).length : Nat) : Int) + 1) := by
  unfold flep_parse at h
  cases hc : flep_compile A s with
  | none => rw [hc] at h; cases h
  | some r =>
    obtain ⟨status, tok, out⟩ := r
    rw [hc] at h
    simp only [] at h
    by_cases hs : status = FLEP_END
    · subst hs
      have hp := compile_end_pos A hc hnul
      unfold flep_parse
      rw [compile_open A hc]
      simp [hp]
    · rw [if_neg hs] at h
      cases h

end

section

variable {D : Type} (A : Arith D)

/-! ## The shape of one round of the optimizer -/

theorem rd_cases {α : Type} (buf : List α) (i : Int) :
    (rd buf i = .error .bounds ∧ (i < 0 ∨ (buf.length : Int) ≤ i)) ∨
      ∃ v, rd buf i = .ok v ∧ 0 ≤ i ∧ buf[i.toNat]? = some v := by
  unfold rd
  split_ifs with h
  · cases hg : buf.get? i.toNat with
    | none =>
      left
      refine ⟨rfl, Or.inr ?_⟩
      have := List.get?_eq_none.mp hg
      omega
    | some v => right; exact ⟨v, rfl, h, by simpa using hg⟩
  · left; exact ⟨rfl, Or.inl (by omega)⟩

theorem delete_loop_length (n : Nat) : ∀ (cnt j : Nat) (text : List Nat),
    (flep_delete_text_loop n cnt j text).length = text.length := by
  intro cnt
  induction cnt with
  | zero => intro j text; rfl
  | succ cnt ih =>
    intro j text
    rw [flep_delete_text_loop, ih, List.length_set]

theorem delete_text_length (out : FLEP D) (i n : Nat) :
    (flep_delete_text out i n).text.length = out.text.length :=
  delete_loop_length n _ _ _

theorem delete_loop_head (n : Nat) : ∀ (cnt j : Nat) (text : List Nat), n < j →
    (flep_delete_text_loop n cnt j text)[0]? = text[0]? := by
  intro cnt
  induction cnt with
  | zero => intro j text _; rfl
  | succ cnt ih =>
    intro j text hj
    rw [flep_delete_text_loop, ih _ _ (by omega), List.getElem?_set_ne (by omega)]

/-- A deletion from an index that is at least 1 keeps the first opcode. -/
theorem delete_text_head (out : FLEP D) (i n : Nat) (hi : 1 ≤ i) :
    (flep_delete_text out i n).text[0]? = out.text[0]? :=
  delete_loop_head n _ _ _ (by omega)

theorem mem_take_of_get {l : List Nat} {k N w : Nat} (h : l[k]? = some w) (hk : k < N) :
    w ∈ l.take N := by
  rw [List.mem_iff_getElem?]
  exact ⟨k, by rw [List.getElem?_take_of_lt hk]; exact h⟩

/-- One round of the optimizer at the scan index `n`: it stops at a read
outside a buffer, or it changes nothing, or it has applied one of the three
rules. -/
theorem body_shape (n : Nat) (out : FLEP D) :
    (flep_optimize_body A n out = .error .bounds ∧
      (out.text.length ≤ n + 1 ∨ out.text[0]? = some FLEP_UNARY_MINUS ∨
        ∃ w ∈ out.text.take (n + 1), FLEP_OPCODE w = FLEP_CONST ∧
          out.data.length ≤ FLEP_OPPARM w)) ∨
    flep_optimize_body A n out = .ok ((n : Int), out) ∨
    (∃ m, n = m + 1 ∧ out.text[m]? = some FLEP_UNARY_MINUS ∧
      out.text[n]? = some FLEP_UNARY_MINUS ∧
      flep_optimize_body A n out = .ok ((m : Int), flep_delete_text out m 2)) ∨
    (n + 1 < out.nt ∧ ∃ d, d.length = out.data.length ∧ flep_optimize_body A n out =
      .ok ((n : Int) + 1, flep_delete_text { out with data := d } (n + 1) 1)) ∨
    (1 ≤ n ∧ n + 1 < out.nt ∧ ∃ d i', d.length = out.data.length ∧
      (i' = (n : Int) ∨ (i' = (n : Int) + 1 ∧
        ∃ tn, (flep_delete_text { out with data := d } n 2).text[n]? = some tn ∧
          FLEP_OPCODE tn = FLEP_CONST)) ∧
      flep_optimize_body A n out = .ok (i', flep_delete_text { out with data := d } n 2)) := by
  unfold flep_optimize_body
  rcases rd_cases out.text n with ⟨e, hb⟩ | ⟨ti, e, -, hti⟩
  · rw [e]; left; exact ⟨rfl, Or.inl (by omega)⟩
  rw [e]
  simp only []
  have e0 : (n : Int).toNat = n := by omega
  rw [e0] at hti
  rcases (show ((if ti = FLEP_UNARY_MINUS then rd out.text ((n : Int) - 1) else Except.ok 0) =
      .error .bounds ∧ (out.text.length ≤ n + 1 ∨ out.text[0]? = some FLEP_UNARY_MINUS)) ∨
      ∃ tp, (if ti = FLEP_UNARY_MINUS then rd out.text ((n : Int) - 1)
        else Except.ok 0) = .ok tp ∧
        (ti = FLEP_UNARY_MINUS → 1 ≤ n ∧ out.text[n - 1]? = some tp) from by
      split_ifs with hu
      · rcases rd_cases out.text ((n : Int) - 1) with ⟨e1, hb⟩ | ⟨tp, e1, h0, hg⟩
        · left
          refine ⟨e1, ?_⟩
          rcases hb with hb | hb
          · right
            have : n = 0 := by omega
            subst this
            rw [← hu]; exact hti
          · left; omega
        · right
          refine ⟨tp, e1, fun _ => ⟨by omega, ?_⟩⟩
          have : ((n : Int) - 1).toNat = n - 1 := by omega
          rw [this] at hg; exact hg
      · right; exact ⟨0, rfl, fun h => absurd h hu⟩) with ⟨e2, hb⟩ | ⟨tp, e2, hp⟩
  · rw [e2]; left
    refine ⟨rfl, ?_⟩
    rcases hb with hb | hb
    · exact Or.inl hb
    · exact Or.inr (Or.inl hb)
  rw [e2]
  simp only []
  by_cases c1 : ti = FLEP_UNARY_MINUS ∧ tp = FLEP_UNARY_MINUS
  · rw [if_pos c1]
    obtain ⟨h1, h2⟩ := hp c1.1
    obtain ⟨m, rfl⟩ : ∃ m, n = m + 1 := ⟨n - 1, by omega⟩
    right; right; left
    refine ⟨m, rfl, by rw [← c1.2]; simpa using h2, by rw [← c1.1]; exact hti, ?_⟩
    have e3 : (((m + 1 : Nat) : Int) - 1) = (m : Int) := by omega
    rw [e3]
    simp
  rw [if_neg c1]
  by_cases c2 : FLEP_OPCODE ti = FLEP_CONST ∧ (n : Int) < (out.nt : Int) - 1
  swap
  · rw [if_neg c2]; right; left; rfl
  rw [if_pos c2]
  have hnt : n + 1 < out.nt := by omega
  rcases rd_cases out.data ↑(FLEP_OPPARM ti) with ⟨e3, hb⟩ | ⟨x, e3, -, -⟩
  · rw [e3]
    left
    refine ⟨by cases rd out.text ((n : Int) + 1) <;> rfl, Or.inr (Or.inr ⟨ti, ?_, c2.1, by omega⟩)⟩
    exact mem_take_of_get hti (by omega)
  rw [e3]
  rcases rd_cases out.text ((n : Int) + 1) with ⟨e4, hb⟩ | ⟨t1, e4, -, -⟩
  · rw [e4]; left; exact ⟨rfl, Or.inl (by omega)⟩
  rw [e4]
  simp only []
  cases hu : unary A t1 with
  | some f =>
    simp only []
    right; right; right; left
    refine ⟨hnt, out.data.set (FLEP_OPPARM ti) (f x), by simp, ?_⟩
    have e5 : ((n : Int) + 1).toNat = n + 1 := by omega
    rw [e5]
  | none =>
    simp only []
    by_cases c3 : (n : Int) ≠ 0
    swap
    · rw [if_neg c3]; right; left; rfl
    rw [if_pos c3]
    rcases rd_cases out.text ((n : Int) - 1) with ⟨e6, hb⟩ | ⟨tm, e6, -, htm⟩
    · rw [e6]; left; exact ⟨rfl, Or.inl (by omega)⟩
    rw [e6]
    simp only []
    by_cases c4 : FLEP_OPCODE tm = FLEP_CONST
    swap
    · rw [if_neg c4]; right; left; rfl
    rw [if_pos c4]
    rcases rd_cases out.data ↑(FLEP_OPPARM tm) with ⟨e7, hb⟩ | ⟨y, e7, -, -⟩
    · rw [e7]; left
      refine ⟨rfl, Or.inr (Or.inr ⟨tm, ?_, c4, by omega⟩)⟩
      exact mem_take_of_get htm (by omega)
    rw [e7]
    simp only []
    cases hb : binary A t1 with
    | none => right; left; rfl
    | some g =>
      simp only []
      rw [e0]
      rcases rd_cases (flep_delete_text
        { out with data := out.data.set (FLEP_OPPARM tm) (g y x) } n 2).text n with
        ⟨e9, hb9⟩ | ⟨tn, e9, -, htn⟩
      · rw [e9]; left
        rw [delete_text_length] at hb9
        exact ⟨rfl, Or.inl (by simp only [] at hb9; omega)⟩
      rw [e9]
      simp only []
      rw [e0] at htn
      right; right; right; right
      by_cases c5 : FLEP_OPCODE tn = FLEP_CONST
      · rw [if_pos c5]
        exact ⟨by omega, hnt, out.data.set (FLEP_OPPARM tm) (g y x), (n : Int) + 1, by simp,
          Or.inr ⟨rfl, tn, htn, c5⟩, rfl⟩
      · rw [if_neg c5]
        exact ⟨by omega, hnt, out.data.set (FLEP_OPPARM tm) (g y x), (n : Int), by simp,
          Or.inl rfl, rfl⟩

end

section

variable {D : Type} (A : Arith D)

/-! ## What a round does to the scan index and to the logical length -/

theorem scan_not_neg {n : Nat} {out : FLEP D} (hS : ScanAt (n : Int) out)
    (h : out.text[n]? = some FLEP_UNARY_MINUS) : n + 1 ≤ out.nt := by
  obtain ⟨h1, h2⟩ := hS
  by_contra hc
  have e : n = out.nt := by omega
  obtain ⟨w, hw, hc⟩ := h2 (by omega)
  rw [← e, h] at hw
  cases hw
  revert hc
  decide

/-- A round entered with a scan index in a position the loop can reach
either changes nothing or deletes one or two used opcodes from an index
`j`; the index the next round is entered with is again in such a
position and not above the one of this round. -/
theorem body_rewrite (n : Nat) (out : FLEP D) (hS : ScanAt (n : Int) out) (i' : Int)
    (out' : FLEP D) (h : flep_optimize_body A n out = .ok (i', out')) :
    Progress n out i' out' ∧ ScanAt (i' - 1) out' ∧ i' - 1 ≤ (n : Int) ∧
      out'.text.length = out.text.length ∧ out'.data.length = out.data.length ∧
      ((out' = out ∧ i' = n) ∨ ∃ d j c, d.length = out.data.length ∧
        out' = flep_delete_text { out with data := d } j c ∧ 1 ≤ c ∧ j + c ≤ out.nt ∧
        (j = 0 → out.text[0]? = some FLEP_UNARY_MINUS)) := by
  have hS1 := hS.1
  rcases body_shape A n out with ⟨e, -⟩ | e | ⟨m, rfl, hm, hn, e⟩ | ⟨hnt, d, hd, e⟩ |
    ⟨h1, hnt, d, j, hd, hj, e⟩
  · rw [e] at h; cases h
  · rw [e] at h
    cases h
    refine ⟨Or.inl ⟨rfl, rfl⟩, ⟨by omega, fun hc => by omega⟩, by omega, rfl, rfl,
      Or.inl ⟨rfl, rfl⟩⟩
  · rw [e] at h
    cases h
    have hlt := scan_not_neg hS hn
    have ent : (flep_delete_text out m 2).nt = out.nt - 2 := rfl
    refine ⟨Or.inr ⟨Or.inr (by rw [ent]; omega), by omega⟩,
      ⟨by rw [ent]; omega, fun hc => by rw [ent] at hc; omega⟩, by omega,
      delete_text_length _ _ _, rfl,
      Or.inr ⟨out.data, m, 2, rfl, rfl, by omega, by omega, fun h0 => by rw [← h0]; exact hm⟩⟩
  · rw [e] at h
    cases h
    have ent : (flep_delete_text { out with data := d } (n + 1) 1).nt = out.nt - 1 := rfl
    refine ⟨Or.inr ⟨Or.inl (by rw [ent]; omega), by omega⟩,
      ⟨by rw [ent]; omega, fun hc => by rw [ent] at hc; omega⟩, by omega,
      delete_text_length _ _ _, hd,
      Or.inr ⟨d, n + 1, 1, hd, rfl, by omega, by omega, fun h0 => by omega⟩⟩
  · rw [e] at h
    cases h
    have ent : (flep_delete_text { out with data := d } n 2).nt = out.nt - 2 := rfl
    refine ⟨Or.inr ⟨Or.inr (by rw [ent]; omega), by omega⟩,
      ⟨by rw [ent]; omega, fun hc => ?_⟩, by omega,
      delete_text_length _ _ _, hd,
      Or.inr ⟨d, n, 2, hd, rfl, by omega, by omega, fun h0 => by omega⟩⟩
    rcases hj with hj | ⟨hj, tn, htn, hc5⟩
    · rw [ent] at hc; omega
    · rw [ent] at hc ⊢
      have : out.nt - 2 = n := by omega
      rw [this]
      exact ⟨tn, htn, hc5⟩

theorem progress_measure {n : Nat} {out out' : FLEP D} {i' : Int}
    (h : Progress n out i' out') :
    out'.nt ≤ out.nt ∧ i' - 1 + 1 + 2 * (out'.nt : Int) + 1 ≤ (n : Int) + 1 + 2 * (out.nt : Int) := by
  rcases h with ⟨rfl, rfl⟩ | ⟨h1, h2⟩
  · exact ⟨le_refl _, by omega⟩
  · omega

/-- A deletion inside the used opcodes brings no new opcode among the first
`N` of the buffer. -/
theorem delete_text_mem (out : FLEP D) (j c N : Nat) (hc : 1 ≤ c) (h1 : j + c ≤ out.nt)
    (h2 : out.nt ≤ N) (h3 : N ≤ out.text.length) (w : Nat)
    (hw : w ∈ (flep_delete_text out j c).text.take N) : w ∈ out.text.take N := by
  obtain ⟨e1, -, e3, e4, e5⟩ := delete_text_spec out j c hc h1 (by omega)
  rw [List.mem_iff_getElem?] at hw
  obtain ⟨k, hk⟩ := hw
  have hkN : k < N := by
    by_contra hn
    rw [List.getElem?_take_eq_none (by omega)] at hk
    cases hk
  rw [List.getElem?_take_of_lt hkN] at hk
  by_cases hlt : out.nt - c ≤ k
  · rw [e5 k hlt] at hk
    exact mem_take_of_get hk hkN
  · have hl : (live (flep_delete_text out j c))[k]? = some w := by
      rw [live_get (by rw [e1]; omega)]; exact hk
    rw [e4] at hl
    have hm : w ∈ live out := by
      have : w ∈ List.take j (live out) ++ List.drop (j + c) (live out) :=
        List.mem_iff_getElem?.mpr ⟨k, hl⟩
      rcases List.mem_append.mp this with hm | hm
      · exact List.mem_of_mem_take hm
      · exact List.mem_of_mem_drop hm
    unfold live at hm
    rw [List.mem_iff_getElem?] at hm
    obtain ⟨k', hk'⟩ := hm
    have hk'N : k' < out.nt := by
      by_contra hn
      rw [List.getElem?_take_eq_none (by omega)] at hk'
      cases hk'
    rw [List.getElem?_take_of_lt hk'N] at hk'
    exact mem_take_of_get hk' (by omega)

/-- On a program whose reads stay inside the buffers a round returns, it
keeps the first opcode, and the reads of the next round stay inside as
well. -/
theorem body_readable (N n : Nat) (out : FLEP D) (hR : RunOK N (n : Int) out) :
    ∃ i' out', flep_optimize_body A n out = .ok (i', out') ∧ RunOK N (i' - 1) out' ∧
      out'.text[0]? = out.text[0]? ∧
      (out' = out ∨ ∃ d j c, out' = flep_delete_text { out with data := d } j c ∧ 1 ≤ j ∧
        1 ≤ c ∧ j + c ≤ out.nt) := by
  obtain ⟨h1, h2, h3, h4, h5, hS⟩ := hR
  rcases body_shape A n out with ⟨-, hb⟩ | hok
  · exfalso
    rcases hb with hb | hb | ⟨w, hw, hc, hb⟩
    · omega
    · exact h5 hb
    · have hw' : w ∈ out.text.take N := by
        rw [List.mem_iff_getElem?] at hw
        obtain ⟨k, hk⟩ := hw
        have hkn : k < n + 1 := by
          by_contra hn
          rw [List.getElem?_take_eq_none (by omega)] at hk
          cases hk
        rw [List.getElem?_take_of_lt hkn] at hk
        exact mem_take_of_get hk (by omega)
      have := h4 w hw' hc
      omega
  · obtain ⟨i', out', e⟩ : ∃ i' out', flep_optimize_body A n out = .ok (i', out') := by
      rcases hok with e | ⟨m, -, -, -, e⟩ | ⟨-, d, -, e⟩ | ⟨-, -, d, j, -, -, e⟩
      · exact ⟨_, _, e⟩
      · exact ⟨_, _, e⟩
      · exact ⟨_, _, e⟩
      · exact ⟨_, _, e⟩
    obtain ⟨hP, hS', hle, hlen, hdl, hsh⟩ := body_rewrite A n out hS i' out' e
    have hnt := (progress_measure hP).1
    refine ⟨i', out', e, ?_⟩
    rcases hsh with ⟨rfl, -⟩ | ⟨d, j, c, hd, rfl, hc, hjc, hj0⟩
    · exact ⟨⟨h1, h2, by omega, h4, h5, hS'⟩, rfl, Or.inl rfl⟩
    · have hj : 1 ≤ j := by
        by_contra hn
        exact h5 (hj0 (by omega))
      have hhead := delete_text_head { out with data := d } j c hj
      refine ⟨⟨by rw [hlen]; exact h1, by omega, by omega, ?_, ?_, hS'⟩, hhead,
        Or.inr ⟨d, j, c, rfl, hj, hc, hjc⟩⟩
      · intro w hw hcw
        have := delete_text_mem { out with data := d } j c N hc hjc h2 h1 w hw
        rw [hdl]
        exact h4 w this hcw
      · rw [hhead]; exact h5

end

section

variable {D : Type} (A : Arith D)

/-! ## The rounds of the loop of the optimizer -/

theorem rounds_zero (i : Int) (out : FLEP D) :
    flep_optimize_rounds A 0 i out = .ok (i, out) := rfl

theorem rounds_done (k : Nat) (i : Int) (out : FLEP D) (hi : i < 0) :
    flep_optimize_rounds A k i out = .ok (i, out) := by
  cases k with
  | zero => rfl
  | succ k => rw [flep_optimize_rounds, if_pos hi]

theorem rounds_succ (k n : Nat) (out out' : FLEP D) (j : Int)
    (h : flep_optimize_body A n out = .ok (j, out')) :
    flep_optimize_rounds A (k + 1) (n : Int) out = flep_optimize_rounds A k (j - 1) out' := by
  rw [flep_optimize_rounds, if_neg (by omega), h]

theorem rounds_fault (k n : Nat) (out : FLEP D) (e : Fault)
    (h : flep_optimize_body A n out = .error e) :
    flep_optimize_rounds A (k + 1) (n : Int) out = .error e := by
  rw [flep_optimize_rounds, if_neg (by omega), h]

/-- The loop of `flep_optimize` is its rounds, followed by the test whether
the loop was left. -/
theorem loop_eq_rounds : ∀ (fuel : Nat) (i : Int) (out : FLEP D),
    flep_optimize_loop A fuel i out =
      (flep_optimize_rounds A fuel i out).bind
        (fun r => if r.1 < 0 then .ok r.2 else .error .fuel) := by
  intro fuel
  induction fuel with
  | zero =>
    intro i out
    rw [flep_optimize_loop.eq_def, rounds_zero]
    rfl
  | succ fuel ih =>
    intro i out
    by_cases hi : i < 0
    · rw [loop_done A _ _ _ hi, rounds_done A _ _ _ hi]
      simp [Except.bind, hi]
    · obtain ⟨n, rfl⟩ : ∃ n : Nat, i = n := ⟨i.toNat, by omega⟩
      cases hb : flep_optimize_body A n out with
      | error e => rw [loop_fault A _ _ _ _ hb, rounds_fault A _ _ _ _ hb]; rfl
      | ok r =>
        obtain ⟨j, o⟩ := r
        rw [loop_succ A _ _ _ _ _ hb, rounds_succ A _ _ _ _ _ hb, ih]

/-- A property of scan index and program that every round keeps holds after
any number of rounds. -/
theorem rounds_inv_ok (P : Int → FLEP D → Prop)
    (hstep : ∀ (n : Nat) o i' o', P n o → flep_optimize_body A n o = .ok (i', o') →
      P (i' - 1) o') :
    ∀ (k : Nat) (i : Int) (out : FLEP D) (j : Int) (o : FLEP D), P i out →
      flep_optimize_rounds A k i out = .ok (j, o) → P j o := by
  intro k
  induction k with
  | zero =>
    intro i out j o hP h
    rw [rounds_zero] at h
    cases h
    exact hP
  | succ k ih =>
    intro i out j o hP h
    by_cases hi : i < 0
    · rw [rounds_done A _ _ _ hi] at h
      cases h
      exact hP
    · obtain ⟨n, rfl⟩ : ∃ n : Nat, i = n := ⟨i.toNat, by omega⟩
      cases hb : flep_optimize_body A n out with
      | error e => rw [rounds_fault A _ _ _ _ hb] at h; cases h
      | ok r =>
        obtain ⟨i', o'⟩ := r
        rw [rounds_succ A _ _ _ _ _ hb] at h
        exact ih _ _ _ _ (hstep n out i' o' hP hb) h

/-- A property that makes every round return, and that every round keeps,
makes any number of rounds return. -/
theorem rounds_inv (P : Int → FLEP D → Prop)
    (hstep : ∀ (n : Nat) o, P n o → ∃ i' o', flep_optimize_body A n o = .ok (i', o') ∧
      P (i' - 1) o') :
    ∀ (k : Nat) (i : Int) (out : FLEP D), P i out →
      ∃ j o, flep_optimize_rounds A k i out = .ok (j, o) ∧ P j o := by
  intro k
  induction k with
  | zero =>
    intro i out hP
    exact ⟨i, out, rfl, hP⟩
  | succ k ih =>
    intro i out hP
    by_cases hi : i < 0
    · exact ⟨i, out, rounds_done A _ _ _ hi, hP⟩
    · obtain ⟨n, rfl⟩ : ∃ n : Nat, i = n := ⟨i.toNat, by omega⟩
      obtain ⟨i', o', hb, hP'⟩ := hstep n out hP
      rw [rounds_succ A _ _ _ _ _ hb]
      exact ih _ _ hP'

/-- Along the rounds the scan index stays in a position the loop can reach,
the logical length does not grow, and `i + 2 * nt` falls with every
round until the loop is left. -/
theorem rounds_measure : ∀ (k : Nat) (i : Int) (out : FLEP D) (j : Int) (o : FLEP D),
    ScanAt i out → flep_optimize_rounds A k i out = .ok (j, o) →
      ScanAt j o ∧ o.nt ≤ out.nt ∧
        (j < 0 ∨ j + 2 * (o.nt : Int) + k ≤ i + 2 * (out.nt : Int)) := by
  intro k
  induction k with
  | zero =>
    intro i out j o hS h
    rw [rounds_zero] at h
    cases h
    exact ⟨hS, le_refl _, Or.inr (by omega)⟩
  | succ k ih =>
    intro i out j o hS h
    by_cases hi : i < 0
    · rw [rounds_done A _ _ _ hi] at h
      cases h
      exact ⟨hS, le_refl _, Or.inl hi⟩
    · obtain ⟨n, rfl⟩ : ∃ n : Nat, i = n := ⟨i.toNat, by omega⟩
      cases hb : flep_optimize_body A n out with
      | error e => rw [rounds_fault A _ _ _ _ hb] at h; cases h
      | ok r =>
        obtain ⟨i', o'⟩ := r
        rw [rounds_succ A _ _ _ _ _ hb] at h
        obtain ⟨hP, hS', -⟩ := body_rewrite A n out hS i' o' hb
        obtain ⟨m1, m2⟩ := progress_measure hP
        obtain ⟨r1, r2, r3⟩ := ih _ _ _ _ hS' h
        refine ⟨r1, by omega, ?_⟩
        rcases r3 with r3 | r3
        · exact Or.inl r3
        · right
          push_cast
          omega

/-- A fault of the rounds is a read outside a buffer. -/
theorem rounds_error : ∀ (k : Nat) (i : Int) (out : FLEP D) (e : Fault),
    flep_optimize_rounds A k i out = .error e → e = .bounds := by
  intro k
  induction k with
  | zero => intro i out e h; rw [rounds_zero] at h; cases h
  | succ k ih =>
    intro i out e h
    by_cases hi : i < 0
    · rw [rounds_done A _ _ _ hi] at h; cases h
    · obtain ⟨n, rfl⟩ : ∃ n : Nat, i = n := ⟨i.toNat, by omega⟩
      rcases body_shape A n out with ⟨hb, -⟩ | hb | ⟨m, -, -, -, hb⟩ | ⟨-, d, -, hb⟩ |
        ⟨-, -, d, j, -, -, hb⟩
      · rw [rounds_fault A _ _ _ _ hb] at h
        cases h
        rfl
      all_goals
        rw [rounds_succ A _ _ _ _ _ hb] at h
        exact ih _ _ _ h

/-- Rounds that have ended, by leaving the loop or by a fault, are not
changed by more rounds. -/
theorem rounds_stable : ∀ (k : Nat) (i : Int) (out : FLEP D),
    (∀ j o, flep_optimize_rounds A k i out = .ok (j, o) → j < 0) →
      ∀ g, k ≤ g → flep_optimize_rounds A g i out = flep_optimize_rounds A k i out := by
  intro k
  induction k with
  | zero =>
    intro i out h g _
    have hi := h i out rfl
    rw [rounds_done A _ _ _ hi, rounds_done A _ _ _ hi]
  | succ k ih =>
    intro i out h g hg
    obtain ⟨g, rfl⟩ : ∃ g', g = g' + 1 := ⟨g - 1, by omega⟩
    by_cases hi : i < 0
    · rw [rounds_done A _ _ _ hi, rounds_done A _ _ _ hi]
    · obtain ⟨n, rfl⟩ : ∃ n : Nat, i = n := ⟨i.toNat, by omega⟩
      cases hb : flep_optimize_body A n out with
      | error e => rw [rounds_fault A _ _ _ _ hb, rounds_fault A _ _ _ _ hb]
      | ok r =>
        obtain ⟨i', o'⟩ := r
        rw [rounds_succ A _ _ _ _ _ hb] at h ⊢
        rw [rounds_succ A _ _ _ _ _ hb]
        exact ih _ _ h g (by omega)

theorem scanAt_start (out : FLEP D) : ScanAt ((out.nt : Int) - 2) out :=
  ⟨by omega, fun h => by omega⟩

/-- After `3 * nt` rounds the loop of `flep_optimize` has been left. -/
theorem rounds_left (out : FLEP D) (fuel : Nat) (hf : 3 * out.nt ≤ fuel) (j : Int) (o : FLEP D)
    (h : flep_optimize_rounds A fuel ((out.nt : Int) - 2) out = .ok (j, o)) : j < 0 := by
  obtain ⟨-, -, r⟩ := rounds_measure A _ _ _ _ _ (scanAt_start out) h
  rcases r with r | r
  · exact r
  · omega

/-- The function `flep_optimize` in terms of the rounds of its loop. -/
theorem optimize_eq_rounds (out : FLEP D) (fuel : Nat) (hf : 3 * out.nt ≤ fuel) :
    flep_optimize_loop A fuel ((out.nt : Int) - 2) out =
      (flep_optimize_rounds A fuel ((out.nt : Int) - 2) out).map (fun r => r.2) := by
  rw [loop_eq_rounds]
  cases hr : flep_optimize_rounds A fuel ((out.nt : Int) - 2) out with
  | error e => rfl
  | ok r =>
    obtain ⟨j, o⟩ := r
    have := rounds_left A out fuel hf j o hr
    simp [Except.bind, Except.map, this]

/-- More fuel than `3 * nt` does not change the result of the loop. -/
theorem optimize_fuel (out : FLEP D) (fuel : Nat) (hf : 3 * out.nt ≤ fuel) :
    flep_optimize_loop A fuel ((out.nt : Int) - 2) out = flep_optimize A out := by
  unfold flep_optimize
  rw [optimize_eq_rounds A out fuel hf, optimize_eq_rounds A out _ (le_refl _),
    rounds_stable A (3 * out.nt) _ out (rounds_left A out _ (le_refl _)) fuel hf]

/-- The optimizer ends on every program, with a result or at a read outside
a buffer. -/
theorem optimize_ends (out : FLEP D) :
    (∃ out', flep_optimize A out = .ok out' ∧ out'.nt ≤ out.nt) ∨
      flep_optimize A out = .error .bounds := by
  unfold flep_optimize
  rw [optimize_eq_rounds A out _ (le_refl _)]
  cases hr : flep_optimize_rounds A (3 * out.nt) ((out.nt : Int) - 2) out with
  | error e =>
    right
    rw [rounds_error A _ _ _ _ hr]
    rfl
  | ok r =>
    obtain ⟨j, o⟩ := r
    left
    exact ⟨o, rfl, (rounds_measure A _ _ _ _ _ (scanAt_start out) hr).2.1⟩

theorem runOK_start (out : FLEP D) (hR : Readable out) (h2 : 1 ≤ out.nt) :
    RunOK out.nt ((out.nt : Int) - 2) out := by
  obtain ⟨h1, h3, h4⟩ := hR
  refine ⟨h1, le_refl _, by omega, h3, ?_, scanAt_start out⟩
  rw [← live_get (show 0 < out.nt by omega)]
  exact h4

/-- On a program whose reads stay inside the buffers every number of rounds
returns and keeps the first opcode. -/
theorem rounds_readable (N : Nat) (k : Nat) (i : Int) (out : FLEP D) (hR : RunOK N i out)
    (h1 : 1 ≤ out.nt) :
    ∃ j o, flep_optimize_rounds A k i out = .ok (j, o) ∧ RunOK N j o ∧
      o.text[0]? = out.text[0]? ∧ 1 ≤ o.nt := by
  obtain ⟨j, o, h, hP, hh, hn⟩ := rounds_inv A
    (fun i o => RunOK N i o ∧ o.text[0]? = out.text[0]? ∧ 1 ≤ o.nt)
    (fun n o hP => by
      obtain ⟨hR, hh, hn⟩ := hP
      obtain ⟨i', o', hb, hR', hh', hsh⟩ := body_readable A N n o hR
      refine ⟨i', o', hb, hR', by rw [hh', hh], ?_⟩
      rcases hsh with rfl | ⟨d, j, c, rfl, hj, hc, hjc⟩
      · exact hn
      · show 1 ≤ o.nt - c
        omega)
    k i out ⟨hR, rfl, h1⟩
  exact ⟨j, o, h, hP, hh, hn⟩

/-- On a program whose reads stay inside the buffers the optimizer
returns. -/
theorem optimize_readable (out : FLEP D) (hR : Readable out) :
    ∃ out', flep_optimize A out = .ok out' := by
  by_cases h2 : 2 ≤ out.nt
  · obtain ⟨j, o, h, -⟩ := rounds_readable A out.nt (3 * out.nt) _ out
      (runOK_start out hR (by omega)) (by omega)
    unfold flep_optimize
    rw [optimize_eq_rounds A out _ (le_refl _), h]
    exact ⟨o, rfl⟩
  · exact ⟨out, loop_done A _ _ _ (by omega)⟩

end

section

variable {D : Type} (A : Arith D)

/-! ## The first opcode during the run of the optimizer -/

/-- The reads of the optimizer on a program the parsing phase accepts stay
inside the buffers, and the program starts with a reference. -/
theorem compile_readable {s : List Char} {tok : FLEPTokens D} {out : FLEP D}
    (h : flep_compile A s = some (FLEP_END, tok, out)) :
    Readable out ∧ 1 ≤ out.nt ∧ ∃ w, out.text[0]? = some w ∧
      (FLEP_OPCODE w = FLEP_CONST ∨ FLEP_OPCODE w = FLEP_VAR) := by
  obtain ⟨h1, -, h3, h4⟩ := compile_poolOK A h
  obtain ⟨w, hw, hc⟩ := pushFirst_head h4
  have hnt : 1 ≤ out.nt := by
    by_contra hn
    have e : out.nt = 0 := by omega
    unfold live at hw
    rw [e] at hw
    simp at hw
  refine ⟨⟨h1, fun v hv hcv => h3 _ (mem_refs hv hcv), ?_⟩, hnt, w, ?_, hc.symm⟩
  · rw [hw]
    intro e
    cases e
    revert hc
    decide
  · rw [← live_get (show 0 < out.nt by omega)]
    exact hw

/-- A round on a program whose reads stay inside the buffers and whose
first opcode is `w`: the opcode at the scan index is a unary minus only at
an index that is at least 1, and a deletion starts at an index that is at
least 1 and leaves at least one opcode. -/
theorem round_safe (N n : Nat) (out : FLEP D) (hR : RunOK N (n : Int) out) (h1 : 1 ≤ out.nt) :
    ∃ ti i' out', out.text[n]? = some ti ∧ (ti = FLEP_UNARY_MINUS → 1 ≤ n) ∧
      flep_optimize_body A n out = .ok (i', out') ∧
      (out' = out ∨ ∃ d j c, out' = flep_delete_text { out with data := d } j c ∧ 1 ≤ j ∧
        1 ≤ c ∧ j + c ≤ out.nt) ∧
      out'.text[0]? = out.text[0]? ∧ 1 ≤ out'.nt := by
  obtain ⟨i', out', hb, -, hh, hsh⟩ := body_readable A N n out hR
  obtain ⟨r1, r2, r3, r4, r5, r6⟩ := hR
  have hlt : n < out.text.length := by omega
  refine ⟨out.text[n], i', out', List.getElem?_eq_getElem hlt, ?_, hb, hsh, hh, ?_⟩
  · intro hu
    by_contra hn
    have e : n = 0 := by omega
    subst e
    apply r5
    rw [List.getElem?_eq_getElem hlt, hu]
  · rcases hsh with rfl | ⟨d, j, c, rfl, hj, hc, hjc⟩
    · exact h1
    · show 1 ≤ out.nt - c
      omega

/-- The run of the optimizer on a program the parsing phase accepts, round
by round. -/
theorem rounds_safe {s : List Char} {tok : FLEPTokens D} {out : FLEP D}
    (h : flep_compile A s = some (FLEP_END, tok, out)) (k : Nat) :
    ∃ i o, flep_optimize_rounds A k ((out.nt : Int) - 2) out = .ok (i, o) ∧
      o.text[0]? = out.text[0]? ∧ 1 ≤ o.nt ∧
      (0 ≤ i → ∃ ti i' o', o.text[i.toNat]? = some ti ∧ (ti = FLEP_UNARY_MINUS → 1 ≤ i) ∧
        flep_optimize_body A i o = .ok (i', o') ∧
        (o' = o ∨ ∃ d j c, o' = flep_delete_text { o with data := d } j c ∧ 1 ≤ j ∧
          1 ≤ c ∧ j + c ≤ o.nt) ∧
        o'.text[0]? = out.text[0]? ∧ 1 ≤ o'.nt) := by
  obtain ⟨hR, hnt, -⟩ := compile_readable A h
  obtain ⟨i, o, hr, hR', hh, hn⟩ := rounds_readable A out.nt k _ out (runOK_start out hR hnt) hnt
  refine ⟨i, o, hr, hh, hn, fun hi => ?_⟩
  obtain ⟨n, rfl⟩ : ∃ n : Nat, i = n := ⟨i.toNat, by omega⟩
  obtain ⟨ti, i', o', a1, a2, a3, a4, a5, a6⟩ := round_safe A out.nt n o hR' hn
  exact ⟨ti, i', o', by simpa using a1, fun hu => by have := a2 hu; omega, a3, a4,
    by rw [a5, hh], a6⟩

/-- The optimizer returns a program with the first opcode it was given and
with at least one opcode. -/
theorem optimize_safe {s : List Char} {tok : FLEPTokens D} {out : FLEP D}
    (h : flep_compile A s = some (FLEP_END, tok, out)) :
    ∃ out', flep_optimize A out = .ok out' ∧ out'.text[0]? = out.text[0]? ∧ 1 ≤ out'.nt := by
  obtain ⟨hR, hnt, -⟩ := compile_readable A h
  obtain ⟨i, o, hr, -, hh, hn⟩ :=
    rounds_readable A out.nt (3 * out.nt) _ out (runOK_start out hR hnt) hnt
  refine ⟨o, ?_, hh, hn⟩
  unfold flep_optimize
  rw [optimize_eq_rounds A out _ (le_refl _), hr]
  rfl

end

section

variable {D : Type} (A : Arith D)

/-! ## The parser with the lookup of an absent byte made explicit -/

/-- With negative differences `flep_next_at` is `flep_next`. -/
theorem next_at_neg (dv ds : Int) (hv : dv < 0) (hs : ds < 0) (tok : FLEPTokens D) :
    flep_next_at dv ds A tok = flep_next A tok := by
  unfold flep_next_at flep_next
  simp only [if_neg (not_le.mpr hv), if_neg (not_le.mpr hs)] <;> rfl

theorem tokenize_at_neg (dv ds : Int) (hv : dv < 0) (hs : ds < 0) (s : List Char) :
    flep_tokenize_at dv ds A s = flep_tokenize A s :=
  next_at_neg A dv ds hv hs _

set_option maxHeartbeats 1000000 in
theorem sameAt (dv ds : Int) (hv : dv < 0) (hs : ds < 0) (n : Nat) : SameAt dv ds A n := by
  have e := next_at_neg A dv ds hv hs
  induction n with
  | zero =>
    refine ⟨?_, ?_, ?_, ?_, ?_, ?_, ?_, ?_⟩
    · intro tok out; rw [flep_get_operand_at, flep_get_operand]
    · intro tok out; rw [flep_get_power_at, flep_get_power]
    · intro ret tok out; rw [flep_get_power_loop_at, flep_get_power_loop]
    · intro tok out; rw [flep_get_prod_at, flep_get_prod]
    · intro ret tok out; rw [flep_get_prod_loop_at, flep_get_prod_loop]
    · intro tok out; rw [flep_get_sum_at, flep_get_sum]
    · intro ret tok out; rw [flep_get_sum_loop_at, flep_get_sum_loop]
    · intro op ret tok; rw [flep_get_sum_signs_at, flep_get_sum_signs]
  | succ n ih =>
    obtain ⟨i1, i2, i3, i4, i5, i6, i7, i8⟩ := ih
    refine ⟨?_, ?_, ?_, ?_, ?_, ?_, ?_, ?_⟩
    · intro tok out
      rw [flep_get_operand_at, flep_get_operand]
      simp only [e, i1, i2, i4, i6] <;> rfl
    · intro tok out
      rw [flep_get_power_at, flep_get_power]
      simp only [i1, i3] <;> rfl
    · intro ret tok out
      rw [flep_get_power_loop_at, flep_get_power_loop]
      simp only [e, i2, i3] <;> rfl
    · intro tok out
      rw [flep_get_prod_at, flep_get_prod]
      simp only [i2, i5] <;> rfl
    · intro ret tok out
      rw [flep_get_prod_loop_at, flep_get_prod_loop]
      simp only [e, i2, i5] <;> rfl
    · intro tok out
      rw [flep_get_sum_at, flep_get_sum]
      simp only [i4, i7] <;> rfl
    · intro ret tok out
      rw [flep_get_sum_loop_at, flep_get_sum_loop]
      simp only [e, i4, i7, i8] <;> rfl
    · intro op ret tok
      rw [flep_get_sum_signs_at, flep_get_sum_signs]
      simp only [e, i8]

/-- With negative differences the parsing phase is `flep_compile`. -/
theorem compile_at_neg (dv ds : Int) (hv : dv < 0) (hs : ds < 0) (s : List Char) :
    flep_compile_at dv ds A s = flep_compile A s := by
  unfold flep_compile_at flep_compile
  rw [tokenize_at_neg A dv ds hv hs, (sameAt A dv ds hv hs _).2.2.2.2.2.1]

/-- With negative differences `flep_parse_at` is `flep_parse`. -/
theorem parse_at_neg (dv ds : Int) (hv : dv < 0) (hs : ds < 0) (s : List Char) (e p : Int) :
    flep_parse_at dv ds A s e p = flep_parse A s e p := by
  unfold flep_parse_at flep_parse
  rw [compile_at_neg A dv ds hv hs] <;> rfl

end

section

variable {D : Type} (A : Arith D)

/-! ## A single letter that is no variable -/

theorem letter_facts (c : Char) (hc : isalpha c = true) :
    c ≠ Char.ofNat 0 ∧ isspace c = false ∧ isdigit c = false := by
  refine ⟨?_, ?_, ?_⟩
  · intro e
    rw [e] at hc
    revert hc
    decide
  · unfold isalpha at hc
    unfold isspace
    simp only [Bool.or_eq_true, Bool.and_eq_true, decide_eq_true_eq] at hc
    simp only [Bool.or_eq_false_iff, Bool.and_eq_false_iff, decide_eq_false_iff_not]
    omega
  · unfold isalpha at hc
    unfold isdigit
    simp only [Bool.or_eq_true, Bool.and_eq_true, decide_eq_true_eq] at hc
    simp only [Bool.and_eq_false_iff, decide_eq_false_iff_not]
    omega

theorem firstIndex_none {α : Type} [DecidableEq α] : ∀ (l : List α) (a : α), a ∉ l →
    firstIndex l a = none := by
  intro l
  induction l with
  | nil => intro a _; rfl
  | cons b t ih =>
    intro a h
    rw [firstIndex, if_neg (fun e => h (by rw [e]; exact List.mem_cons_self _ _)),
      ih a (fun m => h (List.mem_cons_of_mem _ m))]
    rfl

/-- The first token of a source that is one letter, neither `e` nor in
`vars`: a variable with the index `dv` when `dv` is not negative, a bad token
otherwise. -/
theorem tokenize_at_letter (dv ds : Int) (c : Char) (hc : isalpha c = true) (hv : c ∉ vars)
    (he : c ≠ 'e') :
    flep_tokenize_at dv ds A [c] =
      if 0 ≤ dv then ⟨[c], 0, 1, dv.toNat, A.indet, FLEP_VAR, FLEP_START⟩
      else ⟨[c], 0, 1, 0, A.indet, FLEP_BADTOKEN, FLEP_START⟩ := by
  obtain ⟨h0, h1, h2⟩ := letter_facts c hc
  unfold flep_tokenize_at flep_next_at
  simp [peek, h0, h1, hc, he, firstIndex_none vars c hv]

theorem sum_at_var_token (dv ds : Int) (c : Char) (n : Nat) (x : D) :
    flep_get_sum_at dv ds A 18 ⟨[c], 0, 1, n, x, FLEP_VAR, FLEP_START⟩ ⟨[], [], 0, 0⟩ =
      some (FLEP_END, ⟨[c], 1, 1, n, x, FLEP_END, FLEP_VAR⟩,
        ⟨[], [FLEP_BITFUSE FLEP_VAR n], 0, 1⟩) := by
  rfl

theorem sum_at_bad_token (dv ds : Int) (c : Char) (n : Nat) (x : D) :
    flep_get_sum_at dv ds A 18 ⟨[c], 0, 1, n, x, FLEP_BADTOKEN, FLEP_START⟩ ⟨[], [], 0, 0⟩ =
      some (FLEP_BADSYNTAX, ⟨[c], 0, 1, n, x, FLEP_BADTOKEN, FLEP_START⟩, ⟨[], [], 0, 0⟩) := by
  rfl

/-- What `flep_parse_at` returns for a source that is one letter, neither
`e` nor in `vars`: the program of a reference to the variable `dv` when `dv`
is not negative, the error 20 at position 1 otherwise. -/
theorem parse_at_letter (dv ds : Int) (c : Char) (hc : isalpha c = true) (hv : c ∉ vars)
    (he : c ≠ 'e') (e p : Int) :
    flep_parse_at dv ds A [c] e p =
      if 0 ≤ dv then
        .ok (some ⟨[], [FLEP_BITFUSE FLEP_VAR dv.toNat, FLEP_END], 0, 2⟩, e, p)
      else .ok (none, 20, 1) := by
  unfold flep_parse_at flep_compile_at
  rw [tokenize_at_letter A dv ds c hc hv he]
  have hf : parseFuel [c] = 18 := rfl
  rw [hf]
  split_ifs with h
  · rw [sum_at_var_token]
    rfl
  · rw [sum_at_bad_token]
    rfl

/-- A single letter that is neither `e` nor in `vars` is none of the names
of the lexer. -/
theorem letter_not_name (c : Char) (hv : c ∉ vars) (he : c ≠ 'e') : [c] ∉ names := by
  intro h
  simp only [names, vars, List.mem_cons, List.cons.injEq, and_true, List.mem_singleton,
    List.not_mem_nil, or_false, reduceCtorEq, and_false, false_and] at h hv
  tauto

/-- The program of a reference to a variable outside the vector of values
makes `flep_eval` read outside the vector. -/
theorem eval_var_outside (n : Nat) (val : List D) (hn : val.length ≤ n) :
    flep_eval A ⟨[], [FLEP_BITFUSE FLEP_VAR n, FLEP_END], 0, 2⟩ val = .error .bounds := by
  unfold flep_eval
  simp only []
  rw [flep_eval_loop]
  unfold flep_eval_round
  have hg : val[n]? = none := List.getElem?_eq_none hn
  simp [opcode_var, opparm_var, hg]

theorem indexOK_var (n : Nat) :
    IndexOK (⟨[], [FLEP_BITFUSE FLEP_VAR n, FLEP_END], 0, 2⟩ : FLEP D) → n < 7 := by
  intro h
  have := (h (FLEP_BITFUSE FLEP_VAR n) (by simp [live])).2 (opcode_var n)
  rwa [opparm_var] at this

theorem bitfuse_var_lt (n : Nat) (h : n < 2 ^ 23) : FLEP_BITFUSE FLEP_VAR n < 2 ^ 31 := by
  have e2 : FLEP_BITFUSE FLEP_VAR n = 2 ^ 8 * n + 9 := by
    unfold FLEP_BITFUSE
    rw [Nat.shiftLeft_eq, Nat.mul_comm, Nat.mul_add_lt_is_or (by norm_num), Nat.or_comm]
  rw [e2]
  omega

end

section

variable {D : Type}

/-! ## The claims -/

/-- C1 (end-to-end correctness).  For every expression tree over the seven
variables, numeric literals, the five binary operators and the seven
functions whose evaluation needs at most 64 stack slots, `flep_parse` accepts
the infix text of the tree in which every binary subexpression and every
function argument stands in parentheses, and `flep_eval` of the program it
returns, on any vector of seven (or more) variable values, returns exactly
the value of the tree computed directly with the same primitives, the left
operand being the first argument of each. -/
theorem tree_end_to_end (A : Arith D) (t : Tree) (hv : t.Valid) (hs : t.slots ≤ 64)
    (val : List D) (hval : 7 ≤ val.length) (e p : Int) :
    ∃ f, flep_parse A t.render e p = .ok (some f, e, p) ∧
      flep_eval A f val = .ok (t.value A val) := by
  have h := parse_expr A t.toExpr (toExpr_wf t hv) (by rw [toExpr_need]; exact hs) val hval e p
  rw [toExpr_render, toExpr_value] at h
  exact h

/-- C2 (power is right-associative).  For operands `X`, `Y`, `Z` (variables
or literals) the parsing phase of `flep_parse` on `X^Y^Z` emits the postfix
sequence `X Y Z ^ ^`, and `flep_eval` of the program `flep_parse` returns
gives `pow(X, pow(Y, Z))`; on the integers `2^3^2` evaluates to 512. -/
theorem power_right_assoc (A : Arith D) (X Y Z : Expr) (hX : Atom X) (hY : Atom Y)
    (hZ : Atom Z) (val : List D) (hval : 7 ≤ val.length) (e p : Int) :
    (∃ tok, flep_compile A (render X ++ '^' :: (render Y ++ '^' :: render Z)) =
      some (FLEP_END, tok, ⟨pool A X ++ (pool A Y ++ pool A Z),
        code 0 X ++ (code (nconst X) Y ++ code (nconst X + nconst Y) Z ++ [FLEP_POWER]) ++
          [FLEP_POWER],
        nconst X + (nconst Y + nconst Z), 5⟩)) ∧
    (∃ f, flep_parse A (render X ++ '^' :: (render Y ++ '^' :: render Z)) e p =
        .ok (some f, e, p) ∧
      flep_eval A f val =
        .ok (A.pow (evalExpr A val X) (A.pow (evalExpr A val Y) (evalExpr A val Z)))) ∧
    (∃ f, flep_parse intArith ['2', '^', '3', '^', '2'] e p = .ok (some f, e, p) ∧
      ∀ v : List Int, 7 ≤ v.length → flep_eval intArith f v = .ok 512) := by
  obtain ⟨wX, lX, nX⟩ := atom_facts hX
  obtain ⟨wY, lY, nY⟩ := atom_facts hY
  obtain ⟨wZ, lZ, nZ⟩ := atom_facts hZ
  have hw : WF (.pow X (.pow Y Z)) := ⟨lX, by simp [level], wX, lY, by omega, wY, wZ⟩
  refine ⟨?_, ?_, ?_⟩
  · obtain ⟨tok, h⟩ := compile_code A _ hw
    refine ⟨tok, ?_⟩
    simpa [render, pool, code, nconst, atom_code_length hX, atom_code_length hY,
      atom_code_length hZ, Nat.add_assoc] using h
  · have h := parse_expr A _ hw (by simp [need, nX, nY, nZ]) val hval e p
    simpa [render, evalExpr] using h
  · have hl2 : Literal ['2'] := literal_digits _ (by simp) (by decide)
    have hl3 : Literal ['3'] := literal_digits _ (by simp) (by decide)
    have hw2 : WF (.pow (.lit ['2']) (.pow (.lit ['3']) (.lit ['2']))) :=
      ⟨rfl, by simp [level], hl2, rfl, by simp [level], hl3, hl2⟩
    obtain ⟨tok, hc⟩ := compile_code intArith _ hw2
    have hP := compile_poolOK intArith hc
    obtain ⟨out', ho, -, hR, -⟩ := optimize_sound intArith _
      (Or.inl (fun x => neg_neg x)) hP
    refine ⟨flep_add_opcode out' FLEP_END, ?_, ?_⟩
    · have hc2 : flep_compile intArith ['2', '^', '3', '^', '2'] = _ := hc
      unfold flep_parse
      rw [hc2]
      simp [ho]
    · intro v hv
      exact eval_of_refines intArith hR v _
        (eval_expr_code intArith _ hw2 (by simp [need]) v hv)

/-- C3 (sums and products are left-associative, product binds tighter).
For operands `X`, `Y`, `Z` (variables or literals) the parsing phase emits
`X Y - Z -` for `X-Y-Z`, `X Y / Z /` for `X/Y/Z` and `X Y Z * -` for
`X-Y*Z`, and the programs `flep_parse` returns evaluate to `(X-Y)-Z`,
`(X/Y)/Z` and `X-(Y*Z)`; on the integers `2-3-4` and `1-2*3` evaluate
to -5. -/
theorem left_assoc_precedence (A : Arith D) (X Y Z : Expr) (hX : Atom X) (hY : Atom Y)
    (hZ : Atom Z) (val : List D) (hval : 7 ≤ val.length) (e p : Int) :
    ((∃ tok, flep_compile A (render X ++ '-' :: render Y ++ '-' :: render Z) =
        some (FLEP_END, tok, ⟨pool A X ++ pool A Y ++ pool A Z,
          code 0 X ++ code (nconst X) Y ++ [FLEP_MINUS] ++ code (nconst X + nconst Y) Z ++
            [FLEP_MINUS], nconst X + nconst Y + nconst Z, 5⟩)) ∧
      ∃ f, flep_parse A (render X ++ '-' :: render Y ++ '-' :: render Z) e p =
          .ok (some f, e, p) ∧
        flep_eval A f val =
          .ok (A.sub (A.sub (evalExpr A val X) (evalExpr A val Y)) (evalExpr A val Z))) ∧
    ((∃ tok, flep_compile A (render X ++ '/' :: render Y ++ '/' :: render Z) =
        some (FLEP_END, tok, ⟨pool A X ++ pool A Y ++ pool A Z,
          code 0 X ++ code (nconst X) Y ++ [FLEP_DIV] ++ code (nconst X + nconst Y) Z ++
            [FLEP_DIV], nconst X + nconst Y + nconst Z, 5⟩)) ∧
      ∃ f, flep_parse A (render X ++ '/' :: render Y ++ '/' :: render Z) e p =
          .ok (some f, e, p) ∧
        flep_eval A f val =
          .ok (A.div (A.div (evalExpr A val X) (evalExpr A val Y)) (evalExpr A val Z))) ∧
    ((∃ tok, flep_compile A (render X ++ '-' :: (render Y ++ '*' :: render Z)) =
        some (FLEP_END, tok, ⟨pool A X ++ (pool A Y ++ pool A Z),
          code 0 X ++ (code (nconst X) Y ++ code (nconst X + nconst Y) Z ++ [FLEP_MULT]) ++
            [FLEP_MINUS], nconst X + (nconst Y + nconst Z), 5⟩)) ∧
      ∃ f, flep_parse A (render X ++ '-' :: (render Y ++ '*' :: render Z)) e p =
          .ok (some f, e, p) ∧
        flep_eval A f val =
          .ok (A.sub (evalExpr A val X) (A.mul (evalExpr A val Y) (evalExpr A val Z)))) ∧
    (∃ f, flep_parse intArith ['2', '-', '3', '-', '4'] e p = .ok (some f, e, p) ∧
      ∀ v : List Int, 7 ≤ v.length → flep_eval intArith f v = .ok (-5)) ∧
    (∃ f, flep_parse intArith ['1', '-', '2', '*', '3'] e p = .ok (some f, e, p) ∧
      ∀ v : List Int, 7 ≤ v.length → flep_eval intArith f v = .ok (-5)) := by
  obtain ⟨wX, lX, nX⟩ := atom_facts hX
  obtain ⟨wY, lY, nY⟩ := atom_facts hY
  obtain ⟨wZ, lZ, nZ⟩ := atom_facts hZ
  have hw1 : WF (.sum [true] (.sum [true] X Y) Z) :=
    ⟨by simp, by omega, ⟨by simp, by omega, wX, wY⟩, wZ⟩
  have hw2 : WF (.prod true (.prod true X Y) Z) :=
    ⟨by simp [level], by omega, ⟨by omega, by omega, wX, wY⟩, wZ⟩
  have hw3 : WF (.sum [true] X (.prod false Y Z)) :=
    ⟨by simp, by simp [level], wX, by omega, by omega, wY, wZ⟩
  have hs : signOp [true] = FLEP_MINUS := rfl
  refine ⟨⟨?_, ?_⟩, ⟨?_, ?_⟩, ⟨?_, ?_⟩, ?_, ?_⟩
  · obtain ⟨tok, h⟩ := compile_code A _ hw1
    refine ⟨tok, ?_⟩
    simpa [render, pool, code, nconst, signChar, hs, atom_code_length hX,
      atom_code_length hY, atom_code_length hZ, Nat.add_assoc] using h
  · have h := parse_expr A _ hw1 (by simp [need, nX, nY, nZ]) val hval e p
    simpa [render, evalExpr, signChar, hs] using h
  · obtain ⟨tok, h⟩ := compile_code A _ hw2
    refine ⟨tok, ?_⟩
    simpa [render, pool, code, nconst, atom_code_length hX,
      atom_code_length hY, atom_code_length hZ, Nat.add_assoc] using h
  · have h := parse_expr A _ hw2 (by simp [need, nX, nY, nZ]) val hval e p
    simpa [render, evalExpr] using h
  · obtain ⟨tok, h⟩ := compile_code A _ hw3
    refine ⟨tok, ?_⟩
    simpa [render, pool, code, nconst, signChar, hs, atom_code_length hX,
      atom_code_length hY, atom_code_length hZ, Nat.add_assoc] using h
  · have h := parse_expr A _ hw3 (by simp [need, nX, nY, nZ]) val hval e p
    simpa [render, evalExpr, signChar, hs] using h
  · have hl2 : Literal ['2'] := literal_digits _ (by simp) (by decide)
    have hl3 : Literal ['3'] := literal_digits _ (by simp) (by decide)
    have hl4 : Literal ['4'] := literal_digits _ (by simp) (by decide)
    have hw : WF (.sum [true] (.sum [true] (.lit ['2']) (.lit ['3'])) (.lit ['4'])) :=
      ⟨by simp, by simp [level], ⟨by simp, by simp [level], hl2, hl3⟩, hl4⟩
    obtain ⟨f, h1, -⟩ := parse_expr intArith _ hw (by simp [need]) (List.replicate 7 0)
      (by simp) e p
    refine ⟨f, h1, ?_⟩
    intro v hv
    obtain ⟨g, h2, h3⟩ := parse_expr intArith _ hw (by simp [need]) v hv e p
    have hfg : f = g := by
      have := h1.symm.trans h2
      simpa using this
    rw [hfg]
    exact h3
  · have hl1 : Literal ['1'] := literal_digits _ (by simp) (by decide)
    have hl2 : Literal ['2'] := literal_digits _ (by simp) (by decide)
    have hl3 : Literal ['3'] := literal_digits _ (by simp) (by decide)
    have hw : WF (.sum [true] (.lit ['1']) (.prod false (.lit ['2']) (.lit ['3']))) :=
      ⟨by simp, by simp [level], hl1, by simp [level], by simp [level], hl2, hl3⟩
    obtain ⟨f, h1, -⟩ := parse_expr intArith _ hw (by simp [need]) (List.replicate 7 0)
      (by simp) e p
    refine ⟨f, h1, ?_⟩
    intro v hv
    obtain ⟨g, h2, h3⟩ := parse_expr intArith _ hw (by simp [need]) v hv e p
    have hfg : f = g := by
      have := h1.symm.trans h2
      simpa using this
    rw [hfg]
    exact h3

end

section

variable {D : Type}

/-- Witness of C1 on the built-in expression `(cos(2.41)/b)` of example.c,
in the arithmetic of formal expressions. -/
theorem tree_end_to_end_witness :
    ∃ f, flep_parse freeArith
        ['(', 'c', 'o', 's', '(', '2', '.', '4', '1', ')', '/', 'b', ')'] 0 0 =
          .ok (some f, 0, 0) ∧
      flep_eval freeArith f (formalVars 7) =
        .ok (.div (.cos (.strtod ['2', '.', '4', '1'])) (.var 1)) :=
  tree_end_to_end freeArith (.bin .div (.fn 1 (.num ['2', '.', '4', '1'])) (.var 1))
    ⟨⟨by simp, literal_decimal ['2'] ['4', '1'] (by simp) (by simp) (by decide) (by decide)⟩,
      by simp [Tree.Valid]⟩
    (by decide) (formalVars 7) (by decide) 0 0

/-- Witness of C2 on `a^3^2`, on the integers with `a = 2`. -/
theorem power_right_assoc_witness :
    ∃ f, flep_parse intArith ['a', '^', '3', '^', '2'] 0 0 = .ok (some f, 0, 0) ∧
      flep_eval intArith f [2, 0, 0, 0, 0, 0, 0] = .ok 512 :=
  (power_right_assoc intArith (.var 0) (.lit ['3']) (.lit ['2'])
    (Or.inl ⟨0, by decide, rfl⟩)
    (Or.inr ⟨_, literal_digits ['3'] (by simp) (by decide), rfl⟩)
    (Or.inr ⟨_, literal_digits ['2'] (by simp) (by decide), rfl⟩)
    [2, 0, 0, 0, 0, 0, 0] (by decide) 0 0).2.1

/-- Witness of C3 on `a-3-b`, on the integers with `a = 10`, `b = 4`. -/
theorem left_assoc_precedence_witness :
    ∃ f, flep_parse intArith ['a', '-', '3', '-', 'b'] 0 0 = .ok (some f, 0, 0) ∧
      flep_eval intArith f [10, 4, 0, 0, 0, 0, 0] = .ok 3 :=
  (left_assoc_precedence intArith (.var 0) (.lit ['3']) (.var 1)
    (Or.inl ⟨0, by decide, rfl⟩)
    (Or.inr ⟨_, literal_digits ['3'] (by simp) (by decide), rfl⟩)
    (Or.inl ⟨1, by decide, rfl⟩)
    [10, 4, 0, 0, 0, 0, 0] (by decide) 0 0).1.2

/-- C4 (sign-run collapse).  For every non-empty run of `+`/`-` between the
two operands `l` and `r` of a sum, the parsing phase emits the code of `l`,
the code of `r` and one binary opcode, `FLEP_MINUS` when the run has an odd
number of `-` and `FLEP_PLUS` otherwise, and nothing else.  Hence `a+-b` and
`a-b` give one and the same program, which evaluates to `a - b`, and `a--b`
and `a+b` give one and the same program, which evaluates to `a + b`. -/
theorem sign_run_collapse (A : Arith D) (l r : Expr) (run : List Bool) (hl : WF l)
    (hr : WF r) (hlev : 1 ≤ level r) (hrun : run ≠ []) (e p : Int) :
    (∃ tok, flep_compile A (render l ++ run.map signChar ++ render r) =
      some (FLEP_END, tok, ⟨pool A l ++ pool A r,
        code 0 l ++ code (nconst l) r ++
          [if Odd (run.count true) then FLEP_MINUS else FLEP_PLUS],
        nconst l + nconst r, (code 0 l).length + (code (nconst l) r).length + 1⟩)) ∧
    (∃ f, flep_parse A ['a', '+', '-', 'b'] e p = .ok (some f, e, p) ∧
      flep_parse A ['a', '-', 'b'] e p = .ok (some f, e, p) ∧
      ∀ val : List D, 7 ≤ val.length →
        flep_eval A f val = .ok (A.sub (val.getD 0 A.indet) (val.getD 1 A.indet))) ∧
    (∃ f, flep_parse A ['a', '-', '-', 'b'] e p = .ok (some f, e, p) ∧
      flep_parse A ['a', '+', 'b'] e p = .ok (some f, e, p) ∧
      ∀ val : List D, 7 ≤ val.length →
        flep_eval A f val = .ok (A.add (val.getD 0 A.indet) (val.getD 1 A.indet))) := by
  have key : ∀ (run1 run2 : List Bool), run1 ≠ [] → run2 ≠ [] → signOp run1 = signOp run2 →
      ∃ f, flep_parse A (render (.sum run1 (.var 0) (.var 1))) e p = .ok (some f, e, p) ∧
        flep_parse A (render (.sum run2 (.var 0) (.var 1))) e p = .ok (some f, e, p) ∧
        ∀ val : List D, 7 ≤ val.length →
          flep_eval A f val = .ok (evalExpr A val (.sum run1 (.var 0) (.var 1))) := by
    intro run1 run2 h1 h2 hs
    have w1 : WF (.sum run1 (.var 0) (.var 1)) :=
      ⟨h1, by simp [level], by simp [WF], by simp [WF]⟩
    have w2 : WF (.sum run2 (.var 0) (.var 1)) :=
      ⟨h2, by simp [level], by simp [WF], by simp [WF]⟩
    obtain ⟨t1, c1⟩ := compile_code A _ w1
    obtain ⟨t2, c2⟩ := compile_code A _ w2
    have hcode : code 0 (.sum run2 (.var 0) (.var 1)) = code 0 (.sum run1 (.var 0) (.var 1)) := by
      simp [code, hs]
    rw [hcode] at c2
    have c3 : flep_compile A (render (.sum run2 (.var 0) (.var 1))) =
        some (FLEP_END, t2, ⟨pool A (.sum run1 (.var 0) (.var 1)),
          code 0 (.sum run1 (.var 0) (.var 1)), nconst (.sum run1 (.var 0) (.var 1)),
          (code 0 (.sum run1 (.var 0) (.var 1))).length⟩) := c2
    have hP := compile_poolOK A c1
    have hneg : NegOK A (⟨pool A (.sum run1 (.var 0) (.var 1)),
        code 0 (.sum run1 (.var 0) (.var 1)), nconst (.sum run1 (.var 0) (.var 1)),
        (code 0 (.sum run1 (.var 0) (.var 1))).length⟩ : FLEP D) := by
      right
      have hl : live (⟨pool A (.sum run1 (.var 0) (.var 1)),
          code 0 (.sum run1 (.var 0) (.var 1)), nconst (.sum run1 (.var 0) (.var 1)),
          (code 0 (.sum run1 (.var 0) (.var 1))).length⟩ : FLEP D) =
          code 0 (.sum run1 (.var 0) (.var 1)) := by simp [live]
      rw [hl]; exact neg_not_mem_code _ 0
    obtain ⟨out', ho, -, hR, -⟩ := optimize_sound A _ hneg hP
    refine ⟨flep_add_opcode out' FLEP_END, ?_, ?_, ?_⟩
    · unfold flep_parse
      rw [c1]
      simp [ho]
    · unfold flep_parse
      rw [c3]
      simp [ho]
    · intro val hval
      exact eval_of_refines A hR val _ (eval_expr_code A _ w1 (by simp [need]) val hval)
  refine ⟨?_, ?_, ?_⟩
  · obtain ⟨tok, h⟩ := compile_code A (.sum run l r) ⟨hrun, hlev, hl, hr⟩
    refine ⟨tok, ?_⟩
    simpa [render, pool, code, nconst, signOp_parity run hrun, Nat.add_assoc] using h
  · obtain ⟨f, h1, h2, h3⟩ := key [false, true] [true] (by simp) (by simp) rfl
    exact ⟨f, h1, h2, h3⟩
  · obtain ⟨f, h1, h2, h3⟩ := key [true, true] [false] (by simp) (by simp) rfl
    exact ⟨f, h1, h2, h3⟩

/-- Witness of C4 on `2+-+-3*4`, whose run of four signs has two `-`. -/
theorem sign_run_collapse_witness :
    ∃ tok, flep_compile intArith ['2', '+', '-', '+', '-', '3', '*', '4'] =
      some (FLEP_END, tok, ⟨[2, 3, 4],
        [FLEP_BITFUSE FLEP_CONST 0, FLEP_BITFUSE FLEP_CONST 1, FLEP_BITFUSE FLEP_CONST 2,
          FLEP_MULT, FLEP_PLUS], 3, 5⟩) :=
  (sign_run_collapse intArith (.lit ['2']) (.prod false (.lit ['3']) (.lit ['4']))
    [false, true, false, true]
    (literal_digits ['2'] (by simp) (by decide))
    ⟨by decide, by decide, literal_digits ['3'] (by simp) (by decide),
      literal_digits ['4'] (by simp) (by decide)⟩
    (by decide) (by simp) 0 0).1

/-- C5 (the optimizer preserves meaning).  In an arithmetic whose unary
minus undoes itself, as that of `double` does, for every source the parsing
phase accepts, `flep_optimize` ends on the program emitted, `flep_parse`
returns its result closed by the end-marker, and for every variable vector
this result evaluates to whatever value the program emitted, with the pool
as the parser left it and closed by the end-marker, evaluates to. -/
theorem optimizer_preserves (A : Arith D) (hneg : ∀ x, A.neg (A.neg x) = x) (s : List Char)
    (tok : FLEPTokens D) (out : FLEP D) (h : flep_compile A s = some (FLEP_END, tok, out))
    (e p : Int) :
    ∃ out', flep_optimize A out = .ok out' ∧
      flep_parse A s e p = .ok (some (flep_add_opcode out' FLEP_END), e, p) ∧
      ∀ (val : List D) (r : D), flep_eval A (flep_add_opcode out FLEP_END) val = .ok r →
        flep_eval A (flep_add_opcode out' FLEP_END) val = .ok r := by
  obtain ⟨out', ho, hR⟩ := optimize_compiled A hneg h
  refine ⟨out', ho, ?_, hR⟩
  unfold flep_parse
  rw [h]
  simp [ho]

end

section

variable {D : Type}

/-- Witness of C5 on `-(-2)+3*a`, on the integers: the optimizer drops the
two sign changes. -/
theorem optimizer_preserves_witness :
    ∃ out', flep_optimize intArith
        ⟨[2, 3], [FLEP_BITFUSE FLEP_CONST 0, FLEP_UNARY_MINUS, FLEP_UNARY_MINUS,
          FLEP_BITFUSE FLEP_CONST 1, FLEP_BITFUSE FLEP_VAR 0, FLEP_MULT, FLEP_PLUS], 2, 7⟩ =
          .ok out' ∧
      flep_parse intArith ['-', '(', '-', '2', ')', '+', '3', '*', 'a'] 0 0 =
        .ok (some (flep_add_opcode out' FLEP_END), 0, 0) ∧
      ∀ (val : List Int) (r : Int),
        flep_eval intArith (flep_add_opcode
          ⟨[2, 3], [FLEP_BITFUSE FLEP_CONST 0, FLEP_UNARY_MINUS, FLEP_UNARY_MINUS,
            FLEP_BITFUSE FLEP_CONST 1, FLEP_BITFUSE FLEP_VAR 0, FLEP_MULT, FLEP_PLUS], 2, 7⟩
          FLEP_END) val = .ok r →
        flep_eval intArith (flep_add_opcode out' FLEP_END) val = .ok r :=
  optimizer_preserves intArith (fun x => neg_neg x)
    ['-', '(', '-', '2', ')', '+', '3', '*', 'a']
    ⟨['-', '(', '-', '2', ')', '+', '3', '*', 'a'], 9, 9, 0, 3, FLEP_END, FLEP_VAR⟩ _
    (by decide!) 0 0

/-- Counterexample to C6: the program of `sin(2)+3`, an expression without
variables, keeps two constant references and the addition. -/
theorem folding_incomplete :
    flep_parse freeArith ['s', 'i', 'n', '(', '2', ')', '+', '3'] 0 0 =
      .ok (some ⟨[.sin (.strtod ['2']), .strtod ['3']],
        [FLEP_BITFUSE FLEP_CONST 0, FLEP_BITFUSE FLEP_CONST 1, FLEP_PLUS, FLEP_END], 2, 4⟩,
        0, 0) := by
  decide!

theorem free_plus_minus :
    flep_parse freeArith ['+', '-', 'a'] 0 0 =
      .ok (some ⟨[], [FLEP_BITFUSE FLEP_VAR 0, FLEP_MINUS, FLEP_END], 0, 3⟩, 0, 0) := by
  decide!

/-- C7 at the source `+-a`: it is accepted, the program returned is a
variable reference, the binary minus and the end-marker, and its evaluation
applies the binary minus to a stack holding one value, which reads below the
stack. -/
theorem stack_discipline_plus_minus (A : Arith D) (val : List D) (e p : Int) :
    ∃ f, flep_parse A ['+', '-', 'a'] e p = .ok (some f, e, p) ∧
      f.text.take f.nt = [FLEP_BITFUSE FLEP_VAR 0, FLEP_MINUS, FLEP_END] ∧
      (∀ v, flep_eval_round A f.data val FLEP_MINUS [v] = .fault) ∧
      flep_eval A f val = .error .bounds := by
  refine ⟨_, parse_of_free A free_plus_minus val e p, rfl, fun v => rfl, ?_⟩
  cases val <;> rfl

theorem free_trailing_var :
    flep_parse freeArith ['a', ' ', 'b'] 0 0 = .ok (none, ((FLEP_VAR : Nat) : Int), 3) := by
  decide!

theorem free_trailing_close :
    flep_parse freeArith ['a', ')'] 0 0 = .ok (none, ((FLEP_CLOSE : Nat) : Int), 2) := by
  decide!

/-- C8 at the sources `a b` and `a)`: the error kind stored is the tag of
the token the parser stopped on, `FLEP_VAR` (9) and `FLEP_CLOSE` (3), neither
of which is one of the four kinds 20 to 23. -/
theorem error_kind_trailing (A : Arith D) (e p : Int) :
    flep_parse A ['a', ' ', 'b'] e p = .ok (none, ((FLEP_VAR : Nat) : Int), 3) ∧
      flep_parse A ['a', ')'] e p = .ok (none, ((FLEP_CLOSE : Nat) : Int), 2) :=
  ⟨fail_of_free A free_trailing_var e p, fail_of_free A free_trailing_close e p⟩

theorem free_bad_dollar :
    flep_parse freeArith ['a', '+', '$'] 0 0 =
      .ok (none, ((FLEP_BADSYNTAX : Nat) : Int), 3) := by
  decide!

theorem free_bad_letter :
    flep_parse freeArith ['d'] 0 0 = .ok (none, ((FLEP_BADSYNTAX : Nat) : Int), 1) := by
  decide!

theorem free_bad_after :
    flep_parse freeArith ['a', '$'] 0 0 = .ok (none, ((FLEP_BADTOKEN : Nat) : Int), 2) := by
  decide!

/-- C9 at the sources `a+$` and `d`: an unrecognised token where an operand
is expected is reported as bad syntax (20), at offsets 3 and 1, not as a bad
token (21); the unrecognised token of `a$`, which follows an operand, is
reported as a bad token, at offset 2. -/
theorem bad_token_as_operand (A : Arith D) (e p : Int) :
    flep_parse A ['a', '+', '$'] e p = .ok (none, ((FLEP_BADSYNTAX : Nat) : Int), 3) ∧
      flep_parse A ['d'] e p = .ok (none, ((FLEP_BADSYNTAX : Nat) : Int), 1) ∧
      flep_parse A ['a', '$'] e p = .ok (none, ((FLEP_BADTOKEN : Nat) : Int), 2) :=
  ⟨fail_of_free A free_bad_dollar e p, fail_of_free A free_bad_letter e p,
    fail_of_free A free_bad_after e p⟩

theorem free_sin2 :
    flep_parse freeArith ['s', 'i', 'n', '2'] 0 0 =
      .ok (none, ((FLEP_EXPECTED_OPEN : Nat) : Int), 4) := by
  decide!

theorem free_paren_sin2 :
    flep_parse freeArith ['(', 's', 'i', 'n', '2', ')'] 0 0 =
      .ok (none, ((FLEP_UNBALANCED : Nat) : Int), 5) := by
  decide!

/-- C10 at the sources `sin2` and `(sin2)`: the first fails with
expected-open (22) at offset 4; the second, in which the same function token
stands inside balanced parentheses, fails with unbalanced (23), at the offset
5 of the token after `sin`. -/
theorem expected_open_in_parens (A : Arith D) (e p : Int) :
    flep_parse A ['s', 'i', 'n', '2'] e p =
        .ok (none, ((FLEP_EXPECTED_OPEN : Nat) : Int), 4) ∧
      flep_parse A ['(', 's', 'i', 'n', '2', ')'] e p =
        .ok (none, ((FLEP_UNBALANCED : Nat) : Int), 5) :=
  ⟨fail_of_free A free_sin2 e p, fail_of_free A free_paren_sin2 e p⟩

end

section

variable {D : Type}

/-- The program `flep_parse` returns for a foldable expression. -/
theorem parse_foldable (A : Arith D) (x : Expr) (hw : WF x) (hf : Foldable x) (e p : Int) :
    ∃ f, flep_parse A (render x) e p = .ok (some f, e, p) ∧ f.nt = 2 ∧
      f.text.take f.nt = [FLEP_BITFUSE FLEP_CONST 0, FLEP_END] ∧
      f.data[0]? = some (evalExpr A [] x) := by
  obtain ⟨tok, hc⟩ := compile_code A x hw
  obtain ⟨out1, ho, l1, n1, v1⟩ := optimize_foldable A x hw hf
  have hnt1 : out1.nt = 1 := by
    have := live_length n1
    rw [l1] at this
    simpa using this.symm
  refine ⟨flep_add_opcode out1 FLEP_END, ?_, ?_, ?_, v1⟩
  · unfold flep_parse
    rw [hc]
    simp [ho]
  · simp [flep_add_opcode, hnt1]
  · have ht : out1.text.take 1 = [FLEP_BITFUSE FLEP_CONST 0] := by
      rw [← l1, live, hnt1]
    have hlen : (out1.text.take 1).length = 1 := by rw [ht]; rfl
    simp only [flep_add_opcode, store, hnt1]
    rw [List.take_append_eq_append_take, hlen, ht]
    rfl

/-- C6, amended (complete constant folding without function calls).  For
every well-formed expression built from literals, `e`, `pi`, the binary
operators and parentheses only, `flep_parse` returns a program whose opcode
sequence is one constant reference followed by the end-marker, and the
referenced pool slot holds the value of the expression; for `2+3*4` on the
integers it holds 14. -/
theorem constant_folding (A : Arith D) (x : Expr) (hw : WF x) (hf : Foldable x) (e p : Int) :
    (∃ f, flep_parse A (render x) e p = .ok (some f, e, p) ∧ f.nt = 2 ∧
      f.text.take f.nt = [FLEP_BITFUSE FLEP_CONST 0, FLEP_END] ∧
      f.data[FLEP_OPPARM (FLEP_BITFUSE FLEP_CONST 0)]? = some (evalExpr A [] x)) ∧
    (∃ f, flep_parse intArith ['2', '+', '3', '*', '4'] e p = .ok (some f, e, p) ∧ f.nt = 2 ∧
      f.text.take f.nt = [FLEP_BITFUSE FLEP_CONST 0, FLEP_END] ∧
      f.data[FLEP_OPPARM (FLEP_BITFUSE FLEP_CONST 0)]? = some 14) := by
  have hl2 : Literal ['2'] := literal_digits _ (by simp) (by decide)
  have hl3 : Literal ['3'] := literal_digits _ (by simp) (by decide)
  have hl4 : Literal ['4'] := literal_digits _ (by simp) (by decide)
  have hw2 : WF (.sum [false] (.lit ['2']) (.prod false (.lit ['3']) (.lit ['4']))) :=
    ⟨by simp, by simp [level], hl2, by simp [level], by simp [level], hl3, hl4⟩
  exact ⟨parse_foldable A x hw hf e p,
    parse_foldable intArith _ hw2 ⟨trivial, trivial, trivial⟩ e p⟩

/-- Witness of the amended C6 on `(1+2)*(3+4)`, on the integers: the pool
slot holds 21. -/
theorem constant_folding_witness :
    ∃ f, flep_parse intArith ['(', '1', '+', '2', ')', '*', '(', '3', '+', '4', ')'] 0 0 =
        .ok (some f, 0, 0) ∧ f.nt = 2 ∧
      f.text.take f.nt = [FLEP_BITFUSE FLEP_CONST 0, FLEP_END] ∧
      f.data[FLEP_OPPARM (FLEP_BITFUSE FLEP_CONST 0)]? = some 21 :=
  (constant_folding intArith
    (.prod false (.paren (.sum [false] (.lit ['1']) (.lit ['2'])))
      (.paren (.sum [false] (.lit ['3']) (.lit ['4']))))
    ⟨by decide, by decide,
      ⟨by simp, by decide, literal_digits ['1'] (by simp) (by decide),
        literal_digits ['2'] (by simp) (by decide)⟩,
      ⟨by simp, by decide, literal_digits ['3'] (by simp) (by decide),
        literal_digits ['4'] (by simp) (by decide)⟩⟩
    ⟨⟨trivial, trivial⟩, ⟨trivial, trivial⟩⟩ 0 0).1

end

section

variable {D : Type}

/-- C12 (result reporting of `flep_parse`): on every source the top-level
`flep_get_sum` returns a status and the token stream where it stopped;
`flep_parse` returns a program exactly when this status is the end of the
input, and then leaves the caller's error and position as they were;
otherwise it returns no program, sets the error to the status and the
position to the offset of the start of the current token plus one. -/
theorem result_reporting (A : Arith D) (s : List Char) (e p : Int) :
    ∃ status tok out, flep_compile A s = some (status, tok, out) ∧
      ((∃ f e' p', flep_parse A s e p = .ok (some f, e', p')) ↔ status = FLEP_END) ∧
      (status = FLEP_END → ∃ f, flep_parse A s e p = .ok (some f, e, p)) ∧
      (status ≠ FLEP_END →
        flep_parse A s e p = .ok (none, (status : Int), (tok.p : Int) + 1)) := by
  obtain ⟨status, tok, out, hc, h1, h2⟩ := parse_total A s e p
  refine ⟨status, tok, out, hc, ⟨fun ⟨f, e', p', hf⟩ => ?_, fun he => ?_⟩, fun he => ?_, h2⟩
  · by_contra hne
    rw [h2 hne] at hf
    cases hf
  · obtain ⟨out', -, hp⟩ := h1 he
    exact ⟨_, _, _, hp⟩
  · obtain ⟨out', -, hp⟩ := h1 he
    exact ⟨_, hp⟩

theorem free_var_a : flep_parse freeArith ['a'] 0 0 =
    .ok (some ⟨[], [FLEP_BITFUSE FLEP_VAR 0, FLEP_END], 0, 2⟩, 0, 0) := by decide!
theorem free_var_b : flep_parse freeArith ['b'] 0 0 =
    .ok (some ⟨[], [FLEP_BITFUSE FLEP_VAR 1, FLEP_END], 0, 2⟩, 0, 0) := by decide!
theorem free_var_c : flep_parse freeArith ['c'] 0 0 =
    .ok (some ⟨[], [FLEP_BITFUSE FLEP_VAR 2, FLEP_END], 0, 2⟩, 0, 0) := by decide!
theorem free_var_x : flep_parse freeArith ['x'] 0 0 =
    .ok (some ⟨[], [FLEP_BITFUSE FLEP_VAR 3, FLEP_END], 0, 2⟩, 0, 0) := by decide!
theorem free_var_y : flep_parse freeArith ['y'] 0 0 =
    .ok (some ⟨[], [FLEP_BITFUSE FLEP_VAR 4, FLEP_END], 0, 2⟩, 0, 0) := by decide!
theorem free_var_z : flep_parse freeArith ['z'] 0 0 =
    .ok (some ⟨[], [FLEP_BITFUSE FLEP_VAR 5, FLEP_END], 0, 2⟩, 0, 0) := by decide!
theorem free_var_w : flep_parse freeArith ['w'] 0 0 =
    .ok (some ⟨[], [FLEP_BITFUSE FLEP_VAR 6, FLEP_END], 0, 2⟩, 0, 0) := by decide!
theorem free_const_e : flep_parse freeArith ['e'] 0 0 =
    .ok (some ⟨[.exp .one], [FLEP_BITFUSE FLEP_CONST 0, FLEP_END], 1, 2⟩, 0, 0) := by decide!

/-- The program of one variable reference returns the entry of the vector. -/
theorem eval_one_var (A : Arith D) (i : Nat) (val : List D) (hv : i < val.length) :
    flep_eval A ⟨[], [FLEP_BITFUSE FLEP_VAR i, FLEP_END], 0, 2⟩ val = .ok val[i] := by
  unfold flep_eval
  rw [eval_var A _ _ _ i val[i] [] (List.getElem?_eq_getElem hv) (by simp), eval_end]
  rfl

/-- C13 (variable mapping): for `i` in 0..6 the source made of the `i`-th
letter of `abcxyzw` compiles to the program of the variable reference `i`
and the end-marker, whose evaluation on a vector `val` returns `val[i]`; the
source `e` compiles to a constant reference (to the value `exp(1)`), not to
a variable reference. -/
theorem variable_mapping (A : Arith D) (i : Nat) (hi : i < 7) (val : List D)
    (hv : i < val.length) (e p : Int) :
    flep_parse A [vars.getD i 'a'] e p =
        .ok (some ⟨[], [FLEP_BITFUSE FLEP_VAR i, FLEP_END], 0, 2⟩, e, p) ∧
      flep_eval A ⟨[], [FLEP_BITFUSE FLEP_VAR i, FLEP_END], 0, 2⟩ val = .ok val[i] ∧
      flep_parse A ['e'] e p =
        .ok (some ⟨[A.exp A.one], [FLEP_BITFUSE FLEP_CONST 0, FLEP_END], 1, 2⟩, e, p) := by
  refine ⟨?_, eval_one_var A i val hv, parse_of_free A free_const_e [] e p⟩
  interval_cases i
  · exact parse_of_free A free_var_a [] e p
  · exact parse_of_free A free_var_b [] e p
  · exact parse_of_free A free_var_c [] e p
  · exact parse_of_free A free_var_x [] e p
  · exact parse_of_free A free_var_y [] e p
  · exact parse_of_free A free_var_z [] e p
  · exact parse_of_free A free_var_w [] e p

/-- Witness of C13 on the integers: the source `x` (index 3) on the vector
`10, 20, 30, 40, 50, 60, 70` gives `40`. -/
theorem variable_mapping_witness :
    flep_parse intArith ['x'] 0 0 =
        .ok (some ⟨[], [FLEP_BITFUSE FLEP_VAR 3, FLEP_END], 0, 2⟩, 0, 0) ∧
      flep_eval intArith ⟨[], [FLEP_BITFUSE FLEP_VAR 3, FLEP_END], 0, 2⟩
        [10, 20, 30, 40, 50, 60, 70] = .ok 40 ∧
      flep_parse intArith ['e'] 0 0 =
        .ok (some ⟨[intArith.exp intArith.one], [FLEP_BITFUSE FLEP_CONST 0, FLEP_END], 1, 2⟩,
          0, 0) :=
  variable_mapping intArith 3 (by decide) [10, 20, 30, 40, 50, 60, 70] (by decide) 0 0

/-- C18 (`flep_translate` agrees with the codes): the four public error
codes translate to their names, every code from 0 to 23 is inside the table
`dbg_strings`, and the entry at the value of each define is its name. -/
theorem translate_agrees :
    flep_translate FLEP_BADSYNTAX = some "FLEP_BADSYNTAX" ∧
      flep_translate FLEP_BADTOKEN = some "FLEP_BADTOKEN" ∧
      flep_translate FLEP_EXPECTED_OPEN = some "FLEP_EXPECTED_OPEN" ∧
      flep_translate FLEP_UNBALANCED = some "FLEP_UNBALANCED" ∧
      dbg_strings.length = 24 ∧
      defines.map (fun d => d.2) = List.range 24 ∧
      defines.map (fun d => flep_translate d.2) = defines.map (fun d => some d.1) := by
  decide

end

section

variable {D : Type}

/-- C11 (unbalanced reporting): for every source `s` that `flep_parse`
accepts (a C string: no NUL inside), `flep_parse` of `(` followed by `s`,
with no closing parenthesis, returns no program, the error
`FLEP_UNBALANCED` and the position length of the source plus one; the source
`(a+b` fails with error 23 at position 5. -/
theorem unbalanced_reporting (A : Arith D) (s : List Char) (e p e' p' : Int) (f : FLEP D)
    (h : flep_parse A s e p = .ok (some f, e', p')) (hnul : ∀ c ∈ s, c ≠ Char.ofNat 0) :
    flep_parse A ('(' :: s) e p =
        .ok (none, ((FLEP_UNBALANCED : Nat) : Int), ((('(' :: s).length : Nat) : Int) + 1) ∧
      flep_parse A ['(', 'a', '+', 'b'] e p = .ok (none, 23, 5) :=
  ⟨parse_open A h hnul,
    parse_open_expr A (.sum [false] (.var 0) (.var 1)) (by simp [WF, level]) e p⟩

/-- Witness of C11 on `-a * 2 ` (with blanks and a prefix minus), on the
integers. -/
theorem unbalanced_reporting_witness :
    flep_parse intArith ['(', '-', 'a', ' ', '*', ' ', '2', ' '] 0 0 = .ok (none, 23, 9) :=
  (unbalanced_reporting intArith ['-', 'a', ' ', '*', ' ', '2', ' '] 0 0 0 0
    ⟨[2], [9, 10, 6, 1, 19], 1, 5⟩ (by decide!) (by decide)).1

/-- Operand-index validity with `flep_next`, that is, where the lookup of a
byte that is in neither table leaves a bad token: in every program
`flep_parse` returns, each constant reference among the used opcodes carries
an index below `nd` and each variable reference an index from 0 to 6; the
same holds of the program the parsing phase hands to `flep_optimize` and of
the program `flep_optimize` leaves.  The indices are natural numbers. -/
theorem index_validity (A : Arith D) (s : List Char) (e p e' p' : Int) (f : FLEP D)
    (h : flep_parse A s e p = .ok (some f, e', p')) :
    IndexOK f ∧ ∃ tok out out', flep_compile A s = some (FLEP_END, tok, out) ∧
      flep_optimize A out = .ok out' ∧ f = flep_add_opcode out' FLEP_END ∧
      IndexOK out ∧ IndexOK out' := by
  unfold flep_parse at h
  cases hc : flep_compile A s with
  | none => rw [hc] at h; cases h
  | some r =>
    obtain ⟨status, tok, out⟩ := r
    rw [hc] at h
    simp only [] at h
    by_cases hs : status = FLEP_END
    · subst hs
      rw [if_pos rfl] at h
      cases ho : flep_optimize A out with
      | error er => rw [ho] at h; cases h
      | ok out' =>
        rw [ho] at h
        simp only [Except.ok.injEq, Prod.mk.injEq, Option.some.injEq] at h
        obtain ⟨rfl, -, -⟩ := h
        have h1 := compile_indexOK A hc
        obtain ⟨h2, h3⟩ := optimize_sublist A hc ho
        have h4 := indexOK_of_sublist h1 h2 (optimize_nd A ho)
        exact ⟨indexOK_add_end h4 h3, tok, out, out', rfl, ho, rfl, h1, h4⟩
    · rw [if_neg hs] at h
      cases h

/-- The statement `index_validity` on `a+2`, on the integers. -/
theorem index_validity_witness :
    IndexOK (⟨[2], [9, 10, 4, 19], 1, 4⟩ : FLEP Int) ∧
      ∃ tok out out', flep_compile intArith ['a', '+', '2'] = some (FLEP_END, tok, out) ∧
        flep_optimize intArith out = .ok out' ∧
        (⟨[2], [9, 10, 4, 19], 1, 4⟩ : FLEP Int) = flep_add_opcode out' FLEP_END ∧
        IndexOK out ∧ IndexOK out' :=
  index_validity intArith ['a', '+', '2'] 0 0 0 0 ⟨[2], [9, 10, 4, 19], 1, 4⟩ (by decide!)

theorem free_upper_sin : flep_parse freeArith ['S', 'I', 'N', '(', 'a', ')'] 0 0 =
    .ok (none, 20, 1) := by decide!
theorem free_upper_a : flep_parse freeArith ['A'] 0 0 = .ok (none, 20, 1) := by decide!
theorem free_word_ab : flep_parse freeArith ['a', 'b'] 0 0 = .ok (none, 20, 1) := by decide!
theorem free_word_sinh : flep_parse freeArith ['s', 'i', 'n', 'h', '(', 'a', ')'] 0 0 =
    .ok (none, 20, 1) := by decide!

/-- The closed lexical surface with `flep_next`, that is, where the lookup
of a byte that is in neither table leaves a bad token: when the lexer, after
`k` further tokens of the source, stands at an alphabetic run that is none
of `a`, `b`, `c`, `x`, `y`, `z`, `w`, `e`, `pi`, `sin`, `cos`, `tan`, `exp`,
`log`, `abs`, `sqrt`, then `flep_parse` returns no program; so it does on
`SIN(a)`, `A`, `ab` and `sinh(a)`, with the error 20 at position 1. -/
theorem closed_lexical_surface (A : Arith D) (s : List Char) (k : Nat)
    (h1 : word (lexStream A s k) ≠ []) (h2 : word (lexStream A s k) ∉ names) (e p : Int) :
    (∃ err pos, flep_parse A s e p = .ok (none, err, pos)) ∧
      flep_parse A ['S', 'I', 'N', '(', 'a', ')'] e p = .ok (none, 20, 1) ∧
      flep_parse A ['A'] e p = .ok (none, 20, 1) ∧
      flep_parse A ['a', 'b'] e p = .ok (none, 20, 1) ∧
      flep_parse A ['s', 'i', 'n', 'h', '(', 'a', ')'] e p = .ok (none, 20, 1) := by
  refine ⟨?_, fail_of_free A free_upper_sin e p, fail_of_free A free_upper_a e p,
    fail_of_free A free_word_ab e p, fail_of_free A free_word_sinh e p⟩
  obtain ⟨t, ht⟩ := stream_is_next A s k
  rw [ht] at h1 h2
  exact parse_bad_token A s k (by rw [ht]; exact next_bad_word A t h1 h2) e p

/-- The statement `closed_lexical_surface` on `a+ab`, on the integers: the
third token is the run `ab`. -/
theorem closed_lexical_surface_witness :
    word (lexStream intArith ['a', '+', 'a', 'b'] 2) = ['a', 'b'] ∧
      ∃ err pos, flep_parse intArith ['a', '+', 'a', 'b'] 0 0 = .ok (none, err, pos) :=
  ⟨by decide, (closed_lexical_surface intArith ['a', '+', 'a', 'b'] 2 (by decide) (by decide)
    0 0).1⟩

end

section

variable {D : Type}

/-- Counterexample to C15: the source `a^a^...^a` with 65 operands is
accepted; the program returned is 65 variable references, 64 power opcodes
and the end-marker, and its evaluation meets the 65th variable reference
with 64 values on the stack, where the push goes to `stack[64]`. -/
theorem stack_overflow_chain :
    ∃ f, flep_parse intArith (render (chain 64)) 0 0 = .ok (some f, 0, 0) ∧
      f.text = List.replicate 65 (FLEP_BITFUSE FLEP_VAR 0) ++ List.replicate 64 FLEP_POWER ++
        [FLEP_END] ∧
      (∀ stack : List Int, stack.length = 64 →
        flep_eval_round intArith f.data [1, 0, 0, 0, 0, 0, 0] (FLEP_BITFUSE FLEP_VAR 0) stack =
          .fault) ∧
      flep_eval intArith f [1, 0, 0, 0, 0, 0, 0] = .error .bounds := by
  refine ⟨_, parse_const_free intArith (chain 64) (chain_wf 64) (chain_nconst 64) 0 0, ?_,
    fun stack hs => push_full intArith _ _ _ (opcode_var 0) stack hs,
    chain_overflow intArith 64 (le_refl _) _ 1 rfl⟩
  simp only [flep_add_opcode, chain_code, store]
  simp

theorem nest_eval (A : Arith D) (val : List D) (k : Nat) (x : Expr) :
    evalExpr A val (nest k x) = evalExpr A val x := by
  induction k with
  | zero => rfl
  | succ k ih => exact ih

/-- C15 as amended (stack safety within 64 slots): for every well-formed
expression `x` of the grammar whose postfix code needs at most 64 stack
slots, the source is accepted and `flep_eval` of the program returns the
value of `x` with no access above `stack[63]`; this holds for `x` inside any
number of parentheses; the chain `a^a^...^a` with `n` operators needs `n + 1`
slots, and with 65 operands or more it is accepted and its evaluation pushes
onto the full stack. -/
theorem stack_safety_bounded (A : Arith D) (x : Expr) (hw : WF x) (hn : need x ≤ 64)
    (val : List D) (hval : 7 ≤ val.length) (e p : Int) :
    (∃ f, flep_parse A (render x) e p = .ok (some f, e, p) ∧
      flep_eval A f val = .ok (evalExpr A val x)) ∧
    (∀ k, ∃ f, flep_parse A (List.replicate k '(' ++ render x ++ List.replicate k ')') e p =
        .ok (some f, e, p) ∧ flep_eval A f val = .ok (evalExpr A val x)) ∧
    (∀ n, need (chain n) = n + 1) ∧
    (∀ n, 64 ≤ n → ∃ f, flep_parse A (render (chain n)) e p = .ok (some f, e, p) ∧
      flep_eval A f val = .error .bounds) := by
  refine ⟨parse_expr A x hw hn val hval e p, fun k => ?_, chain_need, fun n h64 => ?_⟩
  · have := parse_expr A (nest k x) (nest_wf k x hw) (by rw [nest_need]; exact hn) val hval e p
    rw [nest_render, nest_eval] at this
    exact this
  · obtain ⟨v, hv⟩ : ∃ v, val[0]? = some v :=
      ⟨val[0], List.getElem?_eq_getElem (by omega)⟩
    exact ⟨_, parse_const_free A (chain n) (chain_wf n) (chain_nconst n) e p,
      chain_overflow A n h64 val v hv⟩

/-- Witness of C15 as amended on the chain of 64 operands, on the integers
with `a = 1`. -/
theorem stack_safety_bounded_witness :
    ∃ f, flep_parse intArith (render (chain 63)) 0 0 = .ok (some f, 0, 0) ∧
      flep_eval intArith f [1, 0, 0, 0, 0, 0, 0] =
        .ok (evalExpr intArith [1, 0, 0, 0, 0, 0, 0] (chain 63)) :=
  (stack_safety_bounded intArith (chain 63) (chain_wf 63) (le_of_eq (chain_need 63))
    [1, 0, 0, 0, 0, 0, 0]
    (by decide) 0 0).1

/-- Counterexample to C16: for the source `sin(2)+3` the parsing phase emits
two constants, `sin` and `+`; the first run of `flep_optimize` folds the
sine and leaves two constant references and the addition (`nt = 3`); a
second run folds the addition (`nt = 1`) and overwrites pool slot 0. -/
theorem idempotence_fails :
    (flep_compile freeArith ['s', 'i', 'n', '(', '2', ')', '+', '3']).map
        (fun r => (r.1, r.2.2)) =
      some (FLEP_END, ⟨[.strtod ['2'], .strtod ['3']],
        [FLEP_BITFUSE FLEP_CONST 0, FLEP_SIN, FLEP_BITFUSE FLEP_CONST 1, FLEP_PLUS], 2, 4⟩) ∧
    flep_optimize freeArith ⟨[.strtod ['2'], .strtod ['3']],
        [FLEP_BITFUSE FLEP_CONST 0, FLEP_SIN, FLEP_BITFUSE FLEP_CONST 1, FLEP_PLUS], 2, 4⟩ =
      .ok ⟨[.sin (.strtod ['2']), .strtod ['3']],
        [FLEP_BITFUSE FLEP_CONST 0, FLEP_BITFUSE FLEP_CONST 1, FLEP_PLUS, FLEP_PLUS], 2, 3⟩ ∧
    flep_optimize freeArith ⟨[.sin (.strtod ['2']), .strtod ['3']],
        [FLEP_BITFUSE FLEP_CONST 0, FLEP_BITFUSE FLEP_CONST 1, FLEP_PLUS, FLEP_PLUS], 2, 3⟩ =
      .ok ⟨[.add (.sin (.strtod ['2'])) (.strtod ['3']), .strtod ['3']],
        [FLEP_BITFUSE FLEP_CONST 0, FLEP_BITFUSE FLEP_CONST 1, FLEP_PLUS, FLEP_PLUS], 2, 1⟩ := by
  decide!

/-- C16 as amended (idempotence without single-operand opcodes): for
every source the parsing phase accepts whose emitted opcode sequence
contains no single-operand opcode (neither the unary minus nor one of the
seven functions), or contains neither a unary minus nor a constant
reference, a second run of `flep_optimize` on what the first run left
changes nothing: not `text`, `nt`, `data` or `nd`. -/
theorem idempotent_without_unary (A : Arith D) (s : List Char) (tok : FLEPTokens D)
    (out : FLEP D) (hc : flep_compile A s = some (FLEP_END, tok, out))
    (h : NoUnary out.text ∨
      ∀ w ∈ out.text, w ≠ FLEP_UNARY_MINUS ∧ FLEP_OPCODE w ≠ FLEP_CONST) :
    ∃ o1, flep_optimize A out = .ok o1 ∧ flep_optimize A o1 = .ok o1 := by
  rcases h with h | h
  · exact optimize_twice_binary A hc h
  · exact ⟨out, optimize_plain A hc h, optimize_plain A hc h⟩

/-- Witness of C16 as amended on `2*3+a`, on the integers: the first run
folds the product, the second run changes nothing. -/
theorem idempotent_without_unary_witness :
    ∃ o1, flep_optimize intArith ⟨[2, 3], [10, 266, 6, 9, 4], 2, 5⟩ = .ok o1 ∧
      flep_optimize intArith o1 = .ok o1 :=
  idempotent_without_unary intArith ['2', '*', '3', '+', 'a']
    ⟨['2', '*', '3', '+', 'a'], 5, 5, 0, 3, FLEP_END, FLEP_VAR⟩
    ⟨[2, 3], [10, 266, 6, 9, 4], 2, 5⟩ (by decide!) (Or.inl (by simp [NoUnary, FLEP_SIN, FLEP_SQRT]))

theorem free_neg_neg : flep_parse freeArith ['-', '(', '-', 'a', ')'] 0 0 =
    .ok (some ⟨[], [FLEP_BITFUSE FLEP_VAR 0, FLEP_UNARY_MINUS, FLEP_UNARY_MINUS, FLEP_END],
      0, 4⟩, 0, 0) := by decide!

theorem free_neg_neg_plus : flep_parse freeArith ['-', '(', '-', 'a', ')', '+', 'b'] 0 0 =
    .ok (some ⟨[], [FLEP_BITFUSE FLEP_VAR 0, FLEP_BITFUSE FLEP_VAR 1, FLEP_PLUS, FLEP_END,
      FLEP_PLUS], 0, 4⟩, 0, 0) := by decide!

/-- C19 at the source `-(-a)`: the program returned keeps the two adjacent
unary minus opcodes, which are the last two opcodes of the emitted sequence;
in `-(-a)+b`, where they are followed by further opcodes, they are
removed. -/
theorem double_negation_kept (A : Arith D) (e p : Int) :
    flep_parse A ['-', '(', '-', 'a', ')'] e p =
        .ok (some ⟨[], [FLEP_BITFUSE FLEP_VAR 0, FLEP_UNARY_MINUS, FLEP_UNARY_MINUS, FLEP_END],
          0, 4⟩, e, p) ∧
      ∃ f, flep_parse A ['-', '(', '-', 'a', ')', '+', 'b'] e p = .ok (some f, e, p) ∧
        f.text.take f.nt =
          [FLEP_BITFUSE FLEP_VAR 0, FLEP_BITFUSE FLEP_VAR 1, FLEP_PLUS, FLEP_END] :=
  ⟨parse_of_free A free_neg_neg [] e p, _, parse_of_free A free_neg_neg_plus [] e p, rfl⟩

end

section

variable {D : Type}

theorem free_minus_pow : flep_parse freeArith ['-', 'x', '^', '2'] 0 0 =
    .ok (some ⟨[.strtod ['2']], [FLEP_BITFUSE FLEP_VAR 3, FLEP_BITFUSE FLEP_CONST 0, FLEP_POWER,
      FLEP_UNARY_MINUS, FLEP_END], 1, 5⟩, 0, 0) := by decide!

theorem free_paren_minus_pow : flep_parse freeArith ['(', '-', 'x', ')', '^', '2'] 0 0 =
    .ok (some ⟨[.strtod ['2']], [FLEP_BITFUSE FLEP_VAR 3, FLEP_UNARY_MINUS,
      FLEP_BITFUSE FLEP_CONST 0, FLEP_POWER, FLEP_END], 1, 5⟩, 0, 0) := by decide!

theorem free_div_minus_div : flep_parse freeArith ['a', '/', '-', 'b', '/', 'c'] 0 0 =
    .ok (some ⟨[], [FLEP_BITFUSE FLEP_VAR 0, FLEP_BITFUSE FLEP_VAR 1, FLEP_BITFUSE FLEP_VAR 2,
      FLEP_DIV, FLEP_UNARY_MINUS, FLEP_DIV, FLEP_END], 0, 7⟩, 0, 0) := by decide!

/-- C20 (binding of the prefix minus in `flep_get_operand`).  Let `-` be the
current token and let the text after it be that of a well-formed expression
`x` followed by `rest`, which is empty or starts with an operator or a
parenthesis, not with `^`.  When the previous token is the start marker,
`(`, `*` or `/`, `x` is a product (or a power or an operand) and `rest` does
not start with `*` or `/`, `flep_get_operand` appends the code of `x` and
one unary minus and stops at the token after `x`.  When the previous token
is `^` and `x` is a power (or an operand), it does the same.  And `-x^2`
compiles to `x 2 ^ neg`, `(-x)^2` to `x neg 2 ^`, and the quotient of `a`
by `-b/c` to `a b c / neg /`. -/
theorem prefix_minus_binding (A : Arith D) (x : Expr) (hw : WF x) (tok : FLEPTokens D)
    (out : FLEP D) (rest : List Char) (ht : Tight out) (hd : Delim rest)
    (h1 : rest.head? ≠ some '^') (hc : tok.curr = FLEP_MINUS)
    (hsrc : tok.src.drop tok.q = render x ++ rest) (n : Nat) (hn : fuelOf x + 1 ≤ n)
    (e p : Int) :
    ((tok.last = FLEP_START ∨ tok.last = FLEP_OPEN ∨ tok.last = FLEP_MULT ∨
        tok.last = FLEP_DIV) → 1 ≤ level x → rest.head? ≠ some '*' → rest.head? ≠ some '/' →
      ∃ t : FLEPTokens D, t.src = tok.src ∧ t.q = tok.q + (render x).length ∧
        flep_get_operand A n tok out =
          some ((flep_next A t).curr, flep_next A t,
            out.append (code out.nd x ++ [FLEP_UNARY_MINUS]) (pool A x))) ∧
    (tok.last = FLEP_POWER → 2 ≤ level x →
      ∃ t : FLEPTokens D, t.src = tok.src ∧ t.q = tok.q + (render x).length ∧
        flep_get_operand A n tok out =
          some ((flep_next A t).curr, flep_next A t,
            out.append (code out.nd x ++ [FLEP_UNARY_MINUS]) (pool A x))) ∧
    flep_parse A ['-', 'x', '^', '2'] e p =
      .ok (some ⟨[A.strtod ['2']], [FLEP_BITFUSE FLEP_VAR 3, FLEP_BITFUSE FLEP_CONST 0,
        FLEP_POWER, FLEP_UNARY_MINUS, FLEP_END], 1, 5⟩, e, p) ∧
    flep_parse A ['(', '-', 'x', ')', '^', '2'] e p =
      .ok (some ⟨[A.strtod ['2']], [FLEP_BITFUSE FLEP_VAR 3, FLEP_UNARY_MINUS,
        FLEP_BITFUSE FLEP_CONST 0, FLEP_POWER, FLEP_END], 1, 5⟩, e, p) ∧
    flep_parse A ['a', '/', '-', 'b', '/', 'c'] e p =
      .ok (some ⟨[], [FLEP_BITFUSE FLEP_VAR 0, FLEP_BITFUSE FLEP_VAR 1,
        FLEP_BITFUSE FLEP_VAR 2, FLEP_DIV, FLEP_UNARY_MINUS, FLEP_DIV, FLEP_END], 0, 7⟩, e, p) :=
  ⟨fun hlast hl h2 h3 => minus_product A x hw hl tok out rest ht hd h1 h2 h3 hc hlast hsrc n hn,
    fun hlast hl => minus_power A x hw hl tok out rest ht hd h1 hc hlast hsrc n hn,
    parse_of_free A free_minus_pow [] e p, parse_of_free A free_paren_minus_pow [] e p,
    parse_of_free A free_div_minus_div [] e p⟩

/-- Witness of C20 on the integers: the minus of `-x^2`, after the start
marker, takes the product `x^2`. -/
theorem prefix_minus_binding_witness :
    ∃ t : FLEPTokens Int, t.src = ['-', 'x', '^', '2'] ∧ t.q = 4 ∧
      flep_get_operand intArith 13 ⟨['-', 'x', '^', '2'], 0, 1, 0, 0, FLEP_MINUS, FLEP_START⟩
          ⟨[], [], 0, 0⟩ =
        some ((flep_next intArith t).curr, flep_next intArith t,
          ⟨[2], [FLEP_BITFUSE FLEP_VAR 3, FLEP_BITFUSE FLEP_CONST 0, FLEP_POWER,
            FLEP_UNARY_MINUS], 1, 4⟩) :=
  (prefix_minus_binding intArith (.pow (.var 3) (.lit ['2']))
    ⟨rfl, by decide, by simp [WF], literal_digits ['2'] (by simp) (by decide)⟩
    ⟨['-', 'x', '^', '2'], 0, 1, 0, 0, FLEP_MINUS, FLEP_START⟩ ⟨[], [], 0, 0⟩ []
    ⟨rfl, rfl⟩ delim_nil (by simp) rfl rfl 13 (by decide) 0 0).1
    (Or.inl rfl) (by decide) (by simp) (by simp)

end

section

variable {D : Type}

/-- C21 (termination of `flep_optimize`).  On every program, well-formed or
not, the run of `flep_optimize` ends: it returns a program whose logical
length `nt` is not above the one it was given, or it stops at a read outside
a buffer, and the `3 * nt` rounds granted to its loop are never used up, so
more rounds give the same result.  It returns whenever the reads stay
inside the buffers (`Readable`), well-formed or not.  The loop is the
sequence of its rounds (`flep_optimize_rounds`); after `k` rounds with scan
index `i` and program `o` the loop has been left or
`i + 2 * nt + k` is at most the `3 * nt - 2` of the start; and a round
entered there either rewrites nothing, so that the loop's `i--` lowers the
scan index, or it makes `nt` smaller by one or by two and raises the scan
index by at most one (`Progress`). -/
theorem optimizer_terminates (A : Arith D) (out : FLEP D) :
    ((∃ out', flep_optimize A out = .ok out' ∧ out'.nt ≤ out.nt) ∨
        flep_optimize A out = .error .bounds) ∧
      (∀ fuel, 3 * out.nt ≤ fuel →
        flep_optimize_loop A fuel ((out.nt : Int) - 2) out = flep_optimize A out) ∧
      (Readable out → ∃ out', flep_optimize A out = .ok out') ∧
      (∀ fuel i o, flep_optimize_loop A fuel i o =
        (flep_optimize_rounds A fuel i o).bind
          (fun r => if r.1 < 0 then .ok r.2 else .error .fuel)) ∧
      (∀ k i o, flep_optimize_rounds A k ((out.nt : Int) - 2) out = .ok (i, o) →
        (i < 0 ∨ i + 2 * (o.nt : Int) + k ≤ 3 * (out.nt : Int) - 2) ∧
        ∀ i' o', 0 ≤ i → flep_optimize_body A i o = .ok (i', o') →
          Progress i.toNat o i' o') := by
  refine ⟨optimize_ends A out, fun fuel hf => optimize_fuel A out fuel hf,
    optimize_readable A out, loop_eq_rounds A, fun k i o hr => ?_⟩
  obtain ⟨hS, -, hm⟩ := rounds_measure A _ _ _ _ _ (scanAt_start out) hr
  refine ⟨?_, fun i' o' hi hb => ?_⟩
  · rcases hm with hm | hm
    · exact Or.inl hm
    · exact Or.inr (by omega)
  · obtain ⟨n, rfl⟩ : ∃ n : Nat, i = n := ⟨i.toNat, by omega⟩
    exact (body_rewrite A n o hS i' o' hb).1

/-- Witness of C21 on the ill-formed sequence `2 3 + +` on the integers,
whose second `+` has one operand only: the optimizer returns. -/
theorem optimizer_terminates_witness :
    Readable (⟨[2, 3], [10, 266, 4, 4], 2, 4⟩ : FLEP Int) ∧
      ∃ out', flep_optimize intArith ⟨[2, 3], [10, 266, 4, 4], 2, 4⟩ = .ok out' :=
  ⟨by unfold Readable live; decide,
    (optimizer_terminates intArith ⟨[2, 3], [10, 266, 4, 4], 2, 4⟩).2.2.1
      (by unfold Readable live; decide)⟩

/-- C22 (packing of opcode words).  For every operator tag `a` from 0 to 255
and every operand index `b` below `2 ^ 23` the shifted index and the packed
word `FLEP_BITFUSE a b` are below `2 ^ 31`, so they are values of a 32-bit
`int` and the operations do not overflow; `FLEP_OPCODE` gives back `a` and
`FLEP_OPPARM` gives back `b`; with the index 0 the packed word is the tag
itself; comparing the whole word with a bare tag `t` is the same as
comparing its decoded tag with `t` whenever the index is 0 or the tag is
another than `t`; and the two `switch` statements of `flep_optimize`, which
look at the whole word, select for a word with index 0 what they select for
its decoded tag. -/
theorem packing_round_trip (a b : Nat) (ha : a ≤ 255) (hb : b < 2 ^ 23) :
    b <<< 8 < 2 ^ 31 ∧ FLEP_BITFUSE a b < 2 ^ 31 ∧
      FLEP_OPCODE (FLEP_BITFUSE a b) = a ∧ FLEP_OPPARM (FLEP_BITFUSE a b) = b ∧
      FLEP_BITFUSE a 0 = a ∧
      (∀ t, t ≤ 255 → (b = 0 ∨ a ≠ t) →
        (FLEP_BITFUSE a b = t ↔ FLEP_OPCODE (FLEP_BITFUSE a b) = t)) ∧
      (∀ (E : Type) (B : Arith E),
        unary B (FLEP_BITFUSE a 0) = unary B (FLEP_OPCODE (FLEP_BITFUSE a 0)) ∧
        binary B (FLEP_BITFUSE a 0) = binary B (FLEP_OPCODE (FLEP_BITFUSE a 0))) := by
  have e2 : ∀ c, FLEP_BITFUSE a c = 2 ^ 8 * c + a := by
    intro c
    unfold FLEP_BITFUSE
    rw [Nat.shiftLeft_eq, Nat.mul_comm, Nat.mul_add_lt_is_or (by omega), Nat.or_comm]
  have e0 : FLEP_BITFUSE a 0 = a := by rw [e2]; omega
  have e1 := opcode_bitfuse a b (by omega)
  refine ⟨by rw [Nat.shiftLeft_eq]; omega, by rw [e2]; omega, e1, opparm_bitfuse a b (by omega),
    e0, fun t ht hc => ?_, fun E B => ?_⟩
  · rw [e1, e2]
    constructor
    · intro h; omega
    · intro h
      rcases hc with hc | hc
      · omega
      · exact absurd h hc
  · rw [e0, opcode_small a (by omega)]
    exact ⟨rfl, rfl⟩

/-- Witness of C22 at the word of a reference to the pool slot 5. -/
theorem packing_round_trip_witness :
    (FLEP_CONST ≤ 255 ∧ 5 < 2 ^ 23) ∧ FLEP_BITFUSE FLEP_CONST 5 < 2 ^ 31 ∧
      FLEP_OPCODE (FLEP_BITFUSE FLEP_CONST 5) = FLEP_CONST ∧
      FLEP_OPPARM (FLEP_BITFUSE FLEP_CONST 5) = 5 :=
  ⟨⟨by decide, by decide⟩,
    (packing_round_trip FLEP_CONST 5 (by decide) (by decide)).2.1,
    (packing_round_trip FLEP_CONST 5 (by decide) (by decide)).2.2.1,
    (packing_round_trip FLEP_CONST 5 (by decide) (by decide)).2.2.2.1⟩

/-- C23 (the first opcode during `flep_optimize`).  Let the parsing phase
accept the source `s` and emit the program `out`.  Then `out` has at least
one opcode and its first opcode `w` is a constant reference or a variable
reference.  After every number `k` of rounds of the loop of `flep_optimize`
the first opcode is still `w` and `nt` is at least 1; and if the loop is not
left, the opcode at the scan index `i` is inside the buffer and is a unary
minus only if `i` is at least 1, so the test for a double negation does not
read `text` at the index -1; the round returns; if it deletes opcodes, it
deletes `c` of them from an index `j` that is at least 1 with
`j + c` at most `nt`; and after it the first opcode is `w` and `nt` is at
least 1.  The optimizer returns a program with the first opcode `w` and
`nt` at least 1. -/
theorem optimizer_index_safety (A : Arith D) (s : List Char) (tok : FLEPTokens D)
    (out : FLEP D) (h : flep_compile A s = some (FLEP_END, tok, out)) :
    ∃ w, out.text[0]? = some w ∧ (FLEP_OPCODE w = FLEP_CONST ∨ FLEP_OPCODE w = FLEP_VAR) ∧
      1 ≤ out.nt ∧
      (∀ k, ∃ i o, flep_optimize_rounds A k ((out.nt : Int) - 2) out = .ok (i, o) ∧
        o.text[0]? = some w ∧ 1 ≤ o.nt ∧
        (0 ≤ i → ∃ ti i' o', o.text[i.toNat]? = some ti ∧ (ti = FLEP_UNARY_MINUS → 1 ≤ i) ∧
          flep_optimize_body A i o = .ok (i', o') ∧
          (o' = o ∨ ∃ d j c, o' = flep_delete_text { o with data := d } j c ∧ 1 ≤ j ∧
            1 ≤ c ∧ j + c ≤ o.nt) ∧
          o'.text[0]? = some w ∧ 1 ≤ o'.nt)) ∧
      ∃ out', flep_optimize A out = .ok out' ∧ out'.text[0]? = some w ∧ 1 ≤ out'.nt := by
  obtain ⟨-, hnt, w, hw, hc⟩ := compile_readable A h
  refine ⟨w, hw, hc, hnt, fun k => ?_, ?_⟩
  · obtain ⟨i, o, hr, hh, hn, hstep⟩ := rounds_safe A h k
    refine ⟨i, o, hr, by rw [hh, hw], hn, fun hi => ?_⟩
    obtain ⟨ti, i', o', a1, a2, a3, a4, a5, a6⟩ := hstep hi
    exact ⟨ti, i', o', a1, a2, a3, a4, by rw [a5, hw], a6⟩
  · obtain ⟨out', ho, hh, hn⟩ := optimize_safe A h
    exact ⟨out', ho, by rw [hh, hw], hn⟩

/-- Witness of C23 on `2*3+a`, on the integers. -/
theorem optimizer_index_safety_witness :
    ∃ w, ([10, 266, 6, 9, 4] : List Nat)[0]? = some w ∧
      (FLEP_OPCODE w = FLEP_CONST ∨ FLEP_OPCODE w = FLEP_VAR) ∧
      ∃ out', flep_optimize intArith ⟨[2, 3], [10, 266, 6, 9, 4], 2, 5⟩ = .ok out' ∧
        out'.text[0]? = some w ∧ 1 ≤ out'.nt := by
  obtain ⟨w, hw, hc, -, -, hr⟩ := optimizer_index_safety intArith ['2', '*', '3', '+', 'a']
    ⟨['2', '*', '3', '+', 'a'], 5, 5, 0, 3, FLEP_END, FLEP_VAR⟩
    ⟨[2, 3], [10, 266, 6, 9, 4], 2, 5⟩ (by decide!)
  exact ⟨w, hw, hc, hr⟩

end

section

variable {D : Type}

/-- C14 (operand-index validity) at the source `d`.  The letter `d` is not
in `vars`, so `flep_next` subtracts `vars` from the null pointer that
`strchr` returns and tests the result, `dv`, for `i >= 0`.  Where `dv` is
at least 7 (and below `2 ^ 23`, so that the opcode word is packed without
overflow), `flep_parse` (here `flep_parse_at`) returns a program for `d`: a
reference to the variable `dv` and the end-marker.  The word is an `int`, its tag is
`FLEP_VAR` and its index is `dv`, which is not between 0 and 6; the program
violates `IndexOK`, and `flep_eval` reads outside every vector of at most
seven values.  Where the difference is negative, `d` is rejected with the
error 20 at position 1.  Apart from that, the word packed for the constant
reference with the index `2 ^ 23` is no `int` any more. -/
theorem garbage_variable_index (A : Arith D) (dv ds : Int) (h1 : 7 ≤ dv) (h2 : dv < 2 ^ 23)
    (e p : Int) :
    flep_parse_at dv ds A ['d'] e p =
        .ok (some ⟨[], [FLEP_BITFUSE FLEP_VAR dv.toNat, FLEP_END], 0, 2⟩, e, p) ∧
      FLEP_BITFUSE FLEP_VAR dv.toNat < 2 ^ 31 ∧
      FLEP_OPCODE (FLEP_BITFUSE FLEP_VAR dv.toNat) = FLEP_VAR ∧
      FLEP_OPPARM (FLEP_BITFUSE FLEP_VAR dv.toNat) = dv.toNat ∧ 7 ≤ dv.toNat ∧
      ¬ IndexOK (⟨[], [FLEP_BITFUSE FLEP_VAR dv.toNat, FLEP_END], 0, 2⟩ : FLEP D) ∧
      (∀ val : List D, val.length ≤ 7 →
        flep_eval A ⟨[], [FLEP_BITFUSE FLEP_VAR dv.toNat, FLEP_END], 0, 2⟩ val =
          .error .bounds) ∧
      (∀ dn : Int, dn < 0 → flep_parse_at dn ds A ['d'] e p = .ok (none, 20, 1)) ∧
      2 ^ 31 ≤ FLEP_BITFUSE FLEP_CONST (2 ^ 23) := by
  have hp := parse_at_letter A dv ds 'd' (by decide) (by decide) (by decide) e p
  rw [if_pos (by omega)] at hp
  have h7 : 7 ≤ dv.toNat := by omega
  refine ⟨hp, bitfuse_var_lt _ (by omega), opcode_var _, opparm_var _, h7, ?_, ?_, ?_,
    by decide⟩
  · intro h
    have := indexOK_var _ h
    omega
  · intro val hv
    exact eval_var_outside A _ val (by omega)
  · intro dn hn
    have := parse_at_letter A dn ds 'd' (by decide) (by decide) (by decide) e p
    rw [if_neg (by omega)] at this
    exact this

/-- Witness of C14 at the source `d` with the difference 4096, on the
integers. -/
theorem garbage_variable_index_witness :
    flep_parse_at 4096 (-1) intArith ['d'] 0 0 =
        .ok (some ⟨[], [FLEP_BITFUSE FLEP_VAR 4096, FLEP_END], 0, 2⟩, 0, 0) ∧
      FLEP_OPPARM (FLEP_BITFUSE FLEP_VAR 4096) = 4096 ∧
      ¬ IndexOK (⟨[], [FLEP_BITFUSE FLEP_VAR 4096, FLEP_END], 0, 2⟩ : FLEP Int) :=
  ⟨(garbage_variable_index intArith 4096 (-1) (by decide) (by decide) 0 0).1,
    (garbage_variable_index intArith 4096 (-1) (by decide) (by decide) 0 0).2.2.2.1,
    (garbage_variable_index intArith 4096 (-1) (by decide) (by decide) 0 0).2.2.2.2.2.1⟩

/-- C17 (closed lexical surface) at a single unknown letter.  Let the
source be one letter `c` that is neither `e` nor one of `abcxyzw`, such as
`A`; it is none of the sixteen names of the lexer.  `flep_next` subtracts
`vars` from the null pointer that `strchr` returns and tests the result,
`dv`, for `i >= 0`.  Where `dv` is not negative (and below `2 ^ 23`, so that
the opcode word is packed without overflow), `flep_parse` (here
`flep_parse_at`) does not fail: it returns the program of a reference to the
variable `dv`.  Where the
difference is negative, the source is rejected with the error 20 at
position 1; and with both differences negative `flep_parse_at` is
`flep_parse` on every source. -/
theorem unknown_letter_accepted (A : Arith D) (dv ds : Int) (c : Char)
    (hc : isalpha c = true) (hv : c ∉ vars) (he : c ≠ 'e') (h1 : 0 ≤ dv) (h2 : dv < 2 ^ 23)
    (e p : Int) :
    [c] ∉ names ∧
      flep_parse_at dv ds A [c] e p =
        .ok (some ⟨[], [FLEP_BITFUSE FLEP_VAR dv.toNat, FLEP_END], 0, 2⟩, e, p) ∧
      FLEP_BITFUSE FLEP_VAR dv.toNat < 2 ^ 31 ∧
      (∀ dn : Int, dn < 0 → flep_parse_at dn ds A [c] e p = .ok (none, 20, 1)) ∧
      (∀ dn dm : Int, dn < 0 → dm < 0 → ∀ s : List Char,
        flep_parse_at dn dm A s e p = flep_parse A s e p) := by
  have hp := parse_at_letter A dv ds c hc hv he e p
  rw [if_pos h1] at hp
  refine ⟨letter_not_name c hv he, hp, bitfuse_var_lt _ (by omega), ?_, ?_⟩
  · intro dn hn
    have := parse_at_letter A dn ds c hc hv he e p
    rw [if_neg (by omega)] at this
    exact this
  · intro dn dm hn hm s
    exact parse_at_neg A dn dm hn hm s e p

/-- Witness of C17 at the source `A` with the difference 5, on the
integers: the letter is read as the variable `z`. -/
theorem unknown_letter_accepted_witness :
    ['A'] ∉ names ∧
      flep_parse_at 5 (-1) intArith ['A'] 0 0 =
        .ok (some ⟨[], [FLEP_BITFUSE FLEP_VAR 5, FLEP_END], 0, 2⟩, 0, 0) :=
  ⟨(unknown_letter_accepted intArith 5 (-1) 'A' (by decide) (by decide) (by decide)
      (by decide) (by decide) 0 0).1,
    (unknown_letter_accepted intArith 5 (-1) 'A' (by decide) (by decide) (by decide)
      (by decide) (by decide) 0 0).2.1⟩

end

end Flep
